import Mathlib

/-!
# Pentobi: move precomputation and the incremental legal-move index

A shallow embedding of `libpentobi_base/BoardConst.cpp` (piece catalogs,
constructor, static move table, adjacency-status table, compacted move index,
symmetry information, move text form), of `libpentobi_mcts/SharedConst.cpp`
(`SharedConst::init`, `set_pieces_considered`, `init_pieces_considered`), of
`Reader::read_char` and `Reader::read_property` in
`libboardgame_sgf/Reader.cpp`, and of the functions of
`libboardgame_sgf/Node.cpp` that rearrange the children and the properties of
a node.

Conventions of the embedding:

* `Point`, `Piece` and `Move` wrap small unsigned integers in the source; they
  are natural numbers here.  The source bounds them by table sizes that are
  asserted, never reached by wrap-around, so no modular arithmetic is used.
* Arrays indexed by such an identity (`m_move_info[...]`, `s_adj_status[p][j]`,
  the full move table, the flat move array) are total functions that are
  updated pointwise.
* Loops are folds over the list that the loop iterates.
* The geometry, the transforms and the board are collaborators whose code is
  not part of the sources; they are records of the operations the code calls.
* The nodes of a game tree are named by their addresses; a pointer member is a
  function from addresses to optional addresses, and an assignment updates it
  pointwise.  A loop that follows pointers, or that reads the stream, takes the
  number of iterations it may run; an `Outcome` says whether the call returns,
  dereferences a null pointer, or is still running after these iterations.
-/

namespace Pentobi

/-! ## Basic data -/

/-- A board point (`libpentobi_base::Point`), identified by its integer. -/
abbrev Point := Nat

/-- A piece of the catalog (`libpentobi_base::Piece`), identified by its index. -/
abbrev Piece := Nat

/-- A move identity (`libpentobi_base::Move`); `0` is `Move::null()`. -/
abbrev Move := Nat

/-- A `std::string`, as its sequence of characters. -/
abbrev Text := List Char

/-- Integer grid coordinates (`libboardgame_base::CoordPoint`). -/
structure CoordPoint where
  x : Int
  y : Int
deriving DecidableEq

/-- A symmetry of the grid (`libboardgame_base::Transform`): the map on
coordinates and the point type that the origin gets. -/
structure Transform where
  get_transformed : CoordPoint → CoordPoint
  get_new_point_type : Nat

/-- A piece of the catalog (`PieceInfo`): name, cells, label position and the
list of unique transforms (`m_uniq_transforms`). -/
structure PieceInfo where
  name : Text
  points : List CoordPoint
  label_pos : CoordPoint
  transforms : List Transform

/-- The number of fields of the piece (`PieceInfo::get_size`). -/
def PieceInfo.get_size (pc : PieceInfo) : Nat := pc.points.length

/-- Maximum number of points in a piece (`PieceInfo::max_size`), also the
capacity of `MovePoints`. -/
def max_size : Nat := 7

/-- The operations of `Geometry` that the code calls.  `points` is the
sequence that `for (Point p : geo)` iterates, `null` is `Point::null()`. -/
structure Geometry where
  width : Nat
  height : Nat
  points : List Point
  null : Point
  get_x : Point → Nat
  get_y : Point → Nat
  is_onboard : CoordPoint → Bool
  get_point : Int → Int → Point
  get_point_type : Int → Int → Nat
  get_adj : Point → List Point
  get_diag : Point → List Point
  to_string : Point → Text
  from_string : Text → Option Point

/-! ## Sorting networks (`sort_piece_points`, `BoardConst::sort`) -/

/-- The lambda `check(a, b)` of both sorting routines: exchange the entries at
`a` and `b` when `gt points[a] points[b]`. -/
def check {α : Type} (gt : α → α → Bool) (points : List α) (ab : Nat × Nat) : List α :=
  match points[ab.1]?, points[ab.2]? with
  | some u, some v => if gt u v then (points.set ab.1 v).set ab.2 u else points
  | _, _ => points

/-- The comparator sequences of the `switch (size)` in `sort_piece_points` and
in `BoardConst::sort` (the two switches are identical).  Every other size
falls to the `default` branch, which only asserts. -/
def sorting_network : Nat → List (Nat × Nat)
  | 7 => [(1, 2), (3, 4), (5, 6), (0, 2), (3, 5), (4, 6), (0, 1), (4, 5),
          (2, 6), (0, 4), (1, 5), (0, 3), (2, 5), (1, 3), (2, 4), (2, 3)]
  | 6 => [(1, 2), (4, 5), (0, 2), (3, 5), (0, 1), (3, 4), (2, 5), (0, 3),
          (1, 4), (2, 4), (1, 3), (2, 3)]
  | 5 => [(0, 1), (3, 4), (2, 4), (2, 3), (1, 4), (0, 3), (0, 2), (1, 3), (1, 2)]
  | 4 => [(0, 1), (2, 3), (0, 2), (1, 3), (1, 2)]
  | 3 => [(1, 2), (0, 2), (0, 1)]
  | 2 => [(0, 1)]
  | _ => []

/-- Run the comparator sequence for the size of the list. -/
def run_network {α : Type} (gt : α → α → Bool) (points : List α) : List α :=
  (sorting_network points.length).foldl (check gt) points

/-- The function `sort_piece_points`: the ordering used in blksgf files. -/
def sort_piece_points (points : List CoordPoint) : List CoordPoint :=
  run_network (fun a b => (a.y == b.y && decide (a.x > b.x)) || decide (a.y < b.y)) points

/-- The function `BoardConst::sort`: order by `m_compare_val`. -/
def sort (compare_val : Point → Nat) (points : List Point) : List Point :=
  run_network (fun a b => decide (compare_val a > compare_val b)) points

/-- The value `m_compare_val[p]` set in the constructor.  For a point of the
board `get_y p < height`, so the unsigned subtraction does not wrap. -/
def compare_val (geo : Geometry) (p : Point) : Nat :=
  (geo.height - geo.get_y p - 1) * geo.width + geo.get_x p

/-! ## Adjacency-status table (`init_adj_status`) -/

/-- The loop `for (Point pp : ...) { if (l.size() == adj_status_nu_adj) break;
l.push_back(pp); }`. -/
def push_capped (nu_adj : Nat) : List Point → List Point → List Point
  | l, [] => l
  | l, pp :: rest => if l.length = nu_adj then l else push_capped nu_adj (l ++ [pp]) rest

/-- The list `m_adj_status_list[p]` built by `init_adj_status()`: orthogonal
neighbours, then diagonal ones, at most `adj_status_nu_adj` entries. -/
def adj_status_list (nu_adj : Nat) (geo : Geometry) (p : Point) : List Point :=
  push_capped nu_adj (push_capped nu_adj [] (geo.get_adj p)) (geo.get_diag p)

/-- The static table `s_adj_status[p][index]`. -/
abbrev AdjStatus := Point → Nat → List Point

/-- Pointwise assignment `s_adj_status[p][index] = l`. -/
def AdjStatus.set (s : AdjStatus) (p : Point) (index : Nat) (l : List Point) : AdjStatus :=
  fun p' index' => if p' = p ∧ index' = index then l else s p' index'

/-- The loop `for (j = 0; j < i; ++j) if (forbidden[j]) index |= (1 << j)`. -/
def status_index (forbidden : Nat → Bool) (i : Nat) : Nat :=
  (List.range i).foldl (fun index j => if forbidden j then index ||| (1 <<< j) else index) 0

/-- The loop over `adj_status_list` in the base case of the recursion: the
entries at positions `n < i` with `forbidden[n]`, in order. -/
def forbidden_points (forbidden : Nat → Bool) (i : Nat) : Nat → List Point → List Point
  | _, [] => []
  | n, j :: rest =>
    if n ≥ i then []
    else if forbidden n then j :: forbidden_points forbidden i (n + 1) rest
    else forbidden_points forbidden i (n + 1) rest

/-- The recursive `init_adj_status(p, forbidden, i)`.  The array `forbidden`
is passed by reference, so it is part of the state that the function returns,
together with the table.  The first argument is `adj_status_list.size() - i`,
the number of slots still to be decided, so the base case
`i == adj_status_list.size()` is the case `0`. -/
def init_adj_status_rec (p : Point) (l : List Point) :
    Nat → Nat → (Nat → Bool) × AdjStatus → (Nat → Bool) × AdjStatus
  | 0, i, st =>
    (st.1, st.2.set p (status_index st.1 i) (forbidden_points st.1 i 0 l))
  | r + 1, i, st =>
    let st0 := init_adj_status_rec p l r (i + 1) (fun j => if j = i then false else st.1 j, st.2)
    init_adj_status_rec p l r (i + 1) (fun j => if j = i then true else st0.1 j, st0.2)

/-- The function `init_adj_status()`: the second loop over the geometry.  The
table is static, so the construction starts from the table `s` left by
earlier constructions (all lists empty in a fresh process).  The local array
`forbidden` is not initialised; each of its entries is written before it is
read. -/
def init_adj_status (nu_adj : Nat) (geo : Geometry) (s : AdjStatus) : AdjStatus :=
  (geo.points.foldl
    (fun st p =>
      let l := adj_status_list nu_adj geo p
      init_adj_status_rec p l l.length 0 st)
    (fun _ => false, s)).2

/-! ## Move records -/

/-- The record `MoveInfo`: piece, number of points, and the point array of
`max_size` entries of which the first `size` are the points of the move. -/
structure MoveInfo where
  piece : Piece
  size : Nat
  points : List Point

/-- The range `begin() .. end()` of a `MoveInfo`. -/
def MoveInfo.pts (info : MoveInfo) : List Point := info.points.take info.size

/-- The record `MoveInfoExt`: adjacent points followed by attach points. -/
structure MoveInfoExt where
  points : List Point
  size_adj_points : Nat
  size_attach_points : Nat

/-- Maximum number of attach points and adjacent points of a piece
(`PieceInfo::max_adj_attach`). -/
def max_adj_attach : Nat := 22

/-- Modelled from the spec: the accessors `begin_adj()` and `end_adj()` of
`MoveInfoExt` are declared in a header that is not among the sources; they
delimit "the set of points orthogonally adjacent to any occupied cell but not
occupied", the first `size_adj_points` entries of the point array. -/
def MoveInfoExt.adj_points (ext : MoveInfoExt) : List Point :=
  ext.points.take ext.size_adj_points

/-- Modelled from the spec: the accessors `begin_attach()` and `end_attach()`
of `MoveInfoExt` delimit "the set of points diagonally adjacent to any
occupied cell, not occupied, and not already in (b)", the
`size_attach_points` entries that follow `end_adj()`. -/
def MoveInfoExt.attach_points (ext : MoveInfoExt) : List Point :=
  (ext.points.drop ext.size_adj_points).take ext.size_attach_points

/-- The record `MoveInfoExt2`. -/
structure MoveInfoExt2 where
  label_pos : Point
  breaks_symmetry : Bool
  symmetric_move : Move

/-- The table `FullMoveTable`, indexed by status, piece and point. -/
abbrev FullMoveTable := Nat → Piece → Point → List Move

/-- The statement `(*m_full_move_table)[j][piece][p].push_back(mv)`. -/
def FullMoveTable.push_back (t : FullMoveTable) (j : Nat) (piece : Piece) (p : Point)
    (mv : Move) : FullMoveTable :=
  fun j' piece' p' => if j' = j ∧ piece' = piece ∧ p' = p then t j piece p ++ [mv]
    else t j' piece' p'

/-- The state that `create_move` reads and writes. -/
structure BuildState where
  moves_created : Nat
  move_info : Move → MoveInfo
  move_info_ext : Move → MoveInfoExt
  move_info_ext_2 : Move → MoveInfoExt2
  full_move_table : FullMoveTable
  nu_attach_points : Piece → Nat

/-- The test in `create_move` whether a move with the marked points `marker`
is compatible with the blocked neighbours `s_adj_status[p][j]`. -/
def is_compatible_with_adj_status (s : AdjStatus) (marker : List Point) (p : Point)
    (j : Nat) : Bool :=
  (s p j).all (fun p_adj => !marker.contains p_adj)

/-- The loop nest of `create_move` that fills the full move table. -/
def add_to_table (nu_adj_status : Nat) (s : AdjStatus) (mv : Move) (piece : Piece)
    (pts : List Point) (t : FullMoveTable) : FullMoveTable :=
  pts.foldl
    (fun t i =>
      (List.range nu_adj_status).foldl
        (fun t j =>
          if is_compatible_with_adj_status s pts i j then t.push_back j piece i mv else t)
        t)
    t

/-- The loops of `create_move` that collect neighbours not yet marked:
`for i in points, for j in nb(i): if (! marker[j]) { marker.set(j); *(p++) = j; }`.
The result is the marker and the collected points. -/
def collect_unmarked (nb : Point → List Point) (pts : List Point)
    (marker : List Point) : List Point × List Point :=
  pts.foldl
    (fun acc i =>
      (nb i).foldl
        (fun acc j => if acc.1.contains j then acc else (j :: acc.1, acc.2 ++ [j]))
        acc)
    (marker, [])

/-- The function `create_move(moves_created, piece, points, label_pos)`.
`points` is the `MovePoints` buffer, of which the first `size` entries are the
points of the move.  The two sizes of `MoveInfoExt` are pointer differences
cast to `uint_least8_t`, which keeps their low 8 bits; the second one is
taken from `end_adj()`, the position `size_adj_points` of the point array. -/
def create_move (nu_adj_status : Nat) (geo : Geometry) (s : AdjStatus) (st : BuildState)
    (piece : Piece) (size : Nat) (points : List Point) (label_pos : Point) : BuildState :=
  let mv : Move := st.moves_created
  let info : MoveInfo := ⟨piece, size, points⟩
  let adj := collect_unmarked geo.get_adj info.pts info.pts
  let attach := collect_unmarked geo.get_diag info.pts adj.1
  let size_adj_points := adj.2.length % 256
  let info_ext : MoveInfoExt :=
    ⟨adj.2 ++ attach.2, size_adj_points,
      (adj.2.length + attach.2.length - size_adj_points) % 256⟩
  let info_ext_2 : MoveInfoExt2 := ⟨label_pos, false, 0⟩
  { moves_created := st.moves_created + 1
    move_info := fun m => if m = mv then info else st.move_info m
    move_info_ext := fun m => if m = mv then info_ext else st.move_info_ext m
    move_info_ext_2 := fun m => if m = mv then info_ext_2 else st.move_info_ext_2 m
    full_move_table := add_to_table nu_adj_status s mv piece info.pts st.full_move_table
    nu_attach_points := fun q =>
      if q = piece then max (st.nu_attach_points piece) info_ext.size_attach_points
      else st.nu_attach_points q }

/-- The inner loop of `create_moves(moves_created, piece)` over the points of
the transformed piece: translate to `(x, y)`, stop at the first point that is
not on the board. -/
def translate (geo : Geometry) (x y : Int) : List CoordPoint → Option (List Point)
  | [] => some []
  | pp :: rest =>
    let xx := pp.x + x
    let yy := pp.y + y
    if geo.is_onboard ⟨xx, yy⟩ then
      (translate geo x y rest).map (fun l => geo.get_point xx yy :: l)
    else none

/-- The entry `transformed_points[i]`: the points of the piece after the
transform, sorted by `sort_piece_points`. -/
def transformed_points (pc : PieceInfo) (t : Transform) : List CoordPoint :=
  sort_piece_points (pc.points.map t.get_transformed)

/-- The `MovePoints` buffer passed to `create_move`: the translated points,
followed by the entries that the loop before `points.resize` set to
`Point::null()`. -/
def move_points_buffer (geo : Geometry) (pts : List Point) : List Point :=
  pts ++ List.replicate (max_size - pts.length) geo.null

/-- The body of the loop over the transforms in
`create_moves(moves_created, piece)`, at the anchor point `p`. -/
def create_moves_at (nu_adj_status : Nat) (geo : Geometry) (s : AdjStatus) (piece : Piece)
    (pc : PieceInfo) (p : Point) (st : BuildState) (t : Transform) : BuildState :=
  let x : Int := geo.get_x p
  let y : Int := geo.get_y p
  if t.get_new_point_type ≠ geo.get_point_type x y then st
  else
    match translate geo x y (transformed_points pc t) with
    | none => st
    | some pts =>
      let label := t.get_transformed pc.label_pos
      create_move nu_adj_status geo s st piece pc.get_size (move_points_buffer geo pts)
        (geo.get_point (label.x + x) (label.y + y))

/-- The function `create_moves(moves_created, piece)`. -/
def create_moves_piece (nu_adj_status : Nat) (geo : Geometry) (s : AdjStatus)
    (st : BuildState) (piece : Piece) (pc : PieceInfo) : BuildState :=
  geo.points.foldl
    (fun st p => pc.transforms.foldl (create_moves_at nu_adj_status geo s piece pc p) st)
    st

/-! ## Compacted move index (`PrecompMoves`) -/

/-- Modelled from the spec: the class `PrecompMoves` is not among the sources.
"For each (point, status-bitmask, piece) triple, a contiguous run
[offset, count) into a flat move-id array". -/
structure PrecompMoves where
  move_lists : Nat → Move
  moves_range : Point → Nat → Piece → Nat × Nat

/-- Modelled from the spec: `PrecompMoves::set_move(n, mv)`, which stores a
move identity in the flat array. -/
def PrecompMoves.set_move (pm : PrecompMoves) (n : Nat) (mv : Move) : PrecompMoves :=
  { pm with move_lists := fun k => if k = n then mv else pm.move_lists k }

/-- Modelled from the spec: `PrecompMoves::set_list_range(p, status, piece,
begin, size)`, which records the run of a triple. -/
def PrecompMoves.set_list_range (pm : PrecompMoves) (p : Point) (adj_status : Nat)
    (piece : Piece) (first size : Nat) : PrecompMoves :=
  { pm with moves_range := fun p' s' q' =>
      if p' = p ∧ s' = adj_status ∧ q' = piece then (first, size)
      else pm.moves_range p' s' q' }

/-- Modelled from the spec: `PrecompMoves::get_moves(piece, p, adj_status)`,
the run of a triple read from the flat array; this is `lookup(p, s, q)`. -/
def PrecompMoves.get_moves (pm : PrecompMoves) (piece : Piece) (p : Point)
    (adj_status : Nat) : List Move :=
  (List.range (pm.moves_range p adj_status piece).2).map
    (fun k => pm.move_lists ((pm.moves_range p adj_status piece).1 + k))

/-- Modelled from the spec: `PrecompMoves::has_moves(piece, p, adj_status)`,
whether the run of a triple is not empty. -/
def PrecompMoves.has_moves (pm : PrecompMoves) (piece : Piece) (p : Point)
    (adj_status : Nat) : Bool :=
  decide ((pm.moves_range p adj_status piece).2 ≠ 0)

/-- The loop `for (auto mv : list) m_precomp_moves.set_move(n++, mv)`. -/
def write_list (list : List Move) (acc : Nat × PrecompMoves) : Nat × PrecompMoves :=
  list.foldl (fun acc mv => (acc.1 + 1, acc.2.set_move acc.1 mv)) acc

/-- The body of the innermost loop of the flattening in `create_moves()`. -/
def flatten_step (t : FullMoveTable) (p : Point) (i : Nat) (acc : Nat × PrecompMoves)
    (piece : Piece) : Nat × PrecompMoves :=
  let first := acc.1
  let acc1 := write_list (t i piece p) acc
  (acc1.1, acc1.2.set_list_range p i piece first (acc1.1 - first))

/-- The flattening loops of `create_moves()`: points, then statuses, then
pieces. -/
def flatten (nu_adj_status nu_pieces : Nat) (geo : Geometry) (t : FullMoveTable)
    (pm : PrecompMoves) : Nat × PrecompMoves :=
  geo.points.foldl
    (fun acc p =>
      (List.range nu_adj_status).foldl
        (fun acc i => (List.range nu_pieces).foldl (flatten_step t p i) acc)
        acc)
    (0, pm)

/-- Contents of static and not yet initialised storage when a `BoardConst` is
constructed: the static table `s_adj_status` (empty lists in a fresh process,
the entries of earlier constructions otherwise), the member `m_precomp_moves`
and the arrays allocated with `new`. -/
structure Storage where
  adj_status : AdjStatus
  precomp_moves : PrecompMoves
  move_info : Move → MoveInfo
  move_info_ext : Move → MoveInfoExt
  move_info_ext_2 : Move → MoveInfoExt2
  nu_attach_points : Piece → Nat

/-- The storage of a fresh process: every list empty, every number zero. -/
def Storage.fresh : Storage :=
  { adj_status := fun _ _ => []
    precomp_moves := ⟨fun _ => 0, fun _ _ _ => (0, 0)⟩
    move_info := fun _ => ⟨0, 0, []⟩
    move_info_ext := fun _ => ⟨[], 0, 0⟩
    move_info_ext_2 := fun _ => ⟨0, false, 0⟩
    nu_attach_points := fun _ => 0 }

/-- The state at the start of `create_moves()`: `moves_created = 1` and a new,
empty full move table. -/
def BuildState.start (mem : Storage) : BuildState :=
  { moves_created := 1
    move_info := mem.move_info
    move_info_ext := mem.move_info_ext
    move_info_ext_2 := mem.move_info_ext_2
    full_move_table := fun _ _ _ => []
    nu_attach_points := mem.nu_attach_points }

/-- The first loop of `create_moves()`: `create_moves(moves_created, Piece(i))`
for every piece index `i`, with `m_pieces[i]` as its piece info. -/
def create_all_moves (nu_adj_status : Nat) (geo : Geometry) (s : AdjStatus)
    (pieces : List PieceInfo) (st : BuildState) : BuildState :=
  pieces.enum.foldl (fun st ip => create_moves_piece nu_adj_status geo s st ip.1 ip.2) st

/-- The data of a constructed `BoardConst`.  `nu_adj` is the constant
`PrecompMoves::adj_status_nu_adj`, whose declaration is not among the sources;
`PrecompMoves::nu_adj_status` is `2 ^ nu_adj`. -/
structure BoardConst where
  nu_adj : Nat
  geo : Geometry
  pieces : List PieceInfo
  adj_status : AdjStatus
  nu_moves : Nat
  move_info : Move → MoveInfo
  move_info_ext : Move → MoveInfoExt
  move_info_ext_2 : Move → MoveInfoExt2
  nu_attach_points : Piece → Nat
  precomp_moves : PrecompMoves

/-- Modelled from the spec: the constant `PrecompMoves::nu_adj_status` is not
among the sources; the adjacency-status table enumerates "all 2^k subsets of
the up-to-k slots". -/
def nu_adj_status (nu_adj : Nat) : Nat := 2 ^ nu_adj

/-- The constructor `BoardConst::BoardConst`, after the `switch` has chosen the
geometry and the piece catalog: `init_adj_status()`, then `create_moves()`.
The number of moves is the final value of `moves_created`, which the source
asserts to be `m_nu_moves`. -/
def BoardConst.create (nu_adj : Nat) (geo : Geometry) (pieces : List PieceInfo)
    (mem : Storage) : BoardConst :=
  let s := init_adj_status nu_adj geo mem.adj_status
  let st := create_all_moves (nu_adj_status nu_adj) geo s pieces (BuildState.start mem)
  let pm := flatten (nu_adj_status nu_adj) pieces.length geo st.full_move_table
    mem.precomp_moves
  { nu_adj := nu_adj
    geo := geo
    pieces := pieces
    adj_status := s
    nu_moves := st.moves_created
    move_info := st.move_info
    move_info_ext := st.move_info_ext
    move_info_ext_2 := st.move_info_ext_2
    nu_attach_points := st.nu_attach_points
    precomp_moves := pm.2 }

/-- The accessor `BoardConst::get_moves(piece, p, adj_status)`: the lookup
`lookup(p, s, q)` of the compacted move index. -/
def BoardConst.get_moves (bc : BoardConst) (piece : Piece) (p : Point)
    (adj_status : Nat) : List Move :=
  bc.precomp_moves.get_moves piece p adj_status

/-- The points `begin() .. end()` of a move. -/
def BoardConst.cells (bc : BoardConst) (mv : Move) : List Point :=
  (bc.move_info mv).pts

/-- The moves that `create_moves` has created: identities `1 .. nu_moves - 1`. -/
def BoardConst.is_created (bc : BoardConst) (mv : Nat) : Prop :=
  1 ≤ mv ∧ mv < bc.nu_moves

instance (bc : BoardConst) (mv : Nat) : Decidable (bc.is_created mv) := by
  unfold BoardConst.is_created; infer_instance

/-! ## Finding moves (`find_move`) -/

/-- The call `equal(sorted_points.begin(), sorted_points.end(), info.begin())`:
compares the sorted points with the leading entries of the point array of the
move. -/
def equal : List Point → List Point → Bool
  | [], _ => true
  | _ :: _, [] => false
  | a :: as, b :: bs => a == b && equal as bs

/-- The loop over `get_moves(piece, points[0])` shared by both `find_move`
overloads. -/
def find_in_moves (bc : BoardConst) (sorted_points : List Point) (moves : List Move) :
    Option Move :=
  moves.find? (fun mv => equal sorted_points (bc.move_info mv).points)

/-- The function `find_move(points, move)`: `some mv` stands for the result
`true` with `move = mv`, `none` for `false`.  The source reads `points[0]`,
so the list must not be empty.  The call `get_moves(piece, points[0])` leaves
the adjacency status to the default argument of the accessor, which is
declared in a header that is not among the sources; the status is taken to
be `0`, the bucket without blocked slots. -/
def find_move (bc : BoardConst) (points : List Point) : Option Move :=
  match points with
  | [] => none
  | p0 :: _ =>
    let sorted_points := sort (compare_val bc.geo) points
    bc.pieces.enum.findSome? (fun ip =>
      if ip.2.get_size ≠ points.length then none
      else find_in_moves bc sorted_points (bc.get_moves ip.1 p0 0))

/-- The function `find_move(points, piece, move)`. -/
def find_move_piece (bc : BoardConst) (points : List Point) (piece : Piece) : Option Move :=
  match points with
  | [] => none
  | p0 :: _ =>
    find_in_moves bc (sort (compare_val bc.geo) points) (bc.get_moves piece p0 0)

/-! ## Text form of moves (`to_string`, `from_string`) -/

/-- Modelled from the spec: `isspace` of the C locale, used by
`libboardgame_util::trim`, which is not among the sources. -/
def is_space (c : Char) : Bool :=
  c == ' ' || c == '\t' || c == '\n' || c == '\r' || c == Char.ofNat 11 || c == Char.ofNat 12

/-- Modelled from the spec: `libboardgame_util::trim` is not among the sources;
it removes the white space at both ends ("after trimming"). -/
def trim (s : Text) : Text :=
  ((s.dropWhile is_space).reverse.dropWhile is_space).reverse

/-- Modelled from the spec: `libboardgame_util::to_lower` is not among the
sources; it lower-cases every character ("lower-casing"). -/
def to_lower (s : Text) : Text := s.map Char.toLower

/-- Auxiliary loop of `split`: `current` is the part read so far. -/
def split_loop (separator : Char) : List Char → Text → List Text → List Text
  | [], current, result =>
    if current ≠ [] ∨ result ≠ [] then result ++ [current] else result
  | c :: rest, current, result =>
    if c = separator then split_loop separator rest [] (result ++ [current])
    else split_loop separator rest (current ++ [c]) result

/-- Modelled from the spec: `libboardgame_util::split` is not among the
sources; it cuts the text at every separator ("comma-separated parts"); the
empty text has no parts. -/
def split (s : Text) (separator : Char) : List Text :=
  split_loop separator s [] []

/-- The loop of `to_string` over the points of the move. -/
def join_labels (geo : Geometry) : List Point → Text
  | [] => []
  | [p] => geo.to_string p
  | p :: rest => geo.to_string p ++ ',' :: join_labels geo rest

/-- The function `BoardConst::to_string(mv, with_piece_name)`. -/
def to_string (bc : BoardConst) (mv : Move) (with_piece_name : Bool) : Text :=
  if mv = 0 then "null".toList
  else
    let info := bc.move_info mv
    let name : Text :=
      if with_piece_name then
        '[' :: ((bc.pieces.get? info.piece).map PieceInfo.name).getD [] ++ [']']
      else []
    name ++ join_labels bc.geo info.pts

/-- The loop of `from_string` that parses the parts: `none` when the geometry
rejects a part. -/
def parse_points (geo : Geometry) : List Text → Option (List Point)
  | [] => some []
  | s :: rest =>
    match geo.from_string s with
    | none => none
    | some p => (parse_points geo rest).map (fun l => p :: l)

/-- The function `BoardConst::from_string(s)`: `Except.error` carries the
message of the `runtime_error` that the source throws. -/
def from_string (bc : BoardConst) (s : Text) : Except String Move :=
  let trimmed := to_lower (trim s)
  if trimmed = "null".toList then Except.ok 0
  else
    let v := split trimmed ','
    if v.length > max_size then Except.error "illegal move (too many points)"
    else
      match parse_points bc.geo v with
      | none => Except.error "illegal move (invalid point)"
      | some points =>
        match find_move bc points with
        | none => Except.error "illegal move"
        | some mv => Except.ok mv

/-! ## Incremental legal-move index (`SharedConst::init`) -/

/-- A player colour. -/
abbrev Color := Nat

/-- The queries of `Board` that `SharedConst::init` calls.  The points that
`for (Point p : bd)` iterates are those of the geometry of its board
constants. -/
structure Board where
  colors : List Color
  is_forbidden : Point → Color → Bool
  is_forbidden_move : Color → Move → Bool
  get_adj_status : Point → Color → Nat
  get_pieces_left : Color → List Piece
  is_piece_left : Color → Piece → Bool

/-- The function `is_followup_adj_status(status_new, status_old)`. -/
def is_followup_adj_status (status_new status_old : Nat) : Bool :=
  (status_new &&& status_old) == status_old

/-- The first loop nest of `SharedConst::init` for the colour `c`: starting
from `m_is_forbidden.set()`, clear the mark of every move found in the old
list of an open point, at its current status, for a piece still left, when
the move is not forbidden on the board. -/
def mark_forbidden (geo : Geometry) (bd : Board) (c : Color) (old : PrecompMoves) :
    Move → Bool :=
  geo.points.foldl
    (fun forbidden p =>
      if bd.is_forbidden p c then forbidden
      else
        let adj_status := bd.get_adj_status p c
        (bd.get_pieces_left c).foldl
          (fun forbidden piece =>
            if old.has_moves piece p adj_status then
              (old.get_moves piece p adj_status).foldl
                (fun forbidden mv =>
                  if forbidden mv && !bd.is_forbidden_move c mv then
                    fun m => if m = mv then false else forbidden m
                  else forbidden)
                forbidden
            else forbidden)
          forbidden)
    (fun _ => true)

/-- The loop `for (auto& mv : old_precomp_moves.get_moves(piece, p, i))` of the
second loop nest.  The run `[first, first + size)` was fixed before the loop;
each entry is read when its turn comes, from the array that is being written
when `is_followup` holds (`old_precomp_moves` is then an alias of
`precomp_moves`) and from the index of the board constants otherwise. -/
def copy_moves (is_followup : Bool) (static_moves : PrecompMoves) (forbidden : Move → Bool)
    (first size : Nat) (acc : Nat × PrecompMoves) : Nat × PrecompMoves :=
  (List.range size).foldl
    (fun acc k =>
      let old := if is_followup then acc.2 else static_moves
      let mv := old.move_lists (first + k)
      if !forbidden mv then (acc.1 + 1, acc.2.set_move acc.1 mv) else acc)
    acc

/-- The body of the loop over the pieces in the second loop nest. -/
def init_step (is_followup : Bool) (static_moves : PrecompMoves) (bd : Board) (c : Color)
    (forbidden : Move → Bool) (p : Point) (i : Nat) (acc : Nat × PrecompMoves)
    (piece : Piece) : Nat × PrecompMoves :=
  if !bd.is_piece_left c piece then acc
  else
    let old := if is_followup then acc.2 else static_moves
    let first := acc.1
    let range := old.moves_range p i piece
    let acc1 :=
      if old.has_moves piece p i then
        copy_moves is_followup static_moves forbidden range.1 range.2 acc
      else acc
    (acc1.1, acc1.2.set_list_range p i piece first (acc1.1 - first))

/-- The second loop nest of `SharedConst::init` for one colour: points, then
statuses, then pieces. -/
def rebuild (is_followup : Bool) (nu_adj_status nu_pieces : Nat) (geo : Geometry)
    (static_moves : PrecompMoves) (bd : Board) (c : Color) (forbidden : Move → Bool)
    (pm : PrecompMoves) : Nat × PrecompMoves :=
  geo.points.foldl
    (fun acc p =>
      if bd.is_forbidden p c then acc
      else
        let adj_status := bd.get_adj_status p c
        (List.range nu_adj_status).foldl
          (fun acc i =>
            if !is_followup_adj_status i adj_status then acc
            else
              (List.range nu_pieces).foldl
                (init_step is_followup static_moves bd c forbidden p i) acc)
          acc)
    (0, pm)

/-- The body of the loop over the colours in `SharedConst::init(is_followup)`:
the new content of `precomp_moves[c]`, given its old content `pm`. -/
def init_color (is_followup : Bool) (bc : BoardConst) (bd : Board) (c : Color)
    (pm : PrecompMoves) : PrecompMoves :=
  let old := if is_followup then pm else bc.precomp_moves
  let forbidden := mark_forbidden bc.geo bd c old
  (rebuild is_followup (nu_adj_status bc.nu_adj) bc.pieces.length bc.geo bc.precomp_moves
    bd c forbidden pm).2

/-- The member `precomp_moves` of `SharedConst`, one index per colour. -/
structure SharedConst where
  precomp_moves : Color → PrecompMoves

/-- The function `SharedConst::init(is_followup)`, as far as it concerns
`precomp_moves`. -/
def SharedConst.init (sc : SharedConst) (bc : BoardConst) (bd : Board)
    (is_followup : Bool) : SharedConst :=
  bd.colors.foldl
    (fun sc c =>
      { precomp_moves := fun c' =>
          if c' = c then init_color is_followup bc bd c (sc.precomp_moves c)
          else sc.precomp_moves c' })
    sc

/-! ## Specification vocabulary -/

/-- The slot points of `l` whose bit is set in `s`, in slot order. -/
def blocked_points (l : List Point) (s : Nat) : List Point :=
  (l.enum.filter (fun kp => s.testBit kp.1)).map Prod.snd

/-- Bits `j < i` of `idx` agree with `forbidden`, and `idx` is below `2 ^ k`. -/
def matches_upto (k : Nat) (forbidden : Nat → Bool) (i idx : Nat) : Prop :=
  idx < 2 ^ k ∧ ∀ j, j < i → idx.testBit j = forbidden j

instance (k : Nat) (forbidden : Nat → Bool) (i idx : Nat) :
    Decidable (matches_upto k forbidden i idx) := by
  unfold matches_upto; infer_instance

/-- The arguments of one call of `create_move`: a placement of a piece. -/
structure Placement where
  piece : Piece
  size : Nat
  points : List Point
  label_pos : Point

/-- The placement, if any, that the loop body of
`create_moves(moves_created, piece)` creates for the anchor `p` and the
transform `t`. -/
def placement_of (geo : Geometry) (piece : Piece) (pc : PieceInfo) (p : Point)
    (t : Transform) : Option Placement :=
  if t.get_new_point_type ≠ geo.get_point_type (geo.get_x p) (geo.get_y p) then none
  else
    (translate geo (geo.get_x p) (geo.get_y p) (transformed_points pc t)).map
      (fun pts =>
        { piece := piece
          size := pc.get_size
          points := move_points_buffer geo pts
          label_pos :=
            geo.get_point ((t.get_transformed pc.label_pos).x + geo.get_x p)
              ((t.get_transformed pc.label_pos).y + geo.get_y p) })

/-- The placements of one piece, in the order of creation: anchors in the
order of the geometry, transforms in the order of the unique-transform list. -/
def placements_piece (geo : Geometry) (piece : Piece) (pc : PieceInfo) : List Placement :=
  geo.points.flatMap (fun p => pc.transforms.filterMap (placement_of geo piece pc p))

/-- All placements of a catalog, in the order of creation. -/
def placements (geo : Geometry) (pieces : List PieceInfo) : List Placement :=
  pieces.enum.flatMap (fun ip => placements_piece geo ip.1 ip.2)

/-- One call of `create_move` with the arguments of a placement. -/
def create_placement (nu_adj_status : Nat) (geo : Geometry) (s : AdjStatus)
    (st : BuildState) (x : Placement) : BuildState :=
  create_move nu_adj_status geo s st x.piece x.size x.points x.label_pos

/-- The points `begin() .. end()` of a placement. -/
def Placement.pts (x : Placement) : List Point := x.points.take x.size

/-- What the placement with identity `mv` adds to the bucket of status `j`,
piece `q` and point `p`: one entry for every occurrence of `p` among its
points, when `p` is compatible with `j`. -/
def bucket_entries (nu_adj_status : Nat) (s : AdjStatus) (j : Nat) (q : Piece) (p : Point)
    (mv : Move) (piece : Piece) (pts : List Point) : List Move :=
  if q = piece ∧ j < nu_adj_status then
    (pts.filter (fun i => decide (i = p) && is_compatible_with_adj_status s pts i j)).map
      (fun _ => mv)
  else []

/-- The `MoveInfo` that `create_move` stores for a placement. -/
def Placement.info (x : Placement) : MoveInfo := ⟨x.piece, x.size, x.points⟩

/-- The bucket of status `j`, piece `q` and point `p`, described from the move
records: the created moves in increasing identity, each as often as
`bucket_entries` says. -/
def bucket (bc : BoardConst) (j : Nat) (q : Piece) (p : Point) : List Move :=
  (List.range' 1 (bc.nu_moves - 1)).flatMap
    (fun m =>
      bucket_entries (nu_adj_status bc.nu_adj) bc.adj_status j q p m (bc.move_info m).piece
        (bc.cells m))

/-- The triples (point, status, piece) in the order of the flattening loops. -/
def triples (nu_adj_status nu_pieces : Nat) (points : List Point) : List (Point × Nat × Piece) :=
  points.flatMap
    (fun p => (List.range nu_adj_status).flatMap
      (fun i => (List.range nu_pieces).map (fun q => (p, i, q))))

/-- The comparison `x > y` on truth values (`false < true`). -/
def bool_gt (x y : Bool) : Bool := x && !y

/-- No `true` stands before a `false`. -/
def bool_sorted : List Bool → Bool
  | [] => true
  | b :: rest => (!b || rest.all id) && bool_sorted rest

/-- All lists of truth values of a given length. -/
def bool_lists : Nat → List (List Bool)
  | 0 => [[]]
  | n + 1 => (bool_lists n).flatMap (fun l => [false :: l, true :: l])

/-- What the code relies on from a geometry: the iterated points are distinct
and are not the null point, coordinates and points determine each other on
the board, and the coordinates of board points lie inside `width × height`. -/
structure Geometry.WellFormed (geo : Geometry) : Prop where
  nodup : geo.points.Nodup
  null_not_mem : geo.null ∉ geo.points
  onboard_coord : ∀ p ∈ geo.points, geo.is_onboard ⟨geo.get_x p, geo.get_y p⟩ = true
  point_coord : ∀ p ∈ geo.points, geo.get_point (geo.get_x p) (geo.get_y p) = p
  mem_of_onboard : ∀ c, geo.is_onboard c = true → geo.get_point c.x c.y ∈ geo.points
  x_of_onboard : ∀ c, geo.is_onboard c = true → (geo.get_x (geo.get_point c.x c.y) : Int) = c.x
  y_of_onboard : ∀ c, geo.is_onboard c = true → (geo.get_y (geo.get_point c.x c.y) : Int) = c.y
  x_lt : ∀ p ∈ geo.points, geo.get_x p < geo.width
  y_lt : ∀ p ∈ geo.points, geo.get_y p < geo.height

/-- What the code relies on from a piece: between one and `max_size` cells,
and no transform maps two cells to the same coordinates. -/
structure PieceInfo.WellFormed (pc : PieceInfo) : Prop where
  size_pos : 0 < pc.points.length
  size_le : pc.points.length ≤ max_size
  transformed_nodup : ∀ t ∈ pc.transforms, (pc.points.map t.get_transformed).Nodup

/-- The neighbour-slot list `m_adj_status_list[p]` of a board. -/
def BoardConst.slots (bc : BoardConst) (p : Point) : List Point :=
  adj_status_list bc.nu_adj bc.geo p

/-- The move `mv` occupies none of the neighbour slots of `p` whose bit is set
in the status `s`. -/
def BoardConst.avoids_blocked (bc : BoardConst) (mv : Move) (p : Point) (s : Nat) : Prop :=
  ∀ i, ∀ h : i < (bc.slots p).length, s.testBit i = true → (bc.slots p)[i] ∉ bc.cells mv

/-- The translation of piece coordinates to the anchor `p`. -/
def shift_points (geo : Geometry) (p : Point) (cs : List CoordPoint) : List Point :=
  cs.map (fun c => geo.get_point (c.x + geo.get_x p) (c.y + geo.get_y p))

instance (bc : BoardConst) (mv : Move) (p : Point) (s : Nat) :
    Decidable (bc.avoids_blocked mv p s) := by
  unfold BoardConst.avoids_blocked; infer_instance

/-! ## A small board for concrete evaluation

One row of three points `a1`, `b1`, `c1` (points 0, 1, 2); the orthogonal
neighbours of a point are its left and its right neighbour, in this order.
The catalog has the pieces `1` (one cell) and `2` (two cells in a row), each
with the identity as its only transform.  Two neighbour slots are used for
the adjacency status. -/

/-- The identity transform. -/
def identity_transform : Transform := ⟨fun c => c, 0⟩

/-- The board of one row and three columns. -/
def row3 : Geometry :=
  { width := 3
    height := 1
    points := [0, 1, 2]
    null := 3
    get_x := fun p => p
    get_y := fun _ => 0
    is_onboard := fun c => decide (0 ≤ c.x ∧ c.x < 3 ∧ c.y = 0)
    get_point := fun x _ => x.toNat
    get_point_type := fun _ _ => 0
    get_adj := fun p => if p = 0 then [1] else if p = 1 then [0, 2] else if p = 2 then [1] else []
    get_diag := fun _ => []
    to_string := fun p =>
      if p = 0 then ['a', '1'] else if p = 1 then ['b', '1'] else ['c', '1']
    from_string := fun s =>
      if s = ['a', '1'] then some 0 else if s = ['b', '1'] then some 1
      else if s = ['c', '1'] then some 2 else none }

/-- The catalog of the pieces `1` and `2`. -/
def row3_pieces : List PieceInfo :=
  [⟨['1'], [⟨0, 0⟩], ⟨0, 0⟩, [identity_transform]⟩,
   ⟨['2'], [⟨0, 0⟩, ⟨1, 0⟩], ⟨0, 0⟩, [identity_transform]⟩]

/-- The board constants of the small board, built in a fresh process. -/
def row3_const : BoardConst := BoardConst.create 2 row3 row3_pieces Storage.fresh

/-- The test that selects the moves of a bucket among the created moves. -/
def in_bucket (bc : BoardConst) (j : Nat) (q : Piece) (p : Point) (m : Nat) : Bool :=
  decide (q = (bc.move_info m).piece ∧ j < nu_adj_status bc.nu_adj) &&
    (is_compatible_with_adj_status bc.adj_status (bc.cells m) p j && decide (p ∈ bc.cells m))

/-- The search of `find_move`, described from the move records: going through
the pieces of the right size in catalog order, the first created move of the
piece whose cells are the sorted points. -/
def first_move_with_cells (bc : BoardConst) (points : List Point) : Option Move :=
  bc.pieces.enum.findSome? (fun ip =>
    if ip.2.get_size ≠ points.length then none
    else
      (List.range' 1 (bc.nu_moves - 1)).find? (fun m =>
        decide ((bc.move_info m).piece = ip.1) &&
          decide (bc.cells m = sort (compare_val bc.geo) points)))

/-- A shape moved so that its first point is the origin. -/
def normalized (cs : List CoordPoint) : List CoordPoint :=
  cs.map (fun c => ⟨c.x - (cs.headD ⟨0, 0⟩).x, c.y - (cs.headD ⟨0, 0⟩).y⟩)

/-- A sufficient condition for the placements of a catalog to be unique on
every geometry with a single point type: two different unique transforms of a
piece never give the same shape up to translation, and neither do transforms
of two different pieces. -/
structure CatalogDistinct (pieces : List PieceInfo) : Prop where
  transforms : ∀ pc ∈ pieces, pc.transforms.Pairwise
    (fun t t' => normalized (transformed_points pc t) ≠ normalized (transformed_points pc t'))
  shapes : pieces.Pairwise
    (fun pc pc' => ∀ t ∈ pc.transforms, ∀ t' ∈ pc'.transforms,
      normalized (transformed_points pc t) ≠ normalized (transformed_points pc' t'))

/-- What `from_string` and `to_string` rely on from the point labels of a
geometry: the geometry parses each label back to its point, and a label is
not empty, has no comma, no white space and no upper-case letter, and is not
the word `null`. -/
structure Geometry.LabelsWellFormed (geo : Geometry) : Prop where
  parse : ∀ p ∈ geo.points, geo.from_string (geo.to_string p) = some p
  nonempty : ∀ p ∈ geo.points, geo.to_string p ≠ []
  chars : ∀ p ∈ geo.points, ∀ c ∈ geo.to_string p,
    c ≠ ',' ∧ is_space c = false ∧ c.toLower = c
  not_null : ∀ p ∈ geo.points, geo.to_string p ≠ "null".toList

/-- The triples (point, status, piece) that the second loop nest of
`SharedConst::init` visits for the colour `c`, in the order of the loops:
points not forbidden for `c`, statuses that are a follow-up of the current
status of the point, pieces that `c` still has. -/
def visited (nu_adj_status nu_pieces : Nat) (geo : Geometry) (bd : Board) (c : Color) :
    List (Point × Nat × Piece) :=
  (geo.points.filter (fun p => !bd.is_forbidden p c)).flatMap
    (fun p =>
      ((List.range nu_adj_status).filter
        (fun i => is_followup_adj_status i (bd.get_adj_status p c))).flatMap
        (fun i =>
          ((List.range nu_pieces).filter (fun q => bd.is_piece_left c q)).map
            (fun q => (p, i, q))))

/-- The run of a triple in an index. -/
def PrecompMoves.range_of (pm : PrecompMoves) (x : Point × Nat × Piece) : Nat × Nat :=
  pm.moves_range x.1 x.2.1 x.2.2

/-- The list of a triple in an index. -/
def PrecompMoves.list_of (pm : PrecompMoves) (x : Point × Nat × Piece) : List Move :=
  pm.get_moves x.2.2 x.1 x.2.1

/-- The runs of the given triples lie one after the other in the flat array,
in the order of the list: each run ends before the next one begins. -/
def laid_out (pm : PrecompMoves) (l : List (Point × Nat × Piece)) : Prop :=
  l.Pairwise (fun x y => (pm.range_of x).1 + (pm.range_of x).2 ≤ (pm.range_of y).1)

/-- What `SharedConst::init` relies on from the board, for the colour `c`: the
list of the pieces left agrees with `is_piece_left` and holds pieces of the
catalog, and the adjacency status of a point has bits for its neighbour slots
only. -/
structure Board.WellFormed (bd : Board) (bc : BoardConst) (c : Color) : Prop where
  pieces_left_iff : ∀ q, q ∈ bd.get_pieces_left c ↔ bd.is_piece_left c q = true
  pieces_lt : ∀ q ∈ bd.get_pieces_left c, q < bc.pieces.length
  adj_status_lt : ∀ p ∈ bc.geo.points, bd.get_adj_status p c < 2 ^ (bc.slots p).length

/-- The position `bd1` is reached by play from `bd0`, as far as the colour `c`
is concerned: forbidden points and moves stay forbidden, the adjacency status
of an open point keeps its bits, and no piece comes back. -/
structure Board.Progress (bd0 bd1 : Board) (c : Color) : Prop where
  points : ∀ p, bd0.is_forbidden p c = true → bd1.is_forbidden p c = true
  moves : ∀ m, bd0.is_forbidden_move c m = true → bd1.is_forbidden_move c m = true
  status : ∀ p, bd1.is_forbidden p c = false → ∀ i,
    (bd0.get_adj_status p c).testBit i = true → (bd1.get_adj_status p c).testBit i = true
  pieces : ∀ q, bd1.is_piece_left c q = true → bd0.is_piece_left c q = true

/-- The moves that the first loop nest of `SharedConst::init` examines, in
order. -/
def candidates (geo : Geometry) (bd : Board) (c : Color) (old : PrecompMoves) : List Move :=
  geo.points.flatMap
    (fun p =>
      if bd.is_forbidden p c then []
      else
        (bd.get_pieces_left c).flatMap
          (fun piece =>
            if old.has_moves piece p (bd.get_adj_status p c) then
              old.get_moves piece p (bd.get_adj_status p c)
            else []))

/-- The step of the flattening loops for a triple. -/
def layout_step (t : FullMoveTable) (acc : Nat × PrecompMoves) (x : Point × Nat × Piece) :
    Nat × PrecompMoves :=
  flatten_step t x.1 x.2.1 acc x.2.2

/-- The lists that a rebuild writes: the lists of the source index without
the moves marked forbidden. -/
def filtered_table (src : PrecompMoves) (forbidden : Move → Bool) : FullMoveTable :=
  fun i q p => (src.get_moves q p i).filter (fun mv => !forbidden mv)

/-- The state of a follow-up rebuild has not yet touched what the remaining
triples need: their runs are those of the old index `pm0`, the write index is
not beyond the start of any of these runs, and the array is unchanged from
the write index on. -/
def untouched (pm0 : PrecompMoves) (acc : Nat × PrecompMoves)
    (rest : List (Point × Nat × Piece)) : Prop :=
  (∀ y ∈ rest, acc.2.range_of y = pm0.range_of y) ∧
  (∀ y ∈ rest, acc.1 ≤ (pm0.range_of y).1) ∧
  (∀ k, acc.1 ≤ k → acc.2.move_lists k = pm0.move_lists k)

/-- The update of `m_is_forbidden` for one examined move in the first loop
nest of `SharedConst::init`. -/
def clear_mark (bd : Board) (c : Color) (forbidden : Move → Bool) (mv : Move) : Move → Bool :=
  if forbidden mv && !bd.is_forbidden_move c mv then
    fun m => if m = mv then false else forbidden m
  else forbidden

/-- Every list of the given triples holds moves of the piece of the triple
only. -/
def piece_faithful (bc : BoardConst) (pm : PrecompMoves) (l : List (Point × Nat × Piece)) :
    Prop :=
  ∀ x ∈ l, ∀ m ∈ pm.list_of x, (bc.move_info m).piece = x.2.2

/-- The triples that `SharedConst::init` visits on a board, for its board
constants. -/
def BoardConst.visited (bc : BoardConst) (bd : Board) (c : Color) : List (Point × Nat × Piece) :=
  Pentobi.visited (nu_adj_status bc.nu_adj) bc.pieces.length bc.geo bd c

/-- The step of the second loop nest of `SharedConst::init(true)` for a
triple. -/
def followup_step_of (bc : BoardConst) (bd : Board) (c : Color) (forbidden : Move → Bool)
    (acc : Nat × PrecompMoves) (x : Point × Nat × Piece) : Nat × PrecompMoves :=
  init_step true bc.precomp_moves bd c forbidden x.1 x.2.1 acc x.2.2

/-- The start position on the small board, with the colours 0 and 1: nothing
is forbidden, every adjacency status is 0, both colours have both pieces. -/
def row3_start : Board :=
  { colors := [0, 1]
    is_forbidden := fun _ _ => false
    is_forbidden_move := fun _ _ => false
    get_adj_status := fun _ _ => 0
    get_pieces_left := fun _ => [0, 1]
    is_piece_left := fun _ q => decide (q < 2) }

/-- The position on the small board after colour 0 has played the piece `1` on
`a1` (move 1).  For colour 0 the points `a1` (occupied) and `b1` (next to an
own piece) are forbidden, hence the moves 1, 2, 4 and 5, and the piece `2` is
left.  For colour 1 only `a1` is forbidden, hence the moves 1 and 4, and both
pieces are left.  The adjacency status of a point has the bits of its
forbidden neighbour slots: slot 0 of `a1` is `b1`, the slots of `b1` are `a1`
and `c1`, slot 0 of `c1` is `b1`. -/
def row3_mid : Board :=
  { colors := [0, 1]
    is_forbidden := fun p c => if c = 0 then decide (p = 0 ∨ p = 1) else decide (p = 0)
    is_forbidden_move := fun c m =>
      if c = 0 then decide (m = 1 ∨ m = 2 ∨ m = 4 ∨ m = 5) else decide (m = 1 ∨ m = 4)
    get_adj_status := fun p c =>
      if c = 0 then (if p = 0 ∨ p = 1 ∨ p = 2 then 1 else 0) else (if p = 1 then 1 else 0)
    get_pieces_left := fun c => if c = 0 then [1] else [0, 1]
    is_piece_left := fun c q => if c = 0 then decide (q = 1) else decide (q < 2) }

/-- The search state before the first `init`: every index empty. -/
def row3_shared : SharedConst := ⟨fun _ => Storage.fresh.precomp_moves⟩

/-! ## Piece catalogs (`create_pieces_classic`, `_junior`, `_trigon`, `_nexos`) -/

/-- Modelled from the spec: the constructor `PieceInfo(name, points, geo,
transforms, label_pos)` is not among the sources.  The record keeps the name,
"the coordinates of the piece elements" and the label position as they are
given (the accessors of `PieceInfo.h` return these members).  The list of
unique transforms is computed from the points, the geometry and the set of
transforms; that computation is the parameter `uniq`. -/
def PieceInfo.create (uniq : List CoordPoint → List Transform) (name : String)
    (points : List CoordPoint) (label_pos : CoordPoint) : PieceInfo :=
  ⟨name.toList, points, label_pos, uniq points⟩

/-- The function `create_pieces_classic`: the 21 standard pieces. -/
def create_pieces_classic (uniq : List CoordPoint → List Transform) : List PieceInfo :=
  [PieceInfo.create uniq "V5" [⟨0, 0⟩, ⟨0, -1⟩, ⟨0, -2⟩, ⟨1, 0⟩, ⟨2, 0⟩] ⟨0, 0⟩,
   PieceInfo.create uniq "L5" [⟨0, 1⟩, ⟨1, 1⟩, ⟨0, 0⟩, ⟨0, -1⟩, ⟨0, -2⟩] ⟨0, 0⟩,
   PieceInfo.create uniq "Z5" [⟨-1, -1⟩, ⟨0, 1⟩, ⟨0, 0⟩, ⟨0, -1⟩, ⟨1, 1⟩] ⟨0, 0⟩,
   PieceInfo.create uniq "N" [⟨-1, 1⟩, ⟨-1, 0⟩, ⟨0, 0⟩, ⟨0, -1⟩, ⟨0, -2⟩] ⟨0, 0⟩,
   PieceInfo.create uniq "W" [⟨-1, 0⟩, ⟨-1, -1⟩, ⟨0, 0⟩, ⟨0, 1⟩, ⟨1, 1⟩] ⟨0, 0⟩,
   PieceInfo.create uniq "X" [⟨-1, 0⟩, ⟨0, -1⟩, ⟨0, 0⟩, ⟨0, 1⟩, ⟨1, 0⟩] ⟨0, 0⟩,
   PieceInfo.create uniq "F" [⟨0, -1⟩, ⟨1, -1⟩, ⟨-1, 0⟩, ⟨0, 0⟩, ⟨0, 1⟩] ⟨0, 0⟩,
   PieceInfo.create uniq "I5" [⟨0, 2⟩, ⟨0, 1⟩, ⟨0, 0⟩, ⟨0, -1⟩, ⟨0, -2⟩] ⟨0, 0⟩,
   PieceInfo.create uniq "T5" [⟨-1, -1⟩, ⟨0, 1⟩, ⟨0, 0⟩, ⟨0, -1⟩, ⟨1, -1⟩] ⟨0, 0⟩,
   PieceInfo.create uniq "Y" [⟨-1, 0⟩, ⟨0, 0⟩, ⟨0, -1⟩, ⟨0, 1⟩, ⟨0, 2⟩] ⟨0, 0⟩,
   PieceInfo.create uniq "P" [⟨0, 1⟩, ⟨0, 0⟩, ⟨0, -1⟩, ⟨1, 0⟩, ⟨1, -1⟩] ⟨0, 0⟩,
   PieceInfo.create uniq "U" [⟨-1, 0⟩, ⟨-1, -1⟩, ⟨0, 0⟩, ⟨1, 0⟩, ⟨1, -1⟩] ⟨0, 0⟩,
   PieceInfo.create uniq "L4" [⟨0, 1⟩, ⟨0, 0⟩, ⟨0, -1⟩, ⟨1, 1⟩] ⟨0, 0⟩,
   PieceInfo.create uniq "I4" [⟨0, -1⟩, ⟨0, 0⟩, ⟨0, 1⟩, ⟨0, 2⟩] ⟨0, 0⟩,
   PieceInfo.create uniq "T4" [⟨-1, 0⟩, ⟨0, 0⟩, ⟨1, 0⟩, ⟨0, 1⟩] ⟨0, 0⟩,
   PieceInfo.create uniq "Z4" [⟨-1, 0⟩, ⟨0, 0⟩, ⟨0, 1⟩, ⟨1, 1⟩] ⟨0, 0⟩,
   PieceInfo.create uniq "O" [⟨0, 0⟩, ⟨0, -1⟩, ⟨1, 0⟩, ⟨1, -1⟩] ⟨0, 0⟩,
   PieceInfo.create uniq "V3" [⟨0, 0⟩, ⟨0, -1⟩, ⟨1, 0⟩] ⟨0, 0⟩,
   PieceInfo.create uniq "I3" [⟨0, -1⟩, ⟨0, 0⟩, ⟨0, 1⟩] ⟨0, 0⟩,
   PieceInfo.create uniq "2" [⟨0, 0⟩, ⟨1, 0⟩] ⟨0, 0⟩,
   PieceInfo.create uniq "1" [⟨0, 0⟩] ⟨0, 0⟩]

/-- The function `create_pieces_junior`. -/
def create_pieces_junior (uniq : List CoordPoint → List Transform) : List PieceInfo :=
  [PieceInfo.create uniq "L5" [⟨0, 1⟩, ⟨1, 1⟩, ⟨0, 0⟩, ⟨0, -1⟩, ⟨0, -2⟩] ⟨0, 0⟩,
   PieceInfo.create uniq "P" [⟨0, 1⟩, ⟨0, 0⟩, ⟨0, -1⟩, ⟨1, 0⟩, ⟨1, -1⟩] ⟨0, 0⟩,
   PieceInfo.create uniq "I5" [⟨0, 2⟩, ⟨0, 1⟩, ⟨0, 0⟩, ⟨0, -1⟩, ⟨0, -2⟩] ⟨0, 0⟩,
   PieceInfo.create uniq "O" [⟨0, 0⟩, ⟨0, -1⟩, ⟨1, 0⟩, ⟨1, -1⟩] ⟨0, 0⟩,
   PieceInfo.create uniq "T4" [⟨-1, 0⟩, ⟨0, 0⟩, ⟨1, 0⟩, ⟨0, 1⟩] ⟨0, 0⟩,
   PieceInfo.create uniq "Z4" [⟨-1, 0⟩, ⟨0, 0⟩, ⟨0, 1⟩, ⟨1, 1⟩] ⟨0, 0⟩,
   PieceInfo.create uniq "L4" [⟨0, 1⟩, ⟨0, 0⟩, ⟨0, -1⟩, ⟨1, 1⟩] ⟨0, 0⟩,
   PieceInfo.create uniq "I4" [⟨0, 1⟩, ⟨0, 0⟩, ⟨0, -1⟩, ⟨0, -2⟩] ⟨0, 0⟩,
   PieceInfo.create uniq "V3" [⟨0, 0⟩, ⟨0, -1⟩, ⟨1, 0⟩] ⟨0, 0⟩,
   PieceInfo.create uniq "I3" [⟨0, -1⟩, ⟨0, 0⟩, ⟨0, 1⟩] ⟨0, 0⟩,
   PieceInfo.create uniq "2" [⟨0, 0⟩, ⟨1, 0⟩] ⟨0, 0⟩,
   PieceInfo.create uniq "1" [⟨0, 0⟩] ⟨0, 0⟩]

/-- The function `create_pieces_trigon`: the 22 standard Trigon pieces. -/
def create_pieces_trigon (uniq : List CoordPoint → List Transform) : List PieceInfo :=
  [PieceInfo.create uniq "I6" [⟨1, -1⟩, ⟨2, -1⟩, ⟨0, 0⟩, ⟨1, 0⟩, ⟨-1, 1⟩, ⟨0, 1⟩] ⟨0, 0⟩,
   PieceInfo.create uniq "L6" [⟨1, -1⟩, ⟨2, -1⟩, ⟨0, 0⟩, ⟨1, 0⟩, ⟨0, 1⟩, ⟨1, 1⟩] ⟨1, 0⟩,
   PieceInfo.create uniq "V" [⟨-2, -1⟩, ⟨-1, -1⟩, ⟨-1, 0⟩, ⟨0, 0⟩, ⟨1, 0⟩, ⟨2, 0⟩] ⟨0, 0⟩,
   PieceInfo.create uniq "S" [⟨-1, -1⟩, ⟨0, -1⟩, ⟨-1, 0⟩, ⟨0, 0⟩, ⟨-1, 1⟩, ⟨0, 1⟩] ⟨0, 0⟩,
   PieceInfo.create uniq "P6" [⟨1, -1⟩, ⟨0, 0⟩, ⟨1, 0⟩, ⟨2, 0⟩, ⟨-1, 1⟩, ⟨0, 1⟩] ⟨1, 0⟩,
   PieceInfo.create uniq "F" [⟨0, 0⟩, ⟨1, 0⟩, ⟨0, 1⟩, ⟨1, 1⟩, ⟨2, 1⟩, ⟨1, 2⟩] ⟨0, 1⟩,
   PieceInfo.create uniq "W" [⟨1, -1⟩, ⟨-1, 0⟩, ⟨0, 0⟩, ⟨1, 0⟩, ⟨2, 0⟩, ⟨3, 0⟩] ⟨1, 0⟩,
   PieceInfo.create uniq "A6" [⟨1, -1⟩, ⟨0, 0⟩, ⟨1, 0⟩, ⟨2, 0⟩, ⟨0, 1⟩, ⟨2, 1⟩] ⟨1, 0⟩,
   PieceInfo.create uniq "G" [⟨1, -1⟩, ⟨0, 0⟩, ⟨1, 0⟩, ⟨0, 1⟩, ⟨1, 1⟩, ⟨2, 1⟩] ⟨0, 0⟩,
   PieceInfo.create uniq "Y" [⟨-1, -1⟩, ⟨-1, 0⟩, ⟨0, 0⟩, ⟨1, 0⟩, ⟨-1, 1⟩, ⟨0, 1⟩] ⟨0, 0⟩,
   PieceInfo.create uniq "X" [⟨-1, 0⟩, ⟨0, 0⟩, ⟨1, 0⟩, ⟨-1, 1⟩, ⟨0, 1⟩, ⟨1, 1⟩] ⟨0, 0⟩,
   PieceInfo.create uniq "O" [⟨-1, -1⟩, ⟨0, -1⟩, ⟨1, -1⟩, ⟨-1, 0⟩, ⟨0, 0⟩, ⟨1, 0⟩] ⟨0, 0⟩,
   PieceInfo.create uniq "I5" [⟨1, -1⟩, ⟨0, 0⟩, ⟨1, 0⟩, ⟨-1, 1⟩, ⟨0, 1⟩] ⟨0, 0⟩,
   PieceInfo.create uniq "L5" [⟨1, -1⟩, ⟨0, 0⟩, ⟨1, 0⟩, ⟨0, 1⟩, ⟨1, 1⟩] ⟨0, 0⟩,
   PieceInfo.create uniq "C5" [⟨0, 0⟩, ⟨1, 0⟩, ⟨0, 1⟩, ⟨1, 1⟩, ⟨2, 1⟩] ⟨0, 1⟩,
   PieceInfo.create uniq "P5" [⟨1, -1⟩, ⟨0, 0⟩, ⟨1, 0⟩, ⟨2, 0⟩, ⟨0, 1⟩] ⟨1, 0⟩,
   PieceInfo.create uniq "I4" [⟨0, 0⟩, ⟨1, 0⟩, ⟨-1, 1⟩, ⟨0, 1⟩] ⟨0, 0⟩,
   PieceInfo.create uniq "C4" [⟨0, 0⟩, ⟨1, 0⟩, ⟨0, 1⟩, ⟨1, 1⟩] ⟨0, 0⟩,
   PieceInfo.create uniq "A4" [⟨1, -1⟩, ⟨0, 0⟩, ⟨1, 0⟩, ⟨2, 0⟩] ⟨1, 0⟩,
   PieceInfo.create uniq "I3" [⟨1, -1⟩, ⟨0, 0⟩, ⟨1, 0⟩] ⟨1, 0⟩,
   PieceInfo.create uniq "2" [⟨0, 0⟩, ⟨1, 0⟩] ⟨0, 0⟩,
   PieceInfo.create uniq "1" [⟨0, 0⟩] ⟨0, 0⟩]

/-- The function `create_pieces_nexos`. -/
def create_pieces_nexos (uniq : List CoordPoint → List Transform) : List PieceInfo :=
  [PieceInfo.create uniq "I4" [⟨0, -3⟩, ⟨0, -2⟩, ⟨0, -1⟩, ⟨0, 0⟩, ⟨0, 1⟩, ⟨0, 2⟩, ⟨0, 3⟩] ⟨0, 1⟩,
   PieceInfo.create uniq "L4" [⟨0, -3⟩, ⟨0, -2⟩, ⟨0, -1⟩, ⟨0, 0⟩, ⟨0, 1⟩, ⟨1, 2⟩] ⟨0, 1⟩,
   PieceInfo.create uniq "Y" [⟨0, -1⟩, ⟨-1, 0⟩, ⟨0, 1⟩, ⟨0, 2⟩, ⟨0, 3⟩] ⟨0, 1⟩,
   PieceInfo.create uniq "N" [⟨-2, -1⟩, ⟨-1, 0⟩, ⟨0, 1⟩, ⟨0, 2⟩, ⟨0, 3⟩] ⟨0, 1⟩,
   PieceInfo.create uniq "V4" [⟨-3, 0⟩, ⟨-2, 0⟩, ⟨-1, 0⟩, ⟨0, -1⟩, ⟨0, -2⟩, ⟨0, -3⟩] ⟨-1, 0⟩,
   PieceInfo.create uniq "W" [⟨-2, -1⟩, ⟨-1, 0⟩, ⟨0, 1⟩, ⟨1, 2⟩] ⟨-1, 0⟩,
   PieceInfo.create uniq "Z4" [⟨-1, -2⟩, ⟨0, -1⟩, ⟨0, 0⟩, ⟨0, 1⟩, ⟨1, 2⟩] ⟨0, 1⟩,
   PieceInfo.create uniq "T4" [⟨-1, 0⟩, ⟨1, 0⟩, ⟨0, 1⟩, ⟨0, 2⟩, ⟨0, 3⟩] ⟨0, 1⟩,
   PieceInfo.create uniq "E" [⟨0, -1⟩, ⟨1, 0⟩, ⟨0, 1⟩, ⟨-1, 2⟩] ⟨0, 1⟩,
   PieceInfo.create uniq "U4" [⟨-2, -1⟩, ⟨-1, 0⟩, ⟨0, 0⟩, ⟨1, 0⟩, ⟨2, -1⟩] ⟨-1, 0⟩,
   PieceInfo.create uniq "X" [⟨0, -1⟩, ⟨-1, 0⟩, ⟨1, 0⟩, ⟨0, 1⟩] ⟨0, -1⟩,
   PieceInfo.create uniq "F" [⟨1, -2⟩, ⟨0, -1⟩, ⟨1, 0⟩, ⟨0, 1⟩] ⟨0, -1⟩,
   PieceInfo.create uniq "H" [⟨0, -1⟩, ⟨1, 0⟩, ⟨0, 1⟩, ⟨2, 1⟩] ⟨0, 1⟩,
   PieceInfo.create uniq "J" [⟨0, -3⟩, ⟨0, -2⟩, ⟨0, -1⟩, ⟨-1, 0⟩, ⟨-2, -1⟩] ⟨-1, 0⟩,
   PieceInfo.create uniq "G" [⟨2, -1⟩, ⟨1, 0⟩, ⟨0, 1⟩, ⟨1, 2⟩] ⟨1, 0⟩,
   PieceInfo.create uniq "O" [⟨1, 0⟩, ⟨2, 1⟩, ⟨0, 1⟩, ⟨1, 2⟩] ⟨0, 1⟩,
   PieceInfo.create uniq "I3" [⟨0, -1⟩, ⟨0, 0⟩, ⟨0, 1⟩, ⟨0, 2⟩, ⟨0, 3⟩] ⟨0, 1⟩,
   PieceInfo.create uniq "L3" [⟨0, -1⟩, ⟨0, 0⟩, ⟨0, 1⟩, ⟨1, 2⟩] ⟨0, 1⟩,
   PieceInfo.create uniq "T3" [⟨-1, 0⟩, ⟨1, 0⟩, ⟨0, 1⟩] ⟨0, 1⟩,
   PieceInfo.create uniq "Z3" [⟨-1, 0⟩, ⟨0, 1⟩, ⟨1, 2⟩] ⟨0, 1⟩,
   PieceInfo.create uniq "U3" [⟨0, -1⟩, ⟨1, 0⟩, ⟨2, -1⟩] ⟨1, 0⟩,
   PieceInfo.create uniq "V2" [⟨-1, 0⟩, ⟨0, -1⟩] ⟨-1, 0⟩,
   PieceInfo.create uniq "I2" [⟨0, -1⟩, ⟨0, 0⟩, ⟨0, 1⟩] ⟨0, 1⟩,
   PieceInfo.create uniq "1" [⟨1, 0⟩] ⟨1, 0⟩]

/-! ## The constructor of `BoardConst` and `init_symmetry_info` -/

/-- The board types that the first `switch` of the constructor distinguishes
(the enumeration is declared in a header that is not among the sources). -/
inductive BoardType where
  | classic
  | trigon
  | trigon_3
  | duo
  | nexos
deriving DecidableEq

/-- The piece sets that the constructor distinguishes. -/
inductive PieceSet where
  | classic
  | junior
  | trigon
  | nexos
deriving DecidableEq

/-- The sets of transforms that the constructor instantiates:
`PieceTransformsClassic` and `PieceTransformsTrigon`. -/
inductive PieceTransforms where
  | classic
  | trigon
deriving DecidableEq

/-- The collaborators of the constructor whose code is not among the sources:
`get_geometry(board_type)`, the computation of the unique transforms of a
piece in the constructor of `PieceInfo`, the table that
`SymmetricPoints::init(geo, PointTransfRot180)` builds, and the constant
`PrecompMoves::adj_status_nu_adj`. -/
structure Environment where
  get_geometry : BoardType → Geometry
  uniq_transforms : Geometry → PieceTransforms → List CoordPoint → List Transform
  symmetric_points : Geometry → Point → Point
  nu_adj : Nat

/-- The first `switch` of the constructor: the catalog `m_pieces`. -/
def select_pieces (env : Environment) (board_type : BoardType) (piece_set : PieceSet) :
    List PieceInfo :=
  let geo := env.get_geometry board_type
  match board_type with
  | BoardType.classic => create_pieces_classic (env.uniq_transforms geo PieceTransforms.classic)
  | BoardType.trigon => create_pieces_trigon (env.uniq_transforms geo PieceTransforms.trigon)
  | BoardType.trigon_3 => create_pieces_trigon (env.uniq_transforms geo PieceTransforms.trigon)
  | BoardType.duo =>
    if piece_set = PieceSet.classic then
      create_pieces_classic (env.uniq_transforms geo PieceTransforms.classic)
    else create_pieces_junior (env.uniq_transforms geo PieceTransforms.classic)
  | BoardType.nexos => create_pieces_nexos (env.uniq_transforms geo PieceTransforms.classic)

/-- The assertions on `piece_set` in the first `switch` of the constructor:
the piece sets that a board type is constructed with. -/
def piece_set_assertion (board_type : BoardType) (piece_set : PieceSet) : Bool :=
  match board_type with
  | BoardType.classic => piece_set == PieceSet.classic
  | BoardType.trigon => piece_set == PieceSet.trigon
  | BoardType.trigon_3 => piece_set == PieceSet.trigon
  | BoardType.duo => piece_set == PieceSet.classic || piece_set == PieceSet.junior
  | BoardType.nexos => piece_set == PieceSet.nexos

/-- The assertion on `m_nu_pieces` in the last `switch` of the constructor. -/
def nu_pieces_assertion (piece_set : PieceSet) (nu_pieces : Nat) : Bool :=
  match piece_set with
  | PieceSet.classic => nu_pieces == 21
  | PieceSet.junior => nu_pieces == 12
  | PieceSet.trigon => nu_pieces == 22
  | PieceSet.nexos => nu_pieces == 24

/-- The assertion in the `default` branch of `sort_piece_points` and of
`BoardConst::sort`: a size without a `case` of its own must be 1. -/
def sort_assertion (size : Nat) : Bool :=
  match size with
  | 7 => true
  | 6 => true
  | 5 => true
  | 4 => true
  | 3 => true
  | 2 => true
  | _ => size == 1

/-- Modelled from the spec: `MoveInfo::contains` is declared in a header that
is not among the sources; a move contains a point when the point is one of
its occupied cells. -/
def MoveInfo.contains (info : MoveInfo) (p : Point) : Bool := info.pts.contains p

/-- The inner loop of `init_symmetry_info` over the points of a move: the flag
`breaks_symmetry` and the list `sym_points`. -/
def symmetric_scan (info : MoveInfo) (symmetric_points : Point → Point) : Bool × List Point :=
  info.pts.foldl
    (fun acc p =>
      (if info.contains (symmetric_points p) then true else acc.1,
        acc.2 ++ [symmetric_points p]))
    (false, [])

/-- The record `m_move_info_ext_2[i]` after the body of the loop of
`init_symmetry_info`; `old` is the record before.  `find_move` assigns
`symmetric_move` only when it returns true. -/
def symmetry_entry (bc : BoardConst) (symmetric_points : Point → Point) (old : MoveInfoExt2)
    (i : Nat) : MoveInfoExt2 :=
  let info := bc.move_info i
  let scan := symmetric_scan info symmetric_points
  { label_pos := old.label_pos
    breaks_symmetry := scan.1
    symmetric_move :=
      match find_move_piece bc scan.2 info.piece with
      | some mv => mv
      | none => old.symmetric_move }

/-- The body of the loop of `init_symmetry_info` for the move `i`. -/
def symmetry_step (bc : BoardConst) (symmetric_points : Point → Point)
    (ext_2 : Move → MoveInfoExt2) (i : Nat) : Move → MoveInfoExt2 :=
  fun m => if m = i then symmetry_entry bc symmetric_points (ext_2 i) i else ext_2 m

/-- The function `init_symmetry_info`.  The table `symmetric_points` is built
by `SymmetricPoints::init`, which is not among the sources.  The loop writes
`m_move_info_ext_2` only; `find_move` reads the move records and the move
index, which stay as they are. -/
def init_symmetry_info (bc : BoardConst) (symmetric_points : Point → Point) : BoardConst :=
  { bc with
    move_info_ext_2 :=
      (List.range' 1 (bc.nu_moves - 1)).foldl (symmetry_step bc symmetric_points)
        bc.move_info_ext_2 }

/-- The constructor `BoardConst::BoardConst(board_type, piece_set)`. -/
def BoardConst.construct (env : Environment) (board_type : BoardType) (piece_set : PieceSet)
    (mem : Storage) : BoardConst :=
  let geo := env.get_geometry board_type
  let bc := BoardConst.create env.nu_adj geo (select_pieces env board_type piece_set) mem
  if board_type = BoardType.duo ∨ board_type = BoardType.trigon then
    init_symmetry_info bc (env.symmetric_points geo)
  else bc

/-! ## Reading characters (`libboardgame_sgf::Reader`) -/

/-- The input stream `m_in` of a `Reader`, as the characters not yet read:
`get` removes and returns the first one, `peek` returns it and leaves it, and
both return `EOF` when no character is left. -/
structure Reader where
  m_in : List Char

/-- The function `Reader::peek`. -/
def Reader.peek (r : Reader) : Except String Char :=
  match r.m_in with
  | [] => Except.error "Unexpected end of input"
  | c :: _ => Except.ok c

/-- The function `Reader::read_char`: the result, and the reader afterwards
(what was consumed stays consumed when the function throws). -/
def Reader.read_char (r : Reader) : Except String Char × Reader :=
  match r.m_in with
  | [] => (Except.error "Unexpected end of SGF stream", r)
  | c :: rest =>
    if c = '\r' then
      match Reader.peek ⟨rest⟩ with
      | Except.error e => (Except.error e, ⟨rest⟩)
      | Except.ok c' =>
        if c' = '\n' then (Except.ok '\n', ⟨rest.tail⟩) else (Except.ok '\n', ⟨rest⟩)
    else (Except.ok c, ⟨rest⟩)

/-! ## Uniqueness of the unique transforms -/

/-- The shapes of two transformed pieces can be laid on the same cells: there
are anchor coordinates, each of the point type of its transform, at which the
translated shapes are equal. -/
def can_coincide (geo : Geometry) (pc : PieceInfo) (t : Transform) (pc' : PieceInfo)
    (t' : Transform) : Prop :=
  ∃ x y x' y' : Int,
    t.get_new_point_type = geo.get_point_type x y ∧
    t'.get_new_point_type = geo.get_point_type x' y' ∧
    (transformed_points pc t).map (fun c => (⟨c.x + x, c.y + y⟩ : CoordPoint))
      = (transformed_points pc' t').map (fun c => (⟨c.x + x', c.y + y'⟩ : CoordPoint))

/-- What the code relies on from the catalog for placements to be unique (the
unique-transform lists are computed by the constructor of `PieceInfo`, which
is not among the sources): the shapes of two different unique transforms of
a piece can never be laid on the same cells, and neither can the shapes of
two different pieces. -/
structure CatalogUnique (geo : Geometry) (pieces : List PieceInfo) : Prop where
  transforms : ∀ pc ∈ pieces, pc.transforms.Pairwise
    (fun t t' => ¬ can_coincide geo pc t pc t')
  shapes : pieces.Pairwise
    (fun pc pc' => ∀ t ∈ pc.transforms, ∀ t' ∈ pc'.transforms, ¬ can_coincide geo pc t pc' t')

/-- The half turn of the small board. -/
def row3_symmetric_points (p : Point) : Point := 2 - p

/-- The collaborators of the constructor for the small board: every board type
has the geometry of the small board, the identity is the only transform, and
the symmetric point is the half turn of the row. -/
def row3_env : Environment :=
  { get_geometry := fun _ => row3
    uniq_transforms := fun _ _ _ => [identity_transform]
    symmetric_points := fun _ => row3_symmetric_points
    nu_adj := 2 }

/-! ## Fitting placements -/

/-- The test of the loop body of `create_moves(moves_created, piece)` for a
piece, an anchor point and a transform: the point type that the transform
gives the origin is the point type of the anchor, and every point of the
transformed piece, translated to the anchor, is on the board. -/
def fits (geo : Geometry) (pc : PieceInfo) (p : Point) (t : Transform) : Bool :=
  decide (t.get_new_point_type = geo.get_point_type (geo.get_x p) (geo.get_y p)) &&
    (transformed_points pc t).all
      (fun c => geo.is_onboard ⟨c.x + geo.get_x p, c.y + geo.get_y p⟩)

/-- The placement that `create_moves` creates for a piece, an anchor and a
transform that fit. -/
def placement_at (geo : Geometry) (x : Piece × PieceInfo × Point × Transform) : Placement :=
  { piece := x.1
    size := x.2.1.get_size
    points := move_points_buffer geo (shift_points geo x.2.2.1 (transformed_points x.2.1 x.2.2.2))
    label_pos :=
      geo.get_point ((x.2.2.2.get_transformed x.2.1.label_pos).x + geo.get_x x.2.2.1)
        ((x.2.2.2.get_transformed x.2.1.label_pos).y + geo.get_y x.2.2.1) }

/-- The triples of a piece, an anchor and a unique transform of the piece that
fit, in the order of the loops of `create_moves`: pieces, then anchors, then
transforms. -/
def fitting_triples (geo : Geometry) (pieces : List PieceInfo) :
    List (Piece × PieceInfo × Point × Transform) :=
  pieces.enum.flatMap
    (fun ip => geo.points.flatMap
      (fun p => (ip.2.transforms.filter (fits geo ip.2 p)).map (fun t => (ip.1, ip.2, p, t))))

/-! ## The adjacency-status table as a loop over the bitmasks -/

/-- Modelled from the spec: the neighbour-slot list of a point, "orthogonal
neighbors first, then diagonal, truncated at the fixed per-geometry cap". -/
def neighbour_slots (nu_adj : Nat) (geo : Geometry) (p : Point) : List Point :=
  (geo.get_adj p ++ geo.get_diag p).take nu_adj

/-- Modelled from the spec: the adjacency-status table built by "an iterative
loop over all bitmask values up to 2^k": for every point, with `k` the length
of its slot list, and every index from 0 to `2 ^ k - 1`, the entry of the
index is the list of the slot points whose bit is set in the index, in slot
order. -/
def init_adj_status_loop (nu_adj : Nat) (geo : Geometry) (s : AdjStatus) : AdjStatus :=
  geo.points.foldl
    (fun s p =>
      (List.range (2 ^ (neighbour_slots nu_adj geo p).length)).foldl
        (fun s index => s.set p index (blocked_points (neighbour_slots nu_adj geo p) index))
        s)
    s

/-- The record `MoveInfoExt` that `create_move` stores for a move with the
points `pts`. -/
def ext_record (geo : Geometry) (pts : List Point) : MoveInfoExt :=
  let adj := collect_unmarked geo.get_adj pts pts
  let attach := collect_unmarked geo.get_diag pts adj.1
  ⟨adj.2 ++ attach.2, adj.2.length % 256,
    (adj.2.length + attach.2.length - adj.2.length % 256) % 256⟩

/-! ## Pieces considered (`set_pieces_considered`, `init_pieces_considered`) -/

/-- The body of the loop of `filter_min_size` for the piece `i`.  A
`PieceMap<bool>` is a truth value for every piece identity. -/
def filter_min_size_step (bc : BoardConst) (min_size : Nat) (is_piece_considered : Piece → Bool)
    (i : Nat) : Piece → Bool :=
  match bc.pieces[i]? with
  | some piece_info =>
    if piece_info.get_size < min_size then
      fun q => if q = i then false else is_piece_considered q
    else is_piece_considered
  | none => is_piece_considered

/-- The function `filter_min_size(bc, min_size, is_piece_considered)`. -/
def filter_min_size (bc : BoardConst) (min_size : Nat) (is_piece_considered : Piece → Bool) :
    Piece → Bool :=
  (List.range bc.pieces.length).foldl (filter_min_size_step bc min_size) is_piece_considered

/-- The function `BoardConst::get_piece_by_name(name, piece)`: the loop goes
through the piece identities `0 .. m_nu_pieces - 1` and returns at the first
piece of the catalog whose name is `name`.  The result is `some i` when the
function returns true with `piece` set to the identity `i`, and `none` when
it returns false, with `piece` not written. -/
def BoardConst.get_piece_by_name (bc : BoardConst) (name : String) : Option Piece :=
  (bc.pieces.enum.find? (fun ip => ip.2.name == name.toList)).map Prod.fst

/-- The function `set_piece_considered(bc, name, is_piece_considered,
is_considered)`.  The source asserts that the piece is found. -/
def set_piece_considered (bc : BoardConst) (name : String) (is_piece_considered : Piece → Bool)
    (is_considered : Bool) : Piece → Bool :=
  match bc.get_piece_by_name name with
  | some piece => fun q => if q = piece then is_considered else is_piece_considered q
  | none => is_piece_considered

/-- The branch of `set_pieces_considered` for the board types `trigon` and
`trigon_3`. -/
def set_pieces_considered_trigon (bc : BoardConst) (nu_colors nu_moves : Nat) : Piece → Bool :=
  let first : Piece → Bool :=
    if nu_moves < nu_colors then
      set_piece_considered bc "I6" (set_piece_considered bc "V" (fun _ => false) true) true
    else fun _ => true
  if nu_moves < 4 * nu_colors then
    set_piece_considered bc "O" (filter_min_size bc 6 first) false
  else if nu_moves < 5 * nu_colors then filter_min_size bc 5 first
  else if nu_moves < 7 * nu_colors then filter_min_size bc 4 first
  else if nu_moves < 9 * nu_colors then filter_min_size bc 3 first
  else first

/-- The function `set_pieces_considered(bd, nu_moves, is_piece_considered)`.
The board is used for its board constants `bc`, whose board type is
`board_type`, and for its number of colours `nu_colors`. -/
def set_pieces_considered (bc : BoardConst) (board_type : BoardType) (nu_colors nu_moves : Nat) :
    Piece → Bool :=
  match board_type with
  | BoardType.duo =>
    if nu_moves < 2 * nu_colors then filter_min_size bc 5 (fun _ => true)
    else if nu_moves < 3 * nu_colors then filter_min_size bc 4 (fun _ => true)
    else if nu_moves < 5 * nu_colors then filter_min_size bc 3 (fun _ => true)
    else fun _ => true
  | BoardType.classic =>
    if nu_moves < nu_colors then
      set_piece_considered bc "Z5" (set_piece_considered bc "V5" (fun _ => false) true) true
    else if nu_moves < 2 * nu_colors then
      set_piece_considered bc "X"
        (set_piece_considered bc "U"
          (set_piece_considered bc "T5"
            (set_piece_considered bc "P"
              (set_piece_considered bc "F" (filter_min_size bc 5 (fun _ => true)) false)
              false)
            false)
          false)
        false
    else if nu_moves < 3 * nu_colors then
      set_piece_considered bc "U"
        (set_piece_considered bc "P" (filter_min_size bc 5 (fun _ => true)) false) false
    else if nu_moves < 5 * nu_colors then filter_min_size bc 4 (fun _ => true)
    else if nu_moves < 7 * nu_colors then filter_min_size bc 3 (fun _ => true)
    else fun _ => true
  | BoardType.trigon => set_pieces_considered_trigon bc nu_colors nu_moves
  | BoardType.trigon_3 => set_pieces_considered_trigon bc nu_colors nu_moves
  | BoardType.nexos =>
    if nu_moves < 3 * nu_colors then filter_min_size bc 4 (fun _ => true)
    else if nu_moves < 5 * nu_colors then filter_min_size bc 3 (fun _ => true)
    else fun _ => true

/-- The members of `SharedConst` that `init_pieces_considered` writes.  An
entry of `is_piece_considered` points to an entry of
`is_piece_considered_list`; it is given by the position of that entry. -/
structure PiecesConsidered where
  is_piece_considered_list : List (Piece → Bool)
  is_piece_considered : Nat → Nat
  min_move_all_considered : Nat
  is_piece_considered_all : Piece → Bool

/-- The loop of `init_pieces_considered`, for the move count `i`; the first
argument is `Board::max_game_moves - i`, the number of move counts still to
go through.  `max_pieces` is the number of entries of a `PieceMap`, which
the comparison of two maps goes through. -/
def init_pieces_considered_loop (bc : BoardConst) (board_type : BoardType)
    (nu_colors max_pieces : Nat) : Nat → Nat → PiecesConsidered → PiecesConsidered
  | 0, _, st => st
  | r + 1, i, st =>
    let is_piece_considered := set_pieces_considered bc board_type nu_colors i
    if (List.range bc.pieces.length).all is_piece_considered then
      { st with min_move_all_considered := i }
    else
      let pos := st.is_piece_considered_list.findIdx
        (fun m => (List.range max_pieces).all (fun j => m j == is_piece_considered j))
      if pos < st.is_piece_considered_list.length then
        init_pieces_considered_loop bc board_type nu_colors max_pieces r (i + 1)
          { st with
            is_piece_considered := fun k => if k = i then pos else st.is_piece_considered k }
      else
        init_pieces_considered_loop bc board_type nu_colors max_pieces r (i + 1)
          { st with
            is_piece_considered_list := st.is_piece_considered_list ++ [is_piece_considered]
            is_piece_considered := fun k =>
              if k = i then st.is_piece_considered_list.length
              else st.is_piece_considered k }

/-- The function `SharedConst::init_pieces_considered`.  The board is used for
its board constants, its number of colours and the number
`nu_onboard_pieces` of pieces on the board; `max_game_moves` is the constant
`Board::max_game_moves`, which is not among the sources. -/
def init_pieces_considered (bc : BoardConst) (board_type : BoardType)
    (nu_colors nu_onboard_pieces max_game_moves max_pieces : Nat) (st : PiecesConsidered) :
    PiecesConsidered :=
  let st1 := init_pieces_considered_loop bc board_type nu_colors max_pieces
    (max_game_moves - nu_onboard_pieces) nu_onboard_pieces
    { st with is_piece_considered_list := [] }
  { st1 with is_piece_considered_all := fun _ => true }

/-- The number of moves per colour after which `set_pieces_considered` no
longer filters: 7 on the classic board, 9 on the trigon boards, 5 on the duo
and nexos boards. -/
def all_considered_factor (board_type : BoardType) : Nat :=
  match board_type with
  | BoardType.classic => 7
  | BoardType.trigon => 9
  | BoardType.trigon_3 => 9
  | BoardType.duo => 5
  | BoardType.nexos => 5

/-- The entry of `is_piece_considered` for the move count `i` points to an
entry of `is_piece_considered_list` that is equal to `mask`: the comparison of
two `PieceMap`s goes through their `max_pieces` entries. -/
def PiecesConsidered.refers (st : PiecesConsidered) (max_pieces i : Nat)
    (mask : Piece → Bool) : Prop :=
  ∃ m, st.is_piece_considered_list[st.is_piece_considered i]? = some m ∧
    ∀ q, q < max_pieces → m q = mask q

/-- No two entries of a list of masks are equal. -/
def masks_distinct (max_pieces : Nat) (l : List (Piece → Bool)) : Prop :=
  l.Pairwise (fun m m' => ∃ q, q < max_pieces ∧ m q ≠ m' q)

/-! ## The game tree (`libboardgame_sgf::Node`) -/

/-- A node is named by its address. -/
abbrev NodeId := Nat

/-- The nodes of a tree: for the node at every address its members `m_parent`
(a plain pointer), `m_first_child` and `m_sibling` (owning pointers,
`unique_ptr<Node>`), with `none` for the null pointer.  An owning pointer
that is overwritten while it holds a node destroys that node; `destroyed`
lists the nodes destroyed so, latest first. -/
structure Nodes where
  m_parent : NodeId → Option NodeId
  m_first_child : NodeId → Option NodeId
  m_sibling : NodeId → Option NodeId
  destroyed : List NodeId

/-- An owning pointer of the tree: the member `m_first_child` or the member
`m_sibling` of a node. -/
inductive NodeSlot where
  | first_child (n : NodeId)
  | sibling (n : NodeId)

/-- The node that an owning pointer holds. -/
def Nodes.get (h : Nodes) (s : NodeSlot) : Option NodeId :=
  match s with
  | NodeSlot.first_child n => h.m_first_child n
  | NodeSlot.sibling n => h.m_sibling n

/-- The tree with the value `v` stored in an owning pointer; nothing is
destroyed. -/
def Nodes.put (h : Nodes) (s : NodeSlot) (v : Option NodeId) : Nodes :=
  match s with
  | NodeSlot.first_child n =>
    { h with m_first_child := fun k => if k = n then v else h.m_first_child k }
  | NodeSlot.sibling n =>
    { h with m_sibling := fun k => if k = n then v else h.m_sibling k }

/-- The expression `move(s)` that initialises a new `unique_ptr`: the value of
the new pointer, and the tree, in which `s` is null. -/
def Nodes.take (h : Nodes) (s : NodeSlot) : Option NodeId × Nodes :=
  (h.get s, h.put s none)

/-- The assignment of a released pointer to `dst` (`dst.reset(v)`): the node
that `dst` held before is destroyed. -/
def Nodes.reset (h : Nodes) (dst : NodeSlot) (v : Option NodeId) : Nodes :=
  match h.get dst with
  | none => h.put dst v
  | some old => { h.put dst v with destroyed := old :: h.destroyed }

/-- The assignment `dst = move(src)`: `src` is released, then `dst` is
reset. -/
def Nodes.move (h : Nodes) (dst src : NodeSlot) : Nodes :=
  (h.take src).2.reset dst (h.take src).1

/-- How a call ends: it returns, or it dereferences a null pointer (the
behaviour is undefined), or its loop has not ended after the number of
iterations that was allowed. -/
inductive Outcome (α : Type) where
  | returns : α → Outcome α
  | undefined : Outcome α
  | running : Outcome α

/-- The loop of `Node::get_nu_children`, with the counter `n` (an
`unsigned`) and the pointer `child`. -/
def get_nu_children_loop (h : Nodes) : Nat → Nat → Option NodeId → Outcome Nat
  | 0, _, _ => Outcome.running
  | fuel + 1, n, child =>
    match child with
    | none => Outcome.returns n
    | some c => get_nu_children_loop h fuel ((n + 1) % 2 ^ 32) (h.m_sibling c)

/-- The function `Node::get_nu_children`, for the node `this`. -/
def get_nu_children (fuel : Nat) (h : Nodes) (this : NodeId) : Outcome Nat :=
  get_nu_children_loop h fuel 0 (h.m_first_child this)

/-- The body of `if (sibling == this)` in `Node::make_first_child`. -/
def make_first_child_found (h : Nodes) (this p current_child : NodeId) : Nodes :=
  let tmp := h.take (NodeSlot.first_child p)
  let h2 := tmp.2.move (NodeSlot.first_child p) (NodeSlot.sibling current_child)
  let h3 := h2.move (NodeSlot.sibling current_child) (NodeSlot.sibling this)
  h3.reset (NodeSlot.sibling this) tmp.1

/-- The loop of `Node::make_first_child`; `p` is the parent of `this`. -/
def make_first_child_loop (h : Nodes) (this p : NodeId) : Nat → Option NodeId → Outcome Nodes
  | 0, _ => Outcome.running
  | fuel + 1, current_child =>
    match current_child with
    | none => Outcome.undefined
    | some cur =>
      if h.m_sibling cur = some this then
        Outcome.returns (make_first_child_found h this p cur)
      else make_first_child_loop h this p fuel (h.m_sibling cur)

/-- The function `Node::make_first_child`, for the node `this`.  The source
asserts `has_parent()`. -/
def make_first_child (fuel : Nat) (h : Nodes) (this : NodeId) : Outcome Nodes :=
  match h.m_parent this with
  | none => Outcome.undefined
  | some p =>
    if h.m_first_child p = some this then Outcome.returns h
    else make_first_child_loop h this p fuel (h.m_first_child p)

/-- The branch `if (current == this)` of `Node::move_down`: the node is the
first child of its parent `p`. -/
def move_down_first (h : Nodes) (this p : NodeId) : Outcome Nodes :=
  let tmp := h.take (NodeSlot.first_child p)
  let h2 := tmp.2.move (NodeSlot.first_child p) (NodeSlot.sibling this)
  match h2.m_first_child p with
  | none => Outcome.undefined
  | some f =>
    let h3 := h2.move (NodeSlot.sibling this) (NodeSlot.sibling f)
    match h3.m_first_child p with
    | none => Outcome.undefined
    | some f2 => Outcome.returns (h3.reset (NodeSlot.sibling f2) tmp.1)

/-- The body of `if (sibling == this)` in the loop of `Node::move_down`. -/
def move_down_found (h : Nodes) (this current : NodeId) : Outcome Nodes :=
  if h.m_sibling this = none then Outcome.returns h
  else
    let tmp := h.take (NodeSlot.sibling current)
    let h2 := tmp.2.move (NodeSlot.sibling current) (NodeSlot.sibling this)
    match h2.m_sibling current with
    | none => Outcome.undefined
    | some s =>
      let h3 := h2.move (NodeSlot.sibling this) (NodeSlot.sibling s)
      match h3.m_sibling current with
      | none => Outcome.undefined
      | some s2 => Outcome.returns (h3.reset (NodeSlot.sibling s2) tmp.1)

/-- The loop of `Node::move_down`. -/
def move_down_loop (h : Nodes) (this : NodeId) : Nat → Option NodeId → Outcome Nodes
  | 0, _ => Outcome.running
  | fuel + 1, current =>
    match current with
    | none => Outcome.undefined
    | some cur =>
      if h.m_sibling cur = some this then move_down_found h this cur
      else move_down_loop h this fuel (h.m_sibling cur)

/-- The function `Node::move_down`, for the node `this`.  The source asserts
`has_parent()`. -/
def move_down (fuel : Nat) (h : Nodes) (this : NodeId) : Outcome Nodes :=
  match h.m_parent this with
  | none => Outcome.undefined
  | some p =>
    if h.m_first_child p = some this then move_down_first h this p
    else move_down_loop h this fuel (h.m_first_child p)

/-- The body of `if (sibling == this)` in the loop of `Node::move_up`, with
`prev` not null. -/
def move_up_found (h : Nodes) (this current prev : NodeId) : Nodes :=
  let tmp := h.take (NodeSlot.sibling prev)
  let h2 := tmp.2.move (NodeSlot.sibling prev) (NodeSlot.sibling current)
  let h3 := h2.move (NodeSlot.sibling current) (NodeSlot.sibling this)
  h3.reset (NodeSlot.sibling this) tmp.1

/-- The loop of `Node::move_up`; `fuel0` is the number of iterations allowed
to the loop of `make_first_child`. -/
def move_up_loop (fuel0 : Nat) (h : Nodes) (this : NodeId) :
    Nat → Option NodeId → Option NodeId → Outcome Nodes
  | 0, _, _ => Outcome.running
  | fuel + 1, current, prev =>
    match current with
    | none => Outcome.undefined
    | some cur =>
      if h.m_sibling cur = some this then
        match prev with
        | none => make_first_child fuel0 h this
        | some pv => Outcome.returns (move_up_found h this cur pv)
      else move_up_loop fuel0 h this fuel (h.m_sibling cur) (some cur)

/-- The function `Node::move_up`, for the node `this`.  The source asserts
`has_parent()`. -/
def move_up (fuel : Nat) (h : Nodes) (this : NodeId) : Outcome Nodes :=
  match h.m_parent this with
  | none => Outcome.undefined
  | some p =>
    if h.m_first_child p = some this then Outcome.returns h
    else move_up_loop fuel h this fuel (h.m_first_child p) none

/-- The body of `if (node->get() == &child)` in `Node::remove_child`: the
result and the tree. -/
def remove_child_found (h : Nodes) (this child : NodeId) (node : NodeSlot)
    (previous : Option NodeSlot) : Outcome (Option NodeId × Nodes) :=
  let result := h.take node
  let assigned : Outcome Nodes :=
    match previous with
    | none =>
      Outcome.returns (result.2.move (NodeSlot.first_child this) (NodeSlot.sibling child))
    | some prev =>
      match result.2.get prev with
      | none => Outcome.undefined
      | some pn =>
        Outcome.returns (result.2.move (NodeSlot.sibling pn) (NodeSlot.sibling child))
  match assigned with
  | Outcome.returns h2 =>
    match result.1 with
    | none => Outcome.undefined
    | some r =>
      Outcome.returns
        (result.1, { h2 with m_parent := fun k => if k = r then none else h2.m_parent k })
  | Outcome.undefined => Outcome.undefined
  | Outcome.running => Outcome.running

/-- The loop of `Node::remove_child`; `node` and `previous` point to owning
pointers. -/
def remove_child_loop (h : Nodes) (this child : NodeId) :
    Nat → NodeSlot → Option NodeSlot → Outcome (Option NodeId × Nodes)
  | 0, _, _ => Outcome.running
  | fuel + 1, node, previous =>
    if h.get node = some child then remove_child_found h this child node previous
    else
      match h.get node with
      | none => Outcome.undefined
      | some n => remove_child_loop h this child fuel (NodeSlot.sibling n) (some node)

/-- The function `Node::remove_child`, called on the node `this` for its
child `child`: the returned pointer and the tree. -/
def remove_child (fuel : Nat) (h : Nodes) (this child : NodeId) :
    Outcome (Option NodeId × Nodes) :=
  remove_child_loop h this child fuel (NodeSlot.first_child this) none

/-- The chain of the owning pointers `next` from `start` goes through the
nodes of `l`, in this order, and ends with the pointer `stop`. -/
def is_seg (next : NodeId → Option NodeId) : Option NodeId → List NodeId → Option NodeId → Bool
  | start, [], stop => start == stop
  | start, a :: l, stop => start == some a && is_seg next (next a) l stop

/-- The children of the node `n` are the nodes of `l`, in this order: the
chain of siblings from `m_first_child` goes through `l` and ends with the null
pointer, and `n` is the parent of every node of `l`. -/
def Nodes.has_children (h : Nodes) (n : NodeId) (l : List NodeId) : Prop :=
  is_seg h.m_sibling (h.m_first_child n) l none = true ∧ ∀ x ∈ l, h.m_parent x = some n

/-- A parent with the three children 1, 2 and 3. -/
def family : Nodes :=
  { m_parent := fun k => if k = 1 ∨ k = 2 ∨ k = 3 then some 0 else none
    m_first_child := fun k => if k = 0 then some 1 else none
    m_sibling := fun k => if k = 1 then some 2 else if k = 2 then some 3 else none
    destroyed := [] }

/-- A parent with the only child 1. -/
def only_child : Nodes :=
  { m_parent := fun k => if k = 1 then some 0 else none
    m_first_child := fun k => if k = 0 then some 1 else none
    m_sibling := fun _ => none
    destroyed := [] }

instance (h : Nodes) (n : NodeId) (l : List NodeId) : Decidable (h.has_children n l) := by
  unfold Nodes.has_children; infer_instance

/-! ## The properties of a node (`Node::move_property_to_front`) -/

/-- A property is named by its address. -/
abbrev PropertyId := Nat

/-- The properties of a node: the member `m_first_property` of the node and,
for the property at every address, its members `id` and `next`; both
pointers are owning pointers (`unique_ptr<Property>`), with `none` for the
null pointer.  `destroyed` lists the properties that an owning pointer held
when it was overwritten, latest first.  The values of a property are not
touched by the functions below. -/
structure Properties where
  m_first_property : Option PropertyId
  next : PropertyId → Option PropertyId
  id : PropertyId → List Char
  destroyed : List PropertyId

/-- An owning pointer of the list of properties: `m_first_property` of the
node or the member `next` of a property. -/
inductive PropertySlot where
  | first_property
  | next (p : PropertyId)

/-- The property that an owning pointer holds. -/
def Properties.get (ps : Properties) (s : PropertySlot) : Option PropertyId :=
  match s with
  | PropertySlot.first_property => ps.m_first_property
  | PropertySlot.next p => ps.next p

/-- The properties with the value `v` stored in an owning pointer; nothing is
destroyed. -/
def Properties.put (ps : Properties) (s : PropertySlot) (v : Option PropertyId) : Properties :=
  match s with
  | PropertySlot.first_property => { ps with m_first_property := v }
  | PropertySlot.next p => { ps with next := fun k => if k = p then v else ps.next k }

/-- The expression `move(s)` that initialises a new `unique_ptr`. -/
def Properties.take (ps : Properties) (s : PropertySlot) : Option PropertyId × Properties :=
  (ps.get s, ps.put s none)

/-- The assignment of a released pointer to `dst`: the property that `dst`
held before is destroyed. -/
def Properties.reset (ps : Properties) (dst : PropertySlot) (v : Option PropertyId) :
    Properties :=
  match ps.get dst with
  | none => ps.put dst v
  | some old => { ps.put dst v with destroyed := old :: ps.destroyed }

/-- The assignment `dst = move(src)`. -/
def Properties.move (ps : Properties) (dst src : PropertySlot) : Properties :=
  (ps.take src).2.reset dst (ps.take src).1

/-- The body of `if (current->id == id)` in `Node::move_property_to_front`. -/
def move_property_to_front_found (ps : Properties) (current : PropertyId)
    (last : Option PropertyId) : Properties :=
  match last with
  | none => ps
  | some l =>
    let tmp := ps.take (PropertySlot.next l)
    let p2 := tmp.2.move (PropertySlot.next l) (PropertySlot.next current)
    let p3 := p2.move (PropertySlot.next current) PropertySlot.first_property
    p3.reset PropertySlot.first_property tmp.1

/-- The loop of `Node::move_property_to_front`. -/
def move_property_to_front_loop (ps : Properties) (id : List Char) :
    Nat → Option PropertyId → Option PropertyId → Outcome (Bool × Properties)
  | 0, _, _ => Outcome.running
  | fuel + 1, current, last =>
    match current with
    | none => Outcome.returns (false, ps)
    | some cur =>
      if ps.id cur = id then Outcome.returns (true, move_property_to_front_found ps cur last)
      else move_property_to_front_loop ps id fuel (ps.next cur) (some cur)

/-- The function `Node::move_property_to_front(id)`: the result and the
properties of the node afterwards. -/
def move_property_to_front (fuel : Nat) (ps : Properties) (id : List Char) :
    Outcome (Bool × Properties) :=
  move_property_to_front_loop ps id fuel ps.m_first_property none

/-- The properties of the node are the properties of `l`, in this order. -/
def Properties.has_list (ps : Properties) (l : List PropertyId) : Prop :=
  is_seg ps.next ps.m_first_property l none = true

instance (ps : Properties) (l : List PropertyId) : Decidable (ps.has_list l) := by
  unfold Properties.has_list; infer_instance

/-- A node with the properties `GM`, `SZ` and `B` at the addresses 1, 2
and 3. -/
def three_properties : Properties :=
  { m_first_property := some 1
    next := fun k => if k = 1 then some 2 else if k = 2 then some 3 else none
    id := fun k => if k = 1 then "GM".toList else if k = 2 then "SZ".toList else "B".toList
    destroyed := [] }

/-! ## Reading a property (`Reader::read_property`) -/

/-- The function `is_ascii_space`: a white space character of the C locale in
the ASCII range. -/
def is_ascii_space (c : Char) : Bool :=
  decide (c.toNat < 128) && is_space c

/-- The function `Reader::consume_char`: it reads a character with
`read_char`; the assertion on the character has no effect on the result. -/
def Reader.consume_char (r : Reader) : Except String Unit × Reader :=
  match r.read_char with
  | (Except.error e, r2) => (Except.error e, r2)
  | (Except.ok _, r2) => (Except.ok (), r2)

/-- The function `Reader::consume_whitespace`: the loop takes a character
from the stream with `get` while `peek` returns a white space. -/
def consume_whitespace : Nat → Reader → Outcome (Except String Unit × Reader)
  | 0, _ => Outcome.running
  | fuel + 1, r =>
    match r.peek with
    | Except.error e => Outcome.returns (Except.error e, r)
    | Except.ok c =>
      if is_ascii_space c then consume_whitespace fuel ⟨r.m_in.tail⟩
      else Outcome.returns (Except.ok (), r)

/-- A `Reader` with the members that `read_property` uses: the stream, the
two flags, the buffers `m_id`, `m_values` and `m_value`, and `reported`, the
calls of the virtual function `on_property` so far, each with its two
arguments. -/
structure ReaderState where
  m_in : Reader
  m_read_only_main_variation : Bool
  m_is_in_main_variation : Bool
  m_id : List Char
  m_values : List (List Char)
  m_value : List Char
  reported : List (List Char × List (List Char))

/-- The loop `while (peek() != '[') read_char();` of the branch of
`read_property` that skips the property. -/
def skip_id_loop : Nat → ReaderState → Outcome (Except String Unit × ReaderState)
  | 0, _ => Outcome.running
  | fuel + 1, s =>
    match s.m_in.peek with
    | Except.error e => Outcome.returns (Except.error e, s)
    | Except.ok p =>
      if p ≠ '[' then
        match s.m_in.read_char with
        | (Except.error e, r2) => Outcome.returns (Except.error e, { s with m_in := r2 })
        | (Except.ok _, r2) => skip_id_loop fuel { s with m_in := r2 }
      else Outcome.returns (Except.ok (), s)

/-- The loop `while (peek() != ']' || escape)` of the branch that skips the
property. -/
def skip_value_loop : Nat → ReaderState → Bool → Outcome (Except String Unit × ReaderState)
  | 0, _, _ => Outcome.running
  | fuel + 1, s, escape =>
    match s.m_in.peek with
    | Except.error e => Outcome.returns (Except.error e, s)
    | Except.ok p =>
      if p ≠ ']' ∨ escape = true then
        match s.m_in.read_char with
        | (Except.error e, r2) => Outcome.returns (Except.error e, { s with m_in := r2 })
        | (Except.ok c, r2) =>
          if c = '\\' ∧ escape = false then skip_value_loop fuel { s with m_in := r2 } true
          else skip_value_loop fuel { s with m_in := r2 } false
      else Outcome.returns (Except.ok (), s)

/-- The loop `while (peek() == '[')` of the branch that skips the
property. -/
def skip_values_loop : Nat → ReaderState → Outcome (Except String Unit × ReaderState)
  | 0, _ => Outcome.running
  | fuel + 1, s =>
    match s.m_in.peek with
    | Except.error e => Outcome.returns (Except.error e, s)
    | Except.ok p =>
      if p = '[' then
        match s.m_in.consume_char with
        | (Except.error e, r2) => Outcome.returns (Except.error e, { s with m_in := r2 })
        | (Except.ok _, r2) =>
          match skip_value_loop (fuel + 1) { s with m_in := r2 } false with
          | Outcome.returns (Except.ok _, s3) =>
            match s3.m_in.consume_char with
            | (Except.error e, r4) =>
              Outcome.returns (Except.error e, { s3 with m_in := r4 })
            | (Except.ok _, r4) =>
              match consume_whitespace (fuel + 1) r4 with
              | Outcome.returns (Except.ok _, r5) => skip_values_loop fuel { s3 with m_in := r5 }
              | Outcome.returns (Except.error e, r5) =>
                Outcome.returns (Except.error e, { s3 with m_in := r5 })
              | Outcome.undefined => Outcome.undefined
              | Outcome.running => Outcome.running
          | Outcome.returns (Except.error e, s3) => Outcome.returns (Except.error e, s3)
          | Outcome.undefined => Outcome.undefined
          | Outcome.running => Outcome.running
      else Outcome.returns (Except.ok (), s)

/-- The loop `while (peek() != '[') m_id += read_char();` of the branch of
`read_property` that stores the property. -/
def read_id_loop : Nat → ReaderState → Outcome (Except String Unit × ReaderState)
  | 0, _ => Outcome.running
  | fuel + 1, s =>
    match s.m_in.peek with
    | Except.error e => Outcome.returns (Except.error e, s)
    | Except.ok p =>
      if p ≠ '[' then
        match s.m_in.read_char with
        | (Except.error e, r2) => Outcome.returns (Except.error e, { s with m_in := r2 })
        | (Except.ok c, r2) => read_id_loop fuel { s with m_in := r2, m_id := s.m_id ++ [c] }
      else Outcome.returns (Except.ok (), s)

/-- The loop `while (peek() != ']' || escape)` of the branch that stores the
property. -/
def read_value_loop : Nat → ReaderState → Bool → Outcome (Except String Unit × ReaderState)
  | 0, _, _ => Outcome.running
  | fuel + 1, s, escape =>
    match s.m_in.peek with
    | Except.error e => Outcome.returns (Except.error e, s)
    | Except.ok p =>
      if p ≠ ']' ∨ escape = true then
        match s.m_in.read_char with
        | (Except.error e, r2) => Outcome.returns (Except.error e, { s with m_in := r2 })
        | (Except.ok c, r2) =>
          if c = '\\' ∧ escape = false then read_value_loop fuel { s with m_in := r2 } true
          else read_value_loop fuel { s with m_in := r2, m_value := s.m_value ++ [c] } false
      else Outcome.returns (Except.ok (), s)

/-- The loop `while (peek() == '[')` of the branch that stores the
property. -/
def read_values_loop : Nat → ReaderState → Outcome (Except String Unit × ReaderState)
  | 0, _ => Outcome.running
  | fuel + 1, s =>
    match s.m_in.peek with
    | Except.error e => Outcome.returns (Except.error e, s)
    | Except.ok p =>
      if p = '[' then
        match s.m_in.consume_char with
        | (Except.error e, r2) => Outcome.returns (Except.error e, { s with m_in := r2 })
        | (Except.ok _, r2) =>
          match read_value_loop (fuel + 1) { s with m_in := r2, m_value := [] } false with
          | Outcome.returns (Except.ok _, s3) =>
            match s3.m_in.consume_char with
            | (Except.error e, r4) =>
              Outcome.returns (Except.error e, { s3 with m_in := r4 })
            | (Except.ok _, r4) =>
              match consume_whitespace (fuel + 1) r4 with
              | Outcome.returns (Except.ok _, r5) =>
                read_values_loop fuel
                  { s3 with m_in := r5, m_values := s3.m_values ++ [s3.m_value] }
              | Outcome.returns (Except.error e, r5) =>
                Outcome.returns (Except.error e, { s3 with m_in := r5 })
              | Outcome.undefined => Outcome.undefined
              | Outcome.running => Outcome.running
          | Outcome.returns (Except.error e, s3) => Outcome.returns (Except.error e, s3)
          | Outcome.undefined => Outcome.undefined
          | Outcome.running => Outcome.running
      else Outcome.returns (Except.ok (), s)

/-- The function `Reader::read_property`.  Each loop is allowed `fuel`
iterations. -/
def read_property (fuel : Nat) (s : ReaderState) : Outcome (Except String Unit × ReaderState) :=
  if s.m_read_only_main_variation = true ∧ s.m_is_in_main_variation = false then
    match skip_id_loop fuel s with
    | Outcome.returns (Except.ok _, s2) => skip_values_loop fuel s2
    | other => other
  else
    match read_id_loop fuel { s with m_id := [] } with
    | Outcome.returns (Except.ok _, s2) =>
      match read_values_loop fuel { s2 with m_values := [] } with
      | Outcome.returns (Except.ok _, s3) =>
        Outcome.returns
          (Except.ok (), { s3 with reported := s3.reported ++ [(s3.m_id, s3.m_values)] })
      | other => other
    | other => other

/-- A reader on the text `text` that stores properties. -/
def storing_reader (text : String) : ReaderState :=
  ⟨⟨text.toList⟩, false, true, [], [], [], []⟩

/-- A reader on the text `text` that reads the main variation only and is
outside of it, so that it skips properties. -/
def skipping_reader (text : String) : ReaderState :=
  ⟨⟨text.toList⟩, true, false, [], [], [], []⟩

/-- What a caller sees of a call besides the members of the reader: how the
call ends, the error when it throws, and the stream afterwards. -/
def observed (o : Outcome (Except String Unit × ReaderState)) :
    Outcome (Except String Unit × Reader) :=
  match o with
  | Outcome.returns (res, s) => Outcome.returns (res, s.m_in)
  | Outcome.undefined => Outcome.undefined
  | Outcome.running => Outcome.running

/-! ## The text of a property value -/

/-- The character that `read_char` returns for the character `c` of the
stream: LF for CR. -/
def line_end (c : Char) : Char := if c = '\r' then '\n' else c

/-- The text of a value between its brackets, given as its characters in
order, each with the flag whether it is escaped: an escaped character is
written with a backslash in front of it. -/
def written (items : List (Bool × Char)) : List Char :=
  items.flatMap (fun x => if x.1 = true then ['\\', x.2] else [x.2])

/-- The characters of a value that remain after the character `c` has been
read: a LF that is not escaped is read together with a CR in front of it. -/
def after_line_end (c : Char) : List (Bool × Char) → List (Bool × Char)
  | [] => []
  | y :: rest => if c = '\r' ∧ y.1 = false ∧ y.2 = '\n' then rest else y :: rest

/-- The value that the characters stand for: every character without its
backslash, with the line ends as `read_char` returns them (LF for CR, and for
CR followed by a LF that is not escaped). -/
def decoded : List (Bool × Char) → List Char
  | [] => []
  | [x] => [line_end x.2]
  | x :: y :: rest =>
    if x.2 = '\r' ∧ y.1 = false ∧ y.2 = '\n' then '\n' :: decoded rest
    else line_end x.2 :: decoded (y :: rest)

/-- The characters of a value are written so that the value ends where the
text ends: a `]` or a backslash that belongs to the value is escaped. -/
def well_escaped (items : List (Bool × Char)) : Prop :=
  ∀ x ∈ items, x.1 = false → x.2 ≠ ']' ∧ x.2 ≠ '\\'

/-- The text of the values of a property: every value between brackets,
followed by white space. -/
def written_values (vals : List (List (Bool × Char) × List Char)) : List Char :=
  vals.flatMap (fun v => '[' :: (written v.1 ++ ']' :: v.2))

instance (items : List (Bool × Char)) : Decidable (well_escaped items) := by
  unfold well_escaped; infer_instance

/-! # Properties of the embedded code -/

/-! ## The adjacency-status table -/

theorem status_index_testBit (forbidden : Nat → Bool) (i j : Nat) :
    (status_index forbidden i).testBit j = (decide (j < i) && forbidden j) := by
  unfold status_index
  induction i with
  | zero => simp
  | succ i ih =>
    rw [List.range_succ, List.foldl_append]
    simp only [List.foldl_cons, List.foldl_nil]
    by_cases hf : forbidden i = true
    · rw [if_pos hf, Nat.testBit_or, ih, Nat.one_shiftLeft, Nat.testBit_two_pow]
      by_cases hji : j = i
      · subst hji; simp [hf]
      · have : ¬ i = j := fun h => hji h.symm
        by_cases hlt : j < i
        · have : j < i + 1 := by omega
          simp [*]
        · have : ¬ j < i + 1 := by omega
          simp [*]
    · rw [if_neg hf, ih]
      by_cases hji : j = i
      · subst hji; simp [hf]
      · by_cases hlt : j < i
        · have : j < i + 1 := by omega
          simp [*]
        · have : ¬ j < i + 1 := by omega
          simp [*]

theorem forbidden_points_eq (forbidden : Nat → Bool) (i : Nat) (l : List Point) (n : Nat)
    (h : n + l.length ≤ i) :
    forbidden_points forbidden i n l
      = ((l.enumFrom n).filter (fun kp => forbidden kp.1)).map Prod.snd := by
  induction l generalizing n with
  | nil => simp [forbidden_points]
  | cons a l ih =>
    simp only [List.length_cons] at h
    have hn : ¬ n ≥ i := by omega
    simp only [forbidden_points, if_neg hn, List.enumFrom_cons, List.filter_cons]
    by_cases hf : forbidden n = true
    · simp [hf, ih (n + 1) (by omega)]
    · simp [hf, ih (n + 1) (by omega)]

theorem matches_upto_succ (k : Nat) (forbidden : Nat → Bool) (i idx : Nat) (b : Bool) :
    matches_upto k (fun j => if j = i then b else forbidden j) (i + 1) idx
      ↔ matches_upto k forbidden i idx ∧ idx.testBit i = b := by
  unfold matches_upto
  constructor
  · rintro ⟨hlt, h⟩
    refine ⟨⟨hlt, fun j hj => ?_⟩, ?_⟩
    · have := h j (by omega)
      simpa [Nat.ne_of_lt hj] using this
    · simpa using h i (by omega)
  · rintro ⟨⟨hlt, h⟩, hb⟩
    refine ⟨hlt, fun j hj => ?_⟩
    by_cases hji : j = i
    · subst hji; simp [hb]
    · simp only [if_neg hji]; exact h j (by omega)

theorem filter_enum_congr (l : List Point) (f g : Nat → Bool) (n : Nat)
    (h : ∀ j, n ≤ j → j < n + l.length → f j = g j) :
    (l.enumFrom n).filter (fun kp => f kp.1) = (l.enumFrom n).filter (fun kp => g kp.1) := by
  apply List.filter_congr
  intro kp hkp
  have := List.mem_enumFrom hkp
  exact h kp.1 this.1 (by omega)

theorem matches_upto_congr (k : Nat) (f g : Nat → Bool) (i idx : Nat)
    (h : ∀ j, j < i → f j = g j) : matches_upto k f i idx ↔ matches_upto k g i idx := by
  unfold matches_upto
  constructor
  · rintro ⟨h1, h2⟩
    exact ⟨h1, fun j hj => by rw [h2 j hj, h j hj]⟩
  · rintro ⟨h1, h2⟩
    exact ⟨h1, fun j hj => by rw [h2 j hj, h j hj]⟩

theorem init_adj_status_rec_spec (p : Point) (l : List Point) (r : Nat) :
    ∀ (i : Nat) (st : (Nat → Bool) × AdjStatus), i + r = l.length →
      (∀ j, j < i → (init_adj_status_rec p l r i st).1 j = st.1 j) ∧
      ∀ p' idx, (init_adj_status_rec p l r i st).2 p' idx
        = if p' = p ∧ matches_upto l.length st.1 i idx then blocked_points l idx
          else st.2 p' idx := by
  induction r with
  | zero =>
    intro i st hi
    refine ⟨fun _ _ => rfl, ?_⟩
    intro p' idx
    simp only [Nat.add_zero] at hi
    subst hi
    simp only [init_adj_status_rec, AdjStatus.set]
    have key : idx = status_index st.1 l.length ↔ matches_upto l.length st.1 l.length idx := by
      constructor
      · intro h
        subst h
        refine ⟨?_, ?_⟩
        · apply Nat.lt_pow_two_of_testBit
          intro j hj
          rw [status_index_testBit]
          have : ¬ j < l.length := by omega
          simp [this]
        · intro j hj
          rw [status_index_testBit]; simp [hj]
      · rintro ⟨hlt, hb⟩
        apply Nat.eq_of_testBit_eq
        intro j
        rw [status_index_testBit]
        by_cases hj : j < l.length
        · rw [hb j hj]; simp [hj]
        · have : 2 ^ l.length ≤ 2 ^ j := Nat.pow_le_pow_right (by decide) (by omega)
          rw [Nat.testBit_eq_false_of_lt (by omega)]
          simp [hj]
    by_cases hp : p' = p
    · by_cases hm : matches_upto l.length st.1 l.length idx
      · rw [if_pos ⟨hp, key.mpr hm⟩, if_pos ⟨hp, hm⟩]
        rw [forbidden_points_eq _ _ _ _ (by omega)]
        unfold blocked_points
        rw [List.enum]
        congr 1
        apply filter_enum_congr
        intro j _ hj
        exact (hm.2 j (by omega)).symm
      · rw [if_neg (fun h => hm (key.mp h.2)), if_neg (fun h => hm h.2)]
    · rw [if_neg (fun h => hp h.1), if_neg (fun h => hp h.1)]
  | succ r ih =>
    intro i st hi
    simp only [init_adj_status_rec]
    obtain ⟨a0, b0⟩ := ih (i + 1) (fun j => if j = i then false else st.1 j, st.2) (by omega)
    obtain ⟨a1, b1⟩ := ih (i + 1)
      (fun j => if j = i then true
        else (init_adj_status_rec p l r (i + 1)
          (fun j => if j = i then false else st.1 j, st.2)).1 j,
       (init_adj_status_rec p l r (i + 1) (fun j => if j = i then false else st.1 j, st.2)).2)
      (by omega)
    simp only at a0 b0 a1 b1
    constructor
    · intro j hj
      rw [a1 j (by omega), if_neg (Nat.ne_of_lt hj), a0 j (by omega), if_neg (Nat.ne_of_lt hj)]
    · intro p' idx
      rw [b1, b0]
      have m0 : matches_upto l.length (fun j => if j = i then false else st.1 j) (i + 1) idx
          ↔ matches_upto l.length st.1 i idx ∧ idx.testBit i = false :=
        matches_upto_succ l.length st.1 i idx false
      have m1 : matches_upto l.length
            (fun j => if j = i then true
              else (init_adj_status_rec p l r (i + 1)
                (fun j => if j = i then false else st.1 j, st.2)).1 j) (i + 1) idx
          ↔ matches_upto l.length st.1 i idx ∧ idx.testBit i = true := by
        rw [matches_upto_congr l.length _ (fun j => if j = i then true else st.1 j) (i + 1) idx]
        · exact matches_upto_succ l.length st.1 i idx true
        · intro j hj
          by_cases hji : j = i
          · simp [hji]
          · simp only [if_neg hji]
            rw [a0 j hj, if_neg hji]
      simp only [m0, m1]
      by_cases hp : p' = p
      swap
      · simp [hp]
      by_cases hm : matches_upto l.length st.1 i idx
      · by_cases hbit : idx.testBit i = true
        · simp [hp, hm, hbit]
        · simp [hp, hm, hbit]
      · simp [hp, hm]

theorem init_adj_status_rec_full (p : Point) (l : List Point) (st : (Nat → Bool) × AdjStatus)
    (p' idx : Nat) :
    (init_adj_status_rec p l l.length 0 st).2 p' idx
      = if p' = p ∧ idx < 2 ^ l.length then blocked_points l idx else st.2 p' idx := by
  rw [(init_adj_status_rec_spec p l l.length 0 st (by omega)).2]
  have : matches_upto l.length st.1 0 idx ↔ idx < 2 ^ l.length := by
    simp [matches_upto]
  simp only [this]

theorem init_adj_status_foldl (nu_adj : Nat) (geo : Geometry) (L : List Point) :
    ∀ (st : (Nat → Bool) × AdjStatus) (p idx : Nat),
      (L.foldl
        (fun st p =>
          let l := adj_status_list nu_adj geo p
          init_adj_status_rec p l l.length 0 st) st).2 p idx
        = if p ∈ L ∧ idx < 2 ^ (adj_status_list nu_adj geo p).length
          then blocked_points (adj_status_list nu_adj geo p) idx else st.2 p idx := by
  induction L with
  | nil => intro st p idx; simp
  | cons a L ih =>
    intro st p idx
    rw [List.foldl_cons, ih]
    simp only [init_adj_status_rec_full]
    by_cases hpa : p = a
    · subst hpa
      by_cases hlt : idx < 2 ^ (adj_status_list nu_adj geo p).length
      · simp [hlt]
      · simp [hlt]
    · simp [hpa]

/-- The table after `init_adj_status()`: for a point of the geometry and an
index below `2 ^ k`, with `k` the number of its neighbour slots, the slot
points whose bit is set; every other entry is left as it was. -/
theorem init_adj_status_spec (nu_adj : Nat) (geo : Geometry) (s : AdjStatus) (p idx : Nat) :
    init_adj_status nu_adj geo s p idx
      = if p ∈ geo.points ∧ idx < 2 ^ (adj_status_list nu_adj geo p).length
        then blocked_points (adj_status_list nu_adj geo p) idx else s p idx := by
  unfold init_adj_status
  exact init_adj_status_foldl nu_adj geo geo.points (fun _ => false, s) p idx

theorem push_capped_eq (nu_adj : Nat) (xs : List Point) :
    ∀ l : List Point, l.length ≤ nu_adj →
      push_capped nu_adj l xs = l ++ xs.take (nu_adj - l.length) := by
  induction xs with
  | nil => intro l _; simp [push_capped]
  | cons a xs ih =>
    intro l hl
    simp only [push_capped]
    by_cases h : l.length = nu_adj
    · simp [h]
    · rw [if_neg h, ih (l ++ [a]) (by simp; omega)]
      have : nu_adj - l.length = (nu_adj - (l ++ [a]).length) + 1 := by simp; omega
      rw [this, List.take_succ_cons]
      simp

/-- The neighbour-slot list: orthogonal neighbours, then diagonal ones, cut at
`adj_status_nu_adj` entries. -/
theorem adj_status_list_eq (nu_adj : Nat) (geo : Geometry) (p : Point) :
    adj_status_list nu_adj geo p = (geo.get_adj p ++ geo.get_diag p).take nu_adj := by
  unfold adj_status_list
  rw [push_capped_eq nu_adj _ [] (by simp)]
  rw [push_capped_eq nu_adj _ _ (by simp [List.length_take])]
  simp only [List.nil_append, List.length_nil, Nat.sub_zero, List.length_take]
  rw [List.take_append_eq_append_take]
  congr 2
  omega

theorem adj_status_list_length_le (nu_adj : Nat) (geo : Geometry) (p : Point) :
    (adj_status_list nu_adj geo p).length ≤ nu_adj := by
  rw [adj_status_list_eq]; simp [List.length_take]

theorem mem_blocked_points (l : List Point) (s : Nat) (q : Point) :
    q ∈ blocked_points l s ↔ ∃ i, ∃ h : i < l.length, s.testBit i = true ∧ l[i] = q := by
  unfold blocked_points
  simp only [List.mem_map, List.mem_filter, Prod.exists]
  constructor
  · rintro ⟨i, b, ⟨hm, hb⟩, rfl⟩
    have := List.mem_enum_iff_getElem?.mp hm
    simp only at this
    obtain ⟨hi, e⟩ := List.getElem?_eq_some_iff.mp this
    exact ⟨i, hi, hb, e⟩
  · rintro ⟨i, hi, hb, rfl⟩
    refine ⟨i, l[i], ⟨?_, hb⟩, rfl⟩
    apply List.mem_enum_iff_getElem?.mpr
    simp [hi]

/-! ## Move creation -/

theorem foldl_filterMap_eq {α β σ : Type} (f : α → Option β) (g : σ → β → σ) (l : List α) :
    ∀ st : σ, l.foldl (fun st t => (f t).elim st (g st)) st
      = (l.filterMap f).foldl g st := by
  induction l with
  | nil => intro st; rfl
  | cons a l ih =>
    intro st
    rw [List.foldl_cons, ih]
    cases h : f a with
    | none => simp [List.filterMap_cons, h]
    | some x => simp [List.filterMap_cons, h]

theorem foldl_bind_eq {α β σ : Type} (f : α → List β) (g : σ → β → σ) (l : List α) :
    ∀ st : σ, l.foldl (fun st a => (f a).foldl g st) st = (l.flatMap f).foldl g st := by
  induction l with
  | nil => intro st; rfl
  | cons a l ih =>
    intro st
    rw [List.foldl_cons, ih, List.flatMap_cons, List.foldl_append]

theorem create_moves_at_eq (nu : Nat) (geo : Geometry) (s : AdjStatus) (piece : Piece)
    (pc : PieceInfo) (p : Point) (st : BuildState) (t : Transform) :
    create_moves_at nu geo s piece pc p st t
      = (placement_of geo piece pc p t).elim st (create_placement nu geo s st) := by
  unfold create_moves_at placement_of
  by_cases h : t.get_new_point_type ≠ geo.get_point_type (geo.get_x p) (geo.get_y p)
  · simp only [if_pos h]; rfl
  · simp only [if_neg h]
    cases translate geo (geo.get_x p) (geo.get_y p) (transformed_points pc t) with
    | none => rfl
    | some pts => rfl

theorem create_moves_piece_eq (nu : Nat) (geo : Geometry) (s : AdjStatus) (st : BuildState)
    (piece : Piece) (pc : PieceInfo) :
    create_moves_piece nu geo s st piece pc
      = (placements_piece geo piece pc).foldl (create_placement nu geo s) st := by
  unfold create_moves_piece placements_piece
  rw [← foldl_bind_eq]
  congr 1
  funext st p
  rw [← foldl_filterMap_eq]
  congr 1
  funext st t
  exact create_moves_at_eq nu geo s piece pc p st t

/-- The first loop of `create_moves()` is a sequence of `create_move` calls, one
for each placement in the order of creation. -/
theorem create_all_moves_eq (nu : Nat) (geo : Geometry) (s : AdjStatus)
    (pieces : List PieceInfo) (st : BuildState) :
    create_all_moves nu geo s pieces st
      = (placements geo pieces).foldl (create_placement nu geo s) st := by
  unfold create_all_moves placements
  rw [← foldl_bind_eq]
  congr 1
  funext st ip
  exact create_moves_piece_eq nu geo s st ip.1 ip.2

theorem push_back_apply (t : FullMoveTable) (j : Nat) (piece : Piece) (i : Point) (mv : Move)
    (j' : Nat) (q : Piece) (p : Point) :
    t.push_back j piece i mv j' q p
      = t j' q p ++ (if j' = j ∧ q = piece ∧ p = i then [mv] else []) := by
  unfold FullMoveTable.push_back
  by_cases h : j' = j ∧ q = piece ∧ p = i
  · obtain ⟨h1, h2, h3⟩ := h
    subst h1 h2 h3
    simp
  · simp [h]

theorem add_to_table_inner (s : AdjStatus) (mv : Move) (piece : Piece) (pts : List Point)
    (i : Point) (n : Nat) (t : FullMoveTable) (j : Nat) (q : Piece) (p : Point) :
    (List.range n).foldl
        (fun t j =>
          if is_compatible_with_adj_status s pts i j then t.push_back j piece i mv else t) t j q p
      = t j q p ++
        (if (q = piece ∧ j < n) ∧ (decide (i = p) && is_compatible_with_adj_status s pts i j) = true
          then [mv] else []) := by
  induction n with
  | zero => simp
  | succ n ih =>
    rw [List.range_succ, List.foldl_append, List.foldl_cons, List.foldl_nil]
    by_cases hc : is_compatible_with_adj_status s pts i n = true
    · rw [if_pos hc, push_back_apply, ih, List.append_assoc]
      congr 1
      by_cases hj : j = n
      · subst hj
        by_cases hq : q = piece
        · by_cases hp : i = p
          · subst hp; simp [hq, hc]
          · have hp' : ¬ p = i := fun h => hp h.symm
            simp [hq, hp, hp', hc]
        · simp [hq]
      · by_cases hlt : j < n
        · have : j < n + 1 := by omega
          simp [hj, hlt, this]
        · have : ¬ j < n + 1 := by omega
          simp [hj, hlt, this]
    · rw [if_neg hc, ih]
      congr 1
      by_cases hj : j = n
      · subst hj
        simp [hc]
      · by_cases hlt : j < n
        · have : j < n + 1 := by omega
          simp [hlt, this]
        · have : ¬ j < n + 1 := by omega
          simp [hlt, this]

theorem add_to_table_outer (nu : Nat) (s : AdjStatus) (mv : Move) (piece : Piece)
    (pts : List Point) (l : List Point) :
    ∀ (t : FullMoveTable) (j : Nat) (q : Piece) (p : Point),
      l.foldl
          (fun t i =>
            (List.range nu).foldl
              (fun t j =>
                if is_compatible_with_adj_status s pts i j then t.push_back j piece i mv else t)
              t) t j q p
        = t j q p ++
          (if q = piece ∧ j < nu then
            (l.filter (fun i => decide (i = p) && is_compatible_with_adj_status s pts i j)).map
              (fun _ => mv)
          else []) := by
  induction l with
  | nil => intro t j q p; simp
  | cons a l ih =>
    intro t j q p
    rw [List.foldl_cons, ih, add_to_table_inner, List.append_assoc]
    congr 1
    by_cases h : q = piece ∧ j < nu
    · by_cases h2 : (decide (a = p) && is_compatible_with_adj_status s pts a j) = true
      · simp [h, h2, List.filter_cons]
      · simp [h, h2, List.filter_cons]
    · simp [h]

theorem add_to_table_spec (nu : Nat) (s : AdjStatus) (mv : Move) (piece : Piece)
    (pts : List Point) (t : FullMoveTable) (j : Nat) (q : Piece) (p : Point) :
    add_to_table nu s mv piece pts t j q p
      = t j q p ++ bucket_entries nu s j q p mv piece pts := by
  unfold add_to_table bucket_entries
  exact add_to_table_outer nu s mv piece pts pts t j q p

theorem create_placements_spec (nu : Nat) (geo : Geometry) (s : AdjStatus) (L : List Placement) :
    ∀ st : BuildState,
      (L.foldl (create_placement nu geo s) st).moves_created = st.moves_created + L.length ∧
      (∀ k (h : k < L.length),
        (L.foldl (create_placement nu geo s) st).move_info (st.moves_created + k) = L[k].info) ∧
      (∀ m, m < st.moves_created →
        (L.foldl (create_placement nu geo s) st).move_info m = st.move_info m) ∧
      (∀ j q p, (L.foldl (create_placement nu geo s) st).full_move_table j q p
        = st.full_move_table j q p ++
          (L.enumFrom st.moves_created).flatMap
            (fun kx => bucket_entries nu s j q p kx.1 kx.2.piece kx.2.pts)) := by
  induction L with
  | nil => intro st; simp
  | cons x L ih =>
    intro st
    rw [List.foldl_cons]
    obtain ⟨h1, h2, h3, h4⟩ := ih (create_placement nu geo s st x)
    have c1 : (create_placement nu geo s st x).moves_created = st.moves_created + 1 := rfl
    have c2 : ∀ m, (create_placement nu geo s st x).move_info m
        = if m = st.moves_created then x.info else st.move_info m := fun _ => rfl
    have c3 : (create_placement nu geo s st x).full_move_table
        = add_to_table nu s st.moves_created x.piece x.pts st.full_move_table := rfl
    refine ⟨?_, ?_, ?_, ?_⟩
    · rw [h1, c1, List.length_cons]; omega
    · intro k hk
      cases k with
      | zero =>
        rw [Nat.add_zero, h3 _ (by rw [c1]; omega), c2]
        simp
      | succ k =>
        have := h2 k (by simpa using hk)
        rw [c1] at this
        rw [show st.moves_created + (k + 1) = st.moves_created + 1 + k by omega, this]
        simp
    · intro m hm
      rw [h3 m (by rw [c1]; omega), c2, if_neg (Nat.ne_of_lt hm)]
    · intro j q p
      rw [h4, c3, add_to_table_spec, c1, List.enumFrom_cons, List.flatMap_cons, List.append_assoc]

theorem flatMap_enumFrom_eq {α β : Type} (F : Nat → α → List β) (G : Nat → List β)
    (L : List α) :
    ∀ c, (∀ k (h : k < L.length), F (c + k) L[k] = G (c + k)) →
      (L.enumFrom c).flatMap (fun kx => F kx.1 kx.2) = (List.range' c L.length).flatMap G := by
  induction L with
  | nil => intro c _; simp
  | cons x L ih =>
    intro c h
    rw [List.enumFrom_cons, List.flatMap_cons, List.length_cons, List.range'_succ,
      List.flatMap_cons]
    congr 1
    · exact h 0 (by simp)
    · apply ih
      intro k hk
      have := h (k + 1) (by simpa using hk)
      simp only [List.getElem_cons_succ] at this
      rw [show c + 1 + k = c + (k + 1) by omega]
      exact this

/-! ## Flattening into the compacted move index -/

theorem get_moves_eq_of (pm : PrecompMoves) (q : Piece) (p : Point) (i : Nat) (b : Nat)
    (l : List Move) (hr : pm.moves_range p i q = (b, l.length))
    (hl : ∀ k (h : k < l.length), pm.move_lists (b + k) = l[k]) :
    pm.get_moves q p i = l := by
  unfold PrecompMoves.get_moves
  rw [hr]
  apply List.ext_getElem
  · simp
  · intro k h1 h2
    simp only [List.getElem_map, List.getElem_range]
    exact hl k h2

theorem write_list_spec (l : List Move) :
    ∀ acc : Nat × PrecompMoves,
      (write_list l acc).1 = acc.1 + l.length ∧
      (write_list l acc).2.moves_range = acc.2.moves_range ∧
      (∀ k, k < acc.1 → (write_list l acc).2.move_lists k = acc.2.move_lists k) ∧
      (∀ k (h : k < l.length), (write_list l acc).2.move_lists (acc.1 + k) = l[k]) := by
  induction l with
  | nil => intro acc; simp [write_list]
  | cons a l ih =>
    intro acc
    have e : write_list (a :: l) acc = write_list l (acc.1 + 1, acc.2.set_move acc.1 a) := rfl
    obtain ⟨h1, h2, h3, h4⟩ := ih (acc.1 + 1, acc.2.set_move acc.1 a)
    rw [e]
    refine ⟨?_, ?_, ?_, ?_⟩
    · rw [h1]; simp; omega
    · rw [h2]; rfl
    · intro k hk
      rw [h3 k (by simp; omega)]
      simp [PrecompMoves.set_move, Nat.ne_of_lt hk]
    · intro k hk
      cases k with
      | zero =>
        rw [Nat.add_zero, h3 _ (by simp)]
        simp [PrecompMoves.set_move]
      | succ k =>
        have := h4 k (by simpa using hk)
        simp only at this
        rw [show acc.1 + (k + 1) = acc.1 + 1 + k by omega, this]
        simp

theorem flatten_eq (nu np : Nat) (geo : Geometry) (t : FullMoveTable) (pm : PrecompMoves) :
    flatten nu np geo t pm
      = (triples nu np geo.points).foldl (fun acc x => flatten_step t x.1 x.2.1 acc x.2.2)
          (0, pm) := by
  unfold flatten triples
  rw [← foldl_bind_eq]
  congr 1
  funext acc p
  rw [← foldl_bind_eq]
  congr 1
  funext acc i
  rw [List.foldl_map]

theorem flatten_foldl_spec (t : FullMoveTable) (L : List (Point × Nat × Piece)) :
    ∀ acc : Nat × PrecompMoves,
      acc.1 ≤ (L.foldl (fun acc x => flatten_step t x.1 x.2.1 acc x.2.2) acc).1 ∧
      (∀ k, k < acc.1 →
        (L.foldl (fun acc x => flatten_step t x.1 x.2.1 acc x.2.2) acc).2.move_lists k
          = acc.2.move_lists k) ∧
      (∀ p i q, (p, i, q) ∉ L →
        (L.foldl (fun acc x => flatten_step t x.1 x.2.1 acc x.2.2) acc).2.moves_range p i q
          = acc.2.moves_range p i q) ∧
      (∀ p i q, (p, i, q) ∈ L →
        (L.foldl (fun acc x => flatten_step t x.1 x.2.1 acc x.2.2) acc).2.get_moves q p i
          = t i q p) := by
  induction L with
  | nil => intro acc; simp
  | cons x L ih =>
    intro acc
    obtain ⟨p0, i0, q0⟩ := x
    rw [List.foldl_cons]
    dsimp only
    obtain ⟨w1, w2, w3, w4⟩ := write_list_spec (t i0 q0 p0) acc
    have s1 : (flatten_step t p0 i0 acc q0).1 = acc.1 + (t i0 q0 p0).length := w1
    have s2 : ∀ k, (flatten_step t p0 i0 acc q0).2.move_lists k
        = (write_list (t i0 q0 p0) acc).2.move_lists k := fun _ => rfl
    have s3 : ∀ p i q, (flatten_step t p0 i0 acc q0).2.moves_range p i q
        = if p = p0 ∧ i = i0 ∧ q = q0 then (acc.1, (t i0 q0 p0).length)
          else acc.2.moves_range p i q := by
      intro p i q
      simp only [flatten_step, PrecompMoves.set_list_range, w1, w2]
      simp
    obtain ⟨h1, h2, h3, h4⟩ := ih (flatten_step t p0 i0 acc q0)
    refine ⟨by omega, ?_, ?_, ?_⟩
    · intro k hk
      rw [h2 k (by omega), s2, w3 k hk]
    · intro p i q hn
      rw [h3 p i q (fun h => hn (List.mem_cons_of_mem _ h)), s3, if_neg]
      rintro ⟨rfl, rfl, rfl⟩
      exact hn (List.mem_cons_self _ _)
    · intro p i q hm
      by_cases hin : (p, i, q) ∈ L
      · exact h4 p i q hin
      · have hx : (p, i, q) = (p0, i0, q0) := by
          rcases List.mem_cons.mp hm with h | h
          · exact h
          · exact absurd h hin
        simp only [Prod.mk.injEq] at hx
        obtain ⟨rfl, rfl, rfl⟩ := hx
        apply get_moves_eq_of _ _ _ _ acc.1
        · rw [h3 p i q hin, s3, if_pos ⟨rfl, rfl, rfl⟩]
        · intro k hk
          rw [h2 _ (by omega), s2, w4 k hk]

theorem mem_triples (nu np : Nat) (points : List Point) (p : Point) (i : Nat) (q : Piece) :
    (p, i, q) ∈ triples nu np points ↔ p ∈ points ∧ i < nu ∧ q < np := by
  unfold triples
  simp only [List.mem_flatMap, List.mem_map, List.mem_range, Prod.mk.injEq]
  constructor
  · rintro ⟨p', hp, i', hi, q', hq, rfl, rfl, rfl⟩
    exact ⟨hp, hi, hq⟩
  · rintro ⟨hp, hi, hq⟩
    exact ⟨p, hp, i, hi, q, hq, rfl, rfl, rfl⟩

/-- The build state at the end of the first loop of `create_moves()`. -/
theorem create_nu_moves (nu_adj : Nat) (geo : Geometry) (pieces : List PieceInfo)
    (mem : Storage) :
    (BoardConst.create nu_adj geo pieces mem).nu_moves = 1 + (placements geo pieces).length := by
  unfold BoardConst.create
  simp only
  rw [create_all_moves_eq]
  exact (create_placements_spec _ geo _ (placements geo pieces) (BuildState.start mem)).1

theorem create_move_info (nu_adj : Nat) (geo : Geometry) (pieces : List PieceInfo)
    (mem : Storage) (k : Nat) (h : k < (placements geo pieces).length) :
    (BoardConst.create nu_adj geo pieces mem).move_info (1 + k)
      = ((placements geo pieces)[k]).info := by
  unfold BoardConst.create
  simp only
  rw [create_all_moves_eq]
  exact (create_placements_spec _ geo _ (placements geo pieces) (BuildState.start mem)).2.1 k h

theorem create_adj_status (nu_adj : Nat) (geo : Geometry) (pieces : List PieceInfo)
    (mem : Storage) :
    (BoardConst.create nu_adj geo pieces mem).adj_status
      = init_adj_status nu_adj geo mem.adj_status := rfl

/-- Every lookup in the domain of the index returns the bucket described from
the move records. -/
theorem get_moves_eq_bucket (nu_adj : Nat) (geo : Geometry) (pieces : List PieceInfo)
    (mem : Storage) (p : Point) (i : Nat) (q : Piece) (hp : p ∈ geo.points)
    (hi : i < nu_adj_status nu_adj) (hq : q < pieces.length) :
    (BoardConst.create nu_adj geo pieces mem).get_moves q p i
      = bucket (BoardConst.create nu_adj geo pieces mem) i q p := by
  have hn := create_nu_moves nu_adj geo pieces mem
  have hinfo := create_move_info nu_adj geo pieces mem
  unfold bucket
  rw [hn, Nat.add_sub_cancel_left]
  rw [← flatMap_enumFrom_eq
    (fun m x => bucket_entries (nu_adj_status nu_adj)
      (BoardConst.create nu_adj geo pieces mem).adj_status i q p m x.piece x.pts)]
  · unfold BoardConst.get_moves
    have e : (BoardConst.create nu_adj geo pieces mem).precomp_moves
        = (flatten (nu_adj_status nu_adj) pieces.length geo
            (create_all_moves (nu_adj_status nu_adj) geo
              (init_adj_status nu_adj geo mem.adj_status) pieces
              (BuildState.start mem)).full_move_table mem.precomp_moves).2 := rfl
    rw [e, flatten_eq]
    rw [(flatten_foldl_spec _ _ _).2.2.2 p i q ((mem_triples _ _ _ _ _ _).mpr ⟨hp, hi, hq⟩)]
    rw [create_all_moves_eq]
    rw [(create_placements_spec _ geo _ (placements geo pieces) (BuildState.start mem)).2.2.2]
    simp [BuildState.start, create_adj_status]
  · intro k hk
    simp only [BoardConst.cells]
    rw [hinfo k hk]
    rfl

/-! ## The sorting networks -/

theorem set_eq_self_of_getElem? {α : Type} (l : List α) (i : Nat) (a : α)
    (h : l[i]? = some a) : l.set i a = l := by
  apply List.ext_getElem?
  intro n
  rw [List.getElem?_set]
  by_cases hin : i = n
  · subst hin
    obtain ⟨h1, _⟩ := List.getElem?_eq_some_iff.mp h
    simp [h1, h]
  · simp [hin]

theorem set_set_perm {α : Type} [DecidableEq α] (l : List α) (a b : Nat) (u v : α)
    (ha : l[a]? = some u) (hb : l[b]? = some v) : ((l.set a v).set b u).Perm l := by
  obtain ⟨ha1, ha2⟩ := List.getElem?_eq_some_iff.mp ha
  obtain ⟨hb1, hb2⟩ := List.getElem?_eq_some_iff.mp hb
  by_cases hab : a = b
  · subst hab
    have huv : u = v := by rw [← ha2, ← hb2]
    subst huv
    rw [List.set_set, set_eq_self_of_getElem? l a u ha]
  · rw [List.perm_iff_count]
    intro x
    have hb3 : b < (l.set a v).length := by simpa using hb1
    rw [List.count_set _ _ _ _ hb3, List.count_set _ _ _ _ ha1]
    have e1 : (l.set a v)[b] = v := by
      rw [List.getElem_set_ne hab]; exact hb2
    rw [e1, ha2]
    have hu : (if (u == x) = true then 1 else 0) ≤ l.count x := by
      by_cases h : (u == x) = true
      · have hx : u = x := by simpa using h
        rw [if_pos h]
        apply List.count_pos_iff.mpr
        rw [← hx, ← ha2]
        exact List.getElem_mem _
      · rw [if_neg h]; omega
    omega

theorem check_perm {α : Type} [DecidableEq α] (gt : α → α → Bool) (l : List α)
    (ab : Nat × Nat) : (check gt l ab).Perm l := by
  unfold check
  cases ha : l[ab.1]? with
  | none => exact List.Perm.refl _
  | some u =>
    cases hb : l[ab.2]? with
    | none => exact List.Perm.refl _
    | some v =>
      simp only
      by_cases h : gt u v = true
      · rw [if_pos h]; exact set_set_perm l ab.1 ab.2 u v ha hb
      · rw [if_neg h]

theorem foldl_check_perm {α : Type} [DecidableEq α] (gt : α → α → Bool)
    (net : List (Nat × Nat)) : ∀ l : List α, (net.foldl (check gt) l).Perm l := by
  induction net with
  | nil => intro l; exact List.Perm.refl _
  | cons ab net ih =>
    intro l
    rw [List.foldl_cons]
    exact (ih _).trans (check_perm gt l ab)

/-- Both sorting routines return a permutation of their input. -/
theorem run_network_perm {α : Type} [DecidableEq α] (gt : α → α → Bool) (l : List α) :
    (run_network gt l).Perm l :=
  foldl_check_perm gt _ l

theorem check_map {α : Type} (gt : α → α → Bool) (f : α → Bool)
    (h1 : ∀ u v, gt u v = true → f v = true → f u = true)
    (h2 : ∀ u v, gt u v = false → f u = true → f v = true)
    (l : List α) (ab : Nat × Nat) :
    (check gt l ab).map f = check bool_gt (l.map f) ab := by
  unfold check
  rw [List.getElem?_map, List.getElem?_map]
  cases ha : l[ab.1]? with
  | none => simp
  | some u =>
    cases hb : l[ab.2]? with
    | none => simp
    | some v =>
      simp only [Option.map_some']
      obtain ⟨ha1, ha2⟩ := List.getElem?_eq_some_iff.mp ha
      obtain ⟨hb1, hb2⟩ := List.getElem?_eq_some_iff.mp hb
      by_cases h : gt u v = true
      · rw [if_pos h, List.map_set, List.map_set]
        by_cases hf : bool_gt (f u) (f v) = true
        · rw [if_pos hf]
        · rw [if_neg hf]
          have huv : f u = f v := by
            have := h1 u v h
            unfold bool_gt at hf
            cases hfu : f u <;> cases hfv : f v <;> simp_all
          have e1 : (l.map f).set ab.1 (f v) = l.map f := by
            apply set_eq_self_of_getElem?
            rw [List.getElem?_map, ha, ← huv]; rfl
          rw [e1]
          apply set_eq_self_of_getElem?
          rw [List.getElem?_map, hb, huv]; rfl
      · rw [if_neg h]
        have hf : ¬ bool_gt (f u) (f v) = true := by
          have := h2 u v (by simpa using h)
          unfold bool_gt
          cases hfu : f u <;> cases hfv : f v <;> simp_all
        rw [if_neg hf]

theorem foldl_check_map {α : Type} (gt : α → α → Bool) (f : α → Bool)
    (h1 : ∀ u v, gt u v = true → f v = true → f u = true)
    (h2 : ∀ u v, gt u v = false → f u = true → f v = true)
    (net : List (Nat × Nat)) :
    ∀ l : List α, (net.foldl (check gt) l).map f = net.foldl (check bool_gt) (l.map f) := by
  induction net with
  | nil => intro l; rfl
  | cons ab net ih =>
    intro l
    rw [List.foldl_cons, List.foldl_cons, ih, check_map gt f h1 h2]

theorem run_network_map {α : Type} (gt : α → α → Bool) (f : α → Bool)
    (h1 : ∀ u v, gt u v = true → f v = true → f u = true)
    (h2 : ∀ u v, gt u v = false → f u = true → f v = true) (l : List α) :
    (run_network gt l).map f = run_network bool_gt (l.map f) := by
  unfold run_network
  rw [foldl_check_map gt f h1 h2, List.length_map]

theorem mem_bool_lists : ∀ l : List Bool, l ∈ bool_lists l.length
  | [] => by simp [bool_lists]
  | b :: l => by
    simp only [List.length_cons, bool_lists, List.mem_flatMap]
    refine ⟨l, mem_bool_lists l, ?_⟩
    cases b <;> simp

set_option maxRecDepth 100000 in
theorem bool_network_sorts_aux :
    ∀ n, n < 8 → ∀ l ∈ bool_lists n, bool_sorted (run_network bool_gt l) = true := by
  decide

theorem bool_sorted_iff (l : List Bool) :
    bool_sorted l = true ↔ l.Pairwise (fun a b => a = true → b = true) := by
  induction l with
  | nil => simp [bool_sorted]
  | cons b l ih =>
    simp only [bool_sorted, List.pairwise_cons, Bool.and_eq_true, ih, Bool.or_eq_true,
      Bool.not_eq_true', List.all_eq_true, id]
    constructor
    · rintro ⟨h, hl⟩
      refine ⟨fun a ha hb => ?_, hl⟩
      rcases h with h | h
      · rw [h] at hb; exact absurd hb (by decide)
      · exact h a ha
    · rintro ⟨h, hl⟩
      refine ⟨?_, hl⟩
      cases b
      · exact Or.inl rfl
      · exact Or.inr (fun a ha => h a ha rfl)

theorem bool_network_sorts (l : List Bool) (h : l.length ≤ 7) :
    bool_sorted (run_network bool_gt l) = true :=
  bool_network_sorts_aux l.length (by omega) l (mem_bool_lists l)

/-- Both sorting routines sort every list of at most seven entries, when the
comparison is a strict weak order: afterwards no entry is greater than a later
one. -/
theorem run_network_sorted {α : Type} [DecidableEq α] (gt : α → α → Bool)
    (hirr : ∀ a, gt a a = false)
    (htrans : ∀ a b c, gt a b = true → gt b c = true → gt a c = true)
    (hneg : ∀ a b c, gt a c = true → gt a b = true ∨ gt b c = true)
    (l : List α) (hlen : l.length ≤ 7) :
    (run_network gt l).Pairwise (fun a b => gt a b = false) := by
  rw [List.pairwise_iff_getElem]
  intro i j hi hj hij
  by_contra hgt
  have hgt : gt (run_network gt l)[i] (run_network gt l)[j] = true := by simpa using hgt
  have hmap := run_network_map gt (fun x => !gt (run_network gt l)[i] x)
    (by
      intro u v huv hv
      simp only [Bool.not_eq_true'] at hv ⊢
      by_contra hc
      have hc : gt (run_network gt l)[i] u = true := by simpa using hc
      have := htrans _ _ _ hc huv
      rw [hv] at this; exact absurd this (by decide))
    (by
      intro u v huv hu
      simp only [Bool.not_eq_true'] at hu ⊢
      by_contra hc
      have hc : gt (run_network gt l)[i] v = true := by simpa using hc
      rcases hneg _ u _ hc with h | h
      · rw [hu] at h; exact absurd h (by decide)
      · rw [huv] at h; exact absurd h (by decide))
    l
  have hs := bool_network_sorts (l.map (fun x => !gt (run_network gt l)[i] x))
    (by simpa using hlen)
  rw [← hmap, bool_sorted_iff, List.pairwise_iff_getElem] at hs
  have := hs i j (by simpa using hi) (by simpa using hj) hij
  simp only [List.getElem_map, hirr, hgt] at this
  exact absurd (this rfl) (by decide)

theorem run_network_length {α : Type} [DecidableEq α] (gt : α → α → Bool) (l : List α) :
    (run_network gt l).length = l.length :=
  (run_network_perm gt l).length_eq

/-- The function `BoardConst::sort` orders at most seven points by
non-decreasing `compare_val`. -/
theorem sort_sorted (cv : Point → Nat) (l : List Point) (hlen : l.length ≤ 7) :
    (sort cv l).Pairwise (fun a b => cv a ≤ cv b) := by
  have := run_network_sorted (fun a b => decide (cv a > cv b))
    (by intro a; simp) (by intro a b c; simp; omega) (by intro a b c; simp; omega) l hlen
  refine this.imp ?_
  intro a b h
  simpa using h

theorem sort_perm (cv : Point → Nat) (l : List Point) : (sort cv l).Perm l :=
  run_network_perm _ l

/-- The function `sort_piece_points` orders at most seven coordinates by
decreasing `y` and, for equal `y`, by increasing `x`. -/
theorem sort_piece_points_sorted (l : List CoordPoint) (hlen : l.length ≤ 7) :
    (sort_piece_points l).Pairwise (fun a b => b.y < a.y ∨ (a.y = b.y ∧ a.x ≤ b.x)) := by
  have := run_network_sorted
    (fun a b : CoordPoint => (a.y == b.y && decide (a.x > b.x)) || decide (a.y < b.y))
    (by intro a; simp)
    (by intro a b c; simp; omega)
    (by intro a b c; simp; omega) l hlen
  refine this.imp ?_
  intro a b h
  simp at h
  omega

theorem sort_piece_points_perm (l : List CoordPoint) : (sort_piece_points l).Perm l :=
  run_network_perm _ l

/-! ## Created moves -/

theorem translate_some (geo : Geometry) (x y : Int) (cs : List CoordPoint) :
    ∀ pts, translate geo x y cs = some pts →
      pts = cs.map (fun c => geo.get_point (c.x + x) (c.y + y)) ∧
      ∀ c ∈ cs, geo.is_onboard ⟨c.x + x, c.y + y⟩ = true := by
  induction cs with
  | nil => intro pts h; simp [translate] at h; simp [h]
  | cons c cs ih =>
    intro pts h
    simp only [translate] at h
    by_cases hon : geo.is_onboard ⟨c.x + x, c.y + y⟩ = true
    · rw [if_pos hon] at h
      cases hr : translate geo x y cs with
      | none => rw [hr] at h; simp at h
      | some r =>
        rw [hr] at h
        simp only [Option.map_some', Option.some.injEq] at h
        obtain ⟨h1, h2⟩ := ih r hr
        subst h
        refine ⟨by rw [h1]; rfl, ?_⟩
        intro c' hc'
        rcases List.mem_cons.mp hc' with rfl | h'
        · exact hon
        · exact h2 c' h'
    · rw [if_neg hon] at h; simp at h

theorem translate_of_onboard (geo : Geometry) (x y : Int) (cs : List CoordPoint)
    (h : ∀ c ∈ cs, geo.is_onboard ⟨c.x + x, c.y + y⟩ = true) :
    translate geo x y cs = some (cs.map (fun c => geo.get_point (c.x + x) (c.y + y))) := by
  induction cs with
  | nil => rfl
  | cons c cs ih =>
    simp only [translate]
    rw [if_pos (h c (List.mem_cons_self _ _)), ih (fun c' hc' => h c' (List.mem_cons_of_mem _ hc'))]
    rfl

theorem placement_of_some (geo : Geometry) (i : Piece) (pc : PieceInfo) (p : Point)
    (t : Transform) (x : Placement) (h : placement_of geo i pc p t = some x) :
    t.get_new_point_type = geo.get_point_type (geo.get_x p) (geo.get_y p) ∧
    (∀ c ∈ transformed_points pc t,
      geo.is_onboard ⟨c.x + geo.get_x p, c.y + geo.get_y p⟩ = true) ∧
    x.piece = i ∧ x.size = pc.get_size ∧
    x.points = move_points_buffer geo (shift_points geo p (transformed_points pc t)) := by
  unfold placement_of at h
  by_cases hty : t.get_new_point_type ≠ geo.get_point_type (geo.get_x p) (geo.get_y p)
  · rw [if_pos hty] at h; simp at h
  · rw [if_neg hty] at h
    cases hr : translate geo (geo.get_x p) (geo.get_y p) (transformed_points pc t) with
    | none => rw [hr] at h; simp at h
    | some pts =>
      rw [hr] at h
      simp only [Option.map_some', Option.some.injEq] at h
      obtain ⟨h1, h2⟩ := translate_some geo _ _ _ pts hr
      subst h
      exact ⟨by simpa using hty, h2, rfl, rfl, by simp only [shift_points, h1]⟩

theorem mem_placements (geo : Geometry) (pieces : List PieceInfo) (x : Placement) :
    x ∈ placements geo pieces ↔
      ∃ i pc, pieces[i]? = some pc ∧ ∃ p ∈ geo.points, ∃ t ∈ pc.transforms,
        placement_of geo i pc p t = some x := by
  unfold placements placements_piece
  simp only [List.mem_flatMap, List.mem_filterMap, Prod.exists]
  constructor
  · rintro ⟨i, pc, hm, p, hp, t, ht, h⟩
    exact ⟨i, pc, List.mem_enum_iff_getElem?.mp hm, p, hp, t, ht, h⟩
  · rintro ⟨i, pc, hm, p, hp, t, ht, h⟩
    exact ⟨i, pc, List.mem_enum_iff_getElem?.mpr hm, p, hp, t, ht, h⟩

theorem transformed_points_length (pc : PieceInfo) (t : Transform) :
    (transformed_points pc t).length = pc.get_size := by
  unfold transformed_points
  rw [(sort_piece_points_perm _).length_eq, List.length_map]; rfl

theorem pts_move_points_buffer (geo : Geometry) (pts : List Point) :
    (move_points_buffer geo pts).take pts.length = pts := by
  unfold move_points_buffer
  simp

/-- Every created move is the placement of a piece of the catalog at an
anchor under one of its unique transforms: the transform fits the point type
of the anchor, all translated cells are on the board, and the move record
holds the piece, its size and the translated cells in the order of
`sort_piece_points`, padded with the null point. -/
theorem created_move_spec (nu_adj : Nat) (geo : Geometry) (pieces : List PieceInfo)
    (mem : Storage) (m : Nat)
    (hm : (BoardConst.create nu_adj geo pieces mem).is_created m) :
    ∃ i pc, pieces[i]? = some pc ∧ ∃ p ∈ geo.points, ∃ t ∈ pc.transforms,
      t.get_new_point_type = geo.get_point_type (geo.get_x p) (geo.get_y p) ∧
      (∀ c ∈ transformed_points pc t,
        geo.is_onboard ⟨c.x + geo.get_x p, c.y + geo.get_y p⟩ = true) ∧
      ((BoardConst.create nu_adj geo pieces mem).move_info m).piece = i ∧
      ((BoardConst.create nu_adj geo pieces mem).move_info m).size = pc.get_size ∧
      ((BoardConst.create nu_adj geo pieces mem).move_info m).points
        = move_points_buffer geo (shift_points geo p (transformed_points pc t)) ∧
      (BoardConst.create nu_adj geo pieces mem).cells m
        = shift_points geo p (transformed_points pc t) := by
  have h1 : 1 ≤ (m : Nat) := hm.1
  have h2 : (m : Nat) < (BoardConst.create nu_adj geo pieces mem).nu_moves := hm.2
  rw [create_nu_moves] at h2
  have hk : m - 1 < (placements geo pieces).length := by omega
  have hinfo := create_move_info nu_adj geo pieces mem (m - 1) hk
  rw [show 1 + (m - 1) = m by omega] at hinfo
  have hmem : (placements geo pieces)[m - 1] ∈ placements geo pieces := List.getElem_mem _
  obtain ⟨i, pc, hpc, p, hp, t, ht, hx⟩ := (mem_placements geo pieces _).mp hmem
  obtain ⟨a1, a2, a3, a4, a5⟩ := placement_of_some geo i pc p t _ hx
  refine ⟨i, pc, hpc, p, hp, t, ht, a1, a2, ?_, ?_, ?_, ?_⟩
  · rw [hinfo]; exact a3
  · rw [hinfo]; exact a4
  · rw [hinfo]; exact a5
  · unfold BoardConst.cells MoveInfo.pts
    rw [hinfo]
    show List.take (placements geo pieces)[m - 1].size (placements geo pieces)[m - 1].points = _
    rw [a4, a5]
    have : pc.get_size = (shift_points geo p (transformed_points pc t)).length := by
      simp [shift_points, transformed_points_length]
    rw [this, pts_move_points_buffer]

theorem mem_of_getElem?_eq_some {α : Type} {l : List α} {i : Nat} {a : α}
    (h : l[i]? = some a) : a ∈ l := by
  obtain ⟨h1, h2⟩ := List.getElem?_eq_some_iff.mp h
  rw [← h2]
  exact List.getElem_mem _

theorem coord_inj (geo : Geometry) (hgeo : geo.WellFormed) (c c' : CoordPoint)
    (h : geo.is_onboard c = true) (h' : geo.is_onboard c' = true)
    (e : geo.get_point c.x c.y = geo.get_point c'.x c'.y) : c = c' := by
  have hx := hgeo.x_of_onboard c h
  have hy := hgeo.y_of_onboard c h
  have hx' := hgeo.x_of_onboard c' h'
  have hy' := hgeo.y_of_onboard c' h'
  rw [e] at hx hy
  cases c; cases c'
  simp only [CoordPoint.mk.injEq]
  simp only at hx hy hx' hy'
  omega

theorem shift_points_nodup (geo : Geometry) (hgeo : geo.WellFormed) (p : Point)
    (cs : List CoordPoint) (hcs : cs.Nodup)
    (hon : ∀ c ∈ cs, geo.is_onboard ⟨c.x + geo.get_x p, c.y + geo.get_y p⟩ = true) :
    (shift_points geo p cs).Nodup := by
  unfold shift_points
  apply List.Nodup.map_on _ hcs
  intro c hc c' hc' e
  have := coord_inj geo hgeo ⟨c.x + geo.get_x p, c.y + geo.get_y p⟩
    ⟨c'.x + geo.get_x p, c'.y + geo.get_y p⟩ (hon c hc) (hon c' hc') e
  cases c; cases c'
  simp only [CoordPoint.mk.injEq] at this ⊢
  omega

theorem shift_points_subset (geo : Geometry) (hgeo : geo.WellFormed) (p : Point)
    (cs : List CoordPoint)
    (hon : ∀ c ∈ cs, geo.is_onboard ⟨c.x + geo.get_x p, c.y + geo.get_y p⟩ = true) :
    ∀ a ∈ shift_points geo p cs, a ∈ geo.points := by
  intro a ha
  unfold shift_points at ha
  obtain ⟨c, hc, rfl⟩ := List.mem_map.mp ha
  exact hgeo.mem_of_onboard _ (hon c hc)

theorem transformed_points_nodup (pc : PieceInfo) (hpc : pc.WellFormed) (t : Transform)
    (ht : t ∈ pc.transforms) : (transformed_points pc t).Nodup :=
  (sort_piece_points_perm _).nodup_iff.mpr (hpc.transformed_nodup t ht)

/-- The cells of a created move are distinct points of the board, as many as
its piece has cells, and its piece is a piece of the catalog. -/
theorem created_move_cells (nu_adj : Nat) (geo : Geometry) (pieces : List PieceInfo)
    (mem : Storage) (hgeo : geo.WellFormed) (hcat : ∀ pc ∈ pieces, pc.WellFormed) (m : Nat)
    (hm : (BoardConst.create nu_adj geo pieces mem).is_created m) :
    ((BoardConst.create nu_adj geo pieces mem).cells m).Nodup ∧
    (∀ a ∈ (BoardConst.create nu_adj geo pieces mem).cells m, a ∈ geo.points) ∧
    (∃ pc, pieces[((BoardConst.create nu_adj geo pieces mem).move_info m).piece]? = some pc ∧
      ((BoardConst.create nu_adj geo pieces mem).cells m).length = pc.get_size ∧
      ((BoardConst.create nu_adj geo pieces mem).move_info m).size = pc.get_size) := by
  obtain ⟨i, pc, hpc, p, hp, t, ht, a1, a2, a3, a4, a5, a6⟩ :=
    created_move_spec nu_adj geo pieces mem m hm
  have hmem : pc ∈ pieces := mem_of_getElem?_eq_some hpc
  refine ⟨?_, ?_, pc, ?_, ?_, a4⟩
  · rw [a6]
    exact shift_points_nodup geo hgeo p _ (transformed_points_nodup pc (hcat pc hmem) t ht) a2
  · rw [a6]
    exact shift_points_subset geo hgeo p _ a2
  · rw [a3]; exact hpc
  · rw [a6]; simp [shift_points, transformed_points_length]

theorem is_compatible_iff (s : AdjStatus) (marker : List Point) (p : Point) (j : Nat) :
    is_compatible_with_adj_status s marker p j = true ↔ ∀ a ∈ s p j, a ∉ marker := by
  unfold is_compatible_with_adj_status
  simp [List.all_eq_true]

/-- For a point of the board and a status below `2 ^ k`, the compatibility
test of `create_move` says that the move avoids the slots that the status
marks blocked. -/
theorem is_compatible_iff_avoids (nu_adj : Nat) (geo : Geometry) (pieces : List PieceInfo)
    (mem : Storage) (p : Point) (hp : p ∈ geo.points) (s : Nat)
    (hs : s < 2 ^ (adj_status_list nu_adj geo p).length) (m : Move) :
    is_compatible_with_adj_status (BoardConst.create nu_adj geo pieces mem).adj_status
        ((BoardConst.create nu_adj geo pieces mem).cells m) p s = true
      ↔ (BoardConst.create nu_adj geo pieces mem).avoids_blocked m p s := by
  rw [is_compatible_iff, create_adj_status, init_adj_status_spec, if_pos ⟨hp, hs⟩]
  unfold BoardConst.avoids_blocked BoardConst.slots
  show _ ↔ ∀ i, ∀ h : i < (adj_status_list nu_adj geo p).length, s.testBit i = true →
    (adj_status_list nu_adj geo p)[i] ∉ (BoardConst.create nu_adj geo pieces mem).cells m
  constructor
  · intro h i hi hb
    exact h _ ((mem_blocked_points _ _ _).mpr ⟨i, hi, hb, rfl⟩)
  · intro h a ha
    obtain ⟨i, hi, hb, rfl⟩ := (mem_blocked_points _ _ _).mp ha
    exact h i hi hb

theorem count_flatMap_self (F : Nat → List Nat) (hF : ∀ m x, x ∈ F m → x = m) (m : Nat) :
    ∀ l : List Nat, l.Nodup →
      (l.flatMap F).count m = if m ∈ l then (F m).count m else 0 := by
  intro l
  induction l with
  | nil => intro _; simp
  | cons a l ih =>
    intro hnd
    rw [List.nodup_cons] at hnd
    rw [List.flatMap_cons, List.count_append, ih hnd.2]
    by_cases hma : m = a
    · subst hma
      simp [hnd.1]
    · have h0 : (F a).count m = 0 := by
        apply List.count_eq_zero_of_not_mem
        intro hx
        exact hma (hF a m hx)
      simp [h0, hma]

theorem bucket_entries_self (nu : Nat) (s : AdjStatus) (j : Nat) (q : Piece) (p : Point)
    (mv : Move) (piece : Piece) (pts : List Point) (x : Nat)
    (hx : x ∈ bucket_entries nu s j q p mv piece pts) : x = mv := by
  unfold bucket_entries at hx
  split at hx
  · obtain ⟨_, _, rfl⟩ := List.mem_map.mp hx; rfl
  · simp at hx

theorem filter_eq_and (pts : List Point) (p : Point) (f : Point → Bool) :
    pts.filter (fun i => decide (i = p) && f i)
      = if f p = true then pts.filter (fun i => decide (i = p)) else [] := by
  induction pts with
  | nil => simp
  | cons a pts ih =>
    by_cases hf : f p = true
    · rw [if_pos hf] at ih ⊢
      by_cases ha : a = p
      · subst ha; simp [List.filter_cons, hf, ih]
      · simp [List.filter_cons, ha, ih]
    · rw [if_neg hf] at ih ⊢
      by_cases ha : a = p
      · subst ha; simp [List.filter_cons, hf, ih]
      · simp [List.filter_cons, ha, ih]

/-- How often a move occurs in a bucket. -/
theorem count_bucket (bc : BoardConst) (j : Nat) (q : Piece) (p : Point) (m : Nat) :
    (bucket bc j q p).count m
      = if bc.is_created m ∧ (bc.move_info m).piece = q ∧ j < nu_adj_status bc.nu_adj ∧
            is_compatible_with_adj_status bc.adj_status (bc.cells m) p j = true
        then (bc.cells m).count p else 0 := by
  unfold bucket
  rw [count_flatMap_self _ (fun m x hx => bucket_entries_self _ _ _ _ _ _ _ _ x hx) m _
    (List.nodup_range' _ _)]
  have hmem : m ∈ List.range' 1 (bc.nu_moves - 1) ↔ bc.is_created m := by
    rw [List.mem_range'_1]
    unfold BoardConst.is_created
    constructor
    · rintro ⟨h1, h2⟩; exact ⟨h1, by omega⟩
    · rintro ⟨h1, h2⟩; exact ⟨h1, by omega⟩
  by_cases hc : bc.is_created m
  swap
  · rw [if_neg (fun h => hc (hmem.mp h)), if_neg (fun h => hc h.1)]
  rw [if_pos (hmem.mpr hc)]
  unfold bucket_entries
  by_cases h1 : q = (bc.move_info m).piece ∧ j < nu_adj_status bc.nu_adj
  swap
  · rw [if_neg h1, if_neg]
    · simp
    · rintro ⟨_, h2, h3, _⟩
      exact h1 ⟨h2.symm, h3⟩
  rw [if_pos h1, filter_eq_and]
  by_cases h2 : is_compatible_with_adj_status bc.adj_status (bc.cells m) p j = true
  · rw [if_pos h2, if_pos ⟨hc, h1.1.symm, h1.2, h2⟩]
    rw [List.count_eq_countP p, List.countP_eq_length_filter]
    have : (List.map (fun _ => m) (List.filter (fun i => decide (i = p)) (bc.cells m)))
        = List.replicate (List.filter (fun i => decide (i = p)) (bc.cells m)).length m := by
      rw [List.eq_replicate_iff]
      simp
    rw [this, List.count_replicate_self]
    congr 2
  · rw [if_neg h2, if_neg (fun h => h2 h.2.2.2)]
    simp

/-! ## The small board is well formed -/

theorem row3_wf : row3.WellFormed where
  nodup := by decide
  null_not_mem := by decide
  onboard_coord := by decide
  point_coord := by decide
  mem_of_onboard := by
    intro c hc
    simp only [row3, decide_eq_true_eq] at hc
    obtain ⟨h1, h2, h3⟩ := hc
    have : c.x = 0 ∨ c.x = 1 ∨ c.x = 2 := by omega
    rcases this with h | h | h <;> simp [row3, h]
  x_of_onboard := by
    intro c hc
    simp only [row3, decide_eq_true_eq] at hc
    simp only [row3]
    omega
  y_of_onboard := by
    intro c hc
    simp only [row3, decide_eq_true_eq] at hc
    simp only [row3]
    omega
  x_lt := by decide
  y_lt := by decide

theorem row3_pieces_wf : ∀ pc ∈ row3_pieces, pc.WellFormed := by
  intro pc hpc
  simp only [row3_pieces, List.mem_cons, List.mem_singleton, List.not_mem_nil, or_false] at hpc
  rcases hpc with rfl | rfl
  · exact ⟨by decide, by decide, by decide⟩
  · exact ⟨by decide, by decide, by decide⟩

/-! ## The lookup of the static index -/

theorem pow_slots_le (nu_adj : Nat) (geo : Geometry) (p : Point) (s : Nat)
    (hs : s < 2 ^ (adj_status_list nu_adj geo p).length) : s < nu_adj_status nu_adj :=
  lt_of_lt_of_le hs (Nat.pow_le_pow_right (by decide) (adj_status_list_length_le nu_adj geo p))

/-- Membership in a bucket. -/
theorem mem_bucket (bc : BoardConst) (j : Nat) (q : Piece) (p : Point) (m : Nat) :
    m ∈ bucket bc j q p ↔
      bc.is_created m ∧ (bc.move_info m).piece = q ∧ j < nu_adj_status bc.nu_adj ∧
        is_compatible_with_adj_status bc.adj_status (bc.cells m) p j = true ∧
        p ∈ bc.cells m := by
  rw [← List.count_pos_iff, count_bucket]
  constructor
  · intro h
    split at h
    · rename_i hc
      exact ⟨hc.1, hc.2.1, hc.2.2.1, hc.2.2.2, List.count_pos_iff.mp h⟩
    · omega
  · rintro ⟨h1, h2, h3, h4, h5⟩
    rw [if_pos ⟨h1, h2, h3, h4⟩]
    exact List.count_pos_iff.mpr h5

/-- Membership in a lookup, for a point of the board, a status below `2 ^ k`
and a piece of the catalog. -/
theorem mem_get_moves (nu_adj : Nat) (geo : Geometry) (pieces : List PieceInfo)
    (mem : Storage) (p : Point) (hp : p ∈ geo.points) (s : Nat)
    (hs : s < 2 ^ (adj_status_list nu_adj geo p).length) (q : Piece) (hq : q < pieces.length)
    (m : Nat) :
    m ∈ (BoardConst.create nu_adj geo pieces mem).get_moves q p s ↔
      (BoardConst.create nu_adj geo pieces mem).is_created m ∧
      ((BoardConst.create nu_adj geo pieces mem).move_info m).piece = q ∧
      p ∈ (BoardConst.create nu_adj geo pieces mem).cells m ∧
      (BoardConst.create nu_adj geo pieces mem).avoids_blocked m p s := by
  have hs' := pow_slots_le nu_adj geo p s hs
  rw [get_moves_eq_bucket nu_adj geo pieces mem p s q hp hs' hq, mem_bucket,
    is_compatible_iff_avoids nu_adj geo pieces mem p hp s hs m]
  constructor
  · rintro ⟨h1, h2, _, h4, h5⟩; exact ⟨h1, h2, h5, h4⟩
  · rintro ⟨h1, h2, h5, h4⟩; exact ⟨h1, h2, hs', h4, h5⟩

theorem lt_two_pow_of_bits_subset (k s1 s2 : Nat) (hs2 : s2 < 2 ^ k)
    (hsub : ∀ i, s1.testBit i = true → s2.testBit i = true) : s1 < 2 ^ k := by
  apply Nat.lt_pow_two_of_testBit
  intro i hi
  by_contra hc
  have h1 : s1.testBit i = true := by simpa using hc
  have h2 := hsub i h1
  have : 2 ^ k ≤ 2 ^ i := Nat.pow_le_pow_right (by decide) hi
  rw [Nat.testBit_eq_false_of_lt (by omega)] at h2
  exact absurd h2 (by decide)

/-- C4: after `create_moves`, for a point `p` of the board with `k` neighbour
slots, a status `s < 2 ^ k` and a piece `q` of the catalog, `lookup(p, s, q)`
contains exactly the created moves of piece `q` that occupy `p` and none of the
slots of `p` whose bit is set in `s`, each of them exactly once (and every
other move not at all). -/
theorem lookup_exactly_once (nu_adj : Nat) (geo : Geometry) (pieces : List PieceInfo)
    (mem : Storage) (hgeo : geo.WellFormed) (hcat : ∀ pc ∈ pieces, pc.WellFormed)
    (p : Point) (hp : p ∈ geo.points) (s : Nat)
    (hs : s < 2 ^ (adj_status_list nu_adj geo p).length) (q : Piece) (hq : q < pieces.length)
    (m : Nat) :
    ((BoardConst.create nu_adj geo pieces mem).is_created m ∧
        ((BoardConst.create nu_adj geo pieces mem).move_info m).piece = q ∧
        p ∈ (BoardConst.create nu_adj geo pieces mem).cells m ∧
        (BoardConst.create nu_adj geo pieces mem).avoids_blocked m p s →
      ((BoardConst.create nu_adj geo pieces mem).get_moves q p s).count m = 1) ∧
    (¬ ((BoardConst.create nu_adj geo pieces mem).is_created m ∧
        ((BoardConst.create nu_adj geo pieces mem).move_info m).piece = q ∧
        p ∈ (BoardConst.create nu_adj geo pieces mem).cells m ∧
        (BoardConst.create nu_adj geo pieces mem).avoids_blocked m p s) →
      ((BoardConst.create nu_adj geo pieces mem).get_moves q p s).count m = 0) := by
  have hs' := pow_slots_le nu_adj geo p s hs
  rw [get_moves_eq_bucket nu_adj geo pieces mem p s q hp hs' hq, count_bucket]
  have hcomp := is_compatible_iff_avoids nu_adj geo pieces mem p hp s hs m
  constructor
  · rintro ⟨h1, h2, h3, h4⟩
    rw [if_pos ⟨h1, h2, hs', hcomp.mpr h4⟩]
    exact List.count_eq_one_of_mem (created_move_cells nu_adj geo pieces mem hgeo hcat m h1).1 h3
  · intro hn
    by_cases hc : (BoardConst.create nu_adj geo pieces mem).is_created m ∧
        ((BoardConst.create nu_adj geo pieces mem).move_info m).piece = q ∧
        s < nu_adj_status (BoardConst.create nu_adj geo pieces mem).nu_adj ∧
        is_compatible_with_adj_status (BoardConst.create nu_adj geo pieces mem).adj_status
          ((BoardConst.create nu_adj geo pieces mem).cells m) p s = true
    · rw [if_pos hc]
      apply List.count_eq_zero_of_not_mem
      intro h3
      exact hn ⟨hc.1, hc.2.1, h3, hcomp.mp hc.2.2.2⟩
    · rw [if_neg hc]

theorem lookup_exactly_once_witness :
    (row3_const.get_moves 1 1 1).count 5 = 1 ∧ (row3_const.get_moves 1 1 1).count 4 = 0 :=
  ⟨(lookup_exactly_once 2 row3 row3_pieces Storage.fresh row3_wf row3_pieces_wf 1 (by decide) 1
      (by decide) 1 (by decide) 5).1 (by decide),
   (lookup_exactly_once 2 row3 row3_pieces Storage.fresh row3_wf row3_pieces_wf 1 (by decide) 1
      (by decide) 1 (by decide) 4).2 (by decide)⟩

/-- Below `2 ^ k`, a status with fewer bits has the longer list. -/
theorem get_moves_subset_of_bits (nu_adj : Nat) (geo : Geometry) (pieces : List PieceInfo)
    (mem : Storage) (p : Point) (hp : p ∈ geo.points) (q : Piece) (hq : q < pieces.length)
    (s1 s2 : Nat) (hs2 : s2 < 2 ^ (adj_status_list nu_adj geo p).length)
    (hsub : ∀ i, s1.testBit i = true → s2.testBit i = true) (m : Nat)
    (hm : m ∈ (BoardConst.create nu_adj geo pieces mem).get_moves q p s2) :
    m ∈ (BoardConst.create nu_adj geo pieces mem).get_moves q p s1 := by
  have hs1 := lt_two_pow_of_bits_subset _ s1 s2 hs2 hsub
  rw [mem_get_moves nu_adj geo pieces mem p hp _ hs2 q hq] at hm
  rw [mem_get_moves nu_adj geo pieces mem p hp _ hs1 q hq]
  obtain ⟨h1, h2, h3, h4⟩ := hm
  exact ⟨h1, h2, h3, fun i hi hb => h4 i hi (hsub i hb)⟩

/-- C5, the claim as stated fails: on the small board the statuses 1 and 3 are
both below `nu_adj_status = 4` and the bits of 1 are among the bits of 3, but
the move 4 is in `lookup(a1, 3, piece 2)` and not in `lookup(a1, 1, piece 2)`.
The point `a1` has one neighbour slot only, so the status 3 is not below
`2 ^ 1`. -/
theorem lookup_monotone_counterexample :
    (1 < nu_adj_status row3_const.nu_adj ∧ 3 < nu_adj_status row3_const.nu_adj ∧
      ∀ i, Nat.testBit 1 i = true → Nat.testBit 3 i = true) ∧
    4 ∈ row3_const.get_moves 1 0 3 ∧ 4 ∉ row3_const.get_moves 1 0 1 := by
  refine ⟨⟨by decide, by decide, ?_⟩, by decide, by decide⟩
  intro i hi
  have : (1 : Nat) &&& 3 = 1 := by decide
  have h := congrArg (fun n => Nat.testBit n i) this
  simp only [Nat.testBit_and, hi, Bool.true_and] at h
  exact h

/-- C5, amended: for a point `p` of the board with `k` neighbour slots, a piece
`q` of the catalog and statuses `s1`, `s2` with `s2 < 2 ^ k` such that the set
bits of `s1` are among the set bits of `s2`, every move in `lookup(p, s2, q)`
is also in `lookup(p, s1, q)`. -/
theorem lookup_monotone (nu_adj : Nat) (geo : Geometry) (pieces : List PieceInfo)
    (mem : Storage) (p : Point) (hp : p ∈ geo.points) (q : Piece) (hq : q < pieces.length)
    (s1 s2 : Nat) (hs2 : s2 < 2 ^ (adj_status_list nu_adj geo p).length)
    (hsub : ∀ i, s1.testBit i = true → s2.testBit i = true) (m : Nat)
    (hm : m ∈ (BoardConst.create nu_adj geo pieces mem).get_moves q p s2) :
    m ∈ (BoardConst.create nu_adj geo pieces mem).get_moves q p s1 :=
  get_moves_subset_of_bits nu_adj geo pieces mem p hp q hq s1 s2 hs2 hsub m hm

theorem lookup_monotone_witness :
    5 ∈ row3_const.get_moves 1 1 1 ∧ 5 ∈ row3_const.get_moves 1 1 0 :=
  ⟨by decide,
   lookup_monotone 2 row3 row3_pieces Storage.fresh 1 (by decide) 1 (by decide) 0 1 (by decide)
    (by intro i hi; simp at hi) 5 (by decide)⟩

/-- C9, the claim as stated fails: on the small board the move 5 (cells `b1`,
`c1`) is in `lookup(b1, 1, piece 2)`; its cell `c1` has `b1` as its slot 0,
which the status 1 marks blocked relative to `c1`, and the move occupies `b1`.
Also the move 4 (cells `a1`, `b1`) is in `lookup(a1, 3, piece 2)` although the
status 3 marks slot 0 of `a1`, the point `b1`, blocked: the status 3 is not
below `2 ^ k` for the single slot of `a1`. -/
theorem lookup_sound_counterexample :
    (5 ∈ row3_const.get_moves 1 1 1 ∧ 2 ∈ row3_const.cells 5 ∧
      ¬ row3_const.avoids_blocked 5 2 1) ∧
    (4 ∈ row3_const.get_moves 1 0 3 ∧ 0 ∈ row3_const.cells 4 ∧
      ¬ row3_const.avoids_blocked 4 0 3) := by
  decide

/-- C9, amended: for a point `p` of the board with `k` neighbour slots, a
status `s < 2 ^ k` and a piece `q` of the catalog, every move returned by
`lookup(p, s, q)` occupies `p` and occupies none of the neighbour points of
`p` that `s` marks blocked (`s` read against the slot list of `p`). -/
theorem lookup_sound (nu_adj : Nat) (geo : Geometry) (pieces : List PieceInfo)
    (mem : Storage) (p : Point) (hp : p ∈ geo.points) (s : Nat)
    (hs : s < 2 ^ (adj_status_list nu_adj geo p).length) (q : Piece) (hq : q < pieces.length)
    (m : Nat) (hm : m ∈ (BoardConst.create nu_adj geo pieces mem).get_moves q p s) :
    p ∈ (BoardConst.create nu_adj geo pieces mem).cells m ∧
    (BoardConst.create nu_adj geo pieces mem).avoids_blocked m p s := by
  rw [mem_get_moves nu_adj geo pieces mem p hp _ hs q hq] at hm
  exact ⟨hm.2.2.1, hm.2.2.2⟩

theorem lookup_sound_witness :
    1 ∈ row3_const.cells 5 ∧ row3_const.avoids_blocked 5 1 1 :=
  lookup_sound 2 row3 row3_pieces Storage.fresh 1 (by decide) 1 (by decide) 1 (by decide) 5
    (by decide)

/-- C10, the claim as stated fails: on the small board the point `b1` has two
neighbour slots, the status 3 has all bits set, and `lookup(b1, 3, piece 1)`
holds the move 2, the one-cell piece on `b1`. -/
theorem lookup_all_blocked_counterexample :
    (row3_const.slots 1).length = 2 ∧ 3 = 2 ^ 2 - 1 ∧ 3 = nu_adj_status row3_const.nu_adj - 1 ∧
      row3_const.get_moves 0 1 3 = [2] := by
  decide

/-- C10, amended: for a point `p` of the board with `k` neighbour slots and a
piece `q` of the catalog, `lookup(p, 2 ^ k - 1, q)` (all slots of `p` blocked)
holds exactly the moves of `q` that occupy `p` and none of its neighbour
slots; so it is empty exactly when every move of `q` that occupies `p` also
occupies a neighbour slot of `p`. -/
theorem lookup_all_blocked (nu_adj : Nat) (geo : Geometry) (pieces : List PieceInfo)
    (mem : Storage) (p : Point) (hp : p ∈ geo.points) (q : Piece) (hq : q < pieces.length) :
    (∀ m, m ∈ (BoardConst.create nu_adj geo pieces mem).get_moves q p
          (2 ^ (adj_status_list nu_adj geo p).length - 1) ↔
        (BoardConst.create nu_adj geo pieces mem).is_created m ∧
        ((BoardConst.create nu_adj geo pieces mem).move_info m).piece = q ∧
        p ∈ (BoardConst.create nu_adj geo pieces mem).cells m ∧
        ∀ a ∈ adj_status_list nu_adj geo p,
          a ∉ (BoardConst.create nu_adj geo pieces mem).cells m) ∧
    ((BoardConst.create nu_adj geo pieces mem).get_moves q p
          (2 ^ (adj_status_list nu_adj geo p).length - 1) = [] ↔
      ∀ m, (BoardConst.create nu_adj geo pieces mem).is_created m →
        ((BoardConst.create nu_adj geo pieces mem).move_info m).piece = q →
        p ∈ (BoardConst.create nu_adj geo pieces mem).cells m →
        ∃ a ∈ adj_status_list nu_adj geo p,
          a ∈ (BoardConst.create nu_adj geo pieces mem).cells m) := by
  have hpos : 0 < 2 ^ (adj_status_list nu_adj geo p).length := Nat.two_pow_pos _
  have hs : 2 ^ (adj_status_list nu_adj geo p).length - 1
      < 2 ^ (adj_status_list nu_adj geo p).length := by omega
  have key : ∀ m, m ∈ (BoardConst.create nu_adj geo pieces mem).get_moves q p
          (2 ^ (adj_status_list nu_adj geo p).length - 1) ↔
        (BoardConst.create nu_adj geo pieces mem).is_created m ∧
        ((BoardConst.create nu_adj geo pieces mem).move_info m).piece = q ∧
        p ∈ (BoardConst.create nu_adj geo pieces mem).cells m ∧
        ∀ a ∈ adj_status_list nu_adj geo p,
          a ∉ (BoardConst.create nu_adj geo pieces mem).cells m := by
    intro m
    rw [mem_get_moves nu_adj geo pieces mem p hp _ hs q hq]
    have hav : (BoardConst.create nu_adj geo pieces mem).avoids_blocked m p
          (2 ^ (adj_status_list nu_adj geo p).length - 1) ↔
        ∀ a ∈ adj_status_list nu_adj geo p,
          a ∉ (BoardConst.create nu_adj geo pieces mem).cells m := by
      unfold BoardConst.avoids_blocked BoardConst.slots
      show (∀ i, ∀ h : i < (adj_status_list nu_adj geo p).length, _ →
        (adj_status_list nu_adj geo p)[i] ∉ _) ↔ _
      constructor
      · intro h a ha
        obtain ⟨i, hi, rfl⟩ := List.getElem_of_mem ha
        exact h i hi (by rw [Nat.testBit_two_pow_sub_one]; simpa using hi)
      · intro h i hi _
        exact h _ (List.getElem_mem _)
    rw [hav]
  refine ⟨key, ?_⟩
  rw [List.eq_nil_iff_forall_not_mem]
  constructor
  · intro h m h1 h2 h3
    by_contra hc
    push_neg at hc
    exact h m ((key m).mpr ⟨h1, h2, h3, hc⟩)
  · intro h m hm
    obtain ⟨h1, h2, h3, h4⟩ := (key m).mp hm
    obtain ⟨a, ha, ha'⟩ := h m h1 h2 h3
    exact h4 a ha ha'

theorem lookup_all_blocked_witness :
    row3_const.get_moves 1 1 (2 ^ 2 - 1) = [] ↔
      ∀ m, row3_const.is_created m → (row3_const.move_info m).piece = 1 →
        1 ∈ row3_const.cells m → ∃ a ∈ adj_status_list 2 row3 1, a ∈ row3_const.cells m :=
  (lookup_all_blocked 2 row3 row3_pieces Storage.fresh 1 (by decide) 1 (by decide)).2

/-! ## Finding moves -/

theorem equal_iff (a b : List Point) : equal a b = true ↔ a = b.take a.length := by
  induction a generalizing b with
  | nil => simp [equal]
  | cons x a ih =>
    cases b with
    | nil => simp [equal]
    | cons y b =>
      simp only [equal, Bool.and_eq_true, beq_iff_eq, ih, List.length_cons, List.take_succ_cons,
        List.cons.injEq]

/-- The value `compare_val` determines a point of the board. -/
theorem compare_val_inj (geo : Geometry) (hgeo : geo.WellFormed) (p p' : Point)
    (hp : p ∈ geo.points) (hp' : p' ∈ geo.points)
    (h : compare_val geo p = compare_val geo p') : p = p' := by
  unfold compare_val at h
  have hx := hgeo.x_lt p hp
  have hx' := hgeo.x_lt p' hp'
  have hy := hgeo.y_lt p hp
  have hy' := hgeo.y_lt p' hp'
  have hW : 0 < geo.width := by omega
  have h1 := congrArg (fun n => n / geo.width) h
  have h2 := congrArg (fun n => n % geo.width) h
  simp only at h1 h2
  rw [Nat.add_comm, Nat.add_mul_div_right _ _ hW, Nat.div_eq_of_lt hx, Nat.add_comm _ (geo.get_x p'),
    Nat.add_mul_div_right _ _ hW, Nat.div_eq_of_lt hx'] at h1
  rw [Nat.add_comm, Nat.add_mul_mod_self_right, Nat.mod_eq_of_lt hx, Nat.add_comm _ (geo.get_x p'),
    Nat.add_mul_mod_self_right, Nat.mod_eq_of_lt hx'] at h2
  have hyy : geo.get_y p = geo.get_y p' := by omega
  rw [← hgeo.point_coord p hp, ← hgeo.point_coord p' hp', h2, hyy]

/-- On the board, a point with a greater `y`, or with the same `y` and a
smaller `x`, has the smaller `compare_val`. -/
theorem compare_val_lt (geo : Geometry) (hgeo : geo.WellFormed) (p p' : Point)
    (hp : p ∈ geo.points) (hp' : p' ∈ geo.points)
    (h : geo.get_y p' < geo.get_y p ∨ (geo.get_y p = geo.get_y p' ∧ geo.get_x p < geo.get_x p')) :
    compare_val geo p < compare_val geo p' := by
  unfold compare_val
  have hx := hgeo.x_lt p hp
  have hx' := hgeo.x_lt p' hp'
  have hy := hgeo.y_lt p hp
  have hy' := hgeo.y_lt p' hp'
  rcases h with h | ⟨h1, h2⟩
  · have e : geo.height - geo.get_y p' - 1 = (geo.height - geo.get_y p - 1) + (geo.get_y p - geo.get_y p') := by
      omega
    rw [e, Nat.add_mul]
    have : geo.width ≤ (geo.get_y p - geo.get_y p') * geo.width :=
      Nat.le_mul_of_pos_left _ (by omega)
    omega
  · rw [h1]; omega

theorem sorted_unique (cv : Point → Nat) (l1 l2 : List Point) (hperm : l1.Perm l2)
    (hinj : ∀ a ∈ l1, ∀ b ∈ l1, cv a = cv b → a = b)
    (h1 : l1.Pairwise (fun a b => cv a ≤ cv b)) (h2 : l2.Pairwise (fun a b => cv a ≤ cv b)) :
    l1 = l2 := by
  have hm : l1.map cv = l2.map cv := by
    have s1 : (l1.map cv).Sorted LE.le := (List.pairwise_map).mpr h1
    have s2 : (l2.map cv).Sorted LE.le := (List.pairwise_map).mpr h2
    exact List.eq_of_perm_of_sorted (hperm.map cv) s1 s2
  apply List.ext_getElem hperm.length_eq
  intro i hi1 hi2
  apply hinj _ (List.getElem_mem _) _ (hperm.mem_iff.mpr (List.getElem_mem _))
  have := congrArg (fun l => l[i]?) hm
  simpa [hi1, hi2] using this

theorem shift_points_sorted (geo : Geometry) (hgeo : geo.WellFormed) (p : Point)
    (cs : List CoordPoint) (hnd : cs.Nodup)
    (hs : cs.Pairwise (fun a b => b.y < a.y ∨ (a.y = b.y ∧ a.x ≤ b.x)))
    (hon : ∀ c ∈ cs, geo.is_onboard ⟨c.x + geo.get_x p, c.y + geo.get_y p⟩ = true) :
    (shift_points geo p cs).Pairwise (fun a b => compare_val geo a < compare_val geo b) := by
  unfold shift_points
  rw [List.pairwise_map]
  have hboth := hs.and hnd
  refine hboth.imp_of_mem ?_
  intro c c' hc hc' ⟨h1, h2⟩
  have o := hon c hc
  have o' := hon c' hc'
  have hx := hgeo.x_of_onboard _ o
  have hy := hgeo.y_of_onboard _ o
  have hx' := hgeo.x_of_onboard _ o'
  have hy' := hgeo.y_of_onboard _ o'
  simp only at hx hy hx' hy'
  apply compare_val_lt geo hgeo _ _ (hgeo.mem_of_onboard _ o) (hgeo.mem_of_onboard _ o')
  simp only
  have hne : c.x ≠ c'.x ∨ c.y ≠ c'.y := by
    by_contra hc2
    push_neg at hc2
    apply h2
    cases c; cases c'
    simp only [CoordPoint.mk.injEq]
    exact hc2
  omega

theorem transformed_points_sorted (pc : PieceInfo) (hpc : pc.WellFormed) (t : Transform) :
    (transformed_points pc t).Pairwise (fun a b => b.y < a.y ∨ (a.y = b.y ∧ a.x ≤ b.x)) := by
  unfold transformed_points
  apply sort_piece_points_sorted
  rw [List.length_map]
  exact hpc.size_le

/-- The cells of a created move are stored in strictly increasing order of
`compare_val`. -/
theorem created_move_sorted (nu_adj : Nat) (geo : Geometry) (pieces : List PieceInfo)
    (mem : Storage) (hgeo : geo.WellFormed) (hcat : ∀ pc ∈ pieces, pc.WellFormed) (m : Nat)
    (hm : (BoardConst.create nu_adj geo pieces mem).is_created m) :
    ((BoardConst.create nu_adj geo pieces mem).cells m).Pairwise
      (fun a b => compare_val geo a < compare_val geo b) := by
  obtain ⟨i, pc, hpc, p, hp, t, ht, a1, a2, a3, a4, a5, a6⟩ :=
    created_move_spec nu_adj geo pieces mem m hm
  have hmem : pc ∈ pieces := mem_of_getElem?_eq_some hpc
  rw [a6]
  exact shift_points_sorted geo hgeo p _ (transformed_points_nodup pc (hcat pc hmem) t ht)
    (transformed_points_sorted pc (hcat pc hmem) t) a2

theorem bucket_entries_eq (nu : Nat) (s : AdjStatus) (j : Nat) (q : Piece) (p : Point)
    (mv : Move) (piece : Piece) (pts : List Point) (hnd : pts.Nodup) :
    bucket_entries nu s j q p mv piece pts
      = if (q = piece ∧ j < nu) ∧ is_compatible_with_adj_status s pts p j = true ∧ p ∈ pts
        then [mv] else [] := by
  unfold bucket_entries
  by_cases h1 : q = piece ∧ j < nu
  swap
  · rw [if_neg h1, if_neg (fun h => h1 h.1)]
  rw [if_pos h1, filter_eq_and]
  by_cases h2 : is_compatible_with_adj_status s pts p j = true
  swap
  · rw [if_neg h2, if_neg (fun h => h2 h.2.1)]; rfl
  rw [if_pos h2]
  have hlen : (pts.filter (fun i => decide (i = p))).length = pts.count p := by
    rw [List.count_eq_countP p, List.countP_eq_length_filter]
    congr 2
  by_cases h3 : p ∈ pts
  · rw [if_pos ⟨h1, h2, h3⟩]
    have h1c := List.count_eq_one_of_mem hnd h3
    rw [h1c] at hlen
    obtain ⟨a, ha⟩ := List.length_eq_one.mp hlen
    rw [ha]; rfl
  · rw [if_neg (fun h => h3 h.2.2)]
    have h0 := List.count_eq_zero_of_not_mem h3
    rw [h0] at hlen
    rw [List.length_eq_zero.mp hlen]; rfl

theorem flatMap_ite_singleton (c : Nat → Bool) (l : List Nat) :
    l.flatMap (fun m => if c m = true then [m] else []) = l.filter c := by
  induction l with
  | nil => rfl
  | cons a l ih =>
    rw [List.flatMap_cons, ih, List.filter_cons]
    by_cases h : c a = true
    · simp [h]
    · simp [h]

/-- When the cells of every created move are distinct, a bucket is the list of
created moves, in increasing identity, that pass the bucket test. -/
theorem bucket_eq_filter (bc : BoardConst) (hnd : ∀ m, bc.is_created m → (bc.cells m).Nodup)
    (j : Nat) (q : Piece) (p : Point) :
    bucket bc j q p = (List.range' 1 (bc.nu_moves - 1)).filter (in_bucket bc j q p) := by
  unfold bucket
  rw [← flatMap_ite_singleton]
  apply List.flatMap_congr
  intro m hm
  have hc : bc.is_created m := by
    rw [List.mem_range'_1] at hm
    exact ⟨hm.1, by omega⟩
  rw [bucket_entries_eq _ _ _ _ _ _ _ _ (hnd m hc)]
  unfold in_bucket
  by_cases h1 : q = (bc.move_info m).piece ∧ j < nu_adj_status bc.nu_adj <;>
  by_cases h2 : is_compatible_with_adj_status bc.adj_status (bc.cells m) p j = true <;>
  by_cases h3 : p ∈ bc.cells m <;> simp [h1, h2, h3]

theorem find?_congr_mem {α : Type} (p q : α → Bool) (l : List α)
    (h : ∀ x ∈ l, p x = q x) : l.find? p = l.find? q := by
  induction l with
  | nil => rfl
  | cons a l ih =>
    rw [List.find?_cons, List.find?_cons, h a (List.mem_cons_self _ _),
      ih (fun x hx => h x (List.mem_cons_of_mem _ hx))]

theorem findSome?_congr_mem {α β : Type} (f g : α → Option β) (l : List α)
    (h : ∀ x ∈ l, f x = g x) : l.findSome? f = l.findSome? g := by
  induction l with
  | nil => rfl
  | cons a l ih =>
    rw [List.findSome?_cons, List.findSome?_cons, h a (List.mem_cons_self _ _),
      ih (fun x hx => h x (List.mem_cons_of_mem _ hx))]

theorem blocked_points_zero (l : List Point) : blocked_points l 0 = [] := by
  unfold blocked_points
  simp

/-- At status 0 every move is compatible, at every point of the board. -/
theorem is_compatible_zero (nu_adj : Nat) (geo : Geometry) (pieces : List PieceInfo)
    (mem : Storage) (p : Point) (hp : p ∈ geo.points) (marker : List Point) :
    is_compatible_with_adj_status (BoardConst.create nu_adj geo pieces mem).adj_status
      marker p 0 = true := by
  rw [is_compatible_iff, create_adj_status, init_adj_status_spec,
    if_pos ⟨hp, Nat.two_pow_pos _⟩, blocked_points_zero]
  intro a ha
  simp at ha

theorem created_of_mem_range (bc : BoardConst) (m : Nat)
    (hm : m ∈ List.range' 1 (bc.nu_moves - 1)) : bc.is_created m := by
  rw [List.mem_range'_1] at hm
  exact ⟨hm.1, by omega⟩

theorem mem_range_of_created (bc : BoardConst) (m : Nat) (hm : bc.is_created m) :
    m ∈ List.range' 1 (bc.nu_moves - 1) := by
  rw [List.mem_range'_1]
  exact ⟨hm.1, by have := hm.2; omega⟩

/-- For distinct points of the board, at most `max_size` of them, `find_move`
returns the first created move, in catalog order of the pieces of the right
size, whose cells are the sorted points. -/
theorem find_move_eq (nu_adj : Nat) (geo : Geometry) (pieces : List PieceInfo)
    (mem : Storage) (hgeo : geo.WellFormed) (hcat : ∀ pc ∈ pieces, pc.WellFormed)
    (points : List Point) (hne : points ≠ [])
    (hon : ∀ a ∈ points, a ∈ geo.points) :
    find_move (BoardConst.create nu_adj geo pieces mem) points
      = first_move_with_cells (BoardConst.create nu_adj geo pieces mem) points := by
  cases points with
  | nil => exact absurd rfl hne
  | cons p0 rest =>
    unfold find_move first_move_with_cells
    simp only
    apply findSome?_congr_mem
    rintro ⟨i, pc⟩ hip
    have hpc : pieces[i]? = some pc := List.mem_enum_iff_getElem?.mp hip
    have hi : i < pieces.length := (List.getElem?_eq_some_iff.mp hpc).1
    simp only
    by_cases hsz : pc.get_size ≠ (p0 :: rest).length
    · rw [if_pos hsz, if_pos hsz]
    rw [if_neg hsz, if_neg hsz]
    have hsz : pc.get_size = (p0 :: rest).length := by simpa using hsz
    have hp0 : p0 ∈ geo.points := hon p0 (List.mem_cons_self _ _)
    have hnd : ∀ m, (BoardConst.create nu_adj geo pieces mem).is_created m →
        ((BoardConst.create nu_adj geo pieces mem).cells m).Nodup :=
      fun m hm => (created_move_cells nu_adj geo pieces mem hgeo hcat m hm).1
    unfold find_in_moves
    rw [get_moves_eq_bucket nu_adj geo pieces mem p0 0 i hp0 (Nat.two_pow_pos _) hi,
      bucket_eq_filter _ hnd, List.find?_filter]
    apply find?_congr_mem
    intro m hm
    have hc := created_of_mem_range _ m hm
    obtain ⟨_, _, pc', hpc', hlen', hsize'⟩ :=
      created_move_cells nu_adj geo pieces mem hgeo hcat m hc
    have hgeo' : (BoardConst.create nu_adj geo pieces mem).geo = geo := rfl
    rw [hgeo']
    have hsl : (sort (compare_val geo) (p0 :: rest)).length = (p0 :: rest).length :=
      (sort_perm _ _).length_eq
    have hcells : (BoardConst.create nu_adj geo pieces mem).cells m
        = ((BoardConst.create nu_adj geo pieces mem).move_info m).points.take
            ((BoardConst.create nu_adj geo pieces mem).move_info m).size := rfl
    by_cases hq : ((BoardConst.create nu_adj geo pieces mem).move_info m).piece = i
    swap
    · have hq' : ¬ i = ((BoardConst.create nu_adj geo pieces mem).move_info m).piece :=
        fun h => hq h.symm
      simp [in_bucket, hq, hq']
    have hpceq : pc' = pc := by
      rw [hq, hpc] at hpc'
      exact (Option.some.inj hpc').symm
    subst hpceq
    by_cases hcs : (BoardConst.create nu_adj geo pieces mem).cells m
        = sort (compare_val geo) (p0 :: rest)
    · have h1 : equal (sort (compare_val geo) (p0 :: rest))
          ((BoardConst.create nu_adj geo pieces mem).move_info m).points = true := by
        rw [equal_iff, hsl, ← hsz, ← hsize', ← hcells, hcs]
      have h2 : p0 ∈ (BoardConst.create nu_adj geo pieces mem).cells m := by
        rw [hcs]
        exact (sort_perm _ _).mem_iff.mpr (List.mem_cons_self _ _)
      have h3 := is_compatible_zero nu_adj geo pieces mem p0 hp0
        ((BoardConst.create nu_adj geo pieces mem).cells m)
      have h4 : 0 < nu_adj_status (BoardConst.create nu_adj geo pieces mem).nu_adj :=
        Nat.two_pow_pos _
      have hb : in_bucket (BoardConst.create nu_adj geo pieces mem) 0 i p0 m = true := by
        unfold in_bucket
        rw [h3]
        simp only [Bool.and_eq_true, decide_eq_true_eq, Bool.true_and]
        exact ⟨⟨hq.symm, h4⟩, h2⟩
      rw [hb, h1]
      simp [hq, hcs]
    · have h1 : ¬ equal (sort (compare_val geo) (p0 :: rest))
          ((BoardConst.create nu_adj geo pieces mem).move_info m).points = true := by
        intro h
        rw [equal_iff, hsl, ← hsz, ← hsize', ← hcells] at h
        exact hcs h.symm
      simp [hq, hcs, h1]

/-- A list of distinct board points with the same elements as the cells of a
created move sorts to the cells of the move. -/
theorem sort_eq_cells (nu_adj : Nat) (geo : Geometry) (pieces : List PieceInfo)
    (mem : Storage) (hgeo : geo.WellFormed) (hcat : ∀ pc ∈ pieces, pc.WellFormed)
    (points : List Point) (hlen : points.length ≤ max_size) (hnd : points.Nodup)
    (m : Nat) (hm : (BoardConst.create nu_adj geo pieces mem).is_created m)
    (hset : ∀ a, a ∈ (BoardConst.create nu_adj geo pieces mem).cells m ↔ a ∈ points) :
    (BoardConst.create nu_adj geo pieces mem).cells m = sort (compare_val geo) points := by
  obtain ⟨c1, c2, _⟩ := created_move_cells nu_adj geo pieces mem hgeo hcat m hm
  have hperm : ((BoardConst.create nu_adj geo pieces mem).cells m).Perm
      (sort (compare_val geo) points) :=
    ((List.perm_ext_iff_of_nodup c1 hnd).mpr hset).trans (sort_perm _ _).symm
  apply sorted_unique (compare_val geo) _ _ hperm
  · intro a ha b hb h
    exact compare_val_inj geo hgeo a b (c2 a ha) (c2 b hb) h
  · exact (created_move_sorted nu_adj geo pieces mem hgeo hcat m hm).imp (fun h => Nat.le_of_lt h)
  · exact sort_sorted _ _ hlen

theorem first_move_with_cells_some (bc : BoardConst) (points : List Point) (mv : Move)
    (h : first_move_with_cells bc points = some mv) :
    bc.is_created mv ∧ bc.cells mv = sort (compare_val bc.geo) points := by
  unfold first_move_with_cells at h
  obtain ⟨ip, _, hf⟩ := List.exists_of_findSome?_eq_some h
  by_cases hsz : ip.2.get_size ≠ points.length
  · rw [if_pos hsz] at hf; exact absurd hf (by simp)
  · rw [if_neg hsz] at hf
    have h1 := List.mem_of_find?_eq_some hf
    have h2 := List.find?_some hf
    simp only [Bool.and_eq_true, decide_eq_true_eq] at h2
    exact ⟨created_of_mem_range bc mv h1, h2.2⟩

/-- The result of `find_move` on distinct points of the board. -/
theorem find_move_facts (nu_adj : Nat) (geo : Geometry) (pieces : List PieceInfo)
    (mem : Storage) (hgeo : geo.WellFormed) (hcat : ∀ pc ∈ pieces, pc.WellFormed)
    (points : List Point) (hne : points ≠ []) (hlen : points.length ≤ max_size)
    (hnd : points.Nodup) (hon : ∀ a ∈ points, a ∈ geo.points) :
    (∀ mv, find_move (BoardConst.create nu_adj geo pieces mem) points = some mv →
      (BoardConst.create nu_adj geo pieces mem).is_created mv ∧
      ∀ a, a ∈ (BoardConst.create nu_adj geo pieces mem).cells mv ↔ a ∈ points) ∧
    (find_move (BoardConst.create nu_adj geo pieces mem) points = none ↔
      ¬ ∃ m, (BoardConst.create nu_adj geo pieces mem).is_created m ∧
        ∀ a, a ∈ (BoardConst.create nu_adj geo pieces mem).cells m ↔ a ∈ points) ∧
    (∀ points' : List Point, points'.Perm points →
      find_move (BoardConst.create nu_adj geo pieces mem) points'
        = find_move (BoardConst.create nu_adj geo pieces mem) points) := by
  have hfm := find_move_eq nu_adj geo pieces mem hgeo hcat points hne hon
  have part1 : ∀ mv, find_move (BoardConst.create nu_adj geo pieces mem) points = some mv →
      (BoardConst.create nu_adj geo pieces mem).is_created mv ∧
      ∀ a, a ∈ (BoardConst.create nu_adj geo pieces mem).cells mv ↔ a ∈ points := by
    intro mv h
    rw [hfm] at h
    obtain ⟨h1, h2⟩ := first_move_with_cells_some _ _ _ h
    refine ⟨h1, fun a => ?_⟩
    rw [h2]
    exact (sort_perm _ _).mem_iff
  refine ⟨part1, ?_, ?_⟩
  · constructor
    · rintro h ⟨m, hm, hset⟩
      have hcs := sort_eq_cells nu_adj geo pieces mem hgeo hcat points hlen hnd m hm hset
      obtain ⟨c1, c2, pc, hpc, hl, _⟩ := created_move_cells nu_adj geo pieces mem hgeo hcat m hm
      rw [hfm] at h
      unfold first_move_with_cells at h
      rw [List.findSome?_eq_none_iff] at h
      have hmem : (((BoardConst.create nu_adj geo pieces mem).move_info m).piece, pc)
          ∈ (BoardConst.create nu_adj geo pieces mem).pieces.enum :=
        List.mem_enum_iff_getElem?.mpr hpc
      have := h _ hmem
      simp only at this
      have hsz : ¬ pc.get_size ≠ points.length := by
        rw [← hl, hcs, (sort_perm _ _).length_eq]; simp
      rw [if_neg hsz, List.find?_eq_none] at this
      apply this m (mem_range_of_created _ m hm)
      simp only [Bool.and_eq_true, decide_eq_true_eq]
      exact ⟨trivial, hcs⟩
    · intro h
      by_contra hc
      obtain ⟨mv, hmv⟩ := Option.ne_none_iff_exists'.mp hc
      exact h ⟨mv, part1 mv hmv⟩
  · intro points' hperm
    have hne' : points' ≠ [] := by
      intro h; rw [h] at hperm; exact hne hperm.symm.eq_nil
    have hon' : ∀ a ∈ points', a ∈ geo.points := fun a ha => hon a (hperm.mem_iff.mp ha)
    rw [hfm, find_move_eq nu_adj geo pieces mem hgeo hcat points' hne' hon']
    have hs : sort (compare_val geo) points' = sort (compare_val geo) points := by
      apply sorted_unique (compare_val geo)
      · exact ((sort_perm _ _).trans hperm).trans (sort_perm _ _).symm
      · intro a ha b hb h
        exact compare_val_inj geo hgeo a b (hon' a ((sort_perm _ _).mem_iff.mp ha))
          (hon' b ((sort_perm _ _).mem_iff.mp hb)) h
      · exact sort_sorted _ _ (by rw [hperm.length_eq]; exact hlen)
      · exact sort_sorted _ _ hlen
    unfold first_move_with_cells
    have hgeo' : (BoardConst.create nu_adj geo pieces mem).geo = geo := rfl
    rw [hgeo', hs, hperm.length_eq]

/-- C2: for every non-empty list of at most 7 distinct points of the board,
`find_move(points, move)` returns true exactly when some created move has
exactly that set of cells, and then `move` is a created move with that set of
cells; otherwise it returns false.  The result is the same for every order
of the points. -/
theorem find_move_correct (nu_adj : Nat) (geo : Geometry) (pieces : List PieceInfo)
    (mem : Storage) (hgeo : geo.WellFormed) (hcat : ∀ pc ∈ pieces, pc.WellFormed)
    (points : List Point) (hne : points ≠ []) (hlen : points.length ≤ max_size)
    (hnd : points.Nodup) (hon : ∀ a ∈ points, a ∈ geo.points) :
    (∀ mv, find_move (BoardConst.create nu_adj geo pieces mem) points = some mv →
      (BoardConst.create nu_adj geo pieces mem).is_created mv ∧
      ∀ a, a ∈ (BoardConst.create nu_adj geo pieces mem).cells mv ↔ a ∈ points) ∧
    (find_move (BoardConst.create nu_adj geo pieces mem) points = none ↔
      ¬ ∃ m, (BoardConst.create nu_adj geo pieces mem).is_created m ∧
        ∀ a, a ∈ (BoardConst.create nu_adj geo pieces mem).cells m ↔ a ∈ points) ∧
    (∀ points' : List Point, points'.Perm points →
      find_move (BoardConst.create nu_adj geo pieces mem) points'
        = find_move (BoardConst.create nu_adj geo pieces mem) points) :=
  find_move_facts nu_adj geo pieces mem hgeo hcat points hne hlen hnd hon

theorem find_move_correct_witness :
    find_move row3_const [1, 0] = some 4 ∧ row3_const.is_created 4 ∧
      (∀ a, a ∈ row3_const.cells 4 ↔ a ∈ [1, 0]) ∧
      find_move row3_const [0, 1] = find_move row3_const [1, 0] :=
  have h := find_move_correct 2 row3 row3_pieces Storage.fresh row3_wf row3_pieces_wf [1, 0]
    (by decide) (by decide) (by decide) (by decide)
  ⟨by decide, (h.1 4 (by decide)).1, (h.1 4 (by decide)).2,
    h.2.2 [0, 1] (List.Perm.swap 1 0 [])⟩

/-- C3: the piece-constrained `find_move` at the point list `a1` and the piece
`2` of the small board returns true with the move 4, whose cells are `a1` and
`b1`: two cells for a list of one point. -/
theorem find_move_piece_short_list :
    find_move_piece row3_const [0] 1 = some 4 ∧ row3_const.cells 4 = [0, 1] ∧
      (row3_const.move_info 4).piece = 1 := by
  decide

/-! ## Uniqueness of placements -/

theorem shift_points_eq_imp (geo : Geometry) (hgeo : geo.WellFormed) (p p' : Point)
    (cs : List CoordPoint) :
    ∀ cs' : List CoordPoint,
      (∀ c ∈ cs, geo.is_onboard ⟨c.x + geo.get_x p, c.y + geo.get_y p⟩ = true) →
      (∀ c ∈ cs', geo.is_onboard ⟨c.x + geo.get_x p', c.y + geo.get_y p'⟩ = true) →
      shift_points geo p cs = shift_points geo p' cs' →
      cs' = cs.map (fun c => ⟨c.x + ((geo.get_x p : Int) - geo.get_x p'),
        c.y + ((geo.get_y p : Int) - geo.get_y p')⟩) := by
  induction cs with
  | nil =>
    intro cs' _ _ h
    cases cs' with
    | nil => rfl
    | cons c' cs' => simp [shift_points] at h
  | cons c cs ih =>
    intro cs' hon hon' h
    cases cs' with
    | nil => simp [shift_points] at h
    | cons c' cs' =>
      simp only [shift_points, List.map_cons, List.cons.injEq] at h
      have e := coord_inj geo hgeo _ _ (hon c (List.mem_cons_self _ _))
        (hon' c' (List.mem_cons_self _ _)) h.1
      have ih' := ih cs' (fun c hc => hon c (List.mem_cons_of_mem _ hc))
        (fun c hc => hon' c (List.mem_cons_of_mem _ hc)) h.2
      rw [List.map_cons, ← ih']
      congr 1
      cases c; cases c'
      simp only [CoordPoint.mk.injEq] at e ⊢
      omega

theorem normalized_map_add (cs : List CoordPoint) (dx dy : Int) :
    normalized (cs.map (fun c => ⟨c.x + dx, c.y + dy⟩)) = normalized cs := by
  unfold normalized
  cases cs with
  | nil => rfl
  | cons c0 cs =>
    simp only [List.map_cons, List.headD_cons, List.map_map, List.cons.injEq,
      CoordPoint.mk.injEq]
    refine ⟨⟨by omega, by omega⟩, ?_⟩
    apply List.map_congr_left
    intro c _
    simp only [Function.comp, CoordPoint.mk.injEq]
    constructor <;> omega

theorem placement_pts (geo : Geometry) (i : Piece) (pc : PieceInfo) (p : Point) (t : Transform)
    (x : Placement) (h : placement_of geo i pc p t = some x) :
    x.pts = shift_points geo p (transformed_points pc t) := by
  obtain ⟨_, _, _, a4, a5⟩ := placement_of_some geo i pc p t x h
  unfold Placement.pts
  rw [a4, a5]
  have : pc.get_size = (shift_points geo p (transformed_points pc t)).length := by
    simp [shift_points, transformed_points_length]
  rw [this, pts_move_points_buffer]

theorem can_coincide_symm (geo : Geometry) (pc pc' : PieceInfo) (t t' : Transform)
    (h : can_coincide geo pc t pc' t') : can_coincide geo pc' t' pc t := by
  obtain ⟨x, y, x', y', h1, h2, h3⟩ := h
  exact ⟨x', y', x, y, h2, h1, h3.symm⟩

/-- Shapes that can be laid on the same cells are equal up to translation. -/
theorem normalized_eq_of_can_coincide (geo : Geometry) (pc pc' : PieceInfo) (t t' : Transform)
    (h : can_coincide geo pc t pc' t') :
    normalized (transformed_points pc t) = normalized (transformed_points pc' t') := by
  obtain ⟨x, y, x', y', _, _, h3⟩ := h
  rw [← normalized_map_add (transformed_points pc t) x y,
    ← normalized_map_add (transformed_points pc' t') x' y', h3]

/-- A catalog whose shapes differ up to translation has unique placements on
every geometry. -/
theorem CatalogDistinct.to_unique {pieces : List PieceInfo} (h : CatalogDistinct pieces)
    (geo : Geometry) : CatalogUnique geo pieces where
  transforms := fun pc hpc =>
    (h.transforms pc hpc).imp
      (fun hne hc => hne (normalized_eq_of_can_coincide geo _ _ _ _ hc))
  shapes :=
    h.shapes.imp
      (fun hne t ht t' ht' hc => hne t ht t' ht' (normalized_eq_of_can_coincide geo _ _ _ _ hc))

/-- Two placements with the same cells have shapes that can be laid on the
same cells, and the same anchor when their shapes are equal. -/
theorem same_cells_imp (geo : Geometry) (hgeo : geo.WellFormed) (i i' : Piece)
    (pc pc' : PieceInfo) (hpc : pc.WellFormed) (p p' : Point) (hp : p ∈ geo.points)
    (hp' : p' ∈ geo.points) (t t' : Transform) (x y : Placement)
    (hx : placement_of geo i pc p t = some x) (hy : placement_of geo i' pc' p' t' = some y)
    (h : x.pts = y.pts) :
    can_coincide geo pc t pc' t' ∧
    (transformed_points pc t = transformed_points pc' t' → p = p') := by
  rw [placement_pts geo i pc p t x hx, placement_pts geo i' pc' p' t' y hy] at h
  obtain ⟨ht, hon, _⟩ := placement_of_some geo i pc p t x hx
  obtain ⟨ht', hon', _⟩ := placement_of_some geo i' pc' p' t' y hy
  have e := shift_points_eq_imp geo hgeo p p' _ _ hon hon' h
  constructor
  · refine ⟨geo.get_x p, geo.get_y p, geo.get_x p', geo.get_y p', ht, ht', ?_⟩
    rw [e, List.map_map]
    apply List.map_congr_left
    intro c _
    simp only [Function.comp, CoordPoint.mk.injEq]
    constructor <;> omega
  · intro hsame
    rw [← hsame] at e
    have hlen : 0 < (transformed_points pc t).length := by
      rw [transformed_points_length]; exact hpc.size_pos
    obtain ⟨c0, rest, hc⟩ := List.exists_cons_of_length_pos hlen
    rw [hc] at e
    simp only [List.map_cons, List.cons.injEq] at e
    have e1 := e.1
    cases c0
    simp only [CoordPoint.mk.injEq] at e1
    have hx : geo.get_x p = geo.get_x p' := by omega
    have hy : geo.get_y p = geo.get_y p' := by omega
    rw [← hgeo.point_coord p hp, ← hgeo.point_coord p' hp', hx, hy]

theorem pairwise_enumFrom {α : Type} (R : α → α → Prop) (l : List α) :
    ∀ n, l.Pairwise R → (l.enumFrom n).Pairwise (fun a b => R a.2 b.2) := by
  induction l with
  | nil => intro n _; simp
  | cons a l ih =>
    intro n h
    rw [List.pairwise_cons] at h
    rw [List.enumFrom_cons, List.pairwise_cons]
    refine ⟨?_, ih (n + 1) h.2⟩
    rintro ⟨j, b⟩ hb
    have := (List.mem_enumFrom hb).2.2
    exact h.1 b (this ▸ List.getElem_mem _)

/-- No two placements of a catalog have the same cells. -/
theorem placements_distinct (geo : Geometry) (hgeo : geo.WellFormed) (pieces : List PieceInfo)
    (hcat : ∀ pc ∈ pieces, pc.WellFormed) (hdist : CatalogUnique geo pieces) :
    (placements geo pieces).Pairwise (fun x y => x.pts ≠ y.pts) := by
  unfold placements
  rw [List.pairwise_flatMap]
  constructor
  · rintro ⟨i, pc⟩ hip
    have hmem : pc ∈ pieces := mem_of_getElem?_eq_some (List.mem_enum_iff_getElem?.mp hip)
    have hsym : ∀ t t' : Transform, t ∈ pc.transforms → t' ∈ pc.transforms → t ≠ t' →
        ¬ can_coincide geo pc t pc t' := by
      intro t t' ht ht' hne
      exact (hdist.transforms pc hmem).forall
        (fun _ _ h => fun e => h (can_coincide_symm geo _ _ _ _ e)) ht ht' hne
    unfold placements_piece
    simp only
    rw [List.pairwise_flatMap]
    constructor
    · intro p hp
      apply (hdist.transforms pc hmem).filterMap
      intro t t' hT x hx y hy h
      exact hT (same_cells_imp geo hgeo i i pc pc (hcat pc hmem) p p hp hp t t' x y hx hy h).1
    · refine hgeo.nodup.imp_of_mem ?_
      intro p p' hp hp' hne x hx y hy h
      obtain ⟨t, ht, hxt⟩ := List.mem_filterMap.mp hx
      obtain ⟨t', ht', hyt⟩ := List.mem_filterMap.mp hy
      have := same_cells_imp geo hgeo i i pc pc (hcat pc hmem) p p' hp hp' t t' x y hxt hyt h
      by_cases htt : t = t'
      · subst htt
        exact hne (this.2 rfl)
      · exact hsym t t' ht ht' htt this.1
  · refine (pairwise_enumFrom _ pieces 0 hdist.shapes).imp_of_mem ?_
    rintro ⟨i, pc⟩ ⟨i', pc'⟩ hip hip' hS x hx y hy h
    have hmem : pc ∈ pieces := mem_of_getElem?_eq_some (List.mem_enum_iff_getElem?.mp hip)
    unfold placements_piece at hx hy
    simp only [List.mem_flatMap, List.mem_filterMap] at hx hy
    obtain ⟨p, hp, t, ht, hxt⟩ := hx
    obtain ⟨p', hp', t', ht', hyt⟩ := hy
    exact hS t ht t' ht'
      (same_cells_imp geo hgeo i i' pc pc' (hcat pc hmem) p p' hp hp' t t' x y hxt hyt h).1

/-- A created move is determined by its cells. -/
theorem created_move_unique (nu_adj : Nat) (geo : Geometry) (pieces : List PieceInfo)
    (mem : Storage) (hgeo : geo.WellFormed) (hcat : ∀ pc ∈ pieces, pc.WellFormed)
    (hdist : CatalogUnique geo pieces) (m m' : Nat)
    (hm : (BoardConst.create nu_adj geo pieces mem).is_created m)
    (hm' : (BoardConst.create nu_adj geo pieces mem).is_created m')
    (h : (BoardConst.create nu_adj geo pieces mem).cells m
      = (BoardConst.create nu_adj geo pieces mem).cells m') : m = m' := by
  have hpw := placements_distinct geo hgeo pieces hcat hdist
  rw [List.pairwise_iff_getElem] at hpw
  have h1 := hm.1
  have h2 := hm.2
  have h1' := hm'.1
  have h2' := hm'.2
  rw [create_nu_moves] at h2 h2'
  have hk : m - 1 < (placements geo pieces).length := by omega
  have hk' : m' - 1 < (placements geo pieces).length := by omega
  have hinfo := create_move_info nu_adj geo pieces mem (m - 1) hk
  have hinfo' := create_move_info nu_adj geo pieces mem (m' - 1) hk'
  rw [show 1 + (m - 1) = m by omega] at hinfo
  rw [show 1 + (m' - 1) = m' by omega] at hinfo'
  have hc : (BoardConst.create nu_adj geo pieces mem).cells m
      = ((placements geo pieces)[m - 1]).pts := by
    unfold BoardConst.cells; rw [hinfo]; rfl
  have hc' : (BoardConst.create nu_adj geo pieces mem).cells m'
      = ((placements geo pieces)[m' - 1]).pts := by
    unfold BoardConst.cells; rw [hinfo']; rfl
  rw [hc, hc'] at h
  by_contra hne
  rcases Nat.lt_or_gt_of_ne hne with hlt | hgt
  · exact hpw (m - 1) (m' - 1) hk hk' (by omega) h
  · exact hpw (m' - 1) (m - 1) hk' hk (by omega) h.symm

/-! ## The text form of moves -/

theorem split_loop_append (sep : Char) (w : List Char) (hw : ∀ c ∈ w, c ≠ sep) :
    ∀ (tail current : List Char) (result : List Text),
      split_loop sep (w ++ tail) current result = split_loop sep tail (current ++ w) result := by
  induction w with
  | nil => intro tail current result; simp
  | cons c w ih =>
    intro tail current result
    have hc : c ≠ sep := hw c (List.mem_cons_self _ _)
    rw [List.cons_append, split_loop, if_neg hc,
      ih (fun c' hc' => hw c' (List.mem_cons_of_mem _ hc'))]
    simp

theorem split_join_labels (geo : Geometry) (pts : List Point)
    (hne : ∀ p ∈ pts, geo.to_string p ≠ [])
    (hc : ∀ p ∈ pts, ∀ c ∈ geo.to_string p, c ≠ ',') :
    ∀ result : List Text, pts ≠ [] →
      split_loop ',' (join_labels geo pts) [] result = result ++ pts.map geo.to_string := by
  induction pts with
  | nil => intro result h; exact absurd rfl h
  | cons p rest ih =>
    intro result _
    cases rest with
    | nil =>
      have := split_loop_append ',' (geo.to_string p) (hc p (List.mem_cons_self _ _)) [] [] result
      simp only [List.append_nil, List.nil_append] at this
      rw [join_labels, this, split_loop, if_pos (Or.inl (hne p (List.mem_cons_self _ _)))]
      rfl
    | cons q r =>
      have hq : q :: r ≠ [] := List.cons_ne_nil q r
      have ih' := ih (fun p' hp' => hne p' (List.mem_cons_of_mem _ hp'))
        (fun p' hp' => hc p' (List.mem_cons_of_mem _ hp')) (result ++ [geo.to_string p]) hq
      have hj : join_labels geo (p :: q :: r)
          = geo.to_string p ++ ',' :: join_labels geo (q :: r) := rfl
      rw [hj, split_loop_append ',' _ (hc p (List.mem_cons_self _ _)), split_loop,
        if_pos rfl, List.nil_append, ih']
      simp

theorem mem_join_labels (geo : Geometry) (pts : List Point) (c : Char)
    (h : c ∈ join_labels geo pts) : c = ',' ∨ ∃ p ∈ pts, c ∈ geo.to_string p := by
  induction pts with
  | nil => simp [join_labels] at h
  | cons p rest ih =>
    cases rest with
    | nil =>
      simp only [join_labels] at h
      exact Or.inr ⟨p, List.mem_cons_self _ _, h⟩
    | cons q r =>
      simp only [join_labels, List.mem_append, List.mem_cons] at h
      rcases h with h | h | h
      · exact Or.inr ⟨p, List.mem_cons_self _ _, h⟩
      · exact Or.inl h
      · rcases ih h with h' | ⟨p', hp', hc'⟩
        · exact Or.inl h'
        · exact Or.inr ⟨p', List.mem_cons_of_mem _ hp', hc'⟩

theorem trim_eq_self (s : Text) (h : ∀ c ∈ s, is_space c = false) : trim s = s := by
  have key : ∀ l : List Char, (∀ c ∈ l, is_space c = false) → l.dropWhile is_space = l := by
    intro l hl
    cases l with
    | nil => rfl
    | cons a l =>
      rw [List.dropWhile_cons, hl a (List.mem_cons_self _ _)]
      rfl
  unfold trim
  rw [key s h, key s.reverse (fun c hc => h c (List.mem_reverse.mp hc)), List.reverse_reverse]

theorem to_lower_eq_self (s : Text) (h : ∀ c ∈ s, c.toLower = c) : to_lower s = s := by
  unfold to_lower
  induction s with
  | nil => rfl
  | cons a s ih =>
    rw [List.map_cons, h a (List.mem_cons_self _ _),
      ih (fun c hc => h c (List.mem_cons_of_mem _ hc))]

theorem parse_points_labels (geo : Geometry) (pts : List Point)
    (h : ∀ p ∈ pts, geo.from_string (geo.to_string p) = some p) :
    parse_points geo (pts.map geo.to_string) = some pts := by
  induction pts with
  | nil => rfl
  | cons p rest ih =>
    rw [List.map_cons, parse_points, h p (List.mem_cons_self _ _)]
    simp only
    rw [ih (fun p' hp' => h p' (List.mem_cons_of_mem _ hp'))]
    rfl

/-- The text of a non-empty list of board points is read back by `from_string`
as the result of `find_move` on these points, when there are at most
`max_size` of them. -/
theorem from_string_join_labels (bc : BoardConst) (hlab : bc.geo.LabelsWellFormed)
    (pts : List Point) (hne : pts ≠ []) (hlen : pts.length ≤ max_size)
    (hon : ∀ p ∈ pts, p ∈ bc.geo.points) :
    from_string bc (join_labels bc.geo pts)
      = match find_move bc pts with
        | none => Except.error "illegal move"
        | some mv => Except.ok mv := by
  have hchars : ∀ c ∈ join_labels bc.geo pts, is_space c = false ∧ c.toLower = c := by
    intro c hc
    rcases mem_join_labels bc.geo pts c hc with h | ⟨p, hp, hcp⟩
    · subst h; exact ⟨by decide, by decide⟩
    · exact (hlab.chars p (hon p hp) c hcp).2
  have hsplit : split (join_labels bc.geo pts) ',' = pts.map bc.geo.to_string := by
    unfold split
    rw [split_join_labels bc.geo pts (fun p hp => hlab.nonempty p (hon p hp))
      (fun p hp c hc => (hlab.chars p (hon p hp) c hc).1) [] hne]
    rfl
  have hnull : join_labels bc.geo pts ≠ "null".toList := by
    intro h
    have h2 := hsplit
    rw [h] at h2
    have h3 : split "null".toList ',' = ["null".toList] := by decide
    rw [h3] at h2
    cases pts with
    | nil => exact hne rfl
    | cons p rest =>
      simp only [List.map_cons, List.cons.injEq] at h2
      exact hlab.not_null p (hon p (List.mem_cons_self _ _)) h2.1.symm
  unfold from_string
  simp only
  rw [trim_eq_self _ (fun c hc => (hchars c hc).1),
    to_lower_eq_self _ (fun c hc => (hchars c hc).2), if_neg hnull, hsplit,
    if_neg (by rw [List.length_map]; omega),
    parse_points_labels bc.geo pts (fun p hp => hlab.parse p (hon p hp))]

/-- C1: for every created move `m`, and for the null move,
`from_string(to_string(m, false))` returns `m`, when the geometry parses each
of its own point labels back to the same point (and the labels are lower-case
words without comma or white space that differ from `null`). -/
theorem from_string_to_string (nu_adj : Nat) (geo : Geometry) (pieces : List PieceInfo)
    (mem : Storage) (hgeo : geo.WellFormed) (hlab : geo.LabelsWellFormed)
    (hcat : ∀ pc ∈ pieces, pc.WellFormed) (hdist : CatalogUnique geo pieces) (m : Nat)
    (hm : m = 0 ∨ (BoardConst.create nu_adj geo pieces mem).is_created m) :
    from_string (BoardConst.create nu_adj geo pieces mem)
      (to_string (BoardConst.create nu_adj geo pieces mem) m false) = Except.ok m := by
  rcases hm with h0 | hm
  · subst h0
    rfl
  have hm0 : m ≠ 0 := by have := hm.1; omega
  obtain ⟨c1, c2, pc, hpc, hl, _⟩ := created_move_cells nu_adj geo pieces mem hgeo hcat m hm
  have hpcmem : pc ∈ pieces := mem_of_getElem?_eq_some hpc
  have hne : (BoardConst.create nu_adj geo pieces mem).cells m ≠ [] := by
    intro h
    rw [h] at hl
    have := (hcat pc hpcmem).size_pos
    unfold PieceInfo.get_size at hl
    simp at hl
    omega
  have hlen : ((BoardConst.create nu_adj geo pieces mem).cells m).length ≤ max_size := by
    rw [hl]; exact (hcat pc hpcmem).size_le
  have hts : to_string (BoardConst.create nu_adj geo pieces mem) m false
      = join_labels geo ((BoardConst.create nu_adj geo pieces mem).cells m) := by
    unfold to_string
    rw [if_neg hm0]
    rfl
  rw [hts]
  have hfs := from_string_join_labels (BoardConst.create nu_adj geo pieces mem) hlab
    ((BoardConst.create nu_adj geo pieces mem).cells m) hne hlen c2
  have hgeo' : (BoardConst.create nu_adj geo pieces mem).geo = geo := rfl
  rw [hgeo'] at hfs
  rw [hfs]
  obtain ⟨f1, f2, _⟩ := find_move_facts nu_adj geo pieces mem hgeo hcat
    ((BoardConst.create nu_adj geo pieces mem).cells m) hne hlen c1 c2
  cases hf : find_move (BoardConst.create nu_adj geo pieces mem)
      ((BoardConst.create nu_adj geo pieces mem).cells m) with
  | none =>
    exact absurd ⟨m, hm, fun _ => Iff.rfl⟩ (f2.mp hf)
  | some mv =>
    obtain ⟨g1, g2⟩ := f1 mv hf
    have hcs := sort_eq_cells nu_adj geo pieces mem hgeo hcat _ hlen c1 mv g1 g2
    have hcs' := sort_eq_cells nu_adj geo pieces mem hgeo hcat _ hlen c1 m hm (fun _ => Iff.rfl)
    have : mv = m := created_move_unique nu_adj geo pieces mem hgeo hcat hdist mv m g1 hm
      (hcs.trans hcs'.symm)
    rw [this]

theorem row3_labels_wf : row3.LabelsWellFormed where
  parse := by decide
  nonempty := by decide
  chars := by decide
  not_null := by decide

theorem row3_pieces_distinct : CatalogDistinct row3_pieces where
  transforms := by
    intro pc hpc
    simp only [row3_pieces, List.mem_cons, List.mem_singleton, List.not_mem_nil, or_false] at hpc
    rcases hpc with rfl | rfl <;> simp [identity_transform]
  shapes := by
    simp only [row3_pieces, List.pairwise_cons, List.mem_singleton, forall_eq,
      List.not_mem_nil, false_implies, implies_true, List.Pairwise.nil, and_true]
    decide

theorem from_string_to_string_witness :
    from_string row3_const (to_string row3_const 5 false) = Except.ok 5 ∧
    from_string row3_const (to_string row3_const 0 false) = Except.ok 0 :=
  ⟨from_string_to_string 2 row3 row3_pieces Storage.fresh row3_wf row3_labels_wf row3_pieces_wf
      (row3_pieces_distinct.to_unique row3) 5 (Or.inr (by decide)),
   from_string_to_string 2 row3 row3_pieces Storage.fresh row3_wf row3_labels_wf row3_pieces_wf
      (row3_pieces_distinct.to_unique row3) 0 (Or.inl rfl)⟩

/-! ## The rebuild of the incremental index -/

theorem write_list_append (l l' : List Move) (acc : Nat × PrecompMoves) :
    write_list (l ++ l') acc = write_list l' (write_list l acc) := by
  unfold write_list
  rw [List.foldl_append]

theorem write_list_after (l : List Move) :
    ∀ acc : Nat × PrecompMoves, ∀ k, acc.1 + l.length ≤ k →
      (write_list l acc).2.move_lists k = acc.2.move_lists k := by
  induction l with
  | nil => intro acc k _; rfl
  | cons a l ih =>
    intro acc k hk
    have e : write_list (a :: l) acc = write_list l (acc.1 + 1, acc.2.set_move acc.1 a) := rfl
    rw [e, ih _ k (by simp at hk ⊢; omega)]
    simp only [PrecompMoves.set_move]
    rw [if_neg]
    simp at hk
    omega

/-- Reading from the index of the board constants, the copy loop writes the
list of the run without the moves marked forbidden. -/
theorem copy_moves_fresh (static_moves : PrecompMoves) (forbidden : Move → Bool)
    (first size : Nat) (acc : Nat × PrecompMoves) :
    copy_moves false static_moves forbidden first size acc
      = write_list
          (((List.range size).map (fun k => static_moves.move_lists (first + k))).filter
            (fun mv => !forbidden mv)) acc := by
  unfold copy_moves
  induction size with
  | zero => rfl
  | succ n ih =>
    rw [List.range_succ, List.foldl_append, ih, List.map_append, List.filter_append,
      write_list_append]
    simp only [List.foldl_cons, List.foldl_nil, List.map_cons, List.map_nil]
    by_cases h : forbidden (static_moves.move_lists (first + n)) = true
    · simp [h, List.filter_cons, write_list]
    · simp [h, List.filter_cons, write_list]

/-- Reading from the array that is being written, the copy loop writes the
old list of the run without the moves marked forbidden, when the write index
is not beyond the start of the run. -/
theorem copy_moves_followup (static_moves : PrecompMoves) (forbidden : Move → Bool)
    (first size : Nat) (acc : Nat × PrecompMoves) (hsafe : acc.1 ≤ first) :
    copy_moves true static_moves forbidden first size acc
      = write_list
          (((List.range size).map (fun k => acc.2.move_lists (first + k))).filter
            (fun mv => !forbidden mv)) acc := by
  unfold copy_moves
  induction size with
  | zero => rfl
  | succ n ih =>
    rw [List.range_succ, List.foldl_append, ih, List.map_append, List.filter_append,
      write_list_append]
    simp only [List.foldl_cons, List.foldl_nil, List.map_cons, List.map_nil, if_true]
    have hlen : (((List.range n).map (fun k => acc.2.move_lists (first + k))).filter
        (fun mv => !forbidden mv)).length ≤ n := by
      refine (List.length_filter_le _ _).trans ?_
      simp
    have hread : (write_list (((List.range n).map (fun k => acc.2.move_lists (first + k))).filter
        (fun mv => !forbidden mv)) acc).2.move_lists (first + n)
          = acc.2.move_lists (first + n) :=
      write_list_after _ acc (first + n) (by omega)
    rw [hread]
    by_cases h : forbidden (acc.2.move_lists (first + n)) = true
    · simp [h, List.filter_cons, write_list]
    · simp [h, List.filter_cons, write_list]

theorem get_moves_eq_map (pm : PrecompMoves) (q : Piece) (p : Point) (i : Nat) :
    pm.get_moves q p i
      = (List.range (pm.moves_range p i q).2).map
          (fun k => pm.move_lists ((pm.moves_range p i q).1 + k)) := rfl

theorem get_moves_of_not_has_moves (pm : PrecompMoves) (q : Piece) (p : Point) (i : Nat)
    (h : ¬ pm.has_moves q p i = true) : pm.get_moves q p i = [] := by
  unfold PrecompMoves.has_moves at h
  have : (pm.moves_range p i q).2 = 0 := by simpa using h
  rw [get_moves_eq_map, this]; rfl

/-- A step of a fresh rebuild is a step of the flattening loops for the table
of filtered lists. -/
theorem init_step_fresh (static_moves : PrecompMoves) (bd : Board) (c : Color)
    (forbidden : Move → Bool) (x : Point × Nat × Piece) (acc : Nat × PrecompMoves)
    (hleft : bd.is_piece_left c x.2.2 = true) :
    init_step false static_moves bd c forbidden x.1 x.2.1 acc x.2.2
      = layout_step (filtered_table static_moves forbidden) acc x := by
  unfold init_step layout_step flatten_step filtered_table
  simp only [hleft, Bool.not_true, Bool.false_eq_true, if_false]
  by_cases hm : static_moves.has_moves x.2.2 x.1 x.2.1 = true
  · rw [if_pos hm, copy_moves_fresh, ← get_moves_eq_map]
  · rw [if_neg hm, get_moves_of_not_has_moves _ _ _ _ hm]
    rfl

/-- A step of a follow-up rebuild is a step of the flattening loops for the
table of filtered lists of the current array, when the write index is not
beyond the start of the run of the triple. -/
theorem init_step_followup (static_moves : PrecompMoves) (bd : Board) (c : Color)
    (forbidden : Move → Bool) (x : Point × Nat × Piece) (acc : Nat × PrecompMoves)
    (hleft : bd.is_piece_left c x.2.2 = true) (hsafe : acc.1 ≤ (acc.2.range_of x).1) :
    init_step true static_moves bd c forbidden x.1 x.2.1 acc x.2.2
      = layout_step (filtered_table acc.2 forbidden) acc x := by
  unfold init_step layout_step flatten_step filtered_table
  simp only [hleft, Bool.not_true, Bool.false_eq_true, if_false, if_true]
  by_cases hm : acc.2.has_moves x.2.2 x.1 x.2.1 = true
  · have hsafe' : acc.1 ≤ (acc.2.moves_range x.1 x.2.1 x.2.2).1 := hsafe
    rw [if_pos hm, copy_moves_followup _ _ _ _ _ hsafe', ← get_moves_eq_map]
  · rw [if_neg hm, get_moves_of_not_has_moves _ _ _ _ hm]
    rfl

theorem foldl_skip_filter {α σ : Type} (keep : α → Bool) (g : σ → α → σ) (l : List α)
    (hskip : ∀ acc a, keep a = false → g acc a = acc) :
    ∀ acc : σ, l.foldl g acc = (l.filter keep).foldl g acc := by
  induction l with
  | nil => intro acc; rfl
  | cons a l ih =>
    intro acc
    rw [List.foldl_cons, List.filter_cons]
    by_cases h : keep a = true
    · rw [if_pos h, List.foldl_cons, ih]
    · rw [if_neg h, hskip acc a (by simpa using h), ih]

theorem foldl_congr_mem {α σ : Type} (f g : σ → α → σ) (l : List α)
    (h : ∀ a ∈ l, ∀ acc, f acc a = g acc a) : ∀ acc : σ, l.foldl f acc = l.foldl g acc := by
  induction l with
  | nil => intro acc; rfl
  | cons a l ih =>
    intro acc
    rw [List.foldl_cons, List.foldl_cons, h a (List.mem_cons_self _ _),
      ih (fun b hb => h b (List.mem_cons_of_mem _ hb))]

/-- The second loop nest of `SharedConst::init` is a sequence of steps, one for
each visited triple. -/
theorem rebuild_eq_foldl (is_followup : Bool) (nu np : Nat) (geo : Geometry)
    (static_moves : PrecompMoves) (bd : Board) (c : Color) (forbidden : Move → Bool)
    (pm : PrecompMoves) :
    rebuild is_followup nu np geo static_moves bd c forbidden pm
      = (visited nu np geo bd c).foldl
          (fun acc x => init_step is_followup static_moves bd c forbidden x.1 x.2.1 acc x.2.2)
          (0, pm) := by
  unfold rebuild visited
  rw [← foldl_bind_eq]
  rw [foldl_skip_filter (fun p => !bd.is_forbidden p c)]
  swap
  · intro acc p hp
    have : bd.is_forbidden p c = true := by simpa using hp
    simp [this]
  apply foldl_congr_mem
  intro p hp acc
  have hp' : ¬ bd.is_forbidden p c = true := by
    have := (List.mem_filter.mp hp).2
    simpa using this
  rw [if_neg hp']
  simp only
  rw [← foldl_bind_eq]
  rw [foldl_skip_filter (fun i => is_followup_adj_status i (bd.get_adj_status p c))]
  swap
  · intro acc i hi
    simp [hi]
  apply foldl_congr_mem
  intro i hi acc
  have hi' := (List.mem_filter.mp hi).2
  simp only [hi', Bool.not_true, Bool.false_eq_true, if_false]
  rw [List.foldl_map]
  rw [foldl_skip_filter (fun q => bd.is_piece_left c q)]
  intro acc q hq
  unfold init_step
  simp [hq]

theorem mem_visited (nu np : Nat) (geo : Geometry) (bd : Board) (c : Color)
    (x : Point × Nat × Piece) :
    x ∈ visited nu np geo bd c ↔
      x.1 ∈ geo.points ∧ bd.is_forbidden x.1 c = false ∧ x.2.1 < nu ∧
        is_followup_adj_status x.2.1 (bd.get_adj_status x.1 c) = true ∧ x.2.2 < np ∧
        bd.is_piece_left c x.2.2 = true := by
  obtain ⟨p, i, q⟩ := x
  unfold visited
  simp only [List.mem_flatMap, List.mem_filter, List.mem_map, List.mem_range, Prod.mk.injEq,
    Bool.not_eq_true']
  constructor
  · rintro ⟨p', ⟨hp, hf⟩, i', ⟨hi, hfu⟩, q', ⟨hq, hl⟩, rfl, rfl, rfl⟩
    exact ⟨hp, hf, hi, hfu, hq, hl⟩
  · rintro ⟨hp, hf, hi, hfu, hq, hl⟩
    exact ⟨p, ⟨hp, hf⟩, i, ⟨hi, hfu⟩, q, ⟨hq, hl⟩, rfl, rfl, rfl⟩

theorem sublist_flatMap {α β : Type} (f g : α → List β) (l1 l2 : List α) (h : l1.Sublist l2)
    (hfg : ∀ a ∈ l1, (f a).Sublist (g a)) : (l1.flatMap f).Sublist (l2.flatMap g) := by
  induction h with
  | slnil => exact List.Sublist.refl _
  | cons a _ ih =>
    rw [List.flatMap_cons]
    exact (ih hfg).trans (List.sublist_append_right _ _)
  | cons₂ a _ ih =>
    rw [List.flatMap_cons, List.flatMap_cons]
    exact List.Sublist.append (hfg a (List.mem_cons_self _ _))
      (ih (fun b hb => hfg b (List.mem_cons_of_mem _ hb)))

theorem filter_sublist_filter {α : Type} (p q : α → Bool) (l : List α)
    (h : ∀ a ∈ l, p a = true → q a = true) : (l.filter p).Sublist (l.filter q) := by
  induction l with
  | nil => exact List.Sublist.refl _
  | cons a l ih =>
    have ih' := ih (fun b hb => h b (List.mem_cons_of_mem _ hb))
    rw [List.filter_cons, List.filter_cons]
    by_cases hp : p a = true
    · rw [if_pos hp, if_pos (h a (List.mem_cons_self _ _) hp)]
      exact ih'.cons₂ a
    · rw [if_neg hp]
      by_cases hq : q a = true
      · rw [if_pos hq]; exact ih'.cons a
      · rw [if_neg hq]; exact ih'

theorem is_followup_iff (i s : Nat) :
    is_followup_adj_status i s = true ↔ ∀ b, s.testBit b = true → i.testBit b = true := by
  unfold is_followup_adj_status
  rw [beq_iff_eq]
  constructor
  · intro h b hb
    have := congrArg (fun n => Nat.testBit n b) h
    simp only [Nat.testBit_and, hb, Bool.and_true] at this
    exact this
  · intro h
    apply Nat.eq_of_testBit_eq
    intro b
    rw [Nat.testBit_and]
    by_cases hb : s.testBit b = true
    · rw [hb, h b hb]; rfl
    · have : s.testBit b = false := by simpa using hb
      rw [this]; simp

/-- The triples visited for a later position are visited, in the same order,
for an earlier one. -/
theorem visited_sublist (nu np : Nat) (geo : Geometry) (bd0 bd1 : Board) (c : Color)
    (hprog : bd0.Progress bd1 c) :
    (visited nu np geo bd1 c).Sublist (visited nu np geo bd0 c) := by
  unfold visited
  apply sublist_flatMap
  · apply filter_sublist_filter
    intro p _ hp
    have h1 : bd1.is_forbidden p c = false := by simpa using hp
    have : ¬ bd0.is_forbidden p c = true := by
      intro h0
      rw [hprog.points p h0] at h1
      exact absurd h1 (by decide)
    simpa using this
  · intro p hp
    have h1 : bd1.is_forbidden p c = false := by simpa using (List.mem_filter.mp hp).2
    apply sublist_flatMap
    · apply filter_sublist_filter
      intro i _ hi
      rw [is_followup_iff] at hi ⊢
      intro b hb
      exact hi b (hprog.status p h1 b hb)
    · intro i _
      apply List.Sublist.map
      apply filter_sublist_filter
      intro q _ hq
      exact hprog.pieces q hq

theorem visited_sublist_triples (nu np : Nat) (geo : Geometry) (bd : Board) (c : Color) :
    (visited nu np geo bd c).Sublist (triples nu np geo.points) := by
  unfold visited triples
  apply sublist_flatMap _ _ _ _ (List.filter_sublist _)
  intro p _
  apply sublist_flatMap _ _ _ _ (List.filter_sublist _)
  intro i _
  exact List.Sublist.map _ (List.filter_sublist _)

theorem triples_nodup (nu np : Nat) (points : List Point) (h : points.Nodup) :
    (triples nu np points).Nodup := by
  unfold triples
  rw [List.nodup_flatMap]
  constructor
  · intro p _
    rw [List.nodup_flatMap]
    constructor
    · intro i _
      exact (List.nodup_range np).map (fun a b h => by simpa using h)
    · refine (List.nodup_range nu).imp ?_
      intro i j hij
      simp only [Function.onFun, List.disjoint_left, List.mem_map, List.mem_range, not_exists,
        not_and, forall_exists_index, and_imp]
      intro x q _ hx q' _ hx'
      rw [← hx] at hx'
      simp only [Prod.mk.injEq] at hx'
      exact hij hx'.2.1.symm
  · refine h.imp ?_
    intro p p' hpp
    simp only [Function.onFun, List.disjoint_left, List.mem_flatMap, List.mem_map,
      List.mem_range, not_exists, not_and, forall_exists_index, and_imp]
    intro x i _ q _ hx i' _ q' _ hx'
    rw [← hx] at hx'
    simp only [Prod.mk.injEq] at hx'
    exact hpp hx'.1.symm

theorem visited_nodup (nu np : Nat) (geo : Geometry) (hnd : geo.points.Nodup) (bd : Board)
    (c : Color) : (visited nu np geo bd c).Nodup :=
  (triples_nodup nu np geo.points hnd).sublist (visited_sublist_triples nu np geo bd c)

theorem layout_step_fst (t : FullMoveTable) (acc : Nat × PrecompMoves)
    (x : Point × Nat × Piece) :
    (layout_step t acc x).1 = acc.1 + (t x.2.1 x.2.2 x.1).length :=
  (write_list_spec (t x.2.1 x.2.2 x.1) acc).1

theorem layout_step_range (t : FullMoveTable) (acc : Nat × PrecompMoves)
    (x y : Point × Nat × Piece) :
    (layout_step t acc x).2.range_of y
      = if y = x then (acc.1, (t x.2.1 x.2.2 x.1).length) else acc.2.range_of y := by
  obtain ⟨w1, w2, _, _⟩ := write_list_spec (t x.2.1 x.2.2 x.1) acc
  obtain ⟨p, i, q⟩ := x
  obtain ⟨p', i', q'⟩ := y
  simp only [layout_step, flatten_step, PrecompMoves.range_of, PrecompMoves.set_list_range, w1,
    w2, Prod.mk.injEq]
  simp

theorem layout_step_move_lists (t : FullMoveTable) (acc : Nat × PrecompMoves)
    (x : Point × Nat × Piece) (k : Nat)
    (hk : k < acc.1 ∨ acc.1 + (t x.2.1 x.2.2 x.1).length ≤ k) :
    (layout_step t acc x).2.move_lists k = acc.2.move_lists k := by
  have e : (layout_step t acc x).2.move_lists k
      = (write_list (t x.2.1 x.2.2 x.1) acc).2.move_lists k := rfl
  rw [e]
  rcases hk with hk | hk
  · exact (write_list_spec (t x.2.1 x.2.2 x.1) acc).2.2.1 k hk
  · exact write_list_after _ acc k hk

theorem layout_step_congr (t t' : FullMoveTable) (acc : Nat × PrecompMoves)
    (x : Point × Nat × Piece) (h : t x.2.1 x.2.2 x.1 = t' x.2.1 x.2.2 x.1) :
    layout_step t acc x = layout_step t' acc x := by
  unfold layout_step flatten_step
  rw [h]

/-- After a sequence of flattening steps for distinct triples, every triple
has its list in the index, the runs lie one after the other from the start
value of the write index on, and what was stored before is kept. -/
theorem layout_foldl_spec (t : FullMoveTable) (L : List (Point × Nat × Piece)) :
    ∀ acc : Nat × PrecompMoves, L.Nodup →
      acc.1 ≤ (L.foldl (layout_step t) acc).1 ∧
      (∀ k, k < acc.1 → (L.foldl (layout_step t) acc).2.move_lists k = acc.2.move_lists k) ∧
      (∀ y, y ∉ L → (L.foldl (layout_step t) acc).2.range_of y = acc.2.range_of y) ∧
      (∀ x ∈ L, (L.foldl (layout_step t) acc).2.list_of x = t x.2.1 x.2.2 x.1) ∧
      (∀ x ∈ L, acc.1 ≤ ((L.foldl (layout_step t) acc).2.range_of x).1 ∧
        ((L.foldl (layout_step t) acc).2.range_of x).1
          + ((L.foldl (layout_step t) acc).2.range_of x).2 ≤ (L.foldl (layout_step t) acc).1) ∧
      laid_out (L.foldl (layout_step t) acc).2 L := by
  induction L with
  | nil => intro acc _; simp [laid_out]
  | cons x L ih =>
    intro acc hnd
    rw [List.nodup_cons] at hnd
    rw [List.foldl_cons]
    obtain ⟨h1, h2, h3, h4, h5, h6⟩ := ih (layout_step t acc x) hnd.2
    have s1 := layout_step_fst t acc x
    have hx : (L.foldl (layout_step t) (layout_step t acc x)).2.range_of x
        = (acc.1, (t x.2.1 x.2.2 x.1).length) := by
      rw [h3 x hnd.1, layout_step_range, if_pos rfl]
    refine ⟨by omega, ?_, ?_, ?_, ?_, ?_⟩
    · intro k hk
      rw [h2 k (by omega), layout_step_move_lists t acc x k (Or.inl hk)]
    · intro y hy
      have hyx : y ≠ x := fun h => hy (h ▸ List.mem_cons_self _ _)
      rw [h3 y (fun h => hy (List.mem_cons_of_mem _ h)), layout_step_range, if_neg hyx]
    · intro y hy
      rcases List.mem_cons.mp hy with rfl | hy'
      · apply get_moves_eq_of _ _ _ _ acc.1
        · exact hx
        · intro k hk
          rw [h2 _ (by omega)]
          exact (write_list_spec (t y.2.1 y.2.2 y.1) acc).2.2.2 k hk
      · exact h4 y hy'
    · intro y hy
      rcases List.mem_cons.mp hy with rfl | hy'
      · rw [hx]; simp only; omega
      · have := h5 y hy'
        omega
    · unfold laid_out
      rw [List.pairwise_cons]
      refine ⟨?_, h6⟩
      intro y hy
      rw [hx]
      have := (h5 y hy).1
      simp only
      omega

theorem get_moves_length (pm : PrecompMoves) (q : Piece) (p : Point) (i : Nat) :
    (pm.get_moves q p i).length = (pm.moves_range p i q).2 := by
  rw [get_moves_eq_map]; simp

/-- While the state is untouched for the remaining triples, the next triple
has its old list. -/
theorem untouched_list (pm0 : PrecompMoves) (acc : Nat × PrecompMoves)
    (x : Point × Nat × Piece) (rest : List (Point × Nat × Piece))
    (h : untouched pm0 acc (x :: rest)) : acc.2.list_of x = pm0.list_of x := by
  obtain ⟨ha, hb, hc⟩ := h
  have hr := ha x (List.mem_cons_self _ _)
  have hs := hb x (List.mem_cons_self _ _)
  unfold PrecompMoves.range_of at hr hs
  unfold PrecompMoves.list_of
  rw [get_moves_eq_map, get_moves_eq_map, hr]
  apply List.map_congr_left
  intro k _
  exact hc _ (by omega)

/-- One step of a follow-up rebuild, while the state is untouched for the
remaining triples: the step writes the old list of the triple without the
moves marked forbidden, and the state stays untouched for the triples after
it. -/
theorem followup_step (static_moves : PrecompMoves) (bd : Board) (c : Color)
    (forbidden : Move → Bool) (pm0 : PrecompMoves) (acc : Nat × PrecompMoves)
    (x : Point × Nat × Piece) (rest : List (Point × Nat × Piece))
    (hnd : (x :: rest).Nodup) (hlay : laid_out pm0 (x :: rest))
    (hleft : bd.is_piece_left c x.2.2 = true) (h : untouched pm0 acc (x :: rest)) :
    init_step true static_moves bd c forbidden x.1 x.2.1 acc x.2.2
        = layout_step (filtered_table pm0 forbidden) acc x ∧
      untouched pm0 (layout_step (filtered_table pm0 forbidden) acc x) rest := by
  have hlist := untouched_list pm0 acc x rest h
  obtain ⟨ha, hb, hc⟩ := h
  have hr := ha x (List.mem_cons_self _ _)
  have hs := hb x (List.mem_cons_self _ _)
  rw [List.nodup_cons] at hnd
  unfold laid_out at hlay
  rw [List.pairwise_cons] at hlay
  constructor
  · rw [init_step_followup static_moves bd c forbidden x acc hleft (by rw [hr]; exact hs)]
    apply layout_step_congr
    unfold filtered_table
    unfold PrecompMoves.list_of at hlist
    rw [hlist]
  · have hlen : (filtered_table pm0 forbidden x.2.1 x.2.2 x.1).length ≤ (pm0.range_of x).2 := by
      unfold filtered_table
      refine (List.length_filter_le _ _).trans ?_
      rw [get_moves_length]; rfl
    refine ⟨?_, ?_, ?_⟩
    · intro y hy
      have hyx : y ≠ x := fun e => hnd.1 (e ▸ hy)
      rw [layout_step_range, if_neg hyx]
      exact ha y (List.mem_cons_of_mem _ hy)
    · intro y hy
      rw [layout_step_fst]
      have := hlay.1 y hy
      omega
    · intro k hk
      rw [layout_step_fst] at hk
      rw [layout_step_move_lists _ _ _ _ (Or.inr hk)]
      exact hc k (by omega)

/-- A follow-up rebuild never writes beyond what it still has to read: from an
untouched state the steps for a run of triples are the flattening steps for
the filtered old lists, and the state stays untouched for the triples after
the run. -/
theorem followup_foldl (static_moves : PrecompMoves) (bd : Board) (c : Color)
    (forbidden : Move → Bool) (pm0 : PrecompMoves) (V1 : List (Point × Nat × Piece)) :
    ∀ (R : List (Point × Nat × Piece)) (acc : Nat × PrecompMoves),
      (V1 ++ R).Nodup → laid_out pm0 (V1 ++ R) →
      (∀ x ∈ V1, bd.is_piece_left c x.2.2 = true) → untouched pm0 acc (V1 ++ R) →
      V1.foldl (fun acc x => init_step true static_moves bd c forbidden x.1 x.2.1 acc x.2.2) acc
          = V1.foldl (layout_step (filtered_table pm0 forbidden)) acc ∧
        untouched pm0 (V1.foldl (layout_step (filtered_table pm0 forbidden)) acc) R := by
  induction V1 with
  | nil => intro R acc _ _ _ h; exact ⟨rfl, h⟩
  | cons x V1 ih =>
    intro R acc hnd hlay hleft h
    rw [List.cons_append] at hnd hlay h
    obtain ⟨e1, h1⟩ := followup_step static_moves bd c forbidden pm0 acc x (V1 ++ R) hnd hlay
      (hleft x (List.mem_cons_self _ _)) h
    rw [List.foldl_cons, List.foldl_cons, e1]
    exact ih R _ (List.nodup_cons.mp hnd).2 (List.pairwise_cons.mp hlay).2
      (fun y hy => hleft y (List.mem_cons_of_mem _ hy)) h1

theorem untouched_start (pm0 : PrecompMoves) (V : List (Point × Nat × Piece)) :
    untouched pm0 (0, pm0) V :=
  ⟨fun _ _ => rfl, fun _ _ => Nat.zero_le _, fun _ _ => rfl⟩

/-- A fresh rebuild is the flattening of the filtered lists of the index of
the board constants. -/
theorem rebuild_fresh (nu np : Nat) (geo : Geometry) (static_moves : PrecompMoves)
    (bd : Board) (c : Color) (forbidden : Move → Bool) (pm : PrecompMoves) :
    rebuild false nu np geo static_moves bd c forbidden pm
      = (visited nu np geo bd c).foldl (layout_step (filtered_table static_moves forbidden))
          (0, pm) := by
  rw [rebuild_eq_foldl]
  apply foldl_congr_mem
  intro x hx acc
  exact init_step_fresh static_moves bd c forbidden x acc ((mem_visited _ _ _ _ _ x).mp hx).2.2.2.2.2

/-- A follow-up rebuild is the flattening of the filtered lists of the old
index, when the runs of the visited triples lie one after the other in the
old index. -/
theorem rebuild_followup (nu np : Nat) (geo : Geometry) (hnd : geo.points.Nodup)
    (static_moves : PrecompMoves) (bd : Board) (c : Color) (forbidden : Move → Bool)
    (pm0 : PrecompMoves) (hlay : laid_out pm0 (visited nu np geo bd c)) :
    rebuild true nu np geo static_moves bd c forbidden pm0
      = (visited nu np geo bd c).foldl (layout_step (filtered_table pm0 forbidden))
          (0, pm0) := by
  rw [rebuild_eq_foldl]
  have := followup_foldl static_moves bd c forbidden pm0 (visited nu np geo bd c) [] (0, pm0)
    (by rw [List.append_nil]; exact visited_nodup nu np geo hnd bd c)
    (by rw [List.append_nil]; exact hlay)
    (fun x hx => ((mem_visited _ _ _ _ _ x).mp hx).2.2.2.2.2)
    (untouched_start pm0 _)
  exact this.1

theorem mark_forbidden_eq (geo : Geometry) (bd : Board) (c : Color) (old : PrecompMoves) :
    mark_forbidden geo bd c old
      = (candidates geo bd c old).foldl (clear_mark bd c) (fun _ => true) := by
  unfold mark_forbidden candidates
  rw [← foldl_bind_eq]
  congr 1
  funext forbidden p
  by_cases hp : bd.is_forbidden p c = true
  · simp [hp]
  · simp only [hp, if_false, Bool.false_eq_true]
    rw [← foldl_bind_eq]
    congr 1
    funext forbidden piece
    by_cases hm : old.has_moves piece p (bd.get_adj_status p c) = true
    · simp only [hm, if_true]
      rfl
    · simp [hm]

theorem clear_mark_foldl (bd : Board) (c : Color) (l : List Move) :
    ∀ (forbidden : Move → Bool) (m : Move),
      l.foldl (clear_mark bd c) forbidden m = false ↔
        forbidden m = false ∨ (m ∈ l ∧ bd.is_forbidden_move c m = false) := by
  induction l with
  | nil => intro forbidden m; simp
  | cons a l ih =>
    intro forbidden m
    rw [List.foldl_cons, ih]
    unfold clear_mark
    by_cases hcond : (forbidden a && !bd.is_forbidden_move c a) = true
    · rw [if_pos hcond]
      simp only [Bool.and_eq_true, Bool.not_eq_true'] at hcond
      by_cases hma : m = a
      · subst hma
        simp [hcond.2]
      · simp [hma]
    · rw [if_neg hcond]
      by_cases hma : m = a
      · subst hma
        simp only [Bool.and_eq_true, Bool.not_eq_true', not_and, Bool.not_eq_false] at hcond
        constructor
        · rintro (h | h)
          · exact Or.inl h
          · exact Or.inr ⟨List.mem_cons_self _ _, h.2⟩
        · rintro (h | h)
          · exact Or.inl h
          · by_cases hf : forbidden m = true
            · have := hcond hf
              rw [h.2] at this
              exact absurd this (by decide)
            · exact Or.inl (by simpa using hf)
      · simp [hma]

theorem mem_candidates (geo : Geometry) (bd : Board) (c : Color) (old : PrecompMoves)
    (m : Move) :
    m ∈ candidates geo bd c old ↔
      ∃ p ∈ geo.points, bd.is_forbidden p c = false ∧ ∃ q ∈ bd.get_pieces_left c,
        m ∈ old.get_moves q p (bd.get_adj_status p c) := by
  unfold candidates
  simp only [List.mem_flatMap]
  constructor
  · rintro ⟨p, hp, hm⟩
    by_cases hf : bd.is_forbidden p c = true
    · simp [hf] at hm
    · simp only [hf, if_false, Bool.false_eq_true, List.mem_flatMap] at hm
      obtain ⟨q, hq, hmq⟩ := hm
      refine ⟨p, hp, by simpa using hf, q, hq, ?_⟩
      by_cases hh : old.has_moves q p (bd.get_adj_status p c) = true
      · simpa [hh] using hmq
      · simp [hh] at hmq
  · rintro ⟨p, hp, hf, q, hq, hm⟩
    refine ⟨p, hp, ?_⟩
    simp only [hf, if_false, Bool.false_eq_true, List.mem_flatMap]
    refine ⟨q, hq, ?_⟩
    by_cases hh : old.has_moves q p (bd.get_adj_status p c) = true
    · simpa [hh] using hm
    · rw [get_moves_of_not_has_moves _ _ _ _ hh] at hm
      simp at hm

/-- The marks after the first loop nest of `SharedConst::init`: a move is left
unmarked exactly when it is not forbidden on the board and occurs in the old
list of some open point, at its current status, for some piece still left. -/
theorem mark_forbidden_spec (geo : Geometry) (bd : Board) (c : Color) (old : PrecompMoves)
    (m : Move) :
    mark_forbidden geo bd c old m = false ↔
      bd.is_forbidden_move c m = false ∧
      ∃ p ∈ geo.points, bd.is_forbidden p c = false ∧ ∃ q ∈ bd.get_pieces_left c,
        m ∈ old.get_moves q p (bd.get_adj_status p c) := by
  rw [mark_forbidden_eq, clear_mark_foldl, mem_candidates]
  constructor
  · rintro (h | ⟨h1, h2⟩)
    · exact absurd h (by decide)
    · exact ⟨h2, h1⟩
  · rintro ⟨h1, h2⟩
    exact Or.inr ⟨h2, h1⟩

/-- The index of a colour after `SharedConst::init`. -/
theorem init_precomp_moves (sc : SharedConst) (bc : BoardConst) (bd : Board)
    (is_followup : Bool) (c : Color) (hc : c ∈ bd.colors) (hnd : bd.colors.Nodup) :
    (sc.init bc bd is_followup).precomp_moves c
      = init_color is_followup bc bd c (sc.precomp_moves c) := by
  unfold SharedConst.init
  have key : ∀ (l : List Color) (sc : SharedConst), l.Nodup →
      (l.foldl (fun sc c' =>
          ({ precomp_moves := fun c'' =>
              if c'' = c' then init_color is_followup bc bd c' (sc.precomp_moves c')
              else sc.precomp_moves c'' } : SharedConst)) sc).precomp_moves c
        = if c ∈ l then init_color is_followup bc bd c (sc.precomp_moves c)
          else sc.precomp_moves c := by
    intro l
    induction l with
    | nil => intro sc _; simp
    | cons a l ih =>
      intro sc hl
      rw [List.nodup_cons] at hl
      rw [List.foldl_cons, ih _ hl.2]
      by_cases hca : c = a
      · subst hca
        simp [hl.1]
      · simp [hca]
  rw [key bd.colors sc hnd, if_pos hc]

theorem filtered_table_apply (src : PrecompMoves) (forbidden : Move → Bool)
    (x : Point × Nat × Piece) :
    filtered_table src forbidden x.2.1 x.2.2 x.1
      = (src.list_of x).filter (fun mv => !forbidden mv) := rfl

/-- The index of a colour after a fresh `init`: every visited triple has the
list of the static index without the moves marked forbidden, and the runs of
the visited triples lie one after the other. -/
theorem init_color_fresh (bc : BoardConst) (hnd : bc.geo.points.Nodup) (bd : Board) (c : Color)
    (pm : PrecompMoves) :
    (∀ x ∈ bc.visited bd c, (init_color false bc bd c pm).list_of x
        = (bc.precomp_moves.list_of x).filter
            (fun mv => !mark_forbidden bc.geo bd c bc.precomp_moves mv)) ∧
    laid_out (init_color false bc bd c pm) (bc.visited bd c) := by
  have e : init_color false bc bd c pm
      = ((bc.visited bd c).foldl
          (layout_step (filtered_table bc.precomp_moves
            (mark_forbidden bc.geo bd c bc.precomp_moves))) (0, pm)).2 := by
    unfold init_color BoardConst.visited
    simp only [Bool.false_eq_true, if_false]
    rw [rebuild_fresh]
  rw [e]
  obtain ⟨_, _, _, h4, _, h6⟩ := layout_foldl_spec
    (filtered_table bc.precomp_moves (mark_forbidden bc.geo bd c bc.precomp_moves))
    (bc.visited bd c) (0, pm) (visited_nodup _ _ _ hnd bd c)
  exact ⟨fun x hx => by rw [h4 x hx, filtered_table_apply], h6⟩

/-- The index of a colour after a follow-up `init` from an old index in which
the runs of the visited triples lie one after the other: every visited triple
has its old list without the moves marked forbidden, and the runs of the
visited triples again lie one after the other. -/
theorem init_color_followup (bc : BoardConst) (hnd : bc.geo.points.Nodup) (bd : Board)
    (c : Color) (pm0 : PrecompMoves) (hlay : laid_out pm0 (bc.visited bd c)) :
    (∀ x ∈ bc.visited bd c, (init_color true bc bd c pm0).list_of x
        = (pm0.list_of x).filter (fun mv => !mark_forbidden bc.geo bd c pm0 mv)) ∧
    laid_out (init_color true bc bd c pm0) (bc.visited bd c) := by
  have e : init_color true bc bd c pm0
      = ((bc.visited bd c).foldl
          (layout_step (filtered_table pm0 (mark_forbidden bc.geo bd c pm0))) (0, pm0)).2 := by
    unfold init_color
    simp only [if_true]
    rw [rebuild_followup _ _ _ hnd _ _ _ _ _ hlay]
    rfl
  rw [e]
  obtain ⟨_, _, _, h4, _, h6⟩ := layout_foldl_spec
    (filtered_table pm0 (mark_forbidden bc.geo bd c pm0))
    (bc.visited bd c) (0, pm0) (visited_nodup _ _ _ hnd bd c)
  exact ⟨fun x hx => by rw [h4 x hx, filtered_table_apply], h6⟩

theorem laid_out_sublist (pm : PrecompMoves) (l1 l2 : List (Point × Nat × Piece))
    (h : l1.Sublist l2) (hl : laid_out pm l2) : laid_out pm l1 :=
  List.Pairwise.sublist h hl

/-- The lists of the static index hold moves of their own piece. -/
theorem static_piece_faithful (nu_adj : Nat) (geo : Geometry) (pieces : List PieceInfo)
    (mem : Storage) (l : List (Point × Nat × Piece))
    (hl : l.Sublist (triples (nu_adj_status nu_adj) pieces.length geo.points)) :
    piece_faithful (BoardConst.create nu_adj geo pieces mem)
      (BoardConst.create nu_adj geo pieces mem).precomp_moves l := by
  intro x hx m hm
  obtain ⟨hp, hi, hq⟩ := (mem_triples _ _ _ _ _ _).mp (hl.subset hx)
  have e : (BoardConst.create nu_adj geo pieces mem).precomp_moves.list_of x
      = (BoardConst.create nu_adj geo pieces mem).get_moves x.2.2 x.1 x.2.1 := rfl
  rw [e, get_moves_eq_bucket nu_adj geo pieces mem x.1 x.2.1 x.2.2 hp hi hq, mem_bucket] at hm
  exact hm.2.1

/-- The test of an index entry in `visited`, for the current status of a
point and a piece of the list of the pieces left. -/
theorem current_mem_visited (bc : BoardConst) (bd : Board) (c : Color)
    (hwf : bd.WellFormed bc c) (p : Point) (hp : p ∈ bc.geo.points)
    (hf : bd.is_forbidden p c = false) (q : Piece) (hq : q ∈ bd.get_pieces_left c) :
    (p, bd.get_adj_status p c, q) ∈ bc.visited bd c := by
  unfold BoardConst.visited
  rw [mem_visited]
  refine ⟨hp, hf, ?_, ?_, hwf.pieces_lt q hq, (hwf.pieces_left_iff q).mp hq⟩
  · exact pow_slots_le bc.nu_adj bc.geo p _ (hwf.adj_status_lt p hp)
  · rw [is_followup_iff]; exact fun _ h => h

theorem row3_start_wf (c : Color) : row3_start.WellFormed row3_const c where
  pieces_left_iff := by
    intro q
    simp only [row3_start, List.mem_cons, List.mem_singleton, List.not_mem_nil, or_false,
      decide_eq_true_eq]
    have : ∀ n : Nat, (n = 0 ∨ n = 1) ↔ n < 2 := by omega
    exact this q
  pieces_lt := by
    intro q hq
    simp only [row3_start, List.mem_cons, List.mem_singleton, List.not_mem_nil, or_false] at hq
    rcases hq with rfl | rfl <;> decide
  adj_status_lt := by
    intro p _
    exact Nat.two_pow_pos _

theorem row3_mid_wf_0 : row3_mid.WellFormed row3_const 0 where
  pieces_left_iff := by
    intro q
    simp [row3_mid]
  pieces_lt := by decide
  adj_status_lt := by decide

theorem row3_mid_wf_1 : row3_mid.WellFormed row3_const 1 where
  pieces_left_iff := by
    intro q
    simp only [row3_mid, List.mem_cons, List.mem_singleton, List.not_mem_nil, or_false]
    simp only [one_ne_zero, if_false, decide_eq_true_eq, List.mem_cons, List.mem_singleton,
      List.not_mem_nil, or_false]
    have : ∀ n : Nat, (n = 0 ∨ n = 1) ↔ n < 2 := by omega
    exact this q
  pieces_lt := by decide
  adj_status_lt := by decide

theorem row3_progress (c : Color) : row3_start.Progress row3_mid c where
  points := by intro p h; simp [row3_start] at h
  moves := by intro m h; simp [row3_start] at h
  status := by intro p _ i h; simp [row3_start] at h
  pieces := by
    intro q h
    simp only [row3_mid, row3_start] at h ⊢
    by_cases hc : c = 0
    · simp [hc] at h; simp [h]
    · simp [hc] at h; simp [h]


/-! ## Claims about `SharedConst::init` -/

/-- C7: in-place safety of the follow-up rebuild.  Let `bd1` be reached by
play from `bd0`.  (1) The index that a fresh `init` builds for `bd0` has the
runs of its visited triples one after the other, in the order of the loops.
(2) When the old index `pm0` has this layout for `bd0`, then in `init(true)`
on `bd1`, at the moment the list of any visited triple `x` is copied, the
write index is at most the start offset of the old run of `x`, the run of `x`
is still the old one and the array still holds the old entries from the write
index on; the second loop nest is this sequence of steps.  (3) The index that
`init(true)` builds has the layout for `bd1`, so the same holds for the next
follow-up. -/
theorem followup_in_place_safe (bc : BoardConst) (hnd : bc.geo.points.Nodup)
    (bd0 bd1 : Board) (c : Color) (hprog : bd0.Progress bd1 c) :
    (∀ pm, laid_out (init_color false bc bd0 c pm) (bc.visited bd0 c)) ∧
    (∀ pm0, laid_out pm0 (bc.visited bd0 c) → ∀ (forbidden : Move → Bool)
        (V1 V2 : List (Point × Nat × Piece)) (x : Point × Nat × Piece),
        bc.visited bd1 c = V1 ++ x :: V2 →
        rebuild true (nu_adj_status bc.nu_adj) bc.pieces.length bc.geo bc.precomp_moves bd1 c
            forbidden pm0
          = (V1 ++ x :: V2).foldl (followup_step_of bc bd1 c forbidden) (0, pm0) ∧
        (V1.foldl (followup_step_of bc bd1 c forbidden) (0, pm0)).1 ≤ (pm0.range_of x).1 ∧
        (V1.foldl (followup_step_of bc bd1 c forbidden) (0, pm0)).2.range_of x
          = pm0.range_of x ∧
        ∀ k, (V1.foldl (followup_step_of bc bd1 c forbidden) (0, pm0)).1 ≤ k →
          (V1.foldl (followup_step_of bc bd1 c forbidden) (0, pm0)).2.move_lists k
            = pm0.move_lists k) ∧
    (∀ pm0, laid_out pm0 (bc.visited bd0 c) →
      laid_out (init_color true bc bd1 c pm0) (bc.visited bd1 c)) := by
  have hsub : (bc.visited bd1 c).Sublist (bc.visited bd0 c) :=
    visited_sublist _ _ _ bd0 bd1 c hprog
  refine ⟨fun pm => (init_color_fresh bc hnd bd0 c pm).2, ?_, ?_⟩
  · intro pm0 hlay forbidden V1 V2 x hV
    have hlay1 : laid_out pm0 (V1 ++ x :: V2) := hV ▸ laid_out_sublist pm0 _ _ hsub hlay
    have hnd1 : (V1 ++ x :: V2).Nodup := hV ▸ visited_nodup _ _ _ hnd bd1 c
    have hleft : ∀ y ∈ V1, bd1.is_piece_left c y.2.2 = true := by
      intro y hy
      have : y ∈ bc.visited bd1 c := by rw [hV]; exact List.mem_append_left _ hy
      exact ((mem_visited _ _ _ _ _ y).mp this).2.2.2.2.2
    obtain ⟨e, ha, hb, hcc⟩ := followup_foldl bc.precomp_moves bd1 c forbidden pm0 V1 (x :: V2)
      (0, pm0) hnd1 hlay1 hleft (untouched_start pm0 _)
    have e' : V1.foldl (followup_step_of bc bd1 c forbidden) (0, pm0)
        = V1.foldl (layout_step (filtered_table pm0 forbidden)) (0, pm0) := e
    refine ⟨?_, ?_, ?_, ?_⟩
    · rw [rebuild_eq_foldl, ← hV]; rfl
    · rw [e']; exact hb x (List.mem_cons_self _ _)
    · rw [e']; exact ha x (List.mem_cons_self _ _)
    · rw [e']; exact hcc
  · intro pm0 hlay
    exact (init_color_followup bc hnd bd1 c pm0 (laid_out_sublist pm0 _ _ hsub hlay)).2

/-- C6: incremental/full equivalence.  Let `bd1` be reached by play from `bd0`
(forbidden points and moves stay forbidden, the status of an open point keeps
its bits, no piece comes back).  Running `init(false)` on `bd0` and then
`init(true)` on `bd1` gives, for every point not forbidden for `c` in `bd1`,
every status that is a follow-up of the current status of the point and every
piece `c` still has, the same move list as running `init(false)` on `bd1`. -/
theorem incremental_eq_full (nu_adj : Nat) (geo : Geometry) (pieces : List PieceInfo)
    (mem : Storage) (hnd : geo.points.Nodup) (bd0 bd1 : Board) (c : Color)
    (hc0 : c ∈ bd0.colors) (hn0 : bd0.colors.Nodup) (hc1 : c ∈ bd1.colors)
    (hn1 : bd1.colors.Nodup)
    (hwf0 : bd0.WellFormed (BoardConst.create nu_adj geo pieces mem) c)
    (hwf1 : bd1.WellFormed (BoardConst.create nu_adj geo pieces mem) c)
    (hprog : bd0.Progress bd1 c) (sc sc' : SharedConst) (p : Point) (i : Nat) (q : Piece)
    (hp : p ∈ geo.points) (hf : bd1.is_forbidden p c = false)
    (hi : i < nu_adj_status nu_adj)
    (hfu : is_followup_adj_status i (bd1.get_adj_status p c) = true)
    (hq : q < pieces.length) (hl : bd1.is_piece_left c q = true) :
    ((((sc.init (BoardConst.create nu_adj geo pieces mem) bd0 false).init
        (BoardConst.create nu_adj geo pieces mem) bd1 true).precomp_moves c).get_moves q p i)
      = (((sc'.init (BoardConst.create nu_adj geo pieces mem) bd1 false).precomp_moves c).get_moves
          q p i) := by
  have hx1 : (p, i, q) ∈ (BoardConst.create nu_adj geo pieces mem).visited bd1 c := by
    unfold BoardConst.visited
    rw [mem_visited]
    exact ⟨hp, hf, hi, hfu, hq, hl⟩
  have hsub : ((BoardConst.create nu_adj geo pieces mem).visited bd1 c).Sublist
      ((BoardConst.create nu_adj geo pieces mem).visited bd0 c) :=
    visited_sublist _ _ _ bd0 bd1 c hprog
  have hx0 := hsub.subset hx1
  rw [init_precomp_moves _ _ _ _ c hc1 hn1, init_precomp_moves _ _ _ _ c hc0 hn0,
    init_precomp_moves _ _ _ _ c hc1 hn1]
  obtain ⟨f0, l0⟩ := init_color_fresh (BoardConst.create nu_adj geo pieces mem) hnd bd0 c
    (sc.precomp_moves c)
  obtain ⟨f1, _⟩ := init_color_fresh (BoardConst.create nu_adj geo pieces mem) hnd bd1 c
    (sc'.precomp_moves c)
  obtain ⟨g1, _⟩ := init_color_followup (BoardConst.create nu_adj geo pieces mem) hnd bd1 c
    (init_color false (BoardConst.create nu_adj geo pieces mem) bd0 c (sc.precomp_moves c))
    (laid_out_sublist _ _ _ hsub l0)
  have e1 := g1 (p, i, q) hx1
  have e2 := f0 (p, i, q) hx0
  have e3 := f1 (p, i, q) hx1
  unfold PrecompMoves.list_of at e1 e2 e3
  simp only at e1 e2 e3
  rw [e1, e2, e3, List.filter_filter]
  apply List.filter_congr
  intro m hm
  -- the marks of the two-step run and of the direct run agree on `m`
  have hgeo : (BoardConst.create nu_adj geo pieces mem).geo = geo := rfl
  have hpieces : (BoardConst.create nu_adj geo pieces mem).pieces = pieces := rfl
  rw [hgeo]
  have key : (mark_forbidden geo bd1 c
        (init_color false (BoardConst.create nu_adj geo pieces mem) bd0 c (sc.precomp_moves c))
        m = false ∧
      mark_forbidden geo bd0 c (BoardConst.create nu_adj geo pieces mem).precomp_moves m = false)
      ↔ mark_forbidden geo bd1 c (BoardConst.create nu_adj geo pieces mem).precomp_moves m
          = false := by
    constructor
    · rintro ⟨hA, _⟩
      obtain ⟨h1, p', hp', hf', q', hq', hm'⟩ := (mark_forbidden_spec _ _ _ _ _).mp hA
      rw [mark_forbidden_spec]
      refine ⟨h1, p', hp', hf', q', hq', ?_⟩
      have hv1 := current_mem_visited _ bd1 c hwf1 p' hp' hf' q' hq'
      have := f0 _ (hsub.subset hv1)
      unfold PrecompMoves.list_of at this
      simp only at this
      rw [this] at hm'
      exact (List.mem_filter.mp hm').1
    · intro hD
      obtain ⟨h1, p', hp', hf', q', hq', hm'⟩ := (mark_forbidden_spec _ _ _ _ _).mp hD
      have hv1 := current_mem_visited _ bd1 c hwf1 p' hp' hf' q' hq'
      have hv0 := hsub.subset hv1
      have hf0' : bd0.is_forbidden p' c = false := by
        by_contra hcon
        have := hprog.points p' (by simpa using hcon)
        rw [hf'] at this
        exact absurd this (by decide)
      have hq0 : q' ∈ bd0.get_pieces_left c :=
        (hwf0.pieces_left_iff q').mpr (hprog.pieces q' ((hwf1.pieces_left_iff q').mp hq'))
      have hm0 : mark_forbidden geo bd0 c
          (BoardConst.create nu_adj geo pieces mem).precomp_moves m = false := by
        rw [mark_forbidden_spec]
        refine ⟨?_, p', hp', hf0', q', hq0, ?_⟩
        · by_contra hcon
          have := hprog.moves m (by simpa using hcon)
          rw [h1] at this
          exact absurd this (by decide)
        · exact get_moves_subset_of_bits nu_adj geo pieces mem p' hp' q' (hwf1.pieces_lt q' hq') _ _
            (hwf1.adj_status_lt p' hp') (hprog.status p' hf') m hm'
      refine ⟨?_, hm0⟩
      rw [mark_forbidden_spec]
      refine ⟨h1, p', hp', hf', q', hq', ?_⟩
      have := f0 _ hv0
      unfold PrecompMoves.list_of at this
      simp only at this
      rw [this, List.mem_filter]
      have hm0' : mark_forbidden (BoardConst.create nu_adj geo pieces mem).geo bd0 c
          (BoardConst.create nu_adj geo pieces mem).precomp_moves m = false := hm0
      exact ⟨hm', by simp [hm0']⟩
  by_cases hd : mark_forbidden geo bd1 c
      (BoardConst.create nu_adj geo pieces mem).precomp_moves m = false
  · obtain ⟨k1, k2⟩ := key.mpr hd
    simp [hd, k1, k2]
  · have hd' : mark_forbidden geo bd1 c
        (BoardConst.create nu_adj geo pieces mem).precomp_moves m = true := by simpa using hd
    rw [hd']
    by_cases k2 : mark_forbidden geo bd0 c
        (BoardConst.create nu_adj geo pieces mem).precomp_moves m = false
    · by_cases k1 : mark_forbidden geo bd1 c
          (init_color false (BoardConst.create nu_adj geo pieces mem) bd0 c
            (sc.precomp_moves c)) m = false
      · exact absurd (key.mp ⟨k1, k2⟩) hd
      · have : mark_forbidden geo bd1 c
            (init_color false (BoardConst.create nu_adj geo pieces mem) bd0 c
              (sc.precomp_moves c)) m = true := by simpa using k1
        simp [this]
    · have : mark_forbidden geo bd0 c
          (BoardConst.create nu_adj geo pieces mem).precomp_moves m = true := by simpa using k2
      simp [this]

theorem piece_faithful_sublist (bc : BoardConst) (pm : PrecompMoves)
    (l1 l2 : List (Point × Nat × Piece)) (h : l1.Sublist l2) (hl : piece_faithful bc pm l2) :
    piece_faithful bc pm l1 :=
  fun x hx => hl x (h.subset hx)

/-- C8, the claim as stated fails: on the small board, after `init(false)` at
the start position and `init(true)` at the position after colour 0 has played
the piece `1` on `a1`, the index of colour 0 still has the move 5 in the list
of the triple (`c1`, status 0, piece `2`) and the move 1 in the list of the
triple (`a1`, status 0, piece `1`).  The move 5 (cells `b1`, `c1`) and the
move 1 are forbidden for colour 0 and colour 0 no longer has the piece `1`.
Neither triple is visited by the rebuild: the status 0 is not a follow-up of
the current status 1 of `c1`, and `a1` is forbidden. -/
theorem init_lists_counterexample :
    (((row3_shared.init row3_const row3_start false).init row3_const row3_mid true).precomp_moves
        0).get_moves 1 2 0 = [5] ∧
      row3_mid.is_forbidden_move 0 5 = true ∧
    (((row3_shared.init row3_const row3_start false).init row3_const row3_mid true).precomp_moves
        0).get_moves 0 0 0 = [1] ∧
      row3_mid.is_forbidden_move 0 1 = true ∧
      (row3_const.move_info 1).piece = 0 ∧ row3_mid.is_piece_left 0 0 = false := by
  decide

/-- C8, amended: after `SharedConst::init` (fresh, or follow-up from an index
in which the runs of the visited triples lie one after the other and the
lists hold moves of their own piece, as in every index built by `init` for an
earlier position), for each colour `c` and for every triple that the rebuild
visits (point not forbidden for `c`, status a follow-up of the current status
of the point, piece still in the inventory of `c`), the move list stored for
the triple contains only moves that are not forbidden for `c` on the current
board and whose piece is still in the inventory of `c`; and the new index
again has the layout and holds moves of their own piece. -/
theorem init_lists_legal (nu_adj : Nat) (geo : Geometry) (pieces : List PieceInfo)
    (mem : Storage) (hnd : geo.points.Nodup) (bd : Board) (c : Color) (hc : c ∈ bd.colors)
    (hn : bd.colors.Nodup) (sc : SharedConst) (is_followup : Bool)
    (hold : is_followup = true →
      laid_out (sc.precomp_moves c) ((BoardConst.create nu_adj geo pieces mem).visited bd c) ∧
      piece_faithful (BoardConst.create nu_adj geo pieces mem) (sc.precomp_moves c)
        ((BoardConst.create nu_adj geo pieces mem).visited bd c)) :
    (∀ x ∈ (BoardConst.create nu_adj geo pieces mem).visited bd c,
      ∀ m ∈ (((sc.init (BoardConst.create nu_adj geo pieces mem) bd is_followup).precomp_moves
          c).list_of x),
        bd.is_forbidden_move c m = false ∧
        bd.is_piece_left c ((BoardConst.create nu_adj geo pieces mem).move_info m).piece = true) ∧
    laid_out ((sc.init (BoardConst.create nu_adj geo pieces mem) bd is_followup).precomp_moves c)
      ((BoardConst.create nu_adj geo pieces mem).visited bd c) ∧
    piece_faithful (BoardConst.create nu_adj geo pieces mem)
      ((sc.init (BoardConst.create nu_adj geo pieces mem) bd is_followup).precomp_moves c)
      ((BoardConst.create nu_adj geo pieces mem).visited bd c) := by
  rw [init_precomp_moves _ _ _ _ c hc hn]
  -- the lists are filtered old lists, and the old lists hold moves of their own piece
  have main : ∃ (old : PrecompMoves),
      piece_faithful (BoardConst.create nu_adj geo pieces mem) old
        ((BoardConst.create nu_adj geo pieces mem).visited bd c) ∧
      (∀ x ∈ (BoardConst.create nu_adj geo pieces mem).visited bd c,
        (init_color is_followup (BoardConst.create nu_adj geo pieces mem) bd c
            (sc.precomp_moves c)).list_of x
          = (old.list_of x).filter
              (fun mv => !mark_forbidden (BoardConst.create nu_adj geo pieces mem).geo bd c old mv)) ∧
      laid_out (init_color is_followup (BoardConst.create nu_adj geo pieces mem) bd c
        (sc.precomp_moves c)) ((BoardConst.create nu_adj geo pieces mem).visited bd c) := by
    cases is_followup with
    | false =>
      obtain ⟨f, l⟩ := init_color_fresh (BoardConst.create nu_adj geo pieces mem) hnd bd c
        (sc.precomp_moves c)
      exact ⟨_, static_piece_faithful nu_adj geo pieces mem _
        (visited_sublist_triples _ _ _ bd c), f, l⟩
    | true =>
      obtain ⟨h1, h2⟩ := hold rfl
      obtain ⟨f, l⟩ := init_color_followup (BoardConst.create nu_adj geo pieces mem) hnd bd c
        (sc.precomp_moves c) h1
      exact ⟨_, h2, f, l⟩
  obtain ⟨old, hpf, hlist, hlay⟩ := main
  refine ⟨?_, hlay, ?_⟩
  · intro x hx m hm
    rw [hlist x hx, List.mem_filter] at hm
    have hmark : mark_forbidden (BoardConst.create nu_adj geo pieces mem).geo bd c old m
        = false := by simpa using hm.2
    refine ⟨((mark_forbidden_spec _ _ _ _ _).mp hmark).1, ?_⟩
    rw [hpf x hx m hm.1]
    exact ((mem_visited _ _ _ _ _ x).mp hx).2.2.2.2.2
  · intro x hx m hm
    rw [hlist x hx, List.mem_filter] at hm
    exact hpf x hx m hm.1

set_option maxRecDepth 100000 in
theorem init_lists_legal_witness :
    5 ∈ (((row3_shared.init row3_const row3_start false).init row3_const row3_mid
        true).precomp_moves 1).list_of (1, 1, 1) ∧
      row3_mid.is_forbidden_move 1 5 = false ∧
      row3_mid.is_piece_left 1 (row3_const.move_info 5).piece = true :=
  have h0 := init_lists_legal 2 row3 row3_pieces Storage.fresh (by decide) row3_start 1
    (by decide) (by decide) row3_shared false (fun h => absurd h (by decide))
  have hsub := visited_sublist (nu_adj_status 2) row3_pieces.length row3 row3_start row3_mid 1
    (row3_progress 1)
  ⟨by decide,
    (init_lists_legal 2 row3 row3_pieces Storage.fresh (by decide) row3_mid 1 (by decide)
      (by decide) (row3_shared.init row3_const row3_start false) true
      (fun _ => ⟨laid_out_sublist _ _ _ hsub h0.2.1,
        piece_faithful_sublist _ _ _ _ hsub h0.2.2⟩)).1 (1, 1, 1) (by decide) 5 (by decide)⟩

theorem incremental_eq_full_witness :
    (((row3_shared.init row3_const row3_start false).init row3_const row3_mid
        true).precomp_moves 1).get_moves 1 1 1
      = ((row3_shared.init row3_const row3_mid false).precomp_moves 1).get_moves 1 1 1 ∧
    ((row3_shared.init row3_const row3_mid false).precomp_moves 1).get_moves 1 1 1 = [5] :=
  ⟨incremental_eq_full 2 row3 row3_pieces Storage.fresh (by decide) row3_start row3_mid 1
      (by decide) (by decide) (by decide) (by decide) (row3_start_wf 1) row3_mid_wf_1
      (row3_progress 1) row3_shared row3_shared 1 1 1 (by decide) (by decide) (by decide)
      (by decide) (by decide) (by decide),
    by decide⟩

theorem followup_in_place_safe_witness :
    ([(1, 1, 0), (1, 1, 1)].foldl
        (followup_step_of row3_const row3_mid 1
          (mark_forbidden row3 row3_mid 1
            (init_color false row3_const row3_start 1 (row3_shared.precomp_moves 1))))
        (0, init_color false row3_const row3_start 1 (row3_shared.precomp_moves 1))).1
      ≤ ((init_color false row3_const row3_start 1 (row3_shared.precomp_moves 1)).range_of
          (1, 3, 0)).1 :=
  have h := followup_in_place_safe row3_const (by decide) row3_start row3_mid 1 (row3_progress 1)
  ((h.2.1 (init_color false row3_const row3_start 1 (row3_shared.precomp_moves 1))
      (h.1 (row3_shared.precomp_moves 1))
      (mark_forbidden row3 row3_mid 1
        (init_color false row3_const row3_start 1 (row3_shared.precomp_moves 1)))
      [(1, 1, 0), (1, 1, 1)]
      [(1, 3, 1), (2, 0, 0), (2, 0, 1), (2, 1, 0), (2, 1, 1), (2, 2, 0), (2, 2, 1), (2, 3, 0),
        (2, 3, 1)]
      (1, 3, 0) (by decide)).2).1

/-! ## Errors of `from_string` -/

theorem parse_points_eq_none (geo : Geometry) (v : List Text) :
    parse_points geo v = none ↔ ∃ part ∈ v, geo.from_string part = none := by
  induction v with
  | nil => simp [parse_points]
  | cons s rest ih =>
    unfold parse_points
    cases h : geo.from_string s with
    | none => simp [h]
    | some p =>
      simp only [Option.map_eq_none', ih, List.mem_cons]
      constructor
      · rintro ⟨part, hp, hn⟩
        exact ⟨part, Or.inr hp, hn⟩
      · rintro ⟨part, hp | hp, hn⟩
        · rw [hp, h] at hn; exact absurd hn (by simp)
        · exact ⟨part, hp, hn⟩

theorem parse_points_eq_some (geo : Geometry) (v : List Text) (points : List Point) :
    parse_points geo v = some points ↔ v.map geo.from_string = points.map some := by
  induction v generalizing points with
  | nil =>
    cases points <;> simp [parse_points]
  | cons s rest ih =>
    unfold parse_points
    cases h : geo.from_string s with
    | none =>
      cases points <;> simp [h]
    | some p =>
      cases points with
      | nil => simp [h]
      | cons q points =>
        simp only [Option.map_eq_some', List.map_cons, h, List.cons.injEq, Option.some.injEq]
        constructor
        · rintro ⟨l, hl, e1, e2⟩
          subst e2
          exact ⟨e1, (ih l).mp hl⟩
        · rintro ⟨e1, e2⟩
          exact ⟨points, (ih points).mpr e2, e1, rfl⟩

theorem from_string_too_many (bc : BoardConst) (s : Text)
    (hnull : to_lower (trim s) ≠ "null".toList)
    (h : max_size < (split (to_lower (trim s)) ',').length) :
    from_string bc s = Except.error "illegal move (too many points)" := by
  unfold from_string
  simp only [if_neg hnull]
  rw [if_pos h]

theorem from_string_invalid (bc : BoardConst) (s : Text)
    (hnull : to_lower (trim s) ≠ "null".toList)
    (h : (split (to_lower (trim s)) ',').length ≤ max_size)
    (hp : parse_points bc.geo (split (to_lower (trim s)) ',') = none) :
    from_string bc s = Except.error "illegal move (invalid point)" := by
  unfold from_string
  simp only [if_neg hnull]
  rw [if_neg (by omega), hp]

theorem from_string_not_found (bc : BoardConst) (s : Text)
    (hnull : to_lower (trim s) ≠ "null".toList)
    (h : (split (to_lower (trim s)) ',').length ≤ max_size) (points : List Point)
    (hp : parse_points bc.geo (split (to_lower (trim s)) ',') = some points)
    (hf : find_move bc points = none) :
    from_string bc s = Except.error "illegal move" := by
  unfold from_string
  simp only [if_neg hnull]
  rw [if_neg (by omega), hp]
  simp only [hf]

theorem from_string_found (bc : BoardConst) (s : Text)
    (hnull : to_lower (trim s) ≠ "null".toList)
    (h : (split (to_lower (trim s)) ',').length ≤ max_size) (points : List Point)
    (hp : parse_points bc.geo (split (to_lower (trim s)) ',') = some points) (mv : Move)
    (hf : find_move bc points = some mv) :
    from_string bc s = Except.ok mv := by
  unfold from_string
  simp only [if_neg hnull]
  rw [if_neg (by omega), hp]
  simp only [hf]

/-- C11: for a text that is not `null` after trimming and lower-casing,
`from_string` fails with "illegal move (too many points)" when the text has
more than 7 comma-separated parts (whatever the parts are), with "illegal
move (invalid point)" when it has at most 7 parts and the geometry rejects
one of them, and with "illegal move" when all parts parse and `find_move`
finds no move for the parsed points; when `find_move` finds a move, that move
is returned.  `from_string` fails in these three cases only.  (For the empty
text the list of points is empty and `find_move` finds nothing.) -/
theorem from_string_errors (bc : BoardConst) (s : Text)
    (hnull : to_lower (trim s) ≠ "null".toList) :
    (max_size < (split (to_lower (trim s)) ',').length →
      from_string bc s = Except.error "illegal move (too many points)") ∧
    ((split (to_lower (trim s)) ',').length ≤ max_size →
      (∃ part ∈ split (to_lower (trim s)) ',', bc.geo.from_string part = none) →
      from_string bc s = Except.error "illegal move (invalid point)") ∧
    (∀ points : List Point, (split (to_lower (trim s)) ',').length ≤ max_size →
      (split (to_lower (trim s)) ',').map bc.geo.from_string = points.map some →
      (find_move bc points = none → from_string bc s = Except.error "illegal move") ∧
      (∀ mv, find_move bc points = some mv → from_string bc s = Except.ok mv)) ∧
    ((∃ e, from_string bc s = Except.error e) ↔
      (max_size < (split (to_lower (trim s)) ',').length ∨
       (∃ part ∈ split (to_lower (trim s)) ',', bc.geo.from_string part = none) ∨
       ∃ points : List Point,
         (split (to_lower (trim s)) ',').map bc.geo.from_string = points.map some ∧
         find_move bc points = none)) := by
  have hA := from_string_too_many bc s hnull
  have hB := from_string_invalid bc s hnull
  have hC := from_string_not_found bc s hnull
  have hD := from_string_found bc s hnull
  generalize split (to_lower (trim s)) ',' = v at hA hB hC hD ⊢
  refine ⟨hA, ?_, ?_, ?_⟩
  · intro h hex
    exact hB h ((parse_points_eq_none _ _).mpr hex)
  · intro points h hp
    exact ⟨hC h points ((parse_points_eq_some _ _ _).mpr hp),
      hD h points ((parse_points_eq_some _ _ _).mpr hp)⟩
  · by_cases h : max_size < v.length
    · exact ⟨fun _ => Or.inl h, fun _ => ⟨_, hA h⟩⟩
    have hle : v.length ≤ max_size := by omega
    cases hp : parse_points bc.geo v with
    | none =>
      exact ⟨fun _ => Or.inr (Or.inl ((parse_points_eq_none _ _).mp hp)),
        fun _ => ⟨_, hB hle hp⟩⟩
    | some points =>
      have hp' := (parse_points_eq_some _ _ _).mp hp
      cases hf : find_move bc points with
      | none =>
        exact ⟨fun _ => Or.inr (Or.inr ⟨points, hp', hf⟩), fun _ => ⟨_, hC hle points hp hf⟩⟩
      | some mv =>
        constructor
        · rintro ⟨e, he⟩
          rw [hD hle points hp mv hf] at he
          exact absurd he (by simp)
        · rintro (h1 | ⟨part, hpart, hn⟩ | ⟨points', hp2, hf2⟩)
          · exact absurd h1 h
          · have := (parse_points_eq_none bc.geo v).mpr ⟨part, hpart, hn⟩
            rw [hp] at this; exact absurd this (by simp)
          · have : points' = points := by
              have := hp2.symm.trans hp'
              exact List.map_injective_iff.mpr (Option.some_injective _) this
            rw [this, hf] at hf2; exact absurd hf2 (by simp)

theorem from_string_errors_witness :
    to_lower (trim " A1,b1 ".toList) ≠ "null".toList ∧
      from_string row3_const " A1,b1 ".toList = Except.ok 4 ∧
      from_string row3_const "a1,c1".toList = Except.error "illegal move" ∧
      from_string row3_const "a1,d1".toList = Except.error "illegal move (invalid point)" ∧
      from_string row3_const "a1,a1,a1,a1,a1,a1,a1,d1".toList
        = Except.error "illegal move (too many points)" :=
  ⟨by decide,
   ((from_string_errors row3_const " A1,b1 ".toList (by decide)).2.2.1 [0, 1] (by decide)
      (by decide)).2 4 (by decide),
   ((from_string_errors row3_const "a1,c1".toList (by decide)).2.2.1 [0, 2] (by decide)
      (by decide)).1 (by decide),
   (from_string_errors row3_const "a1,d1".toList (by decide)).2.1 (by decide)
      ⟨"d1".toList, by decide, by decide⟩,
   (from_string_errors row3_const "a1,a1,a1,a1,a1,a1,a1,d1".toList (by decide)).1 (by decide)⟩

/-! ## Created moves: points, uniqueness, order and identities -/

theorem catalog_points_aux :
    ∀ catalog ∈ [create_pieces_classic (fun _ => []), create_pieces_junior (fun _ => []),
        create_pieces_trigon (fun _ => []), create_pieces_nexos (fun _ => [])],
      ∀ pts ∈ catalog.map PieceInfo.points,
        0 < pts.length ∧ pts.length ≤ max_size ∧ pts.Nodup := by
  decide

/-- The pieces of the four catalogs have between 1 and `max_size` points, and
the points of a piece are pairwise distinct. -/
theorem catalog_points (uniq : List CoordPoint → List Transform) :
    ∀ catalog ∈ [create_pieces_classic uniq, create_pieces_junior uniq,
        create_pieces_trigon uniq, create_pieces_nexos uniq],
      ∀ pts ∈ catalog.map PieceInfo.points,
        0 < pts.length ∧ pts.length ≤ max_size ∧ pts.Nodup := by
  intro catalog hc
  simp only [List.mem_cons, List.mem_singleton, List.not_mem_nil, or_false] at hc
  rcases hc with rfl | rfl | rfl | rfl
  · exact catalog_points_aux (create_pieces_classic (fun _ => [])) (by simp)
  · exact catalog_points_aux (create_pieces_junior (fun _ => [])) (by simp)
  · exact catalog_points_aux (create_pieces_trigon (fun _ => [])) (by simp)
  · exact catalog_points_aux (create_pieces_nexos (fun _ => [])) (by simp)

/-- The pieces of the four catalogs are well formed when every unique
transform is injective on coordinates. -/
theorem catalog_well_formed (uniq : List CoordPoint → List Transform)
    (hinj : ∀ pts, ∀ t ∈ uniq pts, Function.Injective t.get_transformed) :
    ∀ catalog ∈ [create_pieces_classic uniq, create_pieces_junior uniq,
        create_pieces_trigon uniq, create_pieces_nexos uniq],
      ∀ pc ∈ catalog, pc.WellFormed := by
  intro catalog hc pc hpc
  obtain ⟨h1, h2, h3⟩ := catalog_points uniq catalog hc pc.points (List.mem_map_of_mem _ hpc)
  have ht : pc.transforms = uniq pc.points := by
    simp only [List.mem_cons, List.mem_singleton, List.not_mem_nil, or_false] at hc
    rcases hc with rfl | rfl | rfl | rfl
    all_goals
      simp only [create_pieces_classic, create_pieces_junior, create_pieces_trigon,
        create_pieces_nexos, List.mem_cons, List.mem_singleton, List.not_mem_nil, or_false] at hpc
      rcases hpc with rfl | rfl | rfl | rfl | rfl | rfl | rfl | rfl | rfl | rfl | rfl | rfl |
        rfl | rfl | rfl | rfl | rfl | rfl | rfl | rfl | rfl | rfl | rfl | rfl <;> rfl
  exact ⟨h1, h2, fun t ht' => h3.map (hinj pc.points t (ht ▸ ht'))⟩

/-- C12: every move created by `create_moves` has exactly as many occupied
points as its piece has cells, and these points are points of the geometry
and pairwise distinct (for a well-formed geometry and pieces of 1 to 7
distinct cells with injective transforms, as the four catalogs are). -/
theorem created_move_points (nu_adj : Nat) (geo : Geometry) (pieces : List PieceInfo)
    (mem : Storage) (hgeo : geo.WellFormed) (hcat : ∀ pc ∈ pieces, pc.WellFormed) (m : Nat)
    (hm : (BoardConst.create nu_adj geo pieces mem).is_created m) :
    (∃ pc, pieces[((BoardConst.create nu_adj geo pieces mem).move_info m).piece]? = some pc ∧
      ((BoardConst.create nu_adj geo pieces mem).cells m).length = pc.get_size) ∧
    (∀ a ∈ (BoardConst.create nu_adj geo pieces mem).cells m, a ∈ geo.points) ∧
    ((BoardConst.create nu_adj geo pieces mem).cells m).Nodup := by
  obtain ⟨h1, h2, pc, h3, h4, _⟩ := created_move_cells nu_adj geo pieces mem hgeo hcat m hm
  exact ⟨⟨pc, h3, h4⟩, h2, h1⟩

theorem created_move_points_witness :
    row3_const.is_created 4 ∧
    (∃ pc, row3_pieces[(row3_const.move_info 4).piece]? = some pc ∧
      (row3_const.cells 4).length = pc.get_size) ∧
    (∀ a ∈ row3_const.cells 4, a ∈ row3.points) ∧ (row3_const.cells 4).Nodup :=
  ⟨by decide,
    created_move_points 2 row3 row3_pieces Storage.fresh row3_wf row3_pieces_wf 4 (by decide)⟩

/-- C14: the occupied points of a created move are stored in strictly
ascending order of the key `(height - y - 1) * width + x`, so
`BoardConst::sort` returns the point list of a move unchanged.  The points
are the translation to the anchor of a transformed piece that
`sort_piece_points` has put in the order of decreasing `y`, then increasing
`x`. -/
theorem created_move_order (nu_adj : Nat) (geo : Geometry) (pieces : List PieceInfo)
    (mem : Storage) (hgeo : geo.WellFormed) (hcat : ∀ pc ∈ pieces, pc.WellFormed) (m : Nat)
    (hm : (BoardConst.create nu_adj geo pieces mem).is_created m) :
    ((BoardConst.create nu_adj geo pieces mem).cells m).Pairwise
      (fun a b => compare_val geo a < compare_val geo b) ∧
    sort (compare_val geo) ((BoardConst.create nu_adj geo pieces mem).cells m)
      = (BoardConst.create nu_adj geo pieces mem).cells m ∧
    ∃ pc ∈ pieces, ∃ t ∈ pc.transforms, ∃ p ∈ geo.points,
      (BoardConst.create nu_adj geo pieces mem).cells m
        = shift_points geo p (transformed_points pc t) ∧
      (transformed_points pc t).Pairwise
        (fun a b => b.y < a.y ∨ (a.y = b.y ∧ a.x < b.x)) := by
  obtain ⟨n1, _, pc0, hpc0, hl, _⟩ := created_move_cells nu_adj geo pieces mem hgeo hcat m hm
  have hlen : ((BoardConst.create nu_adj geo pieces mem).cells m).length ≤ max_size := by
    rw [hl]
    exact (hcat pc0 (mem_of_getElem?_eq_some hpc0)).size_le
  refine ⟨created_move_sorted nu_adj geo pieces mem hgeo hcat m hm,
    (sort_eq_cells nu_adj geo pieces mem hgeo hcat _ hlen n1 m hm (fun _ => Iff.rfl)).symm, ?_⟩
  obtain ⟨i, pc, hpc, p, hp, t, ht, _, _, _, _, _, hcells⟩ :=
    created_move_spec nu_adj geo pieces mem m hm
  have hmem : pc ∈ pieces := mem_of_getElem?_eq_some hpc
  refine ⟨pc, hmem, t, ht, p, hp, hcells, ?_⟩
  have hs := transformed_points_sorted pc (hcat pc hmem) t
  have hnd := transformed_points_nodup pc (hcat pc hmem) t ht
  refine (hs.and hnd).imp ?_
  rintro ⟨ax, ay⟩ ⟨bx, by'⟩ ⟨h1, h2⟩
  simp only [ne_eq, CoordPoint.mk.injEq, not_and] at h1 h2 ⊢
  omega

theorem created_move_order_witness :
    row3_const.is_created 4 ∧
    (row3_const.cells 4).Pairwise (fun a b => compare_val row3 a < compare_val row3 b) ∧
    sort (compare_val row3) (row3_const.cells 4) = row3_const.cells 4 :=
  have h := created_move_order 2 row3 row3_pieces Storage.fresh row3_wf row3_pieces_wf 4
    (by decide)
  ⟨by decide, h.1, h.2.1⟩

/-- The records of the extended tables after a run of `create_move` calls:
entries below the first identity of the run are not written, and the entry of
the `k`-th placement of the run holds its label position, no symmetry flag and
no symmetric move. -/
theorem create_placements_ext (nu : Nat) (geo : Geometry) (s : AdjStatus) (L : List Placement) :
    ∀ st : BuildState,
      (∀ k (h : k < L.length),
        (L.foldl (create_placement nu geo s) st).move_info_ext_2 (st.moves_created + k)
          = ⟨L[k].label_pos, false, 0⟩) ∧
      (∀ m, m < st.moves_created →
        (L.foldl (create_placement nu geo s) st).move_info_ext m = st.move_info_ext m ∧
        (L.foldl (create_placement nu geo s) st).move_info_ext_2 m = st.move_info_ext_2 m) := by
  induction L with
  | nil => intro st; simp
  | cons x L ih =>
    intro st
    rw [List.foldl_cons]
    obtain ⟨h2, h3⟩ := ih (create_placement nu geo s st x)
    have c1 : (create_placement nu geo s st x).moves_created = st.moves_created + 1 := rfl
    have c2 : ∀ m, (create_placement nu geo s st x).move_info_ext_2 m
        = if m = st.moves_created then ⟨x.label_pos, false, 0⟩ else st.move_info_ext_2 m :=
      fun _ => rfl
    have c3 : ∀ m, m ≠ st.moves_created →
        (create_placement nu geo s st x).move_info_ext m = st.move_info_ext m := by
      intro m hm
      simp only [create_placement, create_move, if_neg hm]
    constructor
    · intro k hk
      cases k with
      | zero =>
        rw [Nat.add_zero, (h3 _ (by rw [c1]; omega)).2, c2]
        simp
      | succ k =>
        have := h2 k (by simpa using hk)
        rw [c1] at this
        rw [show st.moves_created + (k + 1) = st.moves_created + 1 + k by omega, this]
        simp
    · intro m hm
      obtain ⟨a, b⟩ := h3 m (by rw [c1]; omega)
      rw [a, b, c2, if_neg (Nat.ne_of_lt hm), c3 m (Nat.ne_of_lt hm)]
      exact ⟨rfl, rfl⟩

theorem create_move_info_ext_2 (nu_adj : Nat) (geo : Geometry) (pieces : List PieceInfo)
    (mem : Storage) (k : Nat) (h : k < (placements geo pieces).length) :
    (BoardConst.create nu_adj geo pieces mem).move_info_ext_2 (1 + k)
      = ⟨((placements geo pieces)[k]).label_pos, false, 0⟩ := by
  unfold BoardConst.create
  simp only
  rw [create_all_moves_eq]
  exact (create_placements_ext _ geo _ (placements geo pieces) (BuildState.start mem)).1 k h

/-- C15: `create_moves` assigns the move identities 1, 2, 3, ... in the order
of creation.  The calls of `create_move` are those of the list `placements`;
when the placement with index `k` (counted from 0) is created the counter is
`k + 1`, and its record is found at the identity `k + 1` in the end.  The
records at identity 0 are never written, and the final counter is the number
of placements plus one. -/
theorem move_identities_consecutive (nu_adj : Nat) (geo : Geometry) (pieces : List PieceInfo)
    (mem : Storage) :
    create_all_moves (nu_adj_status nu_adj) geo (init_adj_status nu_adj geo mem.adj_status)
        pieces (BuildState.start mem)
      = (placements geo pieces).foldl
          (create_placement (nu_adj_status nu_adj) geo
            (init_adj_status nu_adj geo mem.adj_status)) (BuildState.start mem) ∧
    (∀ k, k < (placements geo pieces).length →
      (((placements geo pieces).take k).foldl
          (create_placement (nu_adj_status nu_adj) geo
            (init_adj_status nu_adj geo mem.adj_status)) (BuildState.start mem)).moves_created
        = k + 1 ∧
      (placements geo pieces)[k]?.map Placement.info
        = some ((BoardConst.create nu_adj geo pieces mem).move_info (k + 1))) ∧
    (BoardConst.create nu_adj geo pieces mem).move_info 0 = mem.move_info 0 ∧
    (BoardConst.create nu_adj geo pieces mem).move_info_ext 0 = mem.move_info_ext 0 ∧
    (BoardConst.create nu_adj geo pieces mem).move_info_ext_2 0 = mem.move_info_ext_2 0 ∧
    (BoardConst.create nu_adj geo pieces mem).nu_moves = (placements geo pieces).length + 1 := by
  refine ⟨create_all_moves_eq _ geo _ pieces _, ?_, ?_, ?_, ?_, ?_⟩
  · intro k hk
    constructor
    · rw [(create_placements_spec _ geo _ ((placements geo pieces).take k)
        (BuildState.start mem)).1, List.length_take, Nat.min_eq_left (Nat.le_of_lt hk)]
      simp only [BuildState.start]
      omega
    · rw [Nat.add_comm k 1, create_move_info nu_adj geo pieces mem k hk,
        List.getElem?_eq_getElem hk]
      rfl
  · unfold BoardConst.create
    simp only
    rw [create_all_moves_eq]
    exact (create_placements_spec _ geo _ (placements geo pieces) (BuildState.start mem)).2.2.1
      0 (by simp [BuildState.start])
  · unfold BoardConst.create
    simp only
    rw [create_all_moves_eq]
    exact ((create_placements_ext _ geo _ (placements geo pieces) (BuildState.start mem)).2
      0 (by simp [BuildState.start])).1
  · unfold BoardConst.create
    simp only
    rw [create_all_moves_eq]
    exact ((create_placements_ext _ geo _ (placements geo pieces) (BuildState.start mem)).2
      0 (by simp [BuildState.start])).2
  · rw [create_nu_moves]; omega


theorem move_identities_consecutive_witness :
    3 < (placements row3 row3_pieces).length ∧
    (placements row3 row3_pieces)[3]?.map Placement.info
      = some (row3_const.move_info (3 + 1)) ∧
    row3_const.nu_moves = (placements row3 row3_pieces).length + 1 :=
  ⟨by decide,
    ((move_identities_consecutive 2 row3 row3_pieces Storage.fresh).2.1 3 (by decide)).2,
    (move_identities_consecutive 2 row3 row3_pieces Storage.fresh).2.2.2.2.2⟩

/-! ## Symmetry information -/

theorem symmetric_scan_foldl (info : MoveInfo) (sym : Point → Point) (l : List Point) :
    ∀ acc : Bool × List Point,
      l.foldl
        (fun acc p =>
          (if info.contains (sym p) then true else acc.1, acc.2 ++ [sym p])) acc
      = (acc.1 || l.any (fun p => info.contains (sym p)), acc.2 ++ l.map sym) := by
  induction l with
  | nil => intro acc; simp
  | cons a l ih =>
    intro acc
    rw [List.foldl_cons, ih]
    by_cases h : info.contains (sym a) = true
    · simp [h]
    · simp [h]

/-- The inner loop of `init_symmetry_info`: the flag says whether the image of
some point of the move is a point of the move, and `sym_points` is the list
of the images. -/
theorem symmetric_scan_eq (info : MoveInfo) (sym : Point → Point) :
    symmetric_scan info sym
      = (info.pts.any (fun p => info.contains (sym p)), info.pts.map sym) := by
  unfold symmetric_scan
  rw [symmetric_scan_foldl]
  simp

theorem symmetry_foldl (bc : BoardConst) (sym : Point → Point) (l : List Nat) :
    l.Nodup → ∀ (e : Move → MoveInfoExt2) (m : Nat),
      (l.foldl (symmetry_step bc sym) e) m
        = if m ∈ l then symmetry_entry bc sym (e m) m else e m := by
  induction l with
  | nil => intro _ e m; simp
  | cons a l ih =>
    intro hnd e m
    rw [List.nodup_cons] at hnd
    rw [List.foldl_cons, ih hnd.2]
    by_cases hma : m = a
    · subst hma
      simp [hnd.1, symmetry_step]
    · by_cases hml : m ∈ l
      · simp [hml, symmetry_step, hma]
      · simp [hml, symmetry_step, hma]

/-- The record of a created move after `init_symmetry_info`. -/
theorem init_symmetry_info_entry (bc : BoardConst) (sym : Point → Point) (m : Nat)
    (hm : bc.is_created m) :
    (init_symmetry_info bc sym).move_info_ext_2 m
      = symmetry_entry bc sym (bc.move_info_ext_2 m) m := by
  unfold init_symmetry_info
  simp only
  rw [symmetry_foldl bc sym _ (List.nodup_range' 1 (bc.nu_moves - 1)),
    if_pos (mem_range_of_created bc m hm)]

/-- The flag `breaks_symmetry` of a created move after `init_symmetry_info`. -/
theorem breaks_symmetry_iff (bc : BoardConst) (sym : Point → Point) (m : Nat)
    (hm : bc.is_created m) :
    ((init_symmetry_info bc sym).move_info_ext_2 m).breaks_symmetry = true
      ↔ ∃ p ∈ bc.cells m, sym p ∈ bc.cells m := by
  rw [init_symmetry_info_entry bc sym m hm]
  simp only [symmetry_entry, symmetric_scan_eq, List.any_eq_true, MoveInfo.contains,
    List.contains_iff_exists_mem_beq, beq_iff_eq, BoardConst.cells]
  constructor
  · rintro ⟨p, hp, a, ha, e⟩
    exact ⟨p, hp, e ▸ ha⟩
  · rintro ⟨p, hp, h⟩
    exact ⟨p, hp, _, h, rfl⟩

theorem find?_eq_some_of_unique {α : Type} (P : α → Bool) (l : List α) (m : α)
    (hex : ∃ x ∈ l, P x = true) (huniq : ∀ x ∈ l, P x = true → x = m) :
    l.find? P = some m := by
  cases h : l.find? P with
  | none =>
    obtain ⟨x, hx, hP⟩ := hex
    rw [List.find?_eq_none] at h
    exact absurd hP (h x hx)
  | some x =>
    rw [huniq x (List.mem_of_find?_eq_some h) (List.find?_some h)]

theorem avoids_blocked_zero (bc : BoardConst) (m : Move) (p : Point) :
    bc.avoids_blocked m p 0 := by
  intro i _ h
  simp at h

/-- What a result of the piece-constrained `find_move` says about the move
found: it is a created move of the piece, it occupies the first point of the
list, and the sorted list is the leading part of its point array. -/
theorem find_move_piece_some (nu_adj : Nat) (geo : Geometry) (pieces : List PieceInfo)
    (mem : Storage) (points : List Point) (hon : ∀ a ∈ points, a ∈ geo.points) (q : Piece)
    (hq : q < pieces.length) (mv : Move)
    (h : find_move_piece (BoardConst.create nu_adj geo pieces mem) points q = some mv) :
    (BoardConst.create nu_adj geo pieces mem).is_created mv ∧
    ((BoardConst.create nu_adj geo pieces mem).move_info mv).piece = q ∧
    sort (compare_val geo) points
      = ((BoardConst.create nu_adj geo pieces mem).move_info mv).points.take points.length := by
  cases points with
  | nil => simp [find_move_piece] at h
  | cons p0 rest =>
    unfold find_move_piece find_in_moves at h
    simp only at h
    have hp0 : p0 ∈ geo.points := hon p0 (List.mem_cons_self _ _)
    have hmem := List.mem_of_find?_eq_some h
    have heq := List.find?_some h
    rw [mem_get_moves nu_adj geo pieces mem p0 hp0 0 (Nat.two_pow_pos _) q hq] at hmem
    obtain ⟨c1, c2, _, _⟩ := hmem
    refine ⟨c1, c2, ?_⟩
    have hgeo' : (BoardConst.create nu_adj geo pieces mem).geo = geo := rfl
    rw [hgeo', equal_iff, (sort_perm _ _).length_eq] at heq
    exact heq

/-- The piece-constrained `find_move` finds a created move from any list of
its cells. -/
theorem find_move_piece_of_cells (nu_adj : Nat) (geo : Geometry) (pieces : List PieceInfo)
    (mem : Storage) (hgeo : geo.WellFormed) (hcat : ∀ pc ∈ pieces, pc.WellFormed)
    (hdist : CatalogUnique geo pieces) (m : Nat)
    (hm : (BoardConst.create nu_adj geo pieces mem).is_created m) (points : List Point)
    (hnd : points.Nodup)
    (hset : ∀ a, a ∈ (BoardConst.create nu_adj geo pieces mem).cells m ↔ a ∈ points) :
    find_move_piece (BoardConst.create nu_adj geo pieces mem) points
      ((BoardConst.create nu_adj geo pieces mem).move_info m).piece = some m := by
  obtain ⟨n1, n2, pc, hpc, hlen, hsize⟩ :=
    created_move_cells nu_adj geo pieces mem hgeo hcat m hm
  have hpcw := hcat pc (mem_of_getElem?_eq_some hpc)
  have hq : ((BoardConst.create nu_adj geo pieces mem).move_info m).piece < pieces.length :=
    (List.getElem?_eq_some_iff.mp hpc).1
  have hperm : ((BoardConst.create nu_adj geo pieces mem).cells m).Perm points :=
    (List.perm_ext_iff_of_nodup n1 hnd).mpr hset
  have hplen : points.length = pc.get_size := by rw [← hperm.length_eq, hlen]
  have hsort := sort_eq_cells nu_adj geo pieces mem hgeo hcat points
    (by rw [hplen]; exact hpcw.size_le) hnd m hm hset
  cases points with
  | nil =>
    have := hpcw.size_pos
    simp only [List.length_nil] at hplen
    unfold PieceInfo.get_size at hplen
    omega
  | cons p0 rest =>
    have hp0m : p0 ∈ (BoardConst.create nu_adj geo pieces mem).cells m :=
      (hset p0).mpr (List.mem_cons_self _ _)
    have hp0 : p0 ∈ geo.points := n2 p0 hp0m
    unfold find_move_piece find_in_moves
    simp only
    have hgeo' : (BoardConst.create nu_adj geo pieces mem).geo = geo := rfl
    rw [hgeo']
    apply find?_eq_some_of_unique
    · refine ⟨m, ?_, ?_⟩
      · rw [mem_get_moves nu_adj geo pieces mem p0 hp0 0 (Nat.two_pow_pos _) _ hq]
        exact ⟨hm, rfl, hp0m, avoids_blocked_zero _ _ _⟩
      · rw [equal_iff, (sort_perm _ _).length_eq, hplen, ← hsize, ← hsort]
        rfl
    · intro x hx hxe
      rw [mem_get_moves nu_adj geo pieces mem p0 hp0 0 (Nat.two_pow_pos _) _ hq] at hx
      obtain ⟨x1, x2, _, _⟩ := hx
      obtain ⟨_, _, pc', hpc', _, hsize'⟩ :=
        created_move_cells nu_adj geo pieces mem hgeo hcat x x1
      rw [x2, hpc] at hpc'
      have hpe : pc' = pc := (Option.some.inj hpc').symm
      subst hpe
      rw [equal_iff, (sort_perm _ _).length_eq, hplen, ← hsize'] at hxe
      apply created_move_unique nu_adj geo pieces mem hgeo hcat hdist x m x1 hm
      rw [hsort]
      exact hxe.symm

/-- The entry `symmetric_move` of a created move after `init_symmetry_info`:
the move that the piece-constrained `find_move` finds for the images of its
points, and the null move when it finds none. -/
theorem symmetric_move_eq (nu_adj : Nat) (geo : Geometry) (pieces : List PieceInfo)
    (mem : Storage) (sym : Point → Point) (m : Nat)
    (hm : (BoardConst.create nu_adj geo pieces mem).is_created m) :
    ((init_symmetry_info (BoardConst.create nu_adj geo pieces mem) sym).move_info_ext_2
        m).symmetric_move
      = (find_move_piece (BoardConst.create nu_adj geo pieces mem)
          (((BoardConst.create nu_adj geo pieces mem).cells m).map sym)
          ((BoardConst.create nu_adj geo pieces mem).move_info m).piece).getD 0 := by
  rw [init_symmetry_info_entry _ sym m hm]
  have h1 := hm.1
  have h2 := hm.2
  rw [create_nu_moves] at h2
  have hk : m - 1 < (placements geo pieces).length := by omega
  have hold := create_move_info_ext_2 nu_adj geo pieces mem (m - 1) hk
  rw [show 1 + (m - 1) = m by omega] at hold
  simp only [symmetry_entry, symmetric_scan_eq, hold, BoardConst.cells]
  cases find_move_piece (BoardConst.create nu_adj geo pieces mem)
      (List.map sym ((BoardConst.create nu_adj geo pieces mem).move_info m).pts)
      ((BoardConst.create nu_adj geo pieces mem).move_info m).piece <;> rfl

/-- The counterpart relation of `init_symmetry_info` is an involution. -/
theorem symmetric_move_symmetric (nu_adj : Nat) (geo : Geometry) (pieces : List PieceInfo)
    (mem : Storage) (hgeo : geo.WellFormed) (hcat : ∀ pc ∈ pieces, pc.WellFormed)
    (hdist : CatalogUnique geo pieces) (sym : Point → Point)
    (hsym : ∀ p ∈ geo.points, sym p ∈ geo.points ∧ sym (sym p) = p) (m : Nat)
    (hm : (BoardConst.create nu_adj geo pieces mem).is_created m)
    (hne : ((init_symmetry_info (BoardConst.create nu_adj geo pieces mem) sym).move_info_ext_2
        m).symmetric_move ≠ 0) :
    (BoardConst.create nu_adj geo pieces mem).is_created
      ((init_symmetry_info (BoardConst.create nu_adj geo pieces mem) sym).move_info_ext_2
        m).symmetric_move ∧
    ((init_symmetry_info (BoardConst.create nu_adj geo pieces mem) sym).move_info_ext_2
      ((init_symmetry_info (BoardConst.create nu_adj geo pieces mem) sym).move_info_ext_2
        m).symmetric_move).symmetric_move = m := by
  rw [symmetric_move_eq nu_adj geo pieces mem sym m hm] at hne ⊢
  obtain ⟨n1, n2, pc, hpc, hlen, hsize⟩ :=
    created_move_cells nu_adj geo pieces mem hgeo hcat m hm
  have hq : ((BoardConst.create nu_adj geo pieces mem).move_info m).piece < pieces.length :=
    (List.getElem?_eq_some_iff.mp hpc).1
  cases hf : find_move_piece (BoardConst.create nu_adj geo pieces mem)
      (((BoardConst.create nu_adj geo pieces mem).cells m).map sym)
      ((BoardConst.create nu_adj geo pieces mem).move_info m).piece with
  | none => rw [hf] at hne; exact absurd rfl hne
  | some m' =>
    simp only [Option.getD_some]
    have hon : ∀ a ∈ ((BoardConst.create nu_adj geo pieces mem).cells m).map sym,
        a ∈ geo.points := by
      intro a ha
      obtain ⟨c, hc, rfl⟩ := List.mem_map.mp ha
      exact (hsym c (n2 c hc)).1
    obtain ⟨g1, g2, g3⟩ := find_move_piece_some nu_adj geo pieces mem _ hon _ hq m' hf
    obtain ⟨k1, k2, pc', hpc', hlen', hsize'⟩ :=
      created_move_cells nu_adj geo pieces mem hgeo hcat m' g1
    rw [g2, hpc] at hpc'
    have hpe : pc' = pc := (Option.some.inj hpc').symm
    subst hpe
    have hcells' : (BoardConst.create nu_adj geo pieces mem).cells m'
        = sort (compare_val geo) (((BoardConst.create nu_adj geo pieces mem).cells m).map sym) := by
      rw [g3, List.length_map, hlen, ← hsize']
      rfl
    refine ⟨g1, ?_⟩
    rw [symmetric_move_eq nu_adj geo pieces mem sym m' g1, g2]
    have hinj : ∀ a ∈ (BoardConst.create nu_adj geo pieces mem).cells m',
        ∀ b ∈ (BoardConst.create nu_adj geo pieces mem).cells m', sym a = sym b → a = b := by
      intro a ha b hb e
      rw [← (hsym a (k2 a ha)).2, e, (hsym b (k2 b hb)).2]
    have hnd : (((BoardConst.create nu_adj geo pieces mem).cells m').map sym).Nodup :=
      (List.nodup_map_iff_inj_on k1).mpr hinj
    have hset : ∀ a, a ∈ (BoardConst.create nu_adj geo pieces mem).cells m
        ↔ a ∈ ((BoardConst.create nu_adj geo pieces mem).cells m').map sym := by
      intro a
      rw [hcells', List.mem_map]
      constructor
      · intro ha
        refine ⟨sym a, ?_, (hsym a (n2 a ha)).2⟩
        exact (sort_perm _ _).mem_iff.mpr (List.mem_map_of_mem _ ha)
      · rintro ⟨c, hc, rfl⟩
        obtain ⟨d, hd, rfl⟩ := List.mem_map.mp ((sort_perm _ _).mem_iff.mp hc)
        rw [(hsym d (n2 d hd)).2]
        exact hd
    rw [find_move_piece_of_cells nu_adj geo pieces mem hgeo hcat hdist m hm _ hnd hset]
    rfl

/-- On duo and trigon boards the constructor runs `init_symmetry_info` on the
board constants that `create_moves` has filled. -/
theorem construct_symmetric (env : Environment) (board_type : BoardType)
    (piece_set : PieceSet) (mem : Storage)
    (hbt : board_type = BoardType.duo ∨ board_type = BoardType.trigon) :
    BoardConst.construct env board_type piece_set mem
      = init_symmetry_info
          (BoardConst.create env.nu_adj (env.get_geometry board_type)
            (select_pieces env board_type piece_set) mem)
          (env.symmetric_points (env.get_geometry board_type)) := by
  unfold BoardConst.construct
  simp only
  rw [if_pos hbt]

/-- The catalog of every board is one of the four catalogs, so its pieces are
well formed when the unique transforms are injective on coordinates. -/
theorem select_pieces_well_formed (env : Environment) (board_type : BoardType)
    (piece_set : PieceSet)
    (hinj : ∀ ts pts, ∀ t ∈ env.uniq_transforms (env.get_geometry board_type) ts pts,
      Function.Injective t.get_transformed) :
    ∀ pc ∈ select_pieces env board_type piece_set, pc.WellFormed := by
  cases board_type
  case duo =>
    unfold select_pieces
    simp only
    by_cases hps : piece_set = PieceSet.classic
    · rw [if_pos hps]
      exact catalog_well_formed _ (hinj PieceTransforms.classic) _ (by simp)
    · rw [if_neg hps]
      exact catalog_well_formed _ (hinj PieceTransforms.classic) _ (by simp)
  case classic =>
    exact catalog_well_formed _ (hinj PieceTransforms.classic) _ (by simp [select_pieces])
  case trigon =>
    exact catalog_well_formed _ (hinj PieceTransforms.trigon) _ (by simp [select_pieces])
  case trigon_3 =>
    exact catalog_well_formed _ (hinj PieceTransforms.trigon) _ (by simp [select_pieces])
  case nexos =>
    exact catalog_well_formed _ (hinj PieceTransforms.classic) _ (by simp [select_pieces])

/-- C16: on duo and trigon boards, for every move `m` whose recorded
`symmetric_move` is not the null move, the `symmetric_move` recorded for that
move is `m`, given that the table of symmetric points maps the points of the
board to points of the board and is an involution there (and that the
geometry is well formed, the transforms are injective and the shapes of the
unique transforms cannot be laid on the same cells). -/
theorem symmetric_move_involution (env : Environment) (board_type : BoardType)
    (piece_set : PieceSet) (mem : Storage)
    (hbt : board_type = BoardType.duo ∨ board_type = BoardType.trigon)
    (hgeo : (env.get_geometry board_type).WellFormed)
    (hinj : ∀ ts pts, ∀ t ∈ env.uniq_transforms (env.get_geometry board_type) ts pts,
      Function.Injective t.get_transformed)
    (hdist : CatalogUnique (env.get_geometry board_type)
      (select_pieces env board_type piece_set))
    (hsym : ∀ p ∈ (env.get_geometry board_type).points,
      env.symmetric_points (env.get_geometry board_type) p
          ∈ (env.get_geometry board_type).points ∧
        env.symmetric_points (env.get_geometry board_type)
          (env.symmetric_points (env.get_geometry board_type) p) = p)
    (m : Nat) (hm : (BoardConst.construct env board_type piece_set mem).is_created m)
    (hne : ((BoardConst.construct env board_type piece_set mem).move_info_ext_2
      m).symmetric_move ≠ 0) :
    ((BoardConst.construct env board_type piece_set mem).move_info_ext_2
      ((BoardConst.construct env board_type piece_set mem).move_info_ext_2
        m).symmetric_move).symmetric_move = m := by
  rw [construct_symmetric env board_type piece_set mem hbt] at hm hne ⊢
  exact (symmetric_move_symmetric env.nu_adj _ _ mem hgeo
    (select_pieces_well_formed env board_type piece_set hinj) hdist _ hsym m hm hne).2

/-- C17: on duo and trigon boards, `init_symmetry_info` sets `breaks_symmetry`
for a created move exactly when the image of one of its occupied cells under
the table of symmetric points is one of its occupied cells; for every other
created move the flag is false. -/
theorem breaks_symmetry_correct (env : Environment) (board_type : BoardType)
    (piece_set : PieceSet) (mem : Storage)
    (hbt : board_type = BoardType.duo ∨ board_type = BoardType.trigon) (m : Nat)
    (hm : (BoardConst.construct env board_type piece_set mem).is_created m) :
    (((BoardConst.construct env board_type piece_set mem).move_info_ext_2 m).breaks_symmetry
        = true ↔
      ∃ p ∈ (BoardConst.construct env board_type piece_set mem).cells m,
        env.symmetric_points (env.get_geometry board_type) p
          ∈ (BoardConst.construct env board_type piece_set mem).cells m) ∧
    (((BoardConst.construct env board_type piece_set mem).move_info_ext_2 m).breaks_symmetry
        = false ↔
      ∀ p ∈ (BoardConst.construct env board_type piece_set mem).cells m,
        env.symmetric_points (env.get_geometry board_type) p
          ∉ (BoardConst.construct env board_type piece_set mem).cells m) := by
  rw [construct_symmetric env board_type piece_set mem hbt] at hm ⊢
  have h := breaks_symmetry_iff
    (BoardConst.create env.nu_adj (env.get_geometry board_type)
      (select_pieces env board_type piece_set) mem)
    (env.symmetric_points (env.get_geometry board_type)) m hm
  refine ⟨h, ?_⟩
  rw [← Bool.not_eq_true, h]
  simp only [not_exists, not_and]
  exact Iff.rfl

theorem row3_env_distinct :
    CatalogDistinct (select_pieces row3_env BoardType.duo PieceSet.junior) where
  transforms := by decide
  shapes := by decide

theorem symmetric_move_involution_witness :
    (BoardConst.construct row3_env BoardType.duo PieceSet.junior Storage.fresh).is_created 1 ∧
    ((BoardConst.construct row3_env BoardType.duo PieceSet.junior Storage.fresh).move_info_ext_2
      1).symmetric_move = 2 ∧
    ((BoardConst.construct row3_env BoardType.duo PieceSet.junior Storage.fresh).move_info_ext_2
      ((BoardConst.construct row3_env BoardType.duo PieceSet.junior
        Storage.fresh).move_info_ext_2 1).symmetric_move).symmetric_move = 1 :=
  ⟨by decide, by decide,
    symmetric_move_involution row3_env BoardType.duo PieceSet.junior Storage.fresh
      (Or.inl rfl) row3_wf (fun _ _ t ht => by
        rw [List.mem_singleton.mp ht]; exact fun _ _ h => h)
      (row3_env_distinct.to_unique row3) (by decide) 1 (by decide) (by decide)⟩

theorem breaks_symmetry_correct_witness :
    (BoardConst.construct row3_env BoardType.duo PieceSet.junior Storage.fresh).is_created 4 ∧
    ((BoardConst.construct row3_env BoardType.duo PieceSet.junior Storage.fresh).move_info_ext_2
      4).breaks_symmetry = true ∧
    ∃ p ∈ (BoardConst.construct row3_env BoardType.duo PieceSet.junior Storage.fresh).cells 4,
      row3_symmetric_points p
        ∈ (BoardConst.construct row3_env BoardType.duo PieceSet.junior Storage.fresh).cells 4 :=
  ⟨by decide, by decide,
    (breaks_symmetry_correct row3_env BoardType.duo PieceSet.junior Storage.fresh (Or.inl rfl)
      4 (by decide)).1.mp (by decide)⟩

/-! ## The piece catalogs -/

/-- C18: the classic catalog has exactly 21 pieces, the junior catalog 12, the
trigon catalog 22 and the nexos catalog 24; so for every board type and every
piece set that the board type is constructed with, the assertion on the
number of pieces in the constructor holds. -/
theorem catalog_piece_counts (uniq : List CoordPoint → List Transform) :
    (create_pieces_classic uniq).length = 21 ∧
    (create_pieces_junior uniq).length = 12 ∧
    (create_pieces_trigon uniq).length = 22 ∧
    (create_pieces_nexos uniq).length = 24 ∧
    ∀ (env : Environment) (board_type : BoardType) (piece_set : PieceSet),
      piece_set_assertion board_type piece_set = true →
      nu_pieces_assertion piece_set (select_pieces env board_type piece_set).length = true := by
  refine ⟨rfl, rfl, rfl, rfl, ?_⟩
  intro env board_type piece_set h
  cases board_type <;> cases piece_set <;>
    first
    | rfl
    | exact absurd h (by decide)

theorem catalog_piece_counts_witness :
    piece_set_assertion BoardType.duo PieceSet.junior = true ∧
    nu_pieces_assertion PieceSet.junior
      (select_pieces row3_env BoardType.duo PieceSet.junior).length = true :=
  ⟨by decide,
    (catalog_piece_counts (fun _ => [])).2.2.2.2 row3_env BoardType.duo PieceSet.junior
      (by decide)⟩

theorem catalog_names_sizes_aux :
    (∀ catalog ∈ [create_pieces_classic (fun _ => []), create_pieces_junior (fun _ => []),
        create_pieces_trigon (fun _ => [])],
      ∀ x ∈ catalog.map (fun pc => (pc.name, pc.points)), x.2.length < 7) ∧
    (∀ x ∈ (create_pieces_nexos (fun _ => [])).map (fun pc => (pc.name, pc.points)),
      x.2.length = 7 → x.1 = "I4".toList) ∧
    (∃ x ∈ (create_pieces_nexos (fun _ => [])).map (fun pc => (pc.name, pc.points)),
      x.1 = "I4".toList ∧ x.2.length = 7) := by
  decide

theorem sort_assertion_of_le (size : Nat) (h1 : 0 < size) (h2 : size ≤ max_size) :
    sort_assertion size = true := by
  unfold max_size at h2
  have : size = 1 ∨ size = 2 ∨ size = 3 ∨ size = 4 ∨ size = 5 ∨ size = 6 ∨ size = 7 := by
    omega
  rcases this with rfl | rfl | rfl | rfl | rfl | rfl | rfl <;> rfl

/-- C19: every piece of the classic, junior, trigon and nexos catalogs has
between 1 and 7 points, and 7 points are reached only by the nexos piece
`I4`; so the size of a catalog piece is one that the sorting routines handle,
and the assertion of their `default` branch holds. -/
theorem catalog_piece_sizes (uniq : List CoordPoint → List Transform) :
    (∀ catalog ∈ [create_pieces_classic uniq, create_pieces_junior uniq,
        create_pieces_trigon uniq, create_pieces_nexos uniq],
      ∀ pc ∈ catalog, 1 ≤ pc.get_size ∧ pc.get_size ≤ max_size ∧
        sort_assertion pc.get_size = true) ∧
    (∀ catalog ∈ [create_pieces_classic uniq, create_pieces_junior uniq,
        create_pieces_trigon uniq],
      ∀ pc ∈ catalog, pc.get_size < 7) ∧
    (∀ pc ∈ create_pieces_nexos uniq, pc.get_size = 7 → pc.name = "I4".toList) ∧
    (∃ pc ∈ create_pieces_nexos uniq, pc.name = "I4".toList ∧ pc.get_size = 7) := by
  refine ⟨?_, ?_, ?_, ?_⟩
  · intro catalog hc pc hpc
    obtain ⟨h1, h2, _⟩ := catalog_points uniq catalog hc pc.points (List.mem_map_of_mem _ hpc)
    exact ⟨h1, h2, sort_assertion_of_le _ h1 h2⟩
  · intro catalog hc pc hpc
    simp only [List.mem_cons, List.mem_singleton, List.not_mem_nil, or_false] at hc
    have hx : (pc.name, pc.points) ∈ catalog.map (fun pc => (pc.name, pc.points)) :=
      List.mem_map_of_mem _ hpc
    rcases hc with rfl | rfl | rfl
    · exact catalog_names_sizes_aux.1 (create_pieces_classic (fun _ => [])) (by simp) _ hx
    · exact catalog_names_sizes_aux.1 (create_pieces_junior (fun _ => [])) (by simp) _ hx
    · exact catalog_names_sizes_aux.1 (create_pieces_trigon (fun _ => [])) (by simp) _ hx
  · intro pc hpc
    have hx : (pc.name, pc.points) ∈
        (create_pieces_nexos uniq).map (fun pc => (pc.name, pc.points)) :=
      List.mem_map_of_mem _ hpc
    exact catalog_names_sizes_aux.2.1 _ hx
  · obtain ⟨x, hx, h1, h2⟩ := catalog_names_sizes_aux.2.2
    have hx' : x ∈ (create_pieces_nexos uniq).map (fun pc => (pc.name, pc.points)) := hx
    obtain ⟨pc, hpc, rfl⟩ := List.mem_map.mp hx'
    exact ⟨pc, hpc, h1, h2⟩

theorem catalog_piece_sizes_witness :
    create_pieces_nexos (fun _ => []) ∈
      [create_pieces_classic (fun _ => []), create_pieces_junior (fun _ => []),
        create_pieces_trigon (fun _ => []), create_pieces_nexos (fun _ => [])] ∧
    ∀ pc ∈ create_pieces_nexos (fun _ => []),
      1 ≤ pc.get_size ∧ pc.get_size ≤ max_size ∧ sort_assertion pc.get_size = true :=
  ⟨by simp, (catalog_piece_sizes (fun _ => [])).1 _ (by simp)⟩

/-! ## Reading characters -/

/-- C20: `read_char` on a stream whose only character is a CR.  The CR is a
single CR, not followed by LF, which the comment in the code says is
converted into LF; the code looks for a following LF with `peek`, which
throws at the end of the input, so `read_char` consumes the CR and throws
"Unexpected end of input" instead of returning LF. -/
theorem read_char_cr_at_end :
    (['\r'] : List Char).tail.head? ≠ some '\n' ∧
    Reader.read_char ⟨['\r']⟩ = (Except.error "Unexpected end of input", ⟨[]⟩) ∧
    (Reader.read_char ⟨['\r']⟩).1 ≠ Except.ok '\n' :=
  ⟨by decide, rfl, fun h => by cases h⟩

/-- What `read_char` does with the first character of a stream: it consumes a
CR followed by LF as a pair and returns one LF; it returns LF for a CR
followed by another character, which is left in the input; it returns every
character other than CR unchanged; and for a CR that is the last character
of the input it consumes the CR and throws. -/
theorem read_char_line_ends (c : Char) (rest : List Char) :
    (c = '\r' → ∀ rest', rest = '\n' :: rest' →
      Reader.read_char ⟨c :: rest⟩ = (Except.ok '\n', ⟨rest'⟩)) ∧
    (c = '\r' → ∀ c' rest', rest = c' :: rest' → c' ≠ '\n' →
      Reader.read_char ⟨c :: rest⟩ = (Except.ok '\n', ⟨c' :: rest'⟩)) ∧
    (c = '\r' → rest = [] →
      Reader.read_char ⟨c :: rest⟩ = (Except.error "Unexpected end of input", ⟨[]⟩)) ∧
    (c ≠ '\r' → Reader.read_char ⟨c :: rest⟩ = (Except.ok c, ⟨rest⟩)) := by
  refine ⟨?_, ?_, ?_, ?_⟩
  · rintro rfl rest' rfl
    rfl
  · rintro rfl c' rest' rfl hc
    simp [Reader.read_char, Reader.peek, hc]
  · rintro rfl rfl
    rfl
  · intro hc
    simp [Reader.read_char, hc]

theorem read_char_line_ends_witness :
    Reader.read_char ⟨['\r', '\n', 'a']⟩ = (Except.ok '\n', ⟨['a']⟩) ∧
    Reader.read_char ⟨['\r', 'a']⟩ = (Except.ok '\n', ⟨['a']⟩) ∧
    Reader.read_char ⟨['a', '\r']⟩ = (Except.ok 'a', ⟨['\r']⟩) :=
  ⟨(read_char_line_ends '\r' ['\n', 'a']).1 rfl ['a'] rfl,
    (read_char_line_ends '\r' ['a']).2.1 rfl 'a' [] rfl (by decide),
    (read_char_line_ends 'a' ['\r']).2.2.2 (by decide)⟩

/-! ## The sorting routines -/

/-- C21: for every list of at most 7 coordinate points (1 to 7 in the
source), `sort_piece_points` returns a permutation of the list that is
ordered by decreasing `y` and, among points of equal `y`, by increasing `x`.
The comparator sequences are sorting networks: they sort every list of
their size under every order that has the properties used here (shown for
lists of numbers as the second part). -/
theorem sort_piece_points_correct (points : List CoordPoint) (hlen : points.length ≤ 7) :
    ((sort_piece_points points).Perm points ∧
      (sort_piece_points points).Pairwise
        (fun a b => b.y < a.y ∨ (a.y = b.y ∧ a.x ≤ b.x))) ∧
    ∀ l : List Nat, l.length ≤ 7 →
      (run_network (fun a b => decide (a > b)) l).Perm l ∧
      (run_network (fun a b => decide (a > b)) l).Pairwise (fun a b => a ≤ b) :=
  ⟨⟨sort_piece_points_perm points, sort_piece_points_sorted points hlen⟩,
    fun l hl => ⟨sort_perm id l, sort_sorted id l hl⟩⟩

theorem sort_piece_points_correct_witness :
    sort_piece_points [⟨0, 0⟩, ⟨1, 1⟩, ⟨0, 1⟩] = [⟨0, 1⟩, ⟨1, 1⟩, ⟨0, 0⟩] ∧
    (sort_piece_points [⟨0, 0⟩, ⟨1, 1⟩, ⟨0, 1⟩]).Perm [⟨0, 0⟩, ⟨1, 1⟩, ⟨0, 1⟩] ∧
    (sort_piece_points [⟨0, 0⟩, ⟨1, 1⟩, ⟨0, 1⟩]).Pairwise
      (fun a b => b.y < a.y ∨ (a.y = b.y ∧ a.x ≤ b.x)) :=
  ⟨by decide,
    (sort_piece_points_correct [⟨0, 0⟩, ⟨1, 1⟩, ⟨0, 1⟩] (by decide)).1.1,
    (sort_piece_points_correct [⟨0, 0⟩, ⟨1, 1⟩, ⟨0, 1⟩] (by decide)).1.2⟩

/-- Lists of points of the board that are permutations of each other sort to
the same list. -/
theorem sort_eq_of_perm (geo : Geometry) (hgeo : geo.WellFormed) (l1 l2 : List Point)
    (hperm : l1.Perm l2) (hon : ∀ a ∈ l1, a ∈ geo.points) (hlen : l1.length ≤ 7) :
    sort (compare_val geo) l1 = sort (compare_val geo) l2 := by
  apply sorted_unique (compare_val geo)
  · exact ((sort_perm _ _).trans hperm).trans (sort_perm _ _).symm
  · intro a ha b hb h
    exact compare_val_inj geo hgeo a b (hon a ((sort_perm _ _).mem_iff.mp ha))
      (hon b ((sort_perm _ _).mem_iff.mp hb)) h
  · exact sort_sorted _ _ hlen
  · exact sort_sorted _ _ (by rw [← hperm.length_eq]; exact hlen)

/-- C22: for every list of at most 7 points (1 to 7 in the source),
`BoardConst::sort` returns a permutation of the list in non-decreasing order
of `m_compare_val`; the value `(height - y - 1) * width + x` is injective on
the points of the board, so two lists that are permutations of the same
distinct points of the board sort to the same list. -/
theorem sort_correct (geo : Geometry) (hgeo : geo.WellFormed) :
    (∀ (cv : Point → Nat) (points : List Point), points.length ≤ 7 →
      (sort cv points).Perm points ∧
      (sort cv points).Pairwise (fun a b => cv a ≤ cv b)) ∧
    (∀ p ∈ geo.points, ∀ p' ∈ geo.points,
      compare_val geo p = compare_val geo p' → p = p') ∧
    (∀ l1 l2 : List Point, l1.Perm l2 → l1.Nodup → (∀ a ∈ l1, a ∈ geo.points) →
      l1.length ≤ 7 → sort (compare_val geo) l1 = sort (compare_val geo) l2) :=
  ⟨fun cv points h => ⟨sort_perm cv points, sort_sorted cv points h⟩,
    fun p hp p' hp' h => compare_val_inj geo hgeo p p' hp hp' h,
    fun l1 l2 hperm _ hon hlen => sort_eq_of_perm geo hgeo l1 l2 hperm hon hlen⟩

theorem sort_correct_witness :
    sort (compare_val row3) [2, 0, 1] = [0, 1, 2] ∧
    sort (compare_val row3) [2, 0, 1] = sort (compare_val row3) [1, 2, 0] :=
  ⟨by decide,
    (sort_correct row3 row3_wf).2.2 [2, 0, 1] [1, 2, 0] (by decide) (by decide) (by decide)
      (by decide)⟩

/-! ## Which moves are created -/

theorem placement_of_eq (geo : Geometry) (i : Piece) (pc : PieceInfo) (p : Point)
    (t : Transform) :
    placement_of geo i pc p t
      = if fits geo pc p t = true then some (placement_at geo (i, pc, p, t)) else none := by
  unfold placement_of fits
  by_cases h1 : t.get_new_point_type = geo.get_point_type (geo.get_x p) (geo.get_y p)
  swap
  · simp [h1]
  by_cases h2 : ∀ c ∈ transformed_points pc t,
      geo.is_onboard ⟨c.x + geo.get_x p, c.y + geo.get_y p⟩ = true
  · rw [if_neg (by simpa using h1), translate_of_onboard geo _ _ _ h2]
    simp [h1, placement_at, shift_points]
    exact h2
  · rw [if_neg (by simpa using h1)]
    cases htr : translate geo (geo.get_x p) (geo.get_y p) (transformed_points pc t) with
    | none => simp [h1, h2]
    | some pts => exact absurd (translate_some geo _ _ _ pts htr).2 h2

theorem filterMap_ite {α β : Type} (c : α → Bool) (f : α → β) (l : List α) :
    l.filterMap (fun a => if c a = true then some (f a) else none) = (l.filter c).map f := by
  induction l with
  | nil => rfl
  | cons a l ih =>
    by_cases h : c a = true
    · simp [List.filterMap_cons, List.filter_cons, h, ih]
    · simp [List.filterMap_cons, List.filter_cons, h, ih]

/-- The calls of `create_move` are those for the fitting triples, in order. -/
theorem placements_eq_map (geo : Geometry) (pieces : List PieceInfo) :
    placements geo pieces = (fitting_triples geo pieces).map (placement_at geo) := by
  unfold placements fitting_triples placements_piece
  rw [List.map_flatMap]
  apply List.flatMap_congr
  rintro ⟨i, pc⟩ _
  rw [List.map_flatMap]
  apply List.flatMap_congr
  intro p _
  simp only [List.map_map]
  rw [← filterMap_ite]
  apply List.filterMap_congr
  intro t _
  exact placement_of_eq geo i pc p t

theorem fits_iff (geo : Geometry) (pc : PieceInfo) (p : Point) (t : Transform) :
    fits geo pc p t = true ↔
      t.get_new_point_type = geo.get_point_type (geo.get_x p) (geo.get_y p) ∧
      ∀ c ∈ transformed_points pc t,
        geo.is_onboard ⟨c.x + geo.get_x p, c.y + geo.get_y p⟩ = true := by
  simp [fits]

/-- C23: `create_moves` creates a move for a piece, one of its unique
transforms and an anchor point exactly when the point type of the transform
is the point type of the anchor and every transformed cell, translated to the
anchor, is on the board.  The loop body calls `create_move` once for a triple
that fits and leaves the state as it is for every other triple; the created
moves are the placements of the fitting triples, in the order of the loops,
one move for each. -/
theorem create_moves_exactly (nu_adj : Nat) (geo : Geometry) (pieces : List PieceInfo)
    (mem : Storage) :
    (∀ (pc : PieceInfo) (p : Point) (t : Transform),
      fits geo pc p t = true ↔
        t.get_new_point_type = geo.get_point_type (geo.get_x p) (geo.get_y p) ∧
        ∀ c ∈ transformed_points pc t,
          geo.is_onboard ⟨c.x + geo.get_x p, c.y + geo.get_y p⟩ = true) ∧
    (∀ (nu : Nat) (s : AdjStatus) (st : BuildState) (piece : Piece) (pc : PieceInfo)
        (p : Point) (t : Transform),
      (fits geo pc p t = true →
        create_moves_at nu geo s piece pc p st t
            = create_placement nu geo s st (placement_at geo (piece, pc, p, t)) ∧
          (create_moves_at nu geo s piece pc p st t).moves_created = st.moves_created + 1) ∧
      (fits geo pc p t = false → create_moves_at nu geo s piece pc p st t = st)) ∧
    (BoardConst.create nu_adj geo pieces mem).nu_moves
      = (fitting_triples geo pieces).length + 1 ∧
    ∀ k, k < (fitting_triples geo pieces).length →
      (fitting_triples geo pieces)[k]?.map (fun x => (placement_at geo x).info)
        = some ((BoardConst.create nu_adj geo pieces mem).move_info (k + 1)) := by
  refine ⟨fits_iff geo, ?_, ?_, ?_⟩
  · intro nu s st piece pc p t
    rw [create_moves_at_eq, placement_of_eq]
    constructor
    · intro h
      rw [if_pos h]
      exact ⟨rfl, rfl⟩
    · intro h
      rw [if_neg (by simp [h])]
      rfl
  · rw [create_nu_moves, placements_eq_map, List.length_map]
    omega
  · intro k hk
    have hk' : k < (placements geo pieces).length := by
      rw [placements_eq_map, List.length_map]; exact hk
    rw [Nat.add_comm k 1, create_move_info nu_adj geo pieces mem k hk',
      List.getElem?_eq_getElem hk]
    simp only [Option.map_some', placements_eq_map, List.getElem_map]

theorem create_moves_exactly_witness :
    fits row3 ⟨['2'], [⟨0, 0⟩, ⟨1, 0⟩], ⟨0, 0⟩, [identity_transform]⟩ 2 identity_transform
      = false ∧
    3 < (fitting_triples row3 row3_pieces).length ∧
    (fitting_triples row3 row3_pieces)[3]?.map (fun x => (placement_at row3 x).info)
      = some (row3_const.move_info (3 + 1)) ∧
    row3_const.nu_moves = (fitting_triples row3 row3_pieces).length + 1 :=
  ⟨by decide, by decide,
    (create_moves_exactly 2 row3 row3_pieces Storage.fresh).2.2.2 3 (by decide),
    (create_moves_exactly 2 row3 row3_pieces Storage.fresh).2.2.1⟩

/-! ## The adjacency-status table as a loop over the bitmasks -/

theorem status_loop_inner (p : Point) (l : List Point) (n : Nat) :
    ∀ (s : AdjStatus) (p' idx : Nat),
      ((List.range n).foldl (fun s index => s.set p index (blocked_points l index)) s) p' idx
        = if p' = p ∧ idx < n then blocked_points l idx else s p' idx := by
  induction n with
  | zero => intro s p' idx; simp
  | succ n ih =>
    intro s p' idx
    rw [List.range_succ, List.foldl_append, List.foldl_cons, List.foldl_nil]
    simp only [AdjStatus.set]
    rw [ih]
    by_cases hp : p' = p
    · by_cases h1 : idx = n
      · subst h1; simp [hp]
      · by_cases h2 : idx < n
        · have : idx < n + 1 := by omega
          simp [hp, h1, h2, this]
        · have : ¬ idx < n + 1 := by omega
          simp [hp, h1, h2, this]
    · simp [hp]

theorem status_loop_outer (nu_adj : Nat) (geo : Geometry) (L : List Point) :
    ∀ (s : AdjStatus) (p idx : Nat),
      (L.foldl
        (fun s p =>
          (List.range (2 ^ (neighbour_slots nu_adj geo p).length)).foldl
            (fun s index =>
              s.set p index (blocked_points (neighbour_slots nu_adj geo p) index))
            s) s) p idx
        = if p ∈ L ∧ idx < 2 ^ (neighbour_slots nu_adj geo p).length
          then blocked_points (neighbour_slots nu_adj geo p) idx else s p idx := by
  induction L with
  | nil => intro s p idx; simp
  | cons a L ih =>
    intro s p idx
    rw [List.foldl_cons, ih, status_loop_inner]
    by_cases hpa : p = a
    · subst hpa
      by_cases hlt : idx < 2 ^ (neighbour_slots nu_adj geo p).length
      · simp [hlt]
      · simp [hlt]
    · simp [hpa]

/-- C24: `init_adj_status` gives every point the slot list of its orthogonal
neighbours followed by its diagonal neighbours, cut at `adj_status_nu_adj`
entries; for a point of the geometry, `k` the length of its slot list and
every index below `2 ^ k`, the entry `s_adj_status[p][index]` holds exactly
the slot points whose bit is set in the index, in slot order; and the
recursive enumeration writes the same table as the loop over the indices
`0 .. 2 ^ k - 1`. -/
theorem init_adj_status_refines (nu_adj : Nat) (geo : Geometry) (s : AdjStatus) :
    (∀ p, adj_status_list nu_adj geo p = neighbour_slots nu_adj geo p) ∧
    (∀ p ∈ geo.points, ∀ index, index < 2 ^ (neighbour_slots nu_adj geo p).length →
      init_adj_status nu_adj geo s p index
        = ((neighbour_slots nu_adj geo p).enum.filter
            (fun kp => index.testBit kp.1)).map Prod.snd) ∧
    init_adj_status nu_adj geo s = init_adj_status_loop nu_adj geo s := by
  have h1 : ∀ p, adj_status_list nu_adj geo p = neighbour_slots nu_adj geo p :=
    fun p => adj_status_list_eq nu_adj geo p
  refine ⟨h1, ?_, ?_⟩
  · intro p hp index hi
    rw [init_adj_status_spec, h1, if_pos ⟨hp, hi⟩]
    rfl
  · funext p idx
    rw [init_adj_status_spec, h1]
    unfold init_adj_status_loop
    rw [status_loop_outer]

theorem init_adj_status_refines_witness :
    (1 : Nat) ∈ row3.points ∧ 2 < 2 ^ (neighbour_slots 2 row3 1).length ∧
    init_adj_status 2 row3 Storage.fresh.adj_status 1 2 = [2] ∧
    init_adj_status 2 row3 Storage.fresh.adj_status 1 2
      = ((neighbour_slots 2 row3 1).enum.filter (fun kp => (2 : Nat).testBit kp.1)).map
          Prod.snd :=
  ⟨by decide, by decide, by decide,
    (init_adj_status_refines 2 row3 Storage.fresh.adj_status).2.1 1 (by decide) 2 (by decide)⟩

/-! ## The layout of the static index -/

/-- The run of a triple after the flattening loops: it begins at the write
index that the triples before it have left. -/
theorem layout_foldl_range (t : FullMoveTable) (A : List (Point × Nat × Piece))
    (x : Point × Nat × Piece) (B : List (Point × Nat × Piece)) (acc : Nat × PrecompMoves)
    (hnd : (A ++ x :: B).Nodup) :
    ((A ++ x :: B).foldl (layout_step t) acc).2.range_of x
      = ((A.foldl (layout_step t) acc).1, (t x.2.1 x.2.2 x.1).length) := by
  rw [List.foldl_append, List.foldl_cons]
  have hxB : x ∉ B := by
    have := (List.nodup_append.mp hnd).2.1
    exact (List.nodup_cons.mp this).1
  have hB : B.Nodup := (List.nodup_cons.mp (List.nodup_append.mp hnd).2.1).2
  rw [(layout_foldl_spec t B _ hB).2.2.1 x hxB, layout_step_range, if_pos rfl]

/-- The buckets of the full move table are strictly increasing lists of
created moves. -/
theorem get_moves_increasing (nu_adj : Nat) (geo : Geometry) (pieces : List PieceInfo)
    (mem : Storage) (hgeo : geo.WellFormed) (hcat : ∀ pc ∈ pieces, pc.WellFormed)
    (p : Point) (i : Nat) (q : Piece) (hp : p ∈ geo.points)
    (hi : i < nu_adj_status nu_adj) (hq : q < pieces.length) :
    ((BoardConst.create nu_adj geo pieces mem).get_moves q p i).Pairwise (fun a b => a < b) := by
  rw [get_moves_eq_bucket nu_adj geo pieces mem p i q hp hi hq,
    bucket_eq_filter _
      (fun m hm => (created_move_cells nu_adj geo pieces mem hgeo hcat m hm).1)]
  apply List.Pairwise.filter
  exact List.pairwise_lt_range' 1 _

/-- The index of the board constants is the result of the flattening loops
over the triples. -/
theorem create_precomp_moves (nu_adj : Nat) (geo : Geometry) (pieces : List PieceInfo)
    (mem : Storage) :
    (BoardConst.create nu_adj geo pieces mem).precomp_moves
      = ((triples (nu_adj_status nu_adj) pieces.length geo.points).foldl
          (layout_step
            (create_all_moves (nu_adj_status nu_adj) geo
              (init_adj_status nu_adj geo mem.adj_status) pieces
              (BuildState.start mem)).full_move_table)
          (0, mem.precomp_moves)).2 := by
  have e : (BoardConst.create nu_adj geo pieces mem).precomp_moves
      = (flatten (nu_adj_status nu_adj) pieces.length geo
          (create_all_moves (nu_adj_status nu_adj) geo
            (init_adj_status nu_adj geo mem.adj_status) pieces
            (BuildState.start mem)).full_move_table mem.precomp_moves).2 := rfl
  rw [e, flatten_eq]
  rfl

/-- C25: `create_moves` lays the buckets out in one array without gaps or
overlaps.  Going through the points, then the statuses `0 .. nu_adj_status-1`,
then the pieces, the run of the first triple starts at 0 and the run of every
other triple starts where the run of the triple before it ends; the count of
a run is the size of the bucket of its triple in the full move table, and
the run holds the moves of the bucket in their order, which is strictly
increasing in the move identity. -/
theorem buckets_laid_out (nu_adj : Nat) (geo : Geometry) (pieces : List PieceInfo)
    (mem : Storage) (hgeo : geo.WellFormed) (hcat : ∀ pc ∈ pieces, pc.WellFormed) :
    (∀ x B, triples (nu_adj_status nu_adj) pieces.length geo.points = x :: B →
      ((BoardConst.create nu_adj geo pieces mem).precomp_moves.range_of x).1 = 0) ∧
    (∀ A x y B, triples (nu_adj_status nu_adj) pieces.length geo.points = A ++ x :: y :: B →
      ((BoardConst.create nu_adj geo pieces mem).precomp_moves.range_of y).1
        = ((BoardConst.create nu_adj geo pieces mem).precomp_moves.range_of x).1
          + ((BoardConst.create nu_adj geo pieces mem).precomp_moves.range_of x).2) ∧
    (∀ x ∈ triples (nu_adj_status nu_adj) pieces.length geo.points,
      ((BoardConst.create nu_adj geo pieces mem).precomp_moves.range_of x).2
        = ((create_all_moves (nu_adj_status nu_adj) geo
            (init_adj_status nu_adj geo mem.adj_status) pieces
            (BuildState.start mem)).full_move_table x.2.1 x.2.2 x.1).length ∧
      (BoardConst.create nu_adj geo pieces mem).precomp_moves.list_of x
        = (create_all_moves (nu_adj_status nu_adj) geo
            (init_adj_status nu_adj geo mem.adj_status) pieces
            (BuildState.start mem)).full_move_table x.2.1 x.2.2 x.1 ∧
      ((BoardConst.create nu_adj geo pieces mem).precomp_moves.list_of x).Pairwise
        (fun a b => a < b)) := by
  have hT := triples_nodup (nu_adj_status nu_adj) pieces.length geo.points hgeo.nodup
  have hinc : ∀ x ∈ triples (nu_adj_status nu_adj) pieces.length geo.points,
      ((BoardConst.create nu_adj geo pieces mem).precomp_moves.list_of x).Pairwise
        (fun a b => a < b) := by
    rintro ⟨p, i, q⟩ hx
    obtain ⟨hp, hi, hq⟩ := (mem_triples _ _ _ _ _ _).mp hx
    exact get_moves_increasing nu_adj geo pieces mem hgeo hcat p i q hp hi hq
  rw [create_precomp_moves] at hinc ⊢
  generalize triples (nu_adj_status nu_adj) pieces.length geo.points = T at hT hinc ⊢
  generalize (create_all_moves (nu_adj_status nu_adj) geo
    (init_adj_status nu_adj geo mem.adj_status) pieces
    (BuildState.start mem)).full_move_table = t at hinc ⊢
  refine ⟨?_, ?_, ?_⟩
  · intro x B h
    subst h
    have := layout_foldl_range t [] x B (0, mem.precomp_moves) hT
    simp only [List.nil_append, List.foldl_nil] at this
    rw [this]
  · intro A x y B h
    subst h
    have h1 := layout_foldl_range t A x (y :: B) (0, mem.precomp_moves) hT
    have hT' : ((A ++ [x]) ++ y :: B).Nodup := by simpa using hT
    have h2 := layout_foldl_range t (A ++ [x]) y B (0, mem.precomp_moves) hT'
    have e : (A ++ [x]) ++ y :: B = A ++ x :: y :: B := by simp
    rw [e] at h2
    rw [h1, h2, List.foldl_append, List.foldl_cons, List.foldl_nil, layout_step_fst]
  · intro x hx
    obtain ⟨A, B, rfl⟩ := List.append_of_mem hx
    have h1 := layout_foldl_range t A x B (0, mem.precomp_moves) hT
    have h4 := (layout_foldl_spec t (A ++ x :: B) (0, mem.precomp_moves) hT).2.2.2.1 x hx
    exact ⟨by rw [h1], h4, hinc x hx⟩

theorem buckets_laid_out_witness :
    triples (nu_adj_status 2) row3_pieces.length row3.points
      = [(0, 0, 0), (0, 0, 1)] ++ (0, 1, 0) :: (0, 1, 1) ::
          (triples (nu_adj_status 2) row3_pieces.length row3.points).drop 4 ∧
    (row3_const.precomp_moves.range_of (0, 1, 1)).1
      = (row3_const.precomp_moves.range_of (0, 1, 0)).1
        + (row3_const.precomp_moves.range_of (0, 1, 0)).2 ∧
    row3_const.precomp_moves.range_of (0, 1, 0) = (2, 1) :=
  ⟨by decide,
    (buckets_laid_out 2 row3 row3_pieces Storage.fresh row3_wf row3_pieces_wf).2.1
      [(0, 0, 0), (0, 0, 1)] (0, 1, 0) (0, 1, 1)
      ((triples (nu_adj_status 2) row3_pieces.length row3.points).drop 4) (by decide),
    by decide⟩

/-! ## Adjacent points and attach points -/

theorem collect_inner (l : List Point) :
    ∀ acc : List Point × List Point,
      acc.2.Nodup → (∀ q ∈ acc.2, q ∈ acc.1) →
      (l.foldl (fun acc j => if acc.1.contains j then acc else (j :: acc.1, acc.2 ++ [j]))
          acc).2.Nodup ∧
      (∀ q, q ∈ (l.foldl
            (fun acc j => if acc.1.contains j then acc else (j :: acc.1, acc.2 ++ [j])) acc).1
          ↔ q ∈ acc.1 ∨ q ∈ l) ∧
      (∀ q, q ∈ (l.foldl
            (fun acc j => if acc.1.contains j then acc else (j :: acc.1, acc.2 ++ [j])) acc).2
          ↔ q ∈ acc.2 ∨ (q ∈ l ∧ q ∉ acc.1)) := by
  induction l with
  | nil => intro acc h1 _; simp [h1]
  | cons j l ih =>
    intro acc h1 h2
    rw [List.foldl_cons]
    by_cases hj : acc.1.contains j = true
    · rw [if_pos hj]
      obtain ⟨a, b, c⟩ := ih acc h1 h2
      have hj' : j ∈ acc.1 := by simpa using hj
      refine ⟨a, ?_, ?_⟩
      · intro q
        rw [b, List.mem_cons]
        constructor
        · rintro (h | h)
          · exact Or.inl h
          · exact Or.inr (Or.inr h)
        · rintro (h | h | h)
          · exact Or.inl h
          · exact Or.inl (h ▸ hj')
          · exact Or.inr h
      · intro q
        rw [c, List.mem_cons]
        constructor
        · rintro (h | ⟨h, h'⟩)
          · exact Or.inl h
          · exact Or.inr ⟨Or.inr h, h'⟩
        · rintro (h | ⟨h | h, h'⟩)
          · exact Or.inl h
          · exact absurd (h ▸ hj') h'
          · exact Or.inr ⟨h, h'⟩
    · rw [if_neg hj]
      have hj' : j ∉ acc.1 := by simpa using hj
      have hj2 : j ∉ acc.2 := fun h => hj' (h2 j h)
      obtain ⟨a, b, c⟩ := ih (j :: acc.1, acc.2 ++ [j])
        (by
          simp only
          rw [List.nodup_append]
          refine ⟨h1, List.nodup_singleton j, ?_⟩
          intro x hx hx'
          rw [List.mem_singleton] at hx'
          exact hj2 (hx' ▸ hx))
        (by
          simp only
          intro q hq
          rw [List.mem_append, List.mem_singleton] at hq
          rcases hq with hq | hq
          · exact List.mem_cons_of_mem _ (h2 q hq)
          · rw [hq]; exact List.mem_cons_self _ _)
      refine ⟨a, ?_, ?_⟩
      · intro q
        rw [b]
        simp only [List.mem_cons]
        tauto
      · intro q
        rw [c]
        by_cases hqj : q = j
        · subst hqj
          simp [hj']
        · simp [hqj]

theorem collect_outer (nb : Point → List Point) (pts : List Point) :
    ∀ acc : List Point × List Point,
      acc.2.Nodup → (∀ q ∈ acc.2, q ∈ acc.1) →
      (pts.foldl
          (fun acc i =>
            (nb i).foldl
              (fun acc j => if acc.1.contains j then acc else (j :: acc.1, acc.2 ++ [j])) acc)
          acc).2.Nodup ∧
      (∀ q, q ∈ (pts.foldl
          (fun acc i =>
            (nb i).foldl
              (fun acc j => if acc.1.contains j then acc else (j :: acc.1, acc.2 ++ [j])) acc)
          acc).1 ↔ q ∈ acc.1 ∨ ∃ c ∈ pts, q ∈ nb c) ∧
      (∀ q, q ∈ (pts.foldl
          (fun acc i =>
            (nb i).foldl
              (fun acc j => if acc.1.contains j then acc else (j :: acc.1, acc.2 ++ [j])) acc)
          acc).2 ↔ q ∈ acc.2 ∨ ((∃ c ∈ pts, q ∈ nb c) ∧ q ∉ acc.1)) := by
  induction pts with
  | nil => intro acc h1 _; simp [h1]
  | cons i pts ih =>
    intro acc h1 h2
    rw [List.foldl_cons]
    obtain ⟨a0, b0, c0⟩ := collect_inner (nb i) acc h1 h2
    obtain ⟨a, b, c⟩ := ih _ a0
      (by
        intro q hq
        rw [c0] at hq
        rw [b0]
        rcases hq with hq | ⟨hq, _⟩
        · exact Or.inl (h2 q hq)
        · exact Or.inr hq)
    refine ⟨a, ?_, ?_⟩
    · intro q
      rw [b, b0]
      simp only [List.mem_cons, exists_eq_or_imp]
      tauto
    · intro q
      rw [c, c0, b0]
      simp only [List.mem_cons, exists_eq_or_imp]
      tauto

/-- The points that `collect_unmarked` collects: the neighbours of the given
points that are not marked at the start, each of them once; the marker in the
end marks the points marked at the start and the neighbours. -/
theorem collect_unmarked_spec (nb : Point → List Point) (pts marker : List Point) :
    (collect_unmarked nb pts marker).2.Nodup ∧
    (∀ q, q ∈ (collect_unmarked nb pts marker).1 ↔ q ∈ marker ∨ ∃ c ∈ pts, q ∈ nb c) ∧
    (∀ q, q ∈ (collect_unmarked nb pts marker).2 ↔ (∃ c ∈ pts, q ∈ nb c) ∧ q ∉ marker) := by
  unfold collect_unmarked
  obtain ⟨a, b, c⟩ := collect_outer nb pts (marker, []) List.nodup_nil (by simp)
  refine ⟨a, b, ?_⟩
  intro q
  rw [c]
  simp

theorem create_placements_info_ext (nu : Nat) (geo : Geometry) (s : AdjStatus)
    (L : List Placement) :
    ∀ st : BuildState, ∀ k (h : k < L.length),
      (L.foldl (create_placement nu geo s) st).move_info_ext (st.moves_created + k)
        = ext_record geo L[k].pts := by
  induction L with
  | nil => intro st k h; simp at h
  | cons x L ih =>
    intro st k hk
    rw [List.foldl_cons]
    have c1 : (create_placement nu geo s st x).moves_created = st.moves_created + 1 := rfl
    cases k with
    | zero =>
      rw [Nat.add_zero,
        ((create_placements_ext nu geo s L (create_placement nu geo s st x)).2
          st.moves_created (by rw [c1]; omega)).1]
      simp only [create_placement, create_move, if_pos rfl, List.getElem_cons_zero]
      rfl
    | succ k =>
      have := ih (create_placement nu geo s st x) k (by simpa using hk)
      rw [c1] at this
      rw [show st.moves_created + (k + 1) = st.moves_created + 1 + k by omega, this]
      simp

theorem create_move_info_ext (nu_adj : Nat) (geo : Geometry) (pieces : List PieceInfo)
    (mem : Storage) (m : Nat) (hm : (BoardConst.create nu_adj geo pieces mem).is_created m) :
    (BoardConst.create nu_adj geo pieces mem).move_info_ext m
      = ext_record geo ((BoardConst.create nu_adj geo pieces mem).cells m) := by
  have h1 := hm.1
  have h2 := hm.2
  rw [create_nu_moves] at h2
  have hk : m - 1 < (placements geo pieces).length := by omega
  have hinfo := create_move_info nu_adj geo pieces mem (m - 1) hk
  rw [show 1 + (m - 1) = m by omega] at hinfo
  have hc : (BoardConst.create nu_adj geo pieces mem).cells m
      = ((placements geo pieces)[m - 1]).pts := by
    unfold BoardConst.cells; rw [hinfo]; rfl
  rw [hc]
  have e := create_placements_info_ext (nu_adj_status nu_adj) geo
    (init_adj_status nu_adj geo mem.adj_status) (placements geo pieces) (BuildState.start mem)
    (m - 1) hk
  have hs : (BuildState.start mem).moves_created + (m - 1) = m := by
    simp only [BuildState.start]
    omega
  rw [hs] at e
  rw [← e]
  unfold BoardConst.create
  simp only
  rw [create_all_moves_eq]

/-- The adjacent points and the attach points of the record that `create_move`
stores, when the record fits the point array. -/
theorem ext_record_spec (geo : Geometry) (pts : List Point)
    (hcap : (ext_record geo pts).points.length ≤ max_adj_attach) :
    (∀ q, q ∈ (ext_record geo pts).adj_points ↔ (∃ c ∈ pts, q ∈ geo.get_adj c) ∧ q ∉ pts) ∧
    (∀ q, q ∈ (ext_record geo pts).attach_points ↔
      (∃ c ∈ pts, q ∈ geo.get_diag c) ∧ q ∉ pts ∧ q ∉ (ext_record geo pts).adj_points) ∧
    (ext_record geo pts).adj_points.Nodup ∧ (ext_record geo pts).attach_points.Nodup ∧
    (ext_record geo pts).size_adj_points = (ext_record geo pts).adj_points.length ∧
    (ext_record geo pts).size_attach_points = (ext_record geo pts).attach_points.length := by
  obtain ⟨a1, a2, a3⟩ := collect_unmarked_spec geo.get_adj pts pts
  obtain ⟨b1, _, b3⟩ := collect_unmarked_spec geo.get_diag pts
    (collect_unmarked geo.get_adj pts pts).1
  have hlen : (collect_unmarked geo.get_adj pts pts).2.length
      + (collect_unmarked geo.get_diag pts (collect_unmarked geo.get_adj pts pts).1).2.length
      ≤ 22 := by
    have := hcap
    simp only [ext_record, List.length_append, max_adj_attach] at this
    exact this
  have hA : (ext_record geo pts).adj_points = (collect_unmarked geo.get_adj pts pts).2 := by
    simp only [MoveInfoExt.adj_points, ext_record]
    rw [Nat.mod_eq_of_lt (by omega), List.take_left']
    rfl
  have hB : (ext_record geo pts).attach_points
      = (collect_unmarked geo.get_diag pts (collect_unmarked geo.get_adj pts pts).1).2 := by
    simp only [MoveInfoExt.attach_points, ext_record]
    rw [Nat.mod_eq_of_lt (by omega : (collect_unmarked geo.get_adj pts pts).2.length < 256),
      List.drop_left', Nat.add_sub_cancel_left, Nat.mod_eq_of_lt (by omega), List.take_length]
    rfl
  have hsA : (ext_record geo pts).size_adj_points
      = (collect_unmarked geo.get_adj pts pts).2.length := by
    simp only [ext_record]
    exact Nat.mod_eq_of_lt (by omega)
  have hsB : (ext_record geo pts).size_attach_points
      = (collect_unmarked geo.get_diag pts (collect_unmarked geo.get_adj pts pts).1).2.length := by
    simp only [ext_record]
    rw [Nat.mod_eq_of_lt (by omega : (collect_unmarked geo.get_adj pts pts).2.length < 256),
      Nat.add_sub_cancel_left]
    exact Nat.mod_eq_of_lt (by omega)
  rw [hA, hB, hsA, hsB]
  refine ⟨a3, ?_, a1, b1, rfl, rfl⟩
  intro q
  rw [b3, a2, a3]
  have : ∀ P D M : Prop, (D ∧ ¬ (M ∨ P)) ↔ (D ∧ ¬ M ∧ ¬ (P ∧ ¬ M)) := by
    intro P D M
    tauto
  exact this _ _ _

/-- C26: for every created move whose adjacent and attach points fit the
point array of its record (at most `max_adj_attach` entries), `create_move`
records as adjacent points exactly the points orthogonally adjacent to some
occupied cell and not occupied, and as attach points exactly the points
diagonally adjacent to some occupied cell that are neither occupied nor
adjacent points; neither list has duplicates, `size_adj_points` and
`size_attach_points` are their lengths, and the occupied, adjacent and attach
points are pairwise disjoint. -/
theorem adjacent_attach_points (nu_adj : Nat) (geo : Geometry) (pieces : List PieceInfo)
    (mem : Storage) (m : Nat) (hm : (BoardConst.create nu_adj geo pieces mem).is_created m)
    (hcap : ((BoardConst.create nu_adj geo pieces mem).move_info_ext m).points.length
      ≤ max_adj_attach) :
    (∀ q, q ∈ ((BoardConst.create nu_adj geo pieces mem).move_info_ext m).adj_points ↔
      (∃ c ∈ (BoardConst.create nu_adj geo pieces mem).cells m, q ∈ geo.get_adj c) ∧
        q ∉ (BoardConst.create nu_adj geo pieces mem).cells m) ∧
    (∀ q, q ∈ ((BoardConst.create nu_adj geo pieces mem).move_info_ext m).attach_points ↔
      (∃ c ∈ (BoardConst.create nu_adj geo pieces mem).cells m, q ∈ geo.get_diag c) ∧
        q ∉ (BoardConst.create nu_adj geo pieces mem).cells m ∧
        q ∉ ((BoardConst.create nu_adj geo pieces mem).move_info_ext m).adj_points) ∧
    ((BoardConst.create nu_adj geo pieces mem).move_info_ext m).adj_points.Nodup ∧
    ((BoardConst.create nu_adj geo pieces mem).move_info_ext m).attach_points.Nodup ∧
    ((BoardConst.create nu_adj geo pieces mem).move_info_ext m).size_adj_points
      = ((BoardConst.create nu_adj geo pieces mem).move_info_ext m).adj_points.length ∧
    ((BoardConst.create nu_adj geo pieces mem).move_info_ext m).size_attach_points
      = ((BoardConst.create nu_adj geo pieces mem).move_info_ext m).attach_points.length ∧
    (∀ q ∈ ((BoardConst.create nu_adj geo pieces mem).move_info_ext m).adj_points,
      q ∉ (BoardConst.create nu_adj geo pieces mem).cells m) ∧
    (∀ q ∈ ((BoardConst.create nu_adj geo pieces mem).move_info_ext m).attach_points,
      q ∉ (BoardConst.create nu_adj geo pieces mem).cells m ∧
      q ∉ ((BoardConst.create nu_adj geo pieces mem).move_info_ext m).adj_points) := by
  rw [create_move_info_ext nu_adj geo pieces mem m hm] at hcap ⊢
  obtain ⟨h1, h2, h3, h4, h5, h6⟩ := ext_record_spec geo _ hcap
  exact ⟨h1, h2, h3, h4, h5, h6, fun q hq => ((h1 q).mp hq).2,
    fun q hq => ((h2 q).mp hq).2⟩

theorem adjacent_attach_points_witness :
    row3_const.is_created 4 ∧
    (row3_const.move_info_ext 4).points.length ≤ max_adj_attach ∧
    (row3_const.move_info_ext 4).adj_points = [2] ∧
    (∀ q, q ∈ (row3_const.move_info_ext 4).adj_points ↔
      (∃ c ∈ row3_const.cells 4, q ∈ row3.get_adj c) ∧ q ∉ row3_const.cells 4) :=
  ⟨by decide, by decide, by decide,
    (adjacent_attach_points 2 row3 row3_pieces Storage.fresh 4 (by decide) (by decide)).1⟩

/-! ## The lists that `SharedConst::init` writes -/

/-- The new list of every visited triple is the old list of the triple
without the moves marked forbidden. -/
theorem init_color_lists (bc : BoardConst) (hnd : bc.geo.points.Nodup) (bd : Board)
    (c : Color) (pm : PrecompMoves) (is_followup : Bool)
    (hold : is_followup = true → laid_out pm (bc.visited bd c)) :
    ∀ x ∈ bc.visited bd c,
      (init_color is_followup bc bd c pm).list_of x
        = ((if is_followup then pm else bc.precomp_moves).list_of x).filter
            (fun mv =>
              !mark_forbidden bc.geo bd c (if is_followup then pm else bc.precomp_moves) mv) := by
  cases is_followup with
  | false => exact (init_color_fresh bc hnd bd c pm).1
  | true => exact (init_color_followup bc hnd bd c pm (hold rfl)).1

/-- C27: in `SharedConst::init`, for every point not forbidden for the colour,
every status that is a follow-up of the current status of the point and every
piece that the colour still has, the new list of the triple is the old list
of the same triple (of the predecessor index in a follow-up, of the static
index otherwise) without the moves marked forbidden, the kept moves in
unchanged order; a move is left unmarked exactly when it is not forbidden
for the colour on the board and occurs in the old list of some open point,
at the current status of that point, for some piece still left.  In a
follow-up the runs of the predecessor index lie in the order of the visit, as
`init` leaves them. -/
theorem init_filters_old_lists (bc : BoardConst) (hnd : bc.geo.points.Nodup) (bd : Board)
    (c : Color) (hc : c ∈ bd.colors) (hn : bd.colors.Nodup) (sc : SharedConst)
    (is_followup : Bool)
    (hold : is_followup = true → laid_out (sc.precomp_moves c) (bc.visited bd c)) :
    (∀ p ∈ bc.geo.points, bd.is_forbidden p c = false →
      ∀ i, i < nu_adj_status bc.nu_adj →
        is_followup_adj_status i (bd.get_adj_status p c) = true →
      ∀ q, q < bc.pieces.length → bd.is_piece_left c q = true →
        ((sc.init bc bd is_followup).precomp_moves c).get_moves q p i
          = ((if is_followup then sc.precomp_moves c else bc.precomp_moves).get_moves q p
              i).filter
              (fun mv =>
                !mark_forbidden bc.geo bd c
                  (if is_followup then sc.precomp_moves c else bc.precomp_moves) mv)) ∧
    (∀ m,
      mark_forbidden bc.geo bd c
          (if is_followup then sc.precomp_moves c else bc.precomp_moves) m = false ↔
        bd.is_forbidden_move c m = false ∧
        ∃ p ∈ bc.geo.points, bd.is_forbidden p c = false ∧ ∃ q ∈ bd.get_pieces_left c,
          m ∈ (if is_followup then sc.precomp_moves c else bc.precomp_moves).get_moves q p
            (bd.get_adj_status p c)) := by
  refine ⟨?_, fun m => mark_forbidden_spec bc.geo bd c _ m⟩
  intro p hp hf i hi hfu q hq hl
  rw [init_precomp_moves sc bc bd is_followup c hc hn]
  exact init_color_lists bc hnd bd c (sc.precomp_moves c) is_followup hold (p, i, q)
    ((mem_visited _ _ _ _ _ _).mpr ⟨hp, hf, hi, hfu, hq, hl⟩)

set_option maxRecDepth 100000 in
theorem init_filters_old_lists_witness :
    ((row3_shared.init row3_const row3_mid false).precomp_moves 1).get_moves 1 1 1
      = (row3_const.precomp_moves.get_moves 1 1 1).filter
          (fun mv => !mark_forbidden row3 row3_mid 1 row3_const.precomp_moves mv) ∧
    row3_const.precomp_moves.get_moves 1 1 1 = [5] ∧
    ((row3_shared.init row3_const row3_mid false).precomp_moves 1).get_moves 1 1 1 = [5] :=
  ⟨(init_filters_old_lists row3_const (by decide) row3_mid 1 (by decide) (by decide)
      row3_shared false (fun h => Bool.noConfusion h)).1 1 (by decide) (by decide) 1
      (by decide) (by decide) 1 (by decide) (by decide),
    by decide, by decide⟩

/-! ## The symmetric counterpart of a move -/

/-- The move recorded as `symmetric_move`, when it is not the null move, is a
created move of the same piece whose cells are the sorted images of the
cells of the move. -/
theorem symmetric_move_cells (nu_adj : Nat) (geo : Geometry) (pieces : List PieceInfo)
    (mem : Storage) (hgeo : geo.WellFormed) (hcat : ∀ pc ∈ pieces, pc.WellFormed)
    (sym : Point → Point) (hsym : ∀ p ∈ geo.points, sym p ∈ geo.points) (m : Nat)
    (hm : (BoardConst.create nu_adj geo pieces mem).is_created m)
    (hne : ((init_symmetry_info (BoardConst.create nu_adj geo pieces mem) sym).move_info_ext_2
        m).symmetric_move ≠ 0) :
    (BoardConst.create nu_adj geo pieces mem).is_created
      ((init_symmetry_info (BoardConst.create nu_adj geo pieces mem) sym).move_info_ext_2
        m).symmetric_move ∧
    ((BoardConst.create nu_adj geo pieces mem).move_info
      ((init_symmetry_info (BoardConst.create nu_adj geo pieces mem) sym).move_info_ext_2
        m).symmetric_move).piece
      = ((BoardConst.create nu_adj geo pieces mem).move_info m).piece ∧
    (BoardConst.create nu_adj geo pieces mem).cells
      ((init_symmetry_info (BoardConst.create nu_adj geo pieces mem) sym).move_info_ext_2
        m).symmetric_move
      = sort (compare_val geo) (((BoardConst.create nu_adj geo pieces mem).cells m).map sym) := by
  rw [symmetric_move_eq nu_adj geo pieces mem sym m hm] at hne ⊢
  obtain ⟨_, n2, pc, hpc, hlen, _⟩ :=
    created_move_cells nu_adj geo pieces mem hgeo hcat m hm
  have hq : ((BoardConst.create nu_adj geo pieces mem).move_info m).piece < pieces.length :=
    (List.getElem?_eq_some_iff.mp hpc).1
  cases hf : find_move_piece (BoardConst.create nu_adj geo pieces mem)
      (((BoardConst.create nu_adj geo pieces mem).cells m).map sym)
      ((BoardConst.create nu_adj geo pieces mem).move_info m).piece with
  | none => rw [hf] at hne; exact absurd rfl hne
  | some m' =>
    simp only [Option.getD_some]
    have hon : ∀ a ∈ ((BoardConst.create nu_adj geo pieces mem).cells m).map sym,
        a ∈ geo.points := by
      intro a ha
      obtain ⟨c, hc, rfl⟩ := List.mem_map.mp ha
      exact hsym c (n2 c hc)
    obtain ⟨g1, g2, g3⟩ := find_move_piece_some nu_adj geo pieces mem _ hon _ hq m' hf
    obtain ⟨_, _, pc', hpc', _, hsize'⟩ :=
      created_move_cells nu_adj geo pieces mem hgeo hcat m' g1
    rw [g2, hpc] at hpc'
    have hpe : pc' = pc := (Option.some.inj hpc').symm
    subst hpe
    refine ⟨g1, g2, ?_⟩
    rw [g3, List.length_map, hlen, ← hsize']
    rfl

/-- C28: on duo and trigon boards, the `symmetric_move` that
`init_symmetry_info` records for a created move `m`, when it is not the null
move, is a created move of the same piece as `m` whose occupied cells are
exactly the images of the occupied cells of `m` under the table of symmetric
points (given that the table maps the points of the board to points of the
board). -/
theorem symmetric_move_image (env : Environment) (board_type : BoardType)
    (piece_set : PieceSet) (mem : Storage)
    (hbt : board_type = BoardType.duo ∨ board_type = BoardType.trigon)
    (hgeo : (env.get_geometry board_type).WellFormed)
    (hinj : ∀ ts pts, ∀ t ∈ env.uniq_transforms (env.get_geometry board_type) ts pts,
      Function.Injective t.get_transformed)
    (hsym : ∀ p ∈ (env.get_geometry board_type).points,
      env.symmetric_points (env.get_geometry board_type) p
        ∈ (env.get_geometry board_type).points)
    (m : Nat) (hm : (BoardConst.construct env board_type piece_set mem).is_created m)
    (hne : ((BoardConst.construct env board_type piece_set mem).move_info_ext_2
      m).symmetric_move ≠ 0) :
    (BoardConst.construct env board_type piece_set mem).is_created
      ((BoardConst.construct env board_type piece_set mem).move_info_ext_2 m).symmetric_move ∧
    ((BoardConst.construct env board_type piece_set mem).move_info
      ((BoardConst.construct env board_type piece_set mem).move_info_ext_2
        m).symmetric_move).piece
      = ((BoardConst.construct env board_type piece_set mem).move_info m).piece ∧
    ∀ a, a ∈ (BoardConst.construct env board_type piece_set mem).cells
        ((BoardConst.construct env board_type piece_set mem).move_info_ext_2 m).symmetric_move
      ↔ ∃ c ∈ (BoardConst.construct env board_type piece_set mem).cells m,
          env.symmetric_points (env.get_geometry board_type) c = a := by
  rw [construct_symmetric env board_type piece_set mem hbt] at hm hne ⊢
  obtain ⟨h1, h2, h3⟩ := symmetric_move_cells env.nu_adj _ _ mem hgeo
    (select_pieces_well_formed env board_type piece_set hinj) _ hsym m hm hne
  refine ⟨h1, h2, ?_⟩
  intro a
  have h3' : (init_symmetry_info
      (BoardConst.create env.nu_adj (env.get_geometry board_type)
        (select_pieces env board_type piece_set) mem)
      (env.symmetric_points (env.get_geometry board_type))).cells
        ((init_symmetry_info
          (BoardConst.create env.nu_adj (env.get_geometry board_type)
            (select_pieces env board_type piece_set) mem)
          (env.symmetric_points (env.get_geometry board_type))).move_info_ext_2
          m).symmetric_move
      = sort (compare_val (env.get_geometry board_type))
          (((BoardConst.create env.nu_adj (env.get_geometry board_type)
            (select_pieces env board_type piece_set) mem).cells m).map
            (env.symmetric_points (env.get_geometry board_type))) := h3
  rw [h3', (sort_perm _ _).mem_iff, List.mem_map]
  exact Iff.rfl

theorem symmetric_move_image_witness :
    (BoardConst.construct row3_env BoardType.duo PieceSet.junior Storage.fresh).is_created 1 ∧
    ((BoardConst.construct row3_env BoardType.duo PieceSet.junior Storage.fresh).move_info_ext_2
      1).symmetric_move = 2 ∧
    ∀ a, a ∈ (BoardConst.construct row3_env BoardType.duo PieceSet.junior Storage.fresh).cells
        ((BoardConst.construct row3_env BoardType.duo PieceSet.junior
          Storage.fresh).move_info_ext_2 1).symmetric_move
      ↔ ∃ c ∈ (BoardConst.construct row3_env BoardType.duo PieceSet.junior
            Storage.fresh).cells 1,
          row3_symmetric_points c = a :=
  ⟨by decide, by decide,
    (symmetric_move_image row3_env BoardType.duo PieceSet.junior Storage.fresh (Or.inl rfl)
      row3_wf (fun _ _ t ht => by
        rw [List.mem_singleton.mp ht]; exact fun _ _ h => h)
      (by decide) 1 (by decide) (by decide)).2.2⟩

/-! ## Pieces considered -/

theorem filter_min_size_step_apply (bc : BoardConst) (min_size : Nat) (m : Piece → Bool)
    (i q : Nat) :
    filter_min_size_step bc min_size m i q
      = if q = i ∧ ((bc.pieces[q]?).map PieceInfo.get_size).any (fun s => decide (s < min_size))
        then false else m q := by
  unfold filter_min_size_step
  by_cases hq : q = i
  · subst hq
    cases hp : bc.pieces[q]? with
    | none => simp
    | some pc =>
      by_cases hs : pc.get_size < min_size
      · simp [hs]
      · simp [hs]
  · cases hp : bc.pieces[i]? with
    | none => simp [hq]
    | some pc =>
      by_cases hs : pc.get_size < min_size
      · simp [hs, hq]
      · simp [hs, hq]

theorem filter_min_size_foldl (bc : BoardConst) (min_size : Nat) (n : Nat) :
    ∀ (m : Piece → Bool) (q : Nat),
      ((List.range n).foldl (filter_min_size_step bc min_size) m) q
        = if q < n ∧ ((bc.pieces[q]?).map PieceInfo.get_size).any (fun s => decide (s < min_size))
          then false else m q := by
  induction n with
  | zero => intro m q; simp
  | succ n ih =>
    intro m q
    rw [List.range_succ, List.foldl_append, List.foldl_cons, List.foldl_nil,
      filter_min_size_step_apply, ih]
    by_cases hq : q = n
    · subst hq
      by_cases hc : ((bc.pieces[q]?).map PieceInfo.get_size).any
          (fun s => decide (s < min_size)) = true
      · simp [hc]
      · simp [hc]
    · have h1 : (q < n + 1) ↔ (q < n) := by omega
      simp only [hq, h1, false_and, if_false, Bool.false_eq_true]

/-- The map after `filter_min_size`: the pieces of the catalog with fewer
cells than `min_size` are not considered, the other entries are unchanged. -/
theorem filter_min_size_apply (bc : BoardConst) (min_size : Nat) (m : Piece → Bool) (q : Nat) :
    filter_min_size bc min_size m q
      = if ((bc.pieces[q]?).map PieceInfo.get_size).any (fun s => decide (s < min_size))
        then false else m q := by
  unfold filter_min_size
  rw [filter_min_size_foldl]
  by_cases hq : q < bc.pieces.length
  · simp [hq]
  · have : bc.pieces[q]? = none := List.getElem?_eq_none (by omega)
    simp [hq, this]

theorem set_piece_considered_apply (bc : BoardConst) (name : String) (m : Piece → Bool)
    (v : Bool) (q : Nat) :
    set_piece_considered bc name m v q
      = if bc.get_piece_by_name name = some q then v else m q := by
  unfold set_piece_considered
  cases h : bc.get_piece_by_name name with
  | none => simp
  | some piece =>
    by_cases hq : q = piece
    · simp [hq]
    · have : ¬ piece = q := fun e => hq e.symm
      simp [hq, this]

theorem construct_pieces (env : Environment) (board_type : BoardType) (piece_set : PieceSet)
    (mem : Storage) :
    (BoardConst.construct env board_type piece_set mem).pieces
      = select_pieces env board_type piece_set := by
  unfold BoardConst.construct
  simp only
  split <;> rfl

theorem get_piece_by_name_classic (bc : BoardConst) (uniq : List CoordPoint → List Transform)
    (hp : bc.pieces = create_pieces_classic uniq) :
    bc.get_piece_by_name "V5" = some 0 ∧ bc.get_piece_by_name "Z5" = some 2 := by
  unfold BoardConst.get_piece_by_name
  rw [hp]
  exact ⟨rfl, rfl⟩

theorem get_piece_by_name_trigon (bc : BoardConst) (uniq : List CoordPoint → List Transform)
    (hp : bc.pieces = create_pieces_trigon uniq) :
    bc.get_piece_by_name "V" = some 2 ∧ bc.get_piece_by_name "I6" = some 0 ∧
    bc.get_piece_by_name "O" = some 11 := by
  unfold BoardConst.get_piece_by_name
  rw [hp]
  exact ⟨rfl, rfl, rfl⟩

/-- On the classic board, for a move count below the number of colours, the
pieces considered are the pieces 0 and 2. -/
theorem first_considered_classic (bc : BoardConst) (uniq : List CoordPoint → List Transform)
    (hp : bc.pieces = create_pieces_classic uniq) (nu_colors nu_moves : Nat)
    (h : nu_moves < nu_colors) (q : Nat) :
    set_pieces_considered bc BoardType.classic nu_colors nu_moves q = true ↔ q = 0 ∨ q = 2 := by
  obtain ⟨n1, n2⟩ := get_piece_by_name_classic bc uniq hp
  simp only [set_pieces_considered, if_pos h, set_piece_considered_apply, n1, n2,
    Option.some.injEq]
  by_cases h2 : 2 = q
  · simp [h2.symm]
  · by_cases h0 : 0 = q
    · simp [h0.symm]
    · have h2' : ¬ q = 2 := fun e => h2 e.symm
      have h0' : ¬ q = 0 := fun e => h0 e.symm
      simp [h2, h0, h2', h0']

/-- On the trigon boards, for a move count below the number of colours, the
pieces considered are the pieces 2 and 0: both have 6 cells and neither is the
piece `O`. -/
theorem first_considered_trigon (bc : BoardConst) (uniq : List CoordPoint → List Transform)
    (hp : bc.pieces = create_pieces_trigon uniq) (nu_colors nu_moves : Nat)
    (h : nu_moves < nu_colors) (q : Nat) :
    set_pieces_considered_trigon bc nu_colors nu_moves q = true ↔ q = 2 ∨ q = 0 := by
  obtain ⟨n1, n2, n3⟩ := get_piece_by_name_trigon bc uniq hp
  have h4 : nu_moves < 4 * nu_colors := by omega
  simp only [set_pieces_considered_trigon, if_pos h, if_pos h4, set_piece_considered_apply,
    filter_min_size_apply, n1, n2, n3, Option.some.injEq]
  by_cases h2 : q = 2
  · subst h2
    have e : ((create_pieces_trigon uniq)[2]?).map PieceInfo.get_size = some 6 := rfl
    rw [hp, e]
    decide
  · by_cases h0 : q = 0
    · subst h0
      have e : ((create_pieces_trigon uniq)[0]?).map PieceInfo.get_size = some 6 := rfl
      rw [hp, e]
      decide
    · have h2' : ¬ 2 = q := fun e => h2 e.symm
      have h0' : ¬ 0 = q := fun e => h0 e.symm
      simp [h2, h0, h2', h0']

/-- C29: for every move count below the number of colours,
`set_pieces_considered` marks exactly two pieces as considered: the pieces
0 and 2 of the catalog, named `V5` and `Z5`, on the classic board, and the
pieces 2 and 0, named `V` and `I6`, on the trigon and trigon_3 boards, where
the filter for the minimum size 6 and the exclusion of `O` also run and
remove neither of the two. -/
theorem first_pieces_considered (env : Environment) (piece_set : PieceSet) (mem : Storage)
    (nu_colors nu_moves : Nat) (h : nu_moves < nu_colors) :
    ((∀ q,
        set_pieces_considered (BoardConst.construct env BoardType.classic piece_set mem)
          BoardType.classic nu_colors nu_moves q = true ↔ q = 0 ∨ q = 2) ∧
      (BoardConst.construct env BoardType.classic piece_set mem).pieces[0]?.map PieceInfo.name
        = some "V5".toList ∧
      (BoardConst.construct env BoardType.classic piece_set mem).pieces[2]?.map PieceInfo.name
        = some "Z5".toList) ∧
    ∀ board_type, board_type = BoardType.trigon ∨ board_type = BoardType.trigon_3 →
      (∀ q,
        set_pieces_considered (BoardConst.construct env board_type piece_set mem)
          board_type nu_colors nu_moves q = true ↔ q = 2 ∨ q = 0) ∧
      (BoardConst.construct env board_type piece_set mem).pieces[2]?.map PieceInfo.name
        = some "V".toList ∧
      (BoardConst.construct env board_type piece_set mem).pieces[0]?.map PieceInfo.name
        = some "I6".toList := by
  constructor
  · have hp := construct_pieces env BoardType.classic piece_set mem
    refine ⟨fun q => first_considered_classic _ _ hp nu_colors nu_moves h q, ?_, ?_⟩
    · rw [hp]; rfl
    · rw [hp]; rfl
  · intro board_type hbt
    rcases hbt with rfl | rfl
    · have hp := construct_pieces env BoardType.trigon piece_set mem
      refine ⟨fun q => first_considered_trigon _ _ hp nu_colors nu_moves h q, ?_, ?_⟩
      · rw [hp]; rfl
      · rw [hp]; rfl
    · have hp := construct_pieces env BoardType.trigon_3 piece_set mem
      refine ⟨fun q => first_considered_trigon _ _ hp nu_colors nu_moves h q, ?_, ?_⟩
      · rw [hp]; rfl
      · rw [hp]; rfl

theorem first_pieces_considered_witness :
    (0 : Nat) < 2 ∧
    (set_pieces_considered
        (BoardConst.construct row3_env BoardType.classic PieceSet.classic Storage.fresh)
        BoardType.classic 2 0 2 = true ↔ (2 : Nat) = 0 ∨ (2 : Nat) = 2) ∧
    (set_pieces_considered
        (BoardConst.construct row3_env BoardType.classic PieceSet.classic Storage.fresh)
        BoardType.classic 2 0 1 = true ↔ (1 : Nat) = 0 ∨ (1 : Nat) = 2) :=
  ⟨by decide,
    (first_pieces_considered row3_env PieceSet.classic Storage.fresh 2 0 (by decide)).1.1 2,
    (first_pieces_considered row3_env PieceSet.classic Storage.fresh 2 0 (by decide)).1.1 1⟩

/-- From the move count `all_considered_factor * nu_colors` on,
`set_pieces_considered` considers every piece. -/
theorem all_considered_of_le (bc : BoardConst) (board_type : BoardType) (nu_colors i : Nat)
    (h : all_considered_factor board_type * nu_colors ≤ i) :
    set_pieces_considered bc board_type nu_colors i = fun _ => true := by
  cases board_type <;>
    simp only [all_considered_factor] at h <;>
    simp only [set_pieces_considered, set_pieces_considered_trigon]
  · rw [if_neg (by omega), if_neg (by omega), if_neg (by omega), if_neg (by omega),
      if_neg (by omega)]
  · rw [if_neg (by omega), if_neg (by omega), if_neg (by omega), if_neg (by omega),
      if_neg (by omega)]
  · rw [if_neg (by omega), if_neg (by omega), if_neg (by omega), if_neg (by omega),
      if_neg (by omega)]
  · rw [if_neg (by omega), if_neg (by omega), if_neg (by omega)]
  · rw [if_neg (by omega), if_neg (by omega)]

theorem filter_min_size_small (bc : BoardConst) (q : Nat)
    (hq : (bc.pieces[q]?).map PieceInfo.get_size = some 1) (min_size : Nat)
    (hmin : 2 ≤ min_size) (m : Piece → Bool) : filter_min_size bc min_size m q = false := by
  rw [filter_min_size_apply, hq]
  have : 1 < min_size := by omega
  simp [this]

theorem set_piece_considered_false (bc : BoardConst) (name : String) (m : Piece → Bool)
    (q : Nat) (h : m q = false) : set_piece_considered bc name m false q = false := by
  rw [set_piece_considered_apply, h]
  simp

/-- Below the move count `all_considered_factor * nu_colors` the one-cell
piece, the last piece of every catalog, is not considered. -/
theorem last_not_considered (env : Environment) (board_type : BoardType)
    (piece_set : PieceSet) (mem : Storage)
    (hps : piece_set_assertion board_type piece_set = true) (nu_colors i : Nat)
    (h : i < all_considered_factor board_type * nu_colors) :
    set_pieces_considered (BoardConst.construct env board_type piece_set mem) board_type
      nu_colors i ((BoardConst.construct env board_type piece_set mem).pieces.length - 1)
      = false := by
  have hp := construct_pieces env board_type piece_set mem
  cases board_type <;> cases piece_set <;>
    first
    | exact absurd hps (by decide)
    | skip
  · -- classic
    have hq : ((BoardConst.construct env BoardType.classic PieceSet.classic mem).pieces[
        (BoardConst.construct env BoardType.classic PieceSet.classic mem).pieces.length
          - 1]?).map PieceInfo.get_size = some 1 := by
      rw [hp]; rfl
    have hl : (BoardConst.construct env BoardType.classic PieceSet.classic mem).pieces.length
        - 1 = 20 := by
      rw [hp]; rfl
    obtain ⟨n1, n2⟩ := get_piece_by_name_classic _ _ hp
    simp only [all_considered_factor] at h
    simp only [set_pieces_considered]
    by_cases c1 : i < nu_colors
    · rw [if_pos c1, set_piece_considered_apply, set_piece_considered_apply, n1, n2, hl]
      decide
    rw [if_neg c1]
    by_cases c2 : i < 2 * nu_colors
    · rw [if_pos c2]
      iterate 5 apply set_piece_considered_false
      exact filter_min_size_small _ _ hq 5 (by decide) _
    rw [if_neg c2]
    by_cases c3 : i < 3 * nu_colors
    · rw [if_pos c3]
      iterate 2 apply set_piece_considered_false
      exact filter_min_size_small _ _ hq 5 (by decide) _
    rw [if_neg c3]
    by_cases c4 : i < 5 * nu_colors
    · rw [if_pos c4]
      exact filter_min_size_small _ _ hq 4 (by decide) _
    rw [if_neg c4, if_pos h]
    exact filter_min_size_small _ _ hq 3 (by decide) _
  · -- trigon
    have hq : ((BoardConst.construct env BoardType.trigon PieceSet.trigon mem).pieces[
        (BoardConst.construct env BoardType.trigon PieceSet.trigon mem).pieces.length
          - 1]?).map PieceInfo.get_size = some 1 := by
      rw [hp]; rfl
    simp only [all_considered_factor] at h
    simp only [set_pieces_considered, set_pieces_considered_trigon]
    by_cases c1 : i < 4 * nu_colors
    · rw [if_pos c1]
      apply set_piece_considered_false
      exact filter_min_size_small _ _ hq 6 (by decide) _
    rw [if_neg c1]
    by_cases c2 : i < 5 * nu_colors
    · rw [if_pos c2]
      exact filter_min_size_small _ _ hq 5 (by decide) _
    rw [if_neg c2]
    by_cases c3 : i < 7 * nu_colors
    · rw [if_pos c3]
      exact filter_min_size_small _ _ hq 4 (by decide) _
    rw [if_neg c3, if_pos h]
    exact filter_min_size_small _ _ hq 3 (by decide) _
  · -- trigon_3
    have hq : ((BoardConst.construct env BoardType.trigon_3 PieceSet.trigon mem).pieces[
        (BoardConst.construct env BoardType.trigon_3 PieceSet.trigon mem).pieces.length
          - 1]?).map PieceInfo.get_size = some 1 := by
      rw [hp]; rfl
    simp only [all_considered_factor] at h
    simp only [set_pieces_considered, set_pieces_considered_trigon]
    by_cases c1 : i < 4 * nu_colors
    · rw [if_pos c1]
      apply set_piece_considered_false
      exact filter_min_size_small _ _ hq 6 (by decide) _
    rw [if_neg c1]
    by_cases c2 : i < 5 * nu_colors
    · rw [if_pos c2]
      exact filter_min_size_small _ _ hq 5 (by decide) _
    rw [if_neg c2]
    by_cases c3 : i < 7 * nu_colors
    · rw [if_pos c3]
      exact filter_min_size_small _ _ hq 4 (by decide) _
    rw [if_neg c3, if_pos h]
    exact filter_min_size_small _ _ hq 3 (by decide) _
  · -- duo, classic pieces
    have hq : ((BoardConst.construct env BoardType.duo PieceSet.classic mem).pieces[
        (BoardConst.construct env BoardType.duo PieceSet.classic mem).pieces.length
          - 1]?).map PieceInfo.get_size = some 1 := by
      rw [hp]; rfl
    simp only [all_considered_factor] at h
    simp only [set_pieces_considered]
    by_cases c1 : i < 2 * nu_colors
    · rw [if_pos c1]
      exact filter_min_size_small _ _ hq 5 (by decide) _
    rw [if_neg c1]
    by_cases c2 : i < 3 * nu_colors
    · rw [if_pos c2]
      exact filter_min_size_small _ _ hq 4 (by decide) _
    rw [if_neg c2, if_pos h]
    exact filter_min_size_small _ _ hq 3 (by decide) _
  · -- duo, junior pieces
    have hq : ((BoardConst.construct env BoardType.duo PieceSet.junior mem).pieces[
        (BoardConst.construct env BoardType.duo PieceSet.junior mem).pieces.length
          - 1]?).map PieceInfo.get_size = some 1 := by
      rw [hp]; rfl
    simp only [all_considered_factor] at h
    simp only [set_pieces_considered]
    by_cases c1 : i < 2 * nu_colors
    · rw [if_pos c1]
      exact filter_min_size_small _ _ hq 5 (by decide) _
    rw [if_neg c1]
    by_cases c2 : i < 3 * nu_colors
    · rw [if_pos c2]
      exact filter_min_size_small _ _ hq 4 (by decide) _
    rw [if_neg c2, if_pos h]
    exact filter_min_size_small _ _ hq 3 (by decide) _
  · -- nexos
    have hq : ((BoardConst.construct env BoardType.nexos PieceSet.nexos mem).pieces[
        (BoardConst.construct env BoardType.nexos PieceSet.nexos mem).pieces.length
          - 1]?).map PieceInfo.get_size = some 1 := by
      rw [hp]; rfl
    simp only [all_considered_factor] at h
    simp only [set_pieces_considered]
    by_cases c1 : i < 3 * nu_colors
    · rw [if_pos c1]
      exact filter_min_size_small _ _ hq 4 (by decide) _
    rw [if_neg c1, if_pos h]
    exact filter_min_size_small _ _ hq 3 (by decide) _

/-- The loop of `init_pieces_considered` records the first move count at
which every piece of the catalog is considered, when there is one before the
loop ends. -/
theorem init_pieces_considered_loop_min (bc : BoardConst) (board_type : BoardType)
    (nu_colors max_pieces : Nat) (r : Nat) :
    ∀ (i : Nat) (st : PiecesConsidered) (j : Nat), i ≤ j → j < i + r →
      (∀ k, i ≤ k → k < j →
        (List.range bc.pieces.length).all (set_pieces_considered bc board_type nu_colors k)
          = false) →
      (List.range bc.pieces.length).all (set_pieces_considered bc board_type nu_colors j)
        = true →
      (init_pieces_considered_loop bc board_type nu_colors max_pieces r i
        st).min_move_all_considered = j := by
  induction r with
  | zero => intro i st j h1 h2; omega
  | succ r ih =>
    intro i st j h1 h2 hlow hj
    unfold init_pieces_considered_loop
    simp only
    by_cases hij : i = j
    · subst hij
      rw [if_pos hj]
    · have hi := hlow i (Nat.le_refl i) (by omega)
      rw [if_neg (by rw [hi]; simp)]
      have key : ∀ st', (init_pieces_considered_loop bc board_type nu_colors max_pieces r
          (i + 1) st').min_move_all_considered = j :=
        fun st' => ih (i + 1) st' j (by omega) (by omega)
          (fun k hk1 hk2 => hlow k (by omega) hk2) hj
      split
      · exact key _
      · exact key _

/-- C30: `init_pieces_considered` records as `min_move_all_considered` the
smallest move count, counted from the number of pieces already on the board,
at which `set_pieces_considered` marks every piece of the catalog considered
(when there is one below `Board::max_game_moves`, where the loop ends).  On
the board constants of a board type this move count is the larger of the
starting count and 7 times the number of colours on the classic board, 9
times on the trigon and trigon_3 boards, and 5 times on the duo and nexos
boards. -/
theorem min_move_all_considered_correct (env : Environment) (board_type : BoardType)
    (piece_set : PieceSet) (mem : Storage)
    (hps : piece_set_assertion board_type piece_set = true)
    (nu_colors nu_onboard_pieces max_game_moves max_pieces : Nat) (st : PiecesConsidered) :
    (∀ j, nu_onboard_pieces ≤ j → j < max_game_moves →
      (∀ k, nu_onboard_pieces ≤ k → k < j →
        (List.range (BoardConst.construct env board_type piece_set mem).pieces.length).all
          (set_pieces_considered (BoardConst.construct env board_type piece_set mem)
            board_type nu_colors k) = false) →
      (List.range (BoardConst.construct env board_type piece_set mem).pieces.length).all
        (set_pieces_considered (BoardConst.construct env board_type piece_set mem)
          board_type nu_colors j) = true →
      (init_pieces_considered (BoardConst.construct env board_type piece_set mem) board_type
        nu_colors nu_onboard_pieces max_game_moves max_pieces st).min_move_all_considered
        = j) ∧
    (max nu_onboard_pieces (all_considered_factor board_type * nu_colors) < max_game_moves →
      (init_pieces_considered (BoardConst.construct env board_type piece_set mem) board_type
        nu_colors nu_onboard_pieces max_game_moves max_pieces st).min_move_all_considered
        = max nu_onboard_pieces (all_considered_factor board_type * nu_colors)) := by
  have gen : ∀ j, nu_onboard_pieces ≤ j → j < max_game_moves →
      (∀ k, nu_onboard_pieces ≤ k → k < j →
        (List.range (BoardConst.construct env board_type piece_set mem).pieces.length).all
          (set_pieces_considered (BoardConst.construct env board_type piece_set mem)
            board_type nu_colors k) = false) →
      (List.range (BoardConst.construct env board_type piece_set mem).pieces.length).all
        (set_pieces_considered (BoardConst.construct env board_type piece_set mem)
          board_type nu_colors j) = true →
      (init_pieces_considered (BoardConst.construct env board_type piece_set mem) board_type
        nu_colors nu_onboard_pieces max_game_moves max_pieces st).min_move_all_considered
        = j := by
    intro j h1 h2 hlow hj
    unfold init_pieces_considered
    simp only
    exact init_pieces_considered_loop_min _ board_type nu_colors max_pieces _ _ _ j h1
      (by omega) hlow hj
  refine ⟨gen, ?_⟩
  intro hmax
  apply gen _ (Nat.le_max_left _ _) hmax
  · intro k _ hk2
    have hk : k < all_considered_factor board_type * nu_colors := by
      rcases Nat.lt_or_ge k (all_considered_factor board_type * nu_colors) with h | h
      · exact h
      · have := Nat.max_le.mpr ⟨(by omega : nu_onboard_pieces ≤ k), h⟩
        omega
    have hlast := last_not_considered env board_type piece_set mem hps nu_colors k hk
    have hpos : 0 < (BoardConst.construct env board_type piece_set mem).pieces.length := by
      rw [construct_pieces]
      cases board_type <;> cases piece_set <;>
        first
        | exact absurd hps (by decide)
        | exact Nat.succ_pos _
    rw [List.all_eq_false]
    exact ⟨_, List.mem_range.mpr (Nat.sub_lt hpos Nat.one_pos), by rw [hlast]; simp⟩
  · rw [all_considered_of_le _ board_type nu_colors _ (Nat.le_max_right _ _)]
    simp

theorem min_move_all_considered_correct_witness :
    piece_set_assertion BoardType.duo PieceSet.junior = true ∧
    max 3 (all_considered_factor BoardType.duo * 2) < 96 ∧
    (init_pieces_considered
        (BoardConst.construct row3_env BoardType.duo PieceSet.junior Storage.fresh)
        BoardType.duo 2 3 96 24 ⟨[], fun _ => 0, 0, fun _ => false⟩).min_move_all_considered
      = max 3 (all_considered_factor BoardType.duo * 2) ∧
    max 3 (all_considered_factor BoardType.duo * 2) = 10 :=
  ⟨by decide, by decide,
    (min_move_all_considered_correct row3_env BoardType.duo PieceSet.junior Storage.fresh
      (by decide) 2 3 96 24 ⟨[], fun _ => 0, 0, fun _ => false⟩).2 (by decide),
    by decide⟩

/-! ## The list of the masks of the pieces considered -/

theorem refers_of_prefix (st st' : PiecesConsidered) (max_pieces k : Nat) (mask : Piece → Bool)
    (hl : ∃ t, st'.is_piece_considered_list = st.is_piece_considered_list ++ t)
    (hk : st'.is_piece_considered k = st.is_piece_considered k)
    (h : st.refers max_pieces k mask) : st'.refers max_pieces k mask := by
  obtain ⟨m, hm, hq⟩ := h
  obtain ⟨t, ht⟩ := hl
  refine ⟨m, ?_, hq⟩
  have hlt : st.is_piece_considered k < st.is_piece_considered_list.length := by
    by_contra hc
    rw [List.getElem?_eq_none (by omega)] at hm
    cases hm
  rw [ht, hk, List.getElem?_append_left hlt]
  exact hm

/-- What the loop of `init_pieces_considered` keeps and establishes: the list
only grows and its masks stay different from each other, the entries of the
move counts before the loop are kept, and every move count that the loop
reaches without finding all pieces considered gets an entry that refers to
its mask. -/
theorem init_pieces_considered_loop_spec (bc : BoardConst) (board_type : BoardType)
    (nu_colors max_pieces : Nat) (r : Nat) :
    ∀ (i : Nat) (st : PiecesConsidered),
      masks_distinct max_pieces st.is_piece_considered_list →
      masks_distinct max_pieces
        (init_pieces_considered_loop bc board_type nu_colors max_pieces r i
          st).is_piece_considered_list ∧
      (∃ t, (init_pieces_considered_loop bc board_type nu_colors max_pieces r i
          st).is_piece_considered_list = st.is_piece_considered_list ++ t) ∧
      (∀ k, k < i →
        (init_pieces_considered_loop bc board_type nu_colors max_pieces r i
          st).is_piece_considered k = st.is_piece_considered k) ∧
      (∀ k, i ≤ k → k < i + r →
        (∀ k2, i ≤ k2 → k2 ≤ k →
          (List.range bc.pieces.length).all (set_pieces_considered bc board_type nu_colors k2)
            = false) →
        (init_pieces_considered_loop bc board_type nu_colors max_pieces r i st).refers
          max_pieces k (set_pieces_considered bc board_type nu_colors k)) := by
  induction r with
  | zero =>
    intro i st hd
    exact ⟨hd, ⟨[], by simp [init_pieces_considered_loop]⟩, fun _ _ => rfl,
      fun k h1 h2 => by omega⟩
  | succ r ih =>
    intro i st hd
    have e1 : ∀ k, k < i → k < i + 1 := fun k h => by omega
    have e2 : ∀ k, k < i → ¬ k = i := fun k h => by omega
    have e3 : ∀ k, i ≤ k → ¬ k = i → i + 1 ≤ k := fun k h h2 => by omega
    have e4 : ∀ k, k < i + (r + 1) → k < i + 1 + r := fun k h => by omega
    have e5 : ∀ k, i + 1 ≤ k → i ≤ k := fun k h => by omega
    unfold init_pieces_considered_loop
    simp only
    by_cases hall : (List.range bc.pieces.length).all
        (set_pieces_considered bc board_type nu_colors i) = true
    · rw [if_pos hall]
      refine ⟨hd, ⟨[], by simp⟩, fun _ _ => rfl, ?_⟩
      intro k h1 _ hlow
      have := hlow i (Nat.le_refl i) h1
      rw [hall] at this
      cases this
    · rw [if_neg hall]
      by_cases hpos : st.is_piece_considered_list.findIdx
          (fun m => (List.range max_pieces).all
            (fun j => m j == set_pieces_considered bc board_type nu_colors i j))
          < st.is_piece_considered_list.length
      · rw [if_pos hpos]
        obtain ⟨a1, a2, a3, a4⟩ := ih (i + 1)
          { st with
            is_piece_considered := fun k =>
              if k = i then st.is_piece_considered_list.findIdx
                (fun m => (List.range max_pieces).all
                  (fun j => m j == set_pieces_considered bc board_type nu_colors i j))
              else st.is_piece_considered k } hd
        refine ⟨a1, a2, ?_, ?_⟩
        · intro k hk
          rw [a3 k (e1 k hk)]
          simp only
          rw [if_neg (e2 k hk)]
        · intro k h1 h2 hlow
          by_cases hki : k = i
          · subst hki
            apply refers_of_prefix _ _ max_pieces k _ a2 (a3 k (Nat.lt_succ_self k))
            have hp := @List.findIdx_getElem _ _ _ hpos
            refine ⟨st.is_piece_considered_list[st.is_piece_considered_list.findIdx
              (fun m => (List.range max_pieces).all
                (fun j => m j == set_pieces_considered bc board_type nu_colors k j))], ?_, ?_⟩
            · simp only [if_true]
              exact List.getElem?_eq_getElem hpos
            · intro q hq
              rw [List.all_eq_true] at hp
              have := hp q (List.mem_range.mpr hq)
              simpa using this
          · exact a4 k (e3 k h1 hki) (e4 k h2) (fun k2 h3 h4 => hlow k2 (e5 k2 h3) h4)
      · rw [if_neg hpos]
        have hnone : ∀ m ∈ st.is_piece_considered_list,
            ∃ q, q < max_pieces ∧ m q ≠ set_pieces_considered bc board_type nu_colors i q := by
          intro m hm
          by_contra hc
          apply hpos
          apply List.findIdx_lt_length_of_exists
          refine ⟨m, hm, ?_⟩
          rw [List.all_eq_true]
          intro q hq
          have hq' := List.mem_range.mp hq
          by_contra hne
          exact hc ⟨q, hq', by simpa using hne⟩
        have hd' : masks_distinct max_pieces
            (st.is_piece_considered_list ++ [set_pieces_considered bc board_type nu_colors i]) := by
          unfold masks_distinct
          rw [List.pairwise_append]
          refine ⟨hd, List.pairwise_singleton _ _, ?_⟩
          intro m hm m' hm'
          rw [List.mem_singleton.mp hm']
          exact hnone m hm
        obtain ⟨a1, a2, a3, a4⟩ := ih (i + 1)
          { st with
            is_piece_considered_list :=
              st.is_piece_considered_list ++ [set_pieces_considered bc board_type nu_colors i]
            is_piece_considered := fun k =>
              if k = i then st.is_piece_considered_list.length
              else st.is_piece_considered k } hd'
        refine ⟨a1, ?_, ?_, ?_⟩
        · obtain ⟨t, ht⟩ := a2
          exact ⟨set_pieces_considered bc board_type nu_colors i :: t, by
            rw [ht]; simp⟩
        · intro k hk
          rw [a3 k (e1 k hk)]
          simp only
          rw [if_neg (e2 k hk)]
        · intro k h1 h2 hlow
          by_cases hki : k = i
          · subst hki
            apply refers_of_prefix _ _ max_pieces k _ a2 (a3 k (Nat.lt_succ_self k))
            refine ⟨set_pieces_considered bc board_type nu_colors k, ?_, fun _ _ => rfl⟩
            simp
          · exact a4 k (e3 k h1 hki) (e4 k h2) (fun k2 h3 h4 => hlow k2 (e5 k2 h3) h4)

/-- C31: after `init_pieces_considered`, no two masks of
`is_piece_considered_list` are equal (two `PieceMap`s are equal when their
`max_pieces` entries are), and the entry `is_piece_considered[i]` of every
move count `i` that the loop goes through before it finds all pieces
considered refers to a mask of the list that is equal to the mask that
`set_pieces_considered` computes for `i`; when the loop finds a move count
with all pieces considered, these are the move counts from the number of
pieces on the board up to, and not including, `min_move_all_considered`. -/
theorem considered_masks_memoized (bc : BoardConst) (board_type : BoardType)
    (nu_colors nu_onboard_pieces max_game_moves max_pieces : Nat) (st : PiecesConsidered) :
    masks_distinct max_pieces
      (init_pieces_considered bc board_type nu_colors nu_onboard_pieces max_game_moves
        max_pieces st).is_piece_considered_list ∧
    (∀ i, nu_onboard_pieces ≤ i → i < max_game_moves →
      (∀ k, nu_onboard_pieces ≤ k → k ≤ i →
        (List.range bc.pieces.length).all (set_pieces_considered bc board_type nu_colors k)
          = false) →
      (init_pieces_considered bc board_type nu_colors nu_onboard_pieces max_game_moves
        max_pieces st).refers max_pieces i (set_pieces_considered bc board_type nu_colors i)) ∧
    (∀ j, nu_onboard_pieces ≤ j → j < max_game_moves →
      (∀ k, nu_onboard_pieces ≤ k → k < j →
        (List.range bc.pieces.length).all (set_pieces_considered bc board_type nu_colors k)
          = false) →
      (List.range bc.pieces.length).all (set_pieces_considered bc board_type nu_colors j)
        = true →
      ∀ i, nu_onboard_pieces ≤ i →
        i < (init_pieces_considered bc board_type nu_colors nu_onboard_pieces max_game_moves
          max_pieces st).min_move_all_considered →
        (init_pieces_considered bc board_type nu_colors nu_onboard_pieces max_game_moves
          max_pieces st).refers max_pieces i
          (set_pieces_considered bc board_type nu_colors i)) := by
  obtain ⟨a1, _, _, a4⟩ := init_pieces_considered_loop_spec bc board_type nu_colors max_pieces
    (max_game_moves - nu_onboard_pieces) nu_onboard_pieces
    { st with is_piece_considered_list := [] } List.Pairwise.nil
  have gen : ∀ i, nu_onboard_pieces ≤ i → i < max_game_moves →
      (∀ k, nu_onboard_pieces ≤ k → k ≤ i →
        (List.range bc.pieces.length).all (set_pieces_considered bc board_type nu_colors k)
          = false) →
      (init_pieces_considered bc board_type nu_colors nu_onboard_pieces max_game_moves
        max_pieces st).refers max_pieces i
        (set_pieces_considered bc board_type nu_colors i) :=
    fun i h1 h2 hlow => a4 i h1 (by omega) hlow
  refine ⟨a1, gen, ?_⟩
  intro j h1 h2 hlow hj i hi1 hi2
  have hmin : (init_pieces_considered bc board_type nu_colors nu_onboard_pieces max_game_moves
      max_pieces st).min_move_all_considered = j := by
    unfold init_pieces_considered
    simp only
    exact init_pieces_considered_loop_min _ board_type nu_colors max_pieces _ _ _ j h1
      (by omega) hlow hj
  rw [hmin] at hi2
  exact gen i hi1 (by omega) (fun k hk1 hk2 => hlow k hk1 (by omega))

theorem considered_masks_memoized_witness :
    (init_pieces_considered
        (BoardConst.construct row3_env BoardType.duo PieceSet.junior Storage.fresh)
        BoardType.duo 2 3 96 24 ⟨[], fun _ => 0, 0, fun _ => false⟩).min_move_all_considered
      = 10 ∧
    (init_pieces_considered
        (BoardConst.construct row3_env BoardType.duo PieceSet.junior Storage.fresh)
        BoardType.duo 2 3 96 24
        ⟨[], fun _ => 0, 0, fun _ => false⟩).is_piece_considered_list.length = 3 ∧
    (init_pieces_considered
        (BoardConst.construct row3_env BoardType.duo PieceSet.junior Storage.fresh)
        BoardType.duo 2 3 96 24 ⟨[], fun _ => 0, 0, fun _ => false⟩).is_piece_considered 5 = 1 ∧
    (init_pieces_considered
        (BoardConst.construct row3_env BoardType.duo PieceSet.junior Storage.fresh)
        BoardType.duo 2 3 96 24 ⟨[], fun _ => 0, 0, fun _ => false⟩).refers 24 5
      (set_pieces_considered
        (BoardConst.construct row3_env BoardType.duo PieceSet.junior Storage.fresh)
        BoardType.duo 2 5) :=
  ⟨by decide, by decide, by decide,
    (considered_masks_memoized
      (BoardConst.construct row3_env BoardType.duo PieceSet.junior Storage.fresh)
      BoardType.duo 2 3 96 24 ⟨[], fun _ => 0, 0, fun _ => false⟩).2.1 5 (by decide) (by decide)
      (by decide)⟩

/-! ## The pieces considered only grow with the move count -/

/-- A smaller minimum size filters out fewer pieces. -/
theorem filter_min_size_mono (bc : BoardConst) (a b : Nat) (hab : b ≤ a) (m : Piece → Bool)
    (q : Nat) (h : filter_min_size bc a m q = true) : filter_min_size bc b m q = true := by
  rw [filter_min_size_apply] at h ⊢
  cases hp : bc.pieces[q]? with
  | none => rw [hp] at h; simpa using h
  | some pc =>
    rw [hp] at h
    simp only [Option.map_some', Option.any_some, decide_eq_true_eq] at h ⊢
    by_cases hs : pc.get_size < a
    · rw [if_pos hs] at h
      cases h
    · rw [if_neg hs] at h
      rw [if_neg (by omega)]
      exact h

/-- A piece considered after `filter_min_size` was considered before. -/
theorem filter_min_size_le (bc : BoardConst) (a : Nat) (m : Piece → Bool) (q : Nat)
    (h : filter_min_size bc a m q = true) : m q = true := by
  rw [filter_min_size_apply] at h
  split at h
  · cases h
  · exact h

/-- A piece considered after a piece was excluded by name was considered
before. -/
theorem set_piece_considered_le (bc : BoardConst) (name : String) (m : Piece → Bool) (q : Nat)
    (h : set_piece_considered bc name m false q = true) : m q = true := by
  rw [set_piece_considered_apply] at h
  split at h
  · cases h
  · exact h

/-- Excluding a piece by name keeps the order of two masks. -/
theorem set_piece_considered_mono (bc : BoardConst) (name : String) (m m' : Piece → Bool)
    (q : Nat) (hm : m q = true → m' q = true)
    (h : set_piece_considered bc name m false q = true) :
    set_piece_considered bc name m' false q = true := by
  rw [set_piece_considered_apply] at h ⊢
  split
  · rename_i hn
    rw [if_pos hn] at h
    cases h
  · rename_i hn
    rw [if_neg hn] at h
    exact hm h

/-- One more threshold in front of a chain of thresholds: when the mask `m2`
of the new threshold lies below every mask of the chain `g`, and `g` only
grows with the move count, then the longer chain only grows with the move
count, and every mask `m` below `m2` lies below every mask of it. -/
theorem considered_chain_step (t : Nat) (m m2 : Piece → Bool) (g : Nat → Piece → Bool)
    (h12 : ∀ q, m q = true → m2 q = true)
    (hb : ∀ n q, m2 q = true → g n q = true)
    (hg : ∀ n n', n ≤ n' → ∀ q, g n q = true → g n' q = true) :
    (∀ n q, m q = true → (if n < t then m2 else g n) q = true) ∧
    (∀ n n', n ≤ n' → ∀ q, (if n < t then m2 else g n) q = true →
      (if n' < t then m2 else g n') q = true) := by
  constructor
  · intro n q hq
    by_cases c : n < t
    · rw [if_pos c]; exact h12 q hq
    · rw [if_neg c]; exact hb n q (h12 q hq)
  · intro n n' hn q hq
    by_cases c' : n' < t
    · rw [if_pos c']
      rw [if_pos (by omega)] at hq
      exact hq
    · rw [if_neg c']
      by_cases c : n < t
      · rw [if_pos c] at hq
        exact hb n' q hq
      · rw [if_neg c] at hq
        exact hg n n' hn q hq

theorem get_piece_by_name_classic_excluded (bc : BoardConst)
    (uniq : List CoordPoint → List Transform) (hp : bc.pieces = create_pieces_classic uniq) :
    bc.get_piece_by_name "F" = some 6 ∧ bc.get_piece_by_name "P" = some 10 ∧
    bc.get_piece_by_name "T5" = some 8 ∧ bc.get_piece_by_name "U" = some 11 ∧
    bc.get_piece_by_name "X" = some 5 := by
  unfold BoardConst.get_piece_by_name
  rw [hp]
  exact ⟨rfl, rfl, rfl, rfl, rfl⟩

/-- On the classic board the pieces considered only grow with the move
count. -/
theorem considered_mono_classic (bc : BoardConst) (uniq : List CoordPoint → List Transform)
    (hp : bc.pieces = create_pieces_classic uniq) (nu_colors : Nat) :
    ∀ n n', n ≤ n' → ∀ q,
      set_pieces_considered bc BoardType.classic nu_colors n q = true →
      set_pieces_considered bc BoardType.classic nu_colors n' q = true := by
  obtain ⟨n1, n2⟩ := get_piece_by_name_classic bc uniq hp
  obtain ⟨x1, x2, x3, x4, x5⟩ := get_piece_by_name_classic_excluded bc uniq hp
  have s5 := considered_chain_step (7 * nu_colors) (filter_min_size bc 4 (fun _ => true))
    (filter_min_size bc 3 (fun _ => true)) (fun _ _ => true)
    (fun q h => filter_min_size_mono bc 4 3 (by decide) _ q h)
    (fun _ _ _ => rfl) (fun _ _ _ _ h => h)
  have s4 := considered_chain_step (5 * nu_colors)
    (set_piece_considered bc "U"
      (set_piece_considered bc "P" (filter_min_size bc 5 (fun _ => true)) false) false)
    (filter_min_size bc 4 (fun _ => true)) _
    (fun q h => filter_min_size_mono bc 5 4 (by decide) _ q
      (set_piece_considered_le bc "P" _ q (set_piece_considered_le bc "U" _ q h)))
    s5.1 s5.2
  have s3 := considered_chain_step (3 * nu_colors)
    (set_piece_considered bc "X"
      (set_piece_considered bc "U"
        (set_piece_considered bc "T5"
          (set_piece_considered bc "P"
            (set_piece_considered bc "F" (filter_min_size bc 5 (fun _ => true)) false)
            false)
          false)
        false)
      false)
    (set_piece_considered bc "U"
      (set_piece_considered bc "P" (filter_min_size bc 5 (fun _ => true)) false) false) _
    (fun q h => set_piece_considered_mono bc "U" _ _ q
        (fun h1 => set_piece_considered_mono bc "P" _ _ q
          (fun h2 => set_piece_considered_le bc "F" _ q h2)
          (set_piece_considered_le bc "T5" _ q h1))
        (set_piece_considered_le bc "X" _ q h))
    s4.1 s4.2
  have s2 := considered_chain_step (2 * nu_colors)
    (set_piece_considered bc "Z5" (set_piece_considered bc "V5" (fun _ => false) true) true)
    (set_piece_considered bc "X"
      (set_piece_considered bc "U"
        (set_piece_considered bc "T5"
          (set_piece_considered bc "P"
            (set_piece_considered bc "F" (filter_min_size bc 5 (fun _ => true)) false)
            false)
          false)
        false)
      false) _
    (by
      intro q h
      have hq : q = 0 ∨ q = 2 := by
        simp only [set_piece_considered_apply, n1, n2, Option.some.injEq] at h
        by_cases h2 : 2 = q
        · exact Or.inr h2.symm
        · by_cases h0 : 0 = q
          · exact Or.inl h0.symm
          · simp [h2, h0] at h
      have e0 : ((create_pieces_classic uniq)[0]?).map PieceInfo.get_size = some 5 := rfl
      have e2 : ((create_pieces_classic uniq)[2]?).map PieceInfo.get_size = some 5 := rfl
      simp only [set_piece_considered_apply, filter_min_size_apply, x1, x2, x3, x4, x5,
        Option.some.injEq, hp]
      rcases hq with rfl | rfl
      · rw [e0]; decide
      · rw [e2]; decide)
    s3.1 s3.2
  have s1 := considered_chain_step nu_colors (fun _ => false)
    (set_piece_considered bc "Z5" (set_piece_considered bc "V5" (fun _ => false) true) true) _
    (fun q h => by cases h) s2.1 s2.2
  exact s1.2

/-- The filter keeps the order of two masks. -/
theorem filter_min_size_mask (bc : BoardConst) (a : Nat) (m m' : Piece → Bool) (q : Nat)
    (hm : m q = true → m' q = true) (h : filter_min_size bc a m q = true) :
    filter_min_size bc a m' q = true := by
  rw [filter_min_size_apply] at h ⊢
  split
  · rename_i hc
    rw [if_pos hc] at h
    cases h
  · rename_i hc
    rw [if_neg hc] at h
    exact hm h

/-- The branch for the trigon boards as one chain of thresholds: below
`nu_colors` the second `if` of the source also runs. -/
theorem set_pieces_considered_trigon_eq (bc : BoardConst) (nu_colors n : Nat) :
    set_pieces_considered_trigon bc nu_colors n
      = if n < nu_colors then
          set_piece_considered bc "O"
            (filter_min_size bc 6
              (set_piece_considered bc "I6" (set_piece_considered bc "V" (fun _ => false) true)
                true))
            false
        else if n < 4 * nu_colors then
          set_piece_considered bc "O" (filter_min_size bc 6 (fun _ => true)) false
        else if n < 5 * nu_colors then filter_min_size bc 5 (fun _ => true)
        else if n < 7 * nu_colors then filter_min_size bc 4 (fun _ => true)
        else if n < 9 * nu_colors then filter_min_size bc 3 (fun _ => true)
        else fun _ => true := by
  unfold set_pieces_considered_trigon
  by_cases c : n < nu_colors
  · have c4 : n < 4 * nu_colors := by omega
    simp only [if_pos c, if_pos c4]
  · simp only [if_neg c]

/-- On the trigon boards the pieces considered only grow with the move
count. -/
theorem considered_mono_trigon (bc : BoardConst) (nu_colors : Nat) :
    ∀ n n', n ≤ n' → ∀ q,
      set_pieces_considered_trigon bc nu_colors n q = true →
      set_pieces_considered_trigon bc nu_colors n' q = true := by
  have s5 := considered_chain_step (9 * nu_colors) (filter_min_size bc 4 (fun _ => true))
    (filter_min_size bc 3 (fun _ => true)) (fun _ _ => true)
    (fun q h => filter_min_size_mono bc 4 3 (by decide) _ q h)
    (fun _ _ _ => rfl) (fun _ _ _ _ h => h)
  have s4 := considered_chain_step (7 * nu_colors) (filter_min_size bc 5 (fun _ => true))
    (filter_min_size bc 4 (fun _ => true)) _
    (fun q h => filter_min_size_mono bc 5 4 (by decide) _ q h) s5.1 s5.2
  have s3 := considered_chain_step (5 * nu_colors)
    (set_piece_considered bc "O" (filter_min_size bc 6 (fun _ => true)) false)
    (filter_min_size bc 5 (fun _ => true)) _
    (fun q h => filter_min_size_mono bc 6 5 (by decide) _ q
      (set_piece_considered_le bc "O" _ q h)) s4.1 s4.2
  have s2 := considered_chain_step (4 * nu_colors)
    (set_piece_considered bc "O"
      (filter_min_size bc 6
        (set_piece_considered bc "I6" (set_piece_considered bc "V" (fun _ => false) true)
          true))
      false)
    (set_piece_considered bc "O" (filter_min_size bc 6 (fun _ => true)) false) _
    (fun q h => set_piece_considered_mono bc "O" _ _ q
      (fun h1 => filter_min_size_mask bc 6 _ _ q (fun _ => rfl) h1) h) s3.1 s3.2
  have s1 := considered_chain_step nu_colors (fun _ => false)
    (set_piece_considered bc "O"
      (filter_min_size bc 6
        (set_piece_considered bc "I6" (set_piece_considered bc "V" (fun _ => false) true)
          true))
      false) _
    (fun q h => by cases h) s2.1 s2.2
  intro n n' hn q hq
  rw [set_pieces_considered_trigon_eq] at hq ⊢
  exact s1.2 n n' hn q hq

/-- On the duo and nexos boards the pieces considered only grow with the
move count. -/
theorem considered_mono_filters (bc : BoardConst) (nu_colors : Nat) :
    (∀ n n', n ≤ n' → ∀ q,
      set_pieces_considered bc BoardType.duo nu_colors n q = true →
      set_pieces_considered bc BoardType.duo nu_colors n' q = true) ∧
    (∀ n n', n ≤ n' → ∀ q,
      set_pieces_considered bc BoardType.nexos nu_colors n q = true →
      set_pieces_considered bc BoardType.nexos nu_colors n' q = true) := by
  have s3 := considered_chain_step (5 * nu_colors) (filter_min_size bc 4 (fun _ => true))
    (filter_min_size bc 3 (fun _ => true)) (fun _ _ => true)
    (fun q h => filter_min_size_mono bc 4 3 (by decide) _ q h)
    (fun _ _ _ => rfl) (fun _ _ _ _ h => h)
  have s2 := considered_chain_step (3 * nu_colors) (filter_min_size bc 5 (fun _ => true))
    (filter_min_size bc 4 (fun _ => true)) _
    (fun q h => filter_min_size_mono bc 5 4 (by decide) _ q h) s3.1 s3.2
  have s1 := considered_chain_step (2 * nu_colors) (fun _ => false)
    (filter_min_size bc 5 (fun _ => true)) _ (fun q h => by cases h) s2.1 s2.2
  have t1 := considered_chain_step (3 * nu_colors) (fun _ => false)
    (filter_min_size bc 4 (fun _ => true)) _ (fun q h => by cases h) s3.1 s3.2
  exact ⟨s1.2, t1.2⟩

/-- The pieces considered on the board constants of a board type only grow
with the move count. -/
theorem considered_mono (env : Environment) (board_type : BoardType) (piece_set : PieceSet)
    (mem : Storage) (nu_colors n n' : Nat) (h : n ≤ n') (q : Nat)
    (hq : set_pieces_considered (BoardConst.construct env board_type piece_set mem) board_type
      nu_colors n q = true) :
    set_pieces_considered (BoardConst.construct env board_type piece_set mem) board_type
      nu_colors n' q = true := by
  have hp := construct_pieces env board_type piece_set mem
  cases board_type
  · exact considered_mono_classic _ _ hp nu_colors n n' h q hq
  · exact considered_mono_trigon _ nu_colors n n' h q hq
  · exact considered_mono_trigon _ nu_colors n n' h q hq
  · exact (considered_mono_filters _ nu_colors).1 n n' h q hq
  · exact (considered_mono_filters _ nu_colors).2 n n' h q hq

/-- C32: for every board type, every number of colours and all move counts
`n ≤ n'`, every piece that `set_pieces_considered` marks considered at `n` on
the board constants of the board type is marked considered at `n'`; so when
all pieces of the catalog are considered at `n` they are all considered at
`n'`, and the move count at which the loop of `init_pieces_considered` stops
is followed only by move counts with all pieces considered. -/
theorem considered_only_loosens (env : Environment) (board_type : BoardType)
    (piece_set : PieceSet) (mem : Storage) (nu_colors n n' : Nat) (h : n ≤ n') :
    (∀ q,
      set_pieces_considered (BoardConst.construct env board_type piece_set mem) board_type
        nu_colors n q = true →
      set_pieces_considered (BoardConst.construct env board_type piece_set mem) board_type
        nu_colors n' q = true) ∧
    ((List.range (BoardConst.construct env board_type piece_set mem).pieces.length).all
        (set_pieces_considered (BoardConst.construct env board_type piece_set mem) board_type
          nu_colors n) = true →
      (List.range (BoardConst.construct env board_type piece_set mem).pieces.length).all
        (set_pieces_considered (BoardConst.construct env board_type piece_set mem) board_type
          nu_colors n') = true) := by
  refine ⟨fun q => considered_mono env board_type piece_set mem nu_colors n n' h q, ?_⟩
  intro hall
  rw [List.all_eq_true] at hall ⊢
  intro q hq
  exact considered_mono env board_type piece_set mem nu_colors n n' h q (hall q hq)

theorem considered_only_loosens_witness :
    (1 : Nat) ≤ 5 ∧
    (set_pieces_considered
        (BoardConst.construct row3_env BoardType.classic PieceSet.classic Storage.fresh)
        BoardType.classic 2 1 2 = true →
      set_pieces_considered
        (BoardConst.construct row3_env BoardType.classic PieceSet.classic Storage.fresh)
        BoardType.classic 2 5 2 = true) ∧
    set_pieces_considered
        (BoardConst.construct row3_env BoardType.classic PieceSet.classic Storage.fresh)
        BoardType.classic 2 1 2 = true :=
  ⟨by decide,
    (considered_only_loosens row3_env BoardType.classic PieceSet.classic Storage.fresh 2 1 5
      (by decide)).1 2,
    by decide⟩

/-! ## The label position of a move -/

theorem catalog_label_pos_aux :
    ∀ catalog ∈ [create_pieces_classic (fun _ => []), create_pieces_junior (fun _ => []),
        create_pieces_trigon (fun _ => []), create_pieces_nexos (fun _ => [])],
      ∀ x ∈ catalog.map (fun pc => (pc.points, pc.label_pos)), x.2 ∈ x.1 := by
  decide

/-- In the four catalogs the label position of a piece is one of its
points. -/
theorem catalog_label_pos (uniq : List CoordPoint → List Transform) :
    ∀ catalog ∈ [create_pieces_classic uniq, create_pieces_junior uniq,
        create_pieces_trigon uniq, create_pieces_nexos uniq],
      ∀ pc ∈ catalog, pc.label_pos ∈ pc.points := by
  intro catalog hc pc hpc
  have key : ∀ x ∈ catalog.map (fun pc => (pc.points, pc.label_pos)), x.2 ∈ x.1 := by
    simp only [List.mem_cons, List.mem_singleton, List.not_mem_nil, or_false] at hc
    rcases hc with rfl | rfl | rfl | rfl
    · exact catalog_label_pos_aux (create_pieces_classic (fun _ => [])) (by simp)
    · exact catalog_label_pos_aux (create_pieces_junior (fun _ => [])) (by simp)
    · exact catalog_label_pos_aux (create_pieces_trigon (fun _ => [])) (by simp)
    · exact catalog_label_pos_aux (create_pieces_nexos (fun _ => [])) (by simp)
  exact key (pc.points, pc.label_pos) (List.mem_map_of_mem _ hpc)

theorem select_pieces_label_pos (env : Environment) (board_type : BoardType)
    (piece_set : PieceSet) :
    ∀ pc ∈ select_pieces env board_type piece_set, pc.label_pos ∈ pc.points := by
  cases board_type
  case duo =>
    unfold select_pieces
    simp only
    by_cases hps : piece_set = PieceSet.classic
    · rw [if_pos hps]
      exact catalog_label_pos
        (env.uniq_transforms (env.get_geometry BoardType.duo) PieceTransforms.classic) _
        (by simp)
    · rw [if_neg hps]
      exact catalog_label_pos
        (env.uniq_transforms (env.get_geometry BoardType.duo) PieceTransforms.classic) _
        (by simp)
  case classic =>
    exact catalog_label_pos
      (env.uniq_transforms (env.get_geometry BoardType.classic) PieceTransforms.classic) _
      (by simp [select_pieces])
  case trigon =>
    exact catalog_label_pos
      (env.uniq_transforms (env.get_geometry BoardType.trigon) PieceTransforms.trigon) _
      (by simp [select_pieces])
  case trigon_3 =>
    exact catalog_label_pos
      (env.uniq_transforms (env.get_geometry BoardType.trigon_3) PieceTransforms.trigon) _
      (by simp [select_pieces])
  case nexos =>
    exact catalog_label_pos
      (env.uniq_transforms (env.get_geometry BoardType.nexos) PieceTransforms.classic) _
      (by simp [select_pieces])

/-- The label position of a placement is the translated image of the label
position of its piece. -/
theorem placement_of_label (geo : Geometry) (i : Piece) (pc : PieceInfo) (p : Point)
    (t : Transform) (x : Placement) (h : placement_of geo i pc p t = some x) :
    x.label_pos
      = geo.get_point ((t.get_transformed pc.label_pos).x + geo.get_x p)
          ((t.get_transformed pc.label_pos).y + geo.get_y p) := by
  unfold placement_of at h
  by_cases hty : t.get_new_point_type ≠ geo.get_point_type (geo.get_x p) (geo.get_y p)
  · rw [if_pos hty] at h; simp at h
  · rw [if_neg hty] at h
    cases hr : translate geo (geo.get_x p) (geo.get_y p) (transformed_points pc t) with
    | none => rw [hr] at h; simp at h
    | some pts =>
      rw [hr] at h
      simp only [Option.map_some', Option.some.injEq] at h
      subst h
      rfl

/-- The label point of a created move is one of its cells, when the label
position of every piece of the catalog is one of its points; the cells of a
created move are points of the board. -/
theorem created_move_label (nu_adj : Nat) (geo : Geometry) (pieces : List PieceInfo)
    (mem : Storage) (hlabel : ∀ pc ∈ pieces, pc.label_pos ∈ pc.points) (m : Nat)
    (hm : (BoardConst.create nu_adj geo pieces mem).is_created m) :
    ((BoardConst.create nu_adj geo pieces mem).move_info_ext_2 m).label_pos
        ∈ (BoardConst.create nu_adj geo pieces mem).cells m ∧
    (geo.WellFormed → ∀ a ∈ (BoardConst.create nu_adj geo pieces mem).cells m,
      a ∈ geo.points) := by
  have h1 : 1 ≤ (m : Nat) := hm.1
  have h2 : (m : Nat) < (BoardConst.create nu_adj geo pieces mem).nu_moves := hm.2
  rw [create_nu_moves] at h2
  have hk : m - 1 < (placements geo pieces).length := by omega
  have hinfo := create_move_info nu_adj geo pieces mem (m - 1) hk
  have hext := create_move_info_ext_2 nu_adj geo pieces mem (m - 1) hk
  rw [show 1 + (m - 1) = m by omega] at hinfo hext
  have hmem : (placements geo pieces)[m - 1] ∈ placements geo pieces := List.getElem_mem _
  obtain ⟨i, pc, hpc, p, hp, t, ht, hx⟩ := (mem_placements geo pieces _).mp hmem
  obtain ⟨a1, a2, a3, a4, a5⟩ := placement_of_some geo i pc p t _ hx
  have hl := placement_of_label geo i pc p t _ hx
  have hcells : (BoardConst.create nu_adj geo pieces mem).cells m
      = shift_points geo p (transformed_points pc t) := by
    unfold BoardConst.cells MoveInfo.pts
    rw [hinfo]
    show List.take (placements geo pieces)[m - 1].size (placements geo pieces)[m - 1].points = _
    rw [a4, a5]
    have : pc.get_size = (shift_points geo p (transformed_points pc t)).length := by
      simp [shift_points, transformed_points_length]
    rw [this, pts_move_points_buffer]
  constructor
  · rw [hext, hcells]
    show (placements geo pieces)[m - 1].label_pos ∈ _
    rw [hl]
    unfold shift_points
    apply List.mem_map.mpr
    refine ⟨t.get_transformed pc.label_pos, ?_, rfl⟩
    unfold transformed_points
    rw [(sort_piece_points_perm _).mem_iff]
    exact List.mem_map_of_mem _ (hlabel pc (mem_of_getElem?_eq_some hpc))
  · intro hgeo
    rw [hcells]
    exact shift_points_subset geo hgeo p _ a2

/-- The constructor leaves the label position and the cells of a created move
as `create_moves` has set them. -/
theorem construct_label (env : Environment) (board_type : BoardType) (piece_set : PieceSet)
    (mem : Storage) (m : Nat)
    (hm : (BoardConst.create env.nu_adj (env.get_geometry board_type)
      (select_pieces env board_type piece_set) mem).is_created m) :
    ((BoardConst.construct env board_type piece_set mem).move_info_ext_2 m).label_pos
      = ((BoardConst.create env.nu_adj (env.get_geometry board_type)
          (select_pieces env board_type piece_set) mem).move_info_ext_2 m).label_pos ∧
    (BoardConst.construct env board_type piece_set mem).cells m
      = (BoardConst.create env.nu_adj (env.get_geometry board_type)
          (select_pieces env board_type piece_set) mem).cells m ∧
    (BoardConst.construct env board_type piece_set mem).is_created m := by
  by_cases hbt : board_type = BoardType.duo ∨ board_type = BoardType.trigon
  · rw [construct_symmetric env board_type piece_set mem hbt]
    refine ⟨?_, rfl, hm⟩
    rw [init_symmetry_info_entry _ _ m hm]
    rfl
  · have e : BoardConst.construct env board_type piece_set mem
        = BoardConst.create env.nu_adj (env.get_geometry board_type)
          (select_pieces env board_type piece_set) mem := by
      unfold BoardConst.construct
      simp only
      rw [if_neg hbt]
    rw [e]
    exact ⟨rfl, rfl, hm⟩

/-- C33: in each of the four catalogs the label position of every piece is one
of the points of the piece; so for every created move of the board constants
of a board type the label point, the transformed label position translated to
the anchor, is one of the occupied cells of the move, and it is a point of the
board (for a well-formed geometry). -/
theorem label_point_on_move (env : Environment) (board_type : BoardType)
    (piece_set : PieceSet) (mem : Storage) :
    (∀ uniq : List CoordPoint → List Transform,
      ∀ catalog ∈ [create_pieces_classic uniq, create_pieces_junior uniq,
          create_pieces_trigon uniq, create_pieces_nexos uniq],
        ∀ pc ∈ catalog, pc.label_pos ∈ pc.points) ∧
    (∀ m, (BoardConst.construct env board_type piece_set mem).is_created m →
      ((BoardConst.construct env board_type piece_set mem).move_info_ext_2 m).label_pos
        ∈ (BoardConst.construct env board_type piece_set mem).cells m) ∧
    ((env.get_geometry board_type).WellFormed →
      ∀ m, (BoardConst.construct env board_type piece_set mem).is_created m →
        ((BoardConst.construct env board_type piece_set mem).move_info_ext_2 m).label_pos
          ∈ (env.get_geometry board_type).points) := by
  have hcr : ∀ m, (BoardConst.construct env board_type piece_set mem).is_created m →
      (BoardConst.create env.nu_adj (env.get_geometry board_type)
        (select_pieces env board_type piece_set) mem).is_created m := by
    intro m hm
    by_cases hbt : board_type = BoardType.duo ∨ board_type = BoardType.trigon
    · rw [construct_symmetric env board_type piece_set mem hbt] at hm
      exact hm
    · have e : BoardConst.construct env board_type piece_set mem
          = BoardConst.create env.nu_adj (env.get_geometry board_type)
            (select_pieces env board_type piece_set) mem := by
        unfold BoardConst.construct
        simp only
        rw [if_neg hbt]
      rw [e] at hm
      exact hm
  refine ⟨catalog_label_pos, ?_, ?_⟩
  · intro m hm
    obtain ⟨e1, e2, _⟩ := construct_label env board_type piece_set mem m (hcr m hm)
    rw [e1, e2]
    exact (created_move_label _ _ _ mem (select_pieces_label_pos env board_type piece_set) m
      (hcr m hm)).1
  · intro hgeo m hm
    obtain ⟨e1, _, _⟩ := construct_label env board_type piece_set mem m (hcr m hm)
    obtain ⟨c1, c2⟩ := created_move_label _ _ _ mem
      (select_pieces_label_pos env board_type piece_set) m (hcr m hm)
    rw [e1]
    exact c2 hgeo _ c1

theorem label_point_on_move_witness :
    (BoardConst.construct row3_env BoardType.duo PieceSet.junior Storage.fresh).is_created 4 ∧
    ((BoardConst.construct row3_env BoardType.duo PieceSet.junior Storage.fresh).move_info_ext_2
      4).label_pos
      ∈ (BoardConst.construct row3_env BoardType.duo PieceSet.junior Storage.fresh).cells 4 ∧
    ((BoardConst.construct row3_env BoardType.duo PieceSet.junior Storage.fresh).move_info_ext_2
      4).label_pos = 1 :=
  ⟨by decide,
    (label_point_on_move row3_env BoardType.duo PieceSet.junior Storage.fresh).2.1 4
      (by decide),
    by decide⟩

/-! ## Chains of owning pointers -/

theorem is_seg_nil (next : NodeId → Option NodeId) (start stop : Option NodeId) :
    is_seg next start [] stop = true ↔ start = stop := by
  simp [is_seg]

theorem is_seg_cons (next : NodeId → Option NodeId) (start stop : Option NodeId) (a : NodeId)
    (l : List NodeId) :
    is_seg next start (a :: l) stop = true
      ↔ start = some a ∧ is_seg next (next a) l stop = true := by
  simp [is_seg]

theorem is_seg_append (next : NodeId → Option NodeId) (l1 l2 : List NodeId) :
    ∀ (start stop : Option NodeId),
      is_seg next start (l1 ++ l2) stop = true
        ↔ ∃ mid, is_seg next start l1 mid = true ∧ is_seg next mid l2 stop = true := by
  induction l1 with
  | nil =>
    intro start stop
    simp only [List.nil_append, is_seg_nil]
    constructor
    · intro h; exact ⟨start, rfl, h⟩
    · rintro ⟨mid, rfl, h⟩; exact h
  | cons a l1 ih =>
    intro start stop
    simp only [List.cons_append, is_seg_cons, ih]
    constructor
    · rintro ⟨h1, mid, h2, h3⟩; exact ⟨mid, ⟨h1, h2⟩, h3⟩
    · rintro ⟨mid, ⟨h1, h2⟩, h3⟩; exact ⟨h1, mid, h2, h3⟩

theorem is_seg_concat (next : NodeId → Option NodeId) (l : List NodeId) (c : NodeId)
    (start stop : Option NodeId) :
    is_seg next start (l ++ [c]) stop = true
      ↔ is_seg next start l (some c) = true ∧ next c = stop := by
  rw [is_seg_append]
  simp only [is_seg_cons, is_seg_nil]
  constructor
  · rintro ⟨mid, h1, rfl, h2⟩; exact ⟨h1, h2⟩
  · rintro ⟨h1, h2⟩; exact ⟨_, h1, rfl, h2⟩

/-- A chain does not change when the pointers of other nodes change. -/
theorem is_seg_congr (next next' : NodeId → Option NodeId) (l : List NodeId) :
    (∀ a ∈ l, next a = next' a) → ∀ (start stop : Option NodeId),
      is_seg next start l stop = is_seg next' start l stop := by
  induction l with
  | nil => intro _ start stop; rfl
  | cons a l ih =>
    intro h start stop
    simp only [is_seg]
    rw [h a (List.mem_cons_self _ _), ih (fun b hb => h b (List.mem_cons_of_mem _ hb))]

/-- The chain from a pointer to the null pointer is determined by the
pointers. -/
theorem is_seg_unique (next : NodeId → Option NodeId) (l1 : List NodeId) :
    ∀ (l2 : List NodeId) (start : Option NodeId),
      is_seg next start l1 none = true → is_seg next start l2 none = true → l1 = l2 := by
  induction l1 with
  | nil =>
    intro l2 start h1 h2
    rw [is_seg_nil] at h1
    subst h1
    cases l2 with
    | nil => rfl
    | cons b l2 => rw [is_seg_cons] at h2; cases h2.1
  | cons a l1 ih =>
    intro l2 start h1 h2
    rw [is_seg_cons] at h1
    obtain ⟨rfl, h1⟩ := h1
    cases l2 with
    | nil => rw [is_seg_nil] at h2; cases h2
    | cons b l2 =>
      rw [is_seg_cons] at h2
      obtain ⟨e, h2⟩ := h2
      cases e
      rw [ih l2 _ h1 h2]

/-- No node occurs twice in a chain that ends with the null pointer. -/
theorem is_seg_nodup (next : NodeId → Option NodeId) (l : List NodeId) :
    ∀ start : Option NodeId, is_seg next start l none = true → l.Nodup := by
  induction l with
  | nil => intro _ _; exact List.nodup_nil
  | cons a l ih =>
    intro start h
    rw [is_seg_cons] at h
    obtain ⟨_, h⟩ := h
    refine List.nodup_cons.mpr ⟨?_, ih _ h⟩
    intro ha
    obtain ⟨s, t, rfl⟩ := List.append_of_mem ha
    have h' := h
    rw [is_seg_append] at h'
    obtain ⟨mid, _, h2⟩ := h'
    rw [is_seg_cons] at h2
    have e := is_seg_unique next _ _ _ h h2.2
    have := congrArg List.length e
    simp at this
    omega

/-- The first node of a chain that is not empty. -/
theorem is_seg_head (next : NodeId → Option NodeId) (l : List NodeId) (c : NodeId)
    (start stop : Option NodeId) (h : is_seg next start (l ++ [c]) stop = true) :
    ∃ a, a ∈ l ++ [c] ∧ start = some a := by
  cases l with
  | nil =>
    rw [List.nil_append, is_seg_cons] at h
    exact ⟨c, by simp, h.1⟩
  | cons a l =>
    rw [List.cons_append, is_seg_cons] at h
    exact ⟨a, by simp, h.1⟩

/-- The parts of the list of children around one child: the nodes `A` before
it and the nodes `B` after it do not contain it and have no node in
common. -/
theorem children_split (h : Nodes) (p : NodeId) (A B : List NodeId) (this : NodeId)
    (hc : h.has_children p (A ++ this :: B)) :
    this ∉ A ∧ this ∉ B ∧ (∀ x ∈ A, x ∉ B) ∧ A.Nodup ∧ B.Nodup ∧
    ∃ mid, is_seg h.m_sibling (h.m_first_child p) A mid = true ∧ mid = some this ∧
      is_seg h.m_sibling (h.m_sibling this) B none = true := by
  have hnd := is_seg_nodup _ _ _ hc.1
  rw [List.nodup_append] at hnd
  obtain ⟨n1, n2, n3⟩ := hnd
  rw [List.nodup_cons] at n2
  have h1 := hc.1
  rw [is_seg_append] at h1
  obtain ⟨mid, s1, s2⟩ := h1
  rw [is_seg_cons] at s2
  refine ⟨fun ha => n3 ha (List.mem_cons_self _ _), n2.1,
    fun x hx hb => n3 hx (List.mem_cons_of_mem _ hb), n1, n2.2, mid, s1, s2.1, s2.2⟩

/-! ## `Node::make_first_child` -/

/-- The tree after the body of `if (sibling == this)` in
`make_first_child`: three pointers are exchanged, and no node is
destroyed. -/
theorem make_first_child_found_eq (h : Nodes) (this p cur : NodeId)
    (hc : h.m_sibling cur = some this) (hne : cur ≠ this) :
    make_first_child_found h this p cur
      = { h with
          m_first_child := fun k => if k = p then some this else h.m_first_child k
          m_sibling := fun k =>
            if k = this then h.m_first_child p
            else if k = cur then h.m_sibling this else h.m_sibling k } := by
  have hne' : ¬ this = cur := fun e => hne e.symm
  simp only [make_first_child_found, Nodes.take, Nodes.move, Nodes.reset, Nodes.put, Nodes.get,
    if_true, hc, hne, hne', if_false]
  congr 1
  · funext k
    by_cases hk : k = p
    · simp [hk]
    · simp [hk]
  · funext k
    by_cases hk : k = this
    · simp [hk]
    · by_cases hk2 : k = cur
      · simp [hk2, hne]
      · simp [hk, hk2]

/-- The loop of `make_first_child` ends at the child before `this`. -/
theorem make_first_child_loop_spec (h : Nodes) (this p : NodeId) (A : List NodeId) :
    ∀ (cur : NodeId) (start : Option NodeId) (fuel : Nat),
      is_seg h.m_sibling start (A ++ [cur]) (some this) = true → this ∉ A ++ [cur] →
      A.length < fuel →
      make_first_child_loop h this p fuel start
        = Outcome.returns (make_first_child_found h this p cur) := by
  induction A with
  | nil =>
    intro cur start fuel hs _ hf
    rw [List.nil_append, is_seg_cons, is_seg_nil] at hs
    obtain ⟨rfl, hs⟩ := hs
    obtain ⟨fuel, rfl⟩ : ∃ f, fuel = f + 1 := ⟨fuel - 1, by simp at hf; omega⟩
    simp only [make_first_child_loop, if_pos hs]
  | cons a A ih =>
    intro cur start fuel hs hn hf
    rw [List.cons_append, is_seg_cons] at hs
    obtain ⟨rfl, hs⟩ := hs
    obtain ⟨fuel, rfl⟩ : ∃ f, fuel = f + 1 := ⟨fuel - 1, by simp at hf; omega⟩
    obtain ⟨b, hb, hsb⟩ := is_seg_head _ _ _ _ _ hs
    have hne : ¬ h.m_sibling a = some this := by
      rw [hsb]
      intro e
      cases e
      exact hn (List.mem_cons_of_mem _ hb)
    simp only [make_first_child_loop, if_neg hne]
    exact ih cur _ fuel hs (fun hm => hn (List.mem_cons_of_mem _ hm))
      (by simp at hf; omega)

/-- What `make_first_child` does to the children `A ++ this :: B` of the
parent of `this`. -/
theorem make_first_child_spec (fuel : Nat) (h : Nodes) (this p : NodeId) (A B : List NodeId)
    (hp : h.m_parent this = some p) (hc : h.has_children p (A ++ this :: B))
    (hfuel : A.length ≤ fuel) :
    ∃ h2, make_first_child fuel h this = Outcome.returns h2 ∧
      h2.has_children p (this :: (A ++ B)) ∧ h2.m_parent = h.m_parent ∧
      h2.destroyed = h.destroyed ∧ (∀ k, k ≠ p → h2.m_first_child k = h.m_first_child k) ∧
      (∀ k, k ∉ A ++ this :: B → h2.m_sibling k = h.m_sibling k) ∧ (A = [] → h2 = h) := by
  obtain ⟨n1, n2, n3, n4, n5, mid, s1, rfl, s3⟩ := children_split h p A B this hc
  have hpar := hc.2
  unfold make_first_child
  rw [hp]
  simp only
  rcases List.eq_nil_or_concat A with rfl | ⟨A, cur, hA⟩
  · rw [is_seg_nil] at s1
    rw [if_pos s1]
    refine ⟨h, rfl, ?_, rfl, rfl, fun _ _ => rfl, fun _ _ => rfl, fun _ => rfl⟩
    simpa using hc
  · rw [List.concat_eq_append] at hA
    subst hA
    have hcA : cur ∉ A := by
      rw [List.nodup_append] at n4
      intro hm
      exact n4.2.2 hm (List.mem_singleton_self _)
    have hne : cur ≠ this := fun e => n1 (by simp [e])
    obtain ⟨b, hb, hsb⟩ := is_seg_head _ _ _ _ _ s1
    have hfirst : ¬ h.m_first_child p = some this := by
      rw [hsb]
      intro e
      cases e
      exact n1 hb
    rw [if_neg hfirst,
      make_first_child_loop_spec h this p A cur _ fuel s1 n1 (by simp at hfuel; omega),
      make_first_child_found_eq h this p cur ((is_seg_concat _ _ _ _ _).mp s1).2 hne]
    refine ⟨_, rfl, ⟨?_, ?_⟩, rfl, rfl, ?_, ?_, ?_⟩
    · simp only [if_true]
      rw [is_seg_cons]
      refine ⟨rfl, ?_⟩
      simp only [if_true]
      rw [is_seg_append]
      refine ⟨h.m_sibling this, ?_, ?_⟩
      · rw [is_seg_concat]
        constructor
        · rw [← ((is_seg_concat _ _ _ _ _).mp s1).1]
          apply is_seg_congr
          intro a ha
          have h1 : ¬ a = this := fun e => n1 (by simp [← e, ha])
          have h2 : ¬ a = cur := fun e => hcA (e ▸ ha)
          simp [h1, h2]
        · simp [hne]
      · rw [← s3]
        apply is_seg_congr
        intro a ha
        have h1 : ¬ a = this := fun e => n2 (e ▸ ha)
        have h2 : ¬ a = cur := fun e => n3 cur (by simp) (e ▸ ha)
        simp [h1, h2]
    · intro x hx
      apply hpar
      simp only [List.mem_cons, List.mem_append, List.mem_singleton] at hx ⊢
      tauto
    · intro k hk
      simp [hk]
    · intro k hk
      simp only [List.mem_cons, List.mem_append, List.mem_singleton, not_or] at hk
      simp [hk.2.1, hk.1.2]
    · intro e
      simp at e

/-- C36: for every node `this` with a parent, whose children are
`A ++ this :: B`, `Node::make_first_child` returns (its loop ends within as
many iterations as there are children before `this`) and the children of the
parent are then `this :: A ++ B`: the node is the first child and the other
children follow in their previous order.  The new list is a rearrangement of
the old one and no node is destroyed, so no child is lost or duplicated; the
other pointers of the tree are as before, and when the node already is the
first child the tree is unchanged. -/
theorem make_first_child_correct (fuel : Nat) (h : Nodes) (this p : NodeId)
    (A B : List NodeId) (hp : h.m_parent this = some p)
    (hc : h.has_children p (A ++ this :: B)) (hfuel : A.length ≤ fuel) :
    ∃ h2, make_first_child fuel h this = Outcome.returns h2 ∧
      h2.has_children p (this :: (A ++ B)) ∧
      (this :: (A ++ B)).Perm (A ++ this :: B) ∧ (this :: (A ++ B)).Nodup ∧
      h2.m_parent = h.m_parent ∧ h2.destroyed = h.destroyed ∧
      (∀ k, k ≠ p → h2.m_first_child k = h.m_first_child k) ∧
      (∀ k, k ∉ A ++ this :: B → h2.m_sibling k = h.m_sibling k) ∧ (A = [] → h2 = h) := by
  obtain ⟨h2, a1, a2, a3, a4, a5, a6, a7⟩ := make_first_child_spec fuel h this p A B hp hc hfuel
  exact ⟨h2, a1, a2, List.perm_middle.symm, is_seg_nodup _ _ _ a2.1, a3, a4, a5, a6, a7⟩

theorem make_first_child_correct_witness :
    family.m_parent 3 = some 0 ∧ family.has_children 0 ([1, 2] ++ 3 :: []) ∧
    ∃ h2, make_first_child 2 family 3 = Outcome.returns h2 ∧
      h2.has_children 0 (3 :: ([1, 2] ++ [])) ∧
      (3 :: ([1, 2] ++ [])).Perm ([1, 2] ++ 3 :: []) ∧ (3 :: ([1, 2] ++ [])).Nodup ∧
      h2.m_parent = family.m_parent ∧ h2.destroyed = family.destroyed ∧
      (∀ k, k ≠ 0 → h2.m_first_child k = family.m_first_child k) ∧
      (∀ k, k ∉ [1, 2] ++ 3 :: [] → h2.m_sibling k = family.m_sibling k) ∧
      (([1, 2] : List NodeId) = [] → h2 = family) :=
  ⟨by decide, by decide,
    make_first_child_correct 2 family 3 0 [1, 2] [] (by decide) (by decide) (by decide)⟩


/-! ## `Node::move_down` -/

/-- The branch of `move_down` for the first child, when the node has a next
sibling `nxt`: three pointers are exchanged, and no node is destroyed. -/
theorem move_down_first_eq (h : Nodes) (this p nxt : NodeId)
    (hs : h.m_sibling this = some nxt) (hne : nxt ≠ this) :
    move_down_first h this p
      = Outcome.returns
          { h with
            m_first_child := fun k => if k = p then some nxt else h.m_first_child k
            m_sibling := fun k =>
              if k = nxt then h.m_first_child p
              else if k = this then h.m_sibling nxt else h.m_sibling k } := by
  have hne' : ¬ this = nxt := fun e => hne e.symm
  simp only [move_down_first, Nodes.take, Nodes.move, Nodes.reset, Nodes.put, Nodes.get,
    if_true, hs, hne, hne', if_false]
  congr 2
  · funext k
    by_cases hk : k = p
    · simp [hk]
    · simp [hk]
  · funext k
    by_cases hk : k = nxt
    · simp [hk]
    · by_cases hk2 : k = this
      · simp [hk2, hne']
      · simp [hk, hk2]

/-- The branch of `move_down` for the first child, when the node has no next
sibling: the parent's `m_first_child` is null when it is dereferenced. -/
theorem move_down_first_undefined (h : Nodes) (this p : NodeId)
    (hs : h.m_sibling this = none) : move_down_first h this p = Outcome.undefined := by
  simp only [move_down_first, Nodes.take, Nodes.move, Nodes.reset, Nodes.put, Nodes.get,
    if_true, hs]

/-- The body of `if (sibling == this)` in the loop of `move_down`, when the
node has a next sibling `nxt`. -/
theorem move_down_found_eq (h : Nodes) (this cur nxt : NodeId)
    (hc : h.m_sibling cur = some this) (hs : h.m_sibling this = some nxt)
    (h1 : cur ≠ this) (h2 : nxt ≠ this) (h3 : nxt ≠ cur) :
    move_down_found h this cur
      = Outcome.returns
          { h with
            m_sibling := fun k =>
              if k = nxt then some this
              else if k = this then h.m_sibling nxt
              else if k = cur then some nxt else h.m_sibling k } := by
  have h1' : ¬ this = cur := fun e => h1 e.symm
  have h2' : ¬ this = nxt := fun e => h2 e.symm
  have h3' : ¬ cur = nxt := fun e => h3 e.symm
  simp only [move_down_found, Nodes.take, Nodes.move, Nodes.reset, Nodes.put, Nodes.get,
    if_true, hs, hc, h1, h2, h3, h1', h2', h3', if_false]
  simp only [reduceCtorEq, if_false]
  congr 2
  funext k
  by_cases hk : k = nxt
  · simp [hk]
  · by_cases hk2 : k = this
    · simp [hk2, h2', h1']
    · by_cases hk3 : k = cur
      · simp [hk3, h3', h1]
      · simp [hk, hk2, hk3]

/-- The loop of `move_down` ends at the child before `this`. -/
theorem move_down_loop_spec (h : Nodes) (this : NodeId) (A : List NodeId) :
    ∀ (cur : NodeId) (start : Option NodeId) (fuel : Nat),
      is_seg h.m_sibling start (A ++ [cur]) (some this) = true → this ∉ A ++ [cur] →
      A.length < fuel →
      move_down_loop h this fuel start = move_down_found h this cur := by
  induction A with
  | nil =>
    intro cur start fuel hs _ hf
    rw [List.nil_append, is_seg_cons, is_seg_nil] at hs
    obtain ⟨rfl, hs⟩ := hs
    obtain ⟨fuel, rfl⟩ : ∃ f, fuel = f + 1 := ⟨fuel - 1, by simp at hf; omega⟩
    simp only [move_down_loop, if_pos hs]
  | cons a A ih =>
    intro cur start fuel hs hn hf
    rw [List.cons_append, is_seg_cons] at hs
    obtain ⟨rfl, hs⟩ := hs
    obtain ⟨fuel, rfl⟩ : ∃ f, fuel = f + 1 := ⟨fuel - 1, by simp at hf; omega⟩
    obtain ⟨b, hb, hsb⟩ := is_seg_head _ _ _ _ _ hs
    have hne : ¬ h.m_sibling a = some this := by
      rw [hsb]
      intro e
      cases e
      exact hn (List.mem_cons_of_mem _ hb)
    simp only [move_down_loop, if_neg hne]
    exact ih cur _ fuel hs (fun hm => hn (List.mem_cons_of_mem _ hm))
      (by simp at hf; omega)

/-- What `move_down` does to the children `A ++ this :: nxt :: B` of the
parent of `this`: the node and its next sibling are exchanged. -/
theorem move_down_spec (fuel : Nat) (h : Nodes) (this p nxt : NodeId) (A B : List NodeId)
    (hp : h.m_parent this = some p) (hc : h.has_children p (A ++ this :: nxt :: B))
    (hfuel : A.length ≤ fuel) :
    ∃ h2, move_down fuel h this = Outcome.returns h2 ∧
      h2.has_children p (A ++ nxt :: this :: B) ∧ h2.m_parent = h.m_parent ∧
      h2.destroyed = h.destroyed ∧ (∀ k, k ≠ p → h2.m_first_child k = h.m_first_child k) ∧
      (∀ k, k ∉ A ++ this :: nxt :: B → h2.m_sibling k = h.m_sibling k) := by
  obtain ⟨n1, n2, n3, n4, n5, mid, s1, rfl, s3⟩ := children_split h p A (nxt :: B) this hc
  have hpar := hc.2
  rw [is_seg_cons] at s3
  obtain ⟨hs, s3⟩ := s3
  have hnt : nxt ≠ this := fun e => n2 (by simp [e])
  have hnt' : ¬ this = nxt := fun e => hnt e.symm
  have hnB : nxt ∉ B := (List.nodup_cons.mp n5).1
  have htB : this ∉ B := fun hm => n2 (List.mem_cons_of_mem _ hm)
  unfold move_down
  rw [hp]
  simp only
  rcases List.eq_nil_or_concat A with rfl | ⟨A, cur, hA⟩
  · rw [is_seg_nil] at s1
    rw [if_pos s1, move_down_first_eq h this p nxt hs hnt]
    refine ⟨_, rfl, ⟨?_, ?_⟩, rfl, rfl, ?_, ?_⟩
    · simp only [if_true, List.nil_append]
      rw [is_seg_cons]
      refine ⟨rfl, ?_⟩
      simp only [if_true]
      rw [is_seg_cons]
      refine ⟨s1, ?_⟩
      simp only [if_true, if_neg hnt']
      rw [← s3]
      apply is_seg_congr
      intro a ha
      have h1 : ¬ a = nxt := fun e => hnB (e ▸ ha)
      have h2 : ¬ a = this := fun e => htB (e ▸ ha)
      simp [h1, h2]
    · intro x hx
      apply hpar
      simp only [List.mem_cons, List.mem_append] at hx ⊢
      tauto
    · intro k hk
      simp [hk]
    · intro k hk
      simp only [List.mem_cons, List.mem_append, not_or] at hk
      simp [hk.2.1, hk.2.2.1]
  · rw [List.concat_eq_append] at hA
    subst hA
    have hcA : cur ∉ A := by
      rw [List.nodup_append] at n4
      intro hm
      exact n4.2.2 hm (List.mem_singleton_self _)
    have hct : cur ≠ this := fun e => n1 (by simp [e])
    have hnc : nxt ≠ cur := fun e => n3 cur (by simp) (by simp [e])
    have hnc' : ¬ cur = nxt := fun e => hnc e.symm
    obtain ⟨b, hb, hsb⟩ := is_seg_head _ _ _ _ _ s1
    have hfirst : ¬ h.m_first_child p = some this := by
      rw [hsb]
      intro e
      cases e
      exact n1 hb
    obtain ⟨sA, sc⟩ := (is_seg_concat _ _ _ _ _).mp s1
    rw [if_neg hfirst, move_down_loop_spec h this A cur _ fuel s1 n1 (by simp at hfuel; omega),
      move_down_found_eq h this cur nxt sc hs hct hnt hnc]
    refine ⟨_, rfl, ⟨?_, ?_⟩, rfl, rfl, fun _ _ => rfl, ?_⟩
    · simp only
      rw [List.append_assoc, is_seg_append]
      refine ⟨some cur, ?_, ?_⟩
      · rw [← sA]
        apply is_seg_congr
        intro a ha
        have h1 : ¬ a = nxt := fun e => n3 nxt (by simp [← e, ha]) (by simp)
        have h2 : ¬ a = this := fun e => n1 (by simp [← e, ha])
        have h3 : ¬ a = cur := fun e => hcA (e ▸ ha)
        simp [h1, h2, h3]
      · simp only [List.singleton_append, is_seg_cons, if_true, true_and,
          if_neg hnc', if_neg hct, if_neg hnt']
        rw [← s3]
        apply is_seg_congr
        intro a ha
        have h1 : ¬ a = nxt := fun e => hnB (e ▸ ha)
        have h2 : ¬ a = this := fun e => htB (e ▸ ha)
        have h3 : ¬ a = cur := fun e => n3 cur (by simp) (by simp [← e, ha])
        simp [h1, h2, h3]
    · intro x hx
      apply hpar
      simp only [List.mem_cons, List.mem_append, List.mem_singleton] at hx ⊢
      tauto
    · intro k hk
      simp only [List.mem_cons, List.mem_append, List.mem_singleton, not_or] at hk
      simp [hk.2.1, hk.2.2.1, hk.1.2]

/-- For the last child of its parent, when it is not the first child,
`move_down` leaves the tree as it is. -/
theorem move_down_last (fuel : Nat) (h : Nodes) (this p cur : NodeId) (A : List NodeId)
    (hp : h.m_parent this = some p) (hc : h.has_children p (A ++ cur :: this :: []))
    (hfuel : A.length < fuel) : move_down fuel h this = Outcome.returns h := by
  have hc' : h.has_children p ((A ++ [cur]) ++ this :: []) := by simpa using hc
  obtain ⟨n1, _, _, _, _, mid, s1, rfl, s3⟩ := children_split h p (A ++ [cur]) [] this hc'
  rw [is_seg_nil] at s3
  obtain ⟨b, hb, hsb⟩ := is_seg_head _ _ _ _ _ s1
  have hfirst : ¬ h.m_first_child p = some this := by
    rw [hsb]
    intro e
    cases e
    exact n1 hb
  unfold move_down
  rw [hp]
  simp only
  rw [if_neg hfirst, move_down_loop_spec h this A cur _ fuel s1 n1 hfuel]
  unfold move_down_found
  rw [if_pos s3]

/-- For the only child of its parent, `move_down` dereferences the null
pointer: it moves the null `m_sibling` of the node into the parent's
`m_first_child` and then follows `m_first_child`. -/
theorem move_down_only (fuel : Nat) (h : Nodes) (this p : NodeId)
    (hp : h.m_parent this = some p) (hc : h.has_children p [this]) :
    move_down fuel h this = Outcome.undefined := by
  have h1 := hc.1
  rw [is_seg_cons, is_seg_nil] at h1
  unfold move_down
  rw [hp]
  simp only
  rw [if_pos h1.1, move_down_first_undefined h this p h1.2]

/-- C34: `Node::move_down` on the only child of its parent.  The node is the
first child, so the branch `if (current == this)` runs; it moves the null
`m_sibling` of the node into `m_parent->m_first_child` and then dereferences
`m_parent->m_first_child`.  The call does not return with the list of
children unchanged: it follows the missing sibling link, for every tree and
every number of loop iterations allowed. -/
theorem move_down_only_child (fuel : Nat) (h : Nodes) (this p : NodeId)
    (hp : h.m_parent this = some p) (hc : h.has_children p [this]) :
    move_down fuel h this = Outcome.undefined ∧
    ¬ ∃ h2, move_down fuel h this = Outcome.returns h2 ∧ h2.has_children p [this] := by
  have hu := move_down_only fuel h this p hp hc
  refine ⟨hu, ?_⟩
  rintro ⟨h2, e, _⟩
  rw [hu] at e
  cases e

theorem move_down_only_child_witness :
    only_child.m_parent 1 = some 0 ∧ only_child.has_children 0 [1] ∧
    move_down 5 only_child 1 = Outcome.undefined ∧
    ¬ ∃ h2, move_down 5 only_child 1 = Outcome.returns h2 ∧ h2.has_children 0 [1] :=
  ⟨by decide, by decide, move_down_only_child 5 only_child 1 0 (by decide) (by decide)⟩

/-! ## `Node::move_up` -/

/-- The body of `if (sibling == this)` in the loop of `move_up`, with `prev`
not null: three pointers are exchanged, and no node is destroyed. -/
theorem move_up_found_eq (h : Nodes) (this cur pv : NodeId)
    (hp : h.m_sibling pv = some cur) (hc : h.m_sibling cur = some this)
    (h1 : cur ≠ this) (h2 : pv ≠ this) (h3 : pv ≠ cur) :
    move_up_found h this cur pv
      = { h with
          m_sibling := fun k =>
            if k = this then some cur
            else if k = cur then h.m_sibling this
            else if k = pv then some this else h.m_sibling k } := by
  have h1' : ¬ this = cur := fun e => h1 e.symm
  have h2' : ¬ this = pv := fun e => h2 e.symm
  have h3' : ¬ cur = pv := fun e => h3 e.symm
  simp only [move_up_found, Nodes.take, Nodes.move, Nodes.reset, Nodes.put, Nodes.get,
    if_true, hp, hc, h1, h2, h3, h1', h2', h3', if_false]
  congr 1
  funext k
  by_cases hk : k = this
  · simp [hk]
  · by_cases hk2 : k = cur
    · simp [hk2, h1]
    · by_cases hk3 : k = pv
      · simp [hk3, h2, h3]
      · simp [hk, hk2, hk3]

/-- The loop of `move_up` ends at the child `cur` before `this`, with `prev`
the child before `cur`. -/
theorem move_up_loop_spec (fuel0 : Nat) (h : Nodes) (this : NodeId) (A : List NodeId) :
    ∀ (pv cur : NodeId) (start prev0 : Option NodeId) (fuel : Nat),
      is_seg h.m_sibling start (A ++ [pv, cur]) (some this) = true →
      this ∉ A ++ [pv, cur] → A.length + 1 < fuel →
      move_up_loop fuel0 h this fuel start prev0
        = Outcome.returns (move_up_found h this cur pv) := by
  induction A with
  | nil =>
    intro pv cur start prev0 fuel hs hn hf
    rw [List.nil_append, is_seg_cons, is_seg_cons, is_seg_nil] at hs
    obtain ⟨rfl, hs1, hs2⟩ := hs
    obtain ⟨fuel, rfl⟩ : ∃ f, fuel = f + 2 := ⟨fuel - 2, by simp at hf; omega⟩
    have hne : ¬ (some cur : Option NodeId) = some this := by
      intro e
      cases e
      exact hn (by simp)
    simp only [move_up_loop, hs1, if_neg hne, if_pos hs2]
  | cons a A ih =>
    intro pv cur start prev0 fuel hs hn hf
    rw [List.cons_append, is_seg_cons] at hs
    obtain ⟨rfl, hs⟩ := hs
    obtain ⟨fuel, rfl⟩ : ∃ f, fuel = f + 1 := ⟨fuel - 1, by simp at hf; omega⟩
    have hs' : is_seg h.m_sibling (h.m_sibling a) ((A ++ [pv]) ++ [cur]) (some this) = true := by
      simpa using hs
    obtain ⟨b, hb, hsb⟩ := is_seg_head _ _ _ _ _ hs'
    have hne : ¬ h.m_sibling a = some this := by
      rw [hsb]
      intro e
      cases e
      exact hn (List.mem_cons_of_mem _ (by simpa using hb))
    simp only [move_up_loop, if_neg hne]
    exact ih pv cur _ (some a) fuel hs (fun hm => hn (List.mem_cons_of_mem _ hm))
      (by simp at hf; omega)

/-- What `move_up` does to the children `A ++ cur :: this :: B` of the parent
of `this`: the node and its previous sibling are exchanged. -/
theorem move_up_spec (fuel : Nat) (h : Nodes) (this p cur : NodeId) (A B : List NodeId)
    (hp : h.m_parent this = some p) (hc : h.has_children p (A ++ cur :: this :: B))
    (hfuel : A.length + 1 ≤ fuel) :
    ∃ h2, move_up fuel h this = Outcome.returns h2 ∧
      h2.has_children p (A ++ this :: cur :: B) ∧ h2.m_parent = h.m_parent ∧
      h2.destroyed = h.destroyed ∧ (∀ k, k ≠ p → h2.m_first_child k = h.m_first_child k) ∧
      (∀ k, k ∉ A ++ cur :: this :: B → h2.m_sibling k = h.m_sibling k) := by
  have hc' : h.has_children p ((A ++ [cur]) ++ this :: B) := by simpa using hc
  obtain ⟨n1, n2, n3, n4, n5, mid, s1, rfl, s3⟩ := children_split h p (A ++ [cur]) B this hc'
  have hpar := hc.2
  obtain ⟨b, hb, hsb⟩ := is_seg_head _ _ _ _ _ s1
  have hfirst : ¬ h.m_first_child p = some this := by
    rw [hsb]
    intro e
    cases e
    exact n1 hb
  have hct : cur ≠ this := fun e => n1 (by simp [e])
  have hcA : cur ∉ A := by
    rw [List.nodup_append] at n4
    intro hm
    exact n4.2.2 hm (List.mem_singleton_self _)
  obtain ⟨sA, sc⟩ := (is_seg_concat _ _ _ _ _).mp s1
  unfold move_up
  rw [hp]
  simp only
  rw [if_neg hfirst]
  rcases List.eq_nil_or_concat A with rfl | ⟨A, pv, hA⟩
  · rw [is_seg_nil] at sA
    obtain ⟨fuel, rfl⟩ : ∃ f, fuel = f + 1 := ⟨fuel - 1, by simp at hfuel; omega⟩
    simp only [move_up_loop, sA, if_pos sc]
    obtain ⟨h2, a1, a2, a3, a4, a5, a6, _⟩ :=
      make_first_child_spec (fuel + 1) h this p [cur] B hp hc (by simp)
    exact ⟨h2, a1, a2, a3, a4, a5, a6⟩
  · rw [List.concat_eq_append] at hA
    subst hA
    have hs2 : is_seg h.m_sibling (h.m_first_child p) (A ++ [pv, cur]) (some this) = true := by
      simpa using s1
    have hn2 : this ∉ A ++ [pv, cur] := by simpa using n1
    obtain ⟨sA2, sp⟩ := (is_seg_concat _ _ _ _ _).mp sA
    have hpt : pv ≠ this := fun e => n1 (by simp [e])
    have hpc : pv ≠ cur := fun e => hcA (by simp [← e])
    have hpA : pv ∉ A := by
      rw [List.nodup_append, List.nodup_append] at n4
      intro hm
      exact n4.1.2.2 hm (List.mem_singleton_self _)
    rw [move_up_loop_spec fuel h this A pv cur _ none fuel hs2 hn2 (by simp at hfuel; omega),
      move_up_found_eq h this cur pv sp sc hct hpt hpc]
    refine ⟨_, rfl, ⟨?_, ?_⟩, rfl, rfl, fun _ _ => rfl, ?_⟩
    · simp only
      rw [List.append_assoc, is_seg_append]
      refine ⟨some pv, ?_, ?_⟩
      · rw [← sA2]
        apply is_seg_congr
        intro a ha
        have h1 : ¬ a = this := fun e => n1 (by simp [← e, ha])
        have h2 : ¬ a = cur := fun e => hcA (by simp [← e, ha])
        have h3 : ¬ a = pv := fun e => hpA (e ▸ ha)
        simp [h1, h2, h3]
      · simp only [List.singleton_append, is_seg_cons, if_true, true_and,
          if_neg hct, if_neg hpc, if_neg hpt]
        rw [← s3]
        apply is_seg_congr
        intro a ha
        have h1 : ¬ a = this := fun e => n2 (e ▸ ha)
        have h2 : ¬ a = cur := fun e => n3 cur (by simp) (e ▸ ha)
        have h3 : ¬ a = pv := fun e => n3 pv (by simp) (e ▸ ha)
        simp [h1, h2, h3]
    · intro x hx
      apply hpar
      simp only [List.mem_cons, List.mem_append, List.mem_singleton] at hx ⊢
      tauto
    · intro k hk
      simp only [List.mem_cons, List.mem_append, List.mem_singleton, not_or] at hk
      simp [hk.2.2.1, hk.2.1, hk.1.2]

/-- For the first child of its parent, `move_up` leaves the tree as it is. -/
theorem move_up_first (fuel : Nat) (h : Nodes) (this p : NodeId) (B : List NodeId)
    (hp : h.m_parent this = some p) (hc : h.has_children p (this :: B)) :
    move_up fuel h this = Outcome.returns h := by
  have h1 := hc.1
  rw [is_seg_cons] at h1
  unfold move_up
  rw [hp]
  simp only
  rw [if_pos h1.1]

/-- C35: for every node `this` with a parent, `Node::move_up` returns (its
loop ends within as many iterations as there are children before `this`).
When the children of the parent are `A ++ cur :: this :: B`, they are
`A ++ this :: cur :: B` afterwards: the node and its previous sibling are
exchanged, the other children and their order are as before, and no node is
destroyed.  When the node is the first child the tree is unchanged.  For a
node that is not the last child, `move_down` followed by `move_up` returns a
tree in which the children have their original order. -/
theorem move_up_correct (fuel : Nat) (h : Nodes) (this p : NodeId)
    (hp : h.m_parent this = some p) :
    (∀ (A B : List NodeId) (cur : NodeId), h.has_children p (A ++ cur :: this :: B) →
      A.length + 1 ≤ fuel →
      ∃ h2, move_up fuel h this = Outcome.returns h2 ∧
        h2.has_children p (A ++ this :: cur :: B) ∧ h2.m_parent = h.m_parent ∧
        h2.destroyed = h.destroyed ∧
        (∀ k, k ≠ p → h2.m_first_child k = h.m_first_child k) ∧
        (∀ k, k ∉ A ++ cur :: this :: B → h2.m_sibling k = h.m_sibling k)) ∧
    (∀ B : List NodeId, h.has_children p (this :: B) →
      move_up fuel h this = Outcome.returns h) ∧
    (∀ (A B : List NodeId) (nxt : NodeId), h.has_children p (A ++ this :: nxt :: B) →
      A.length + 1 ≤ fuel →
      ∃ h1 h2, move_down fuel h this = Outcome.returns h1 ∧
        move_up fuel h1 this = Outcome.returns h2 ∧
        h2.has_children p (A ++ this :: nxt :: B) ∧ h2.destroyed = h.destroyed) := by
  refine ⟨fun A B cur hc hf => move_up_spec fuel h this p cur A B hp hc hf,
    fun B hc => move_up_first fuel h this p B hp hc, ?_⟩
  intro A B nxt hc hf
  obtain ⟨h1, a1, a2, a3, a4, _, _⟩ :=
    move_down_spec fuel h this p nxt A B hp hc (by omega)
  obtain ⟨h2, b1, b2, _, b4, _, _⟩ :=
    move_up_spec fuel h1 this p nxt A B (by rw [a3]; exact hp) a2 hf
  exact ⟨h1, h2, a1, b1, b2, by rw [b4, a4]⟩

theorem move_up_correct_witness :
    family.m_parent 3 = some 0 ∧ family.has_children 0 ([1] ++ 2 :: 3 :: []) ∧
    ∃ h2, move_up 2 family 3 = Outcome.returns h2 ∧
      h2.has_children 0 ([1] ++ 3 :: 2 :: []) ∧ h2.m_parent = family.m_parent ∧
      h2.destroyed = family.destroyed ∧
      (∀ k, k ≠ 0 → h2.m_first_child k = family.m_first_child k) ∧
      (∀ k, k ∉ [1] ++ 2 :: 3 :: [] → h2.m_sibling k = family.m_sibling k) :=
  ⟨by decide, by decide,
    (move_up_correct 2 family 3 0 (by decide)).1 [1] [] 2 (by decide) (by decide)⟩

/-- The round trip of `move_down` and `move_up` on the second of three
children. -/
theorem move_down_move_up_family :
    ∃ h1 h2, move_down 2 family 2 = Outcome.returns h1 ∧
      move_up 2 h1 2 = Outcome.returns h2 ∧ h1.has_children 0 [1, 3, 2] ∧
      h2.has_children 0 [1, 2, 3] :=
  ⟨_, _, rfl, rfl, by decide, by decide⟩

/-! ## `Node::remove_child` and `Node::get_nu_children` -/

/-- The loop of `get_nu_children` counts the nodes of the chain. -/
theorem get_nu_children_loop_spec (h : Nodes) (l : List NodeId) :
    ∀ (start : Option NodeId) (n fuel : Nat),
      is_seg h.m_sibling start l none = true → n + l.length < 2 ^ 32 → l.length < fuel →
      get_nu_children_loop h fuel n start = Outcome.returns (n + l.length) := by
  induction l with
  | nil =>
    intro start n fuel hs _ hf
    rw [is_seg_nil] at hs
    subst hs
    obtain ⟨fuel, rfl⟩ : ∃ f, fuel = f + 1 := ⟨fuel - 1, by simp at hf; omega⟩
    simp [get_nu_children_loop]
  | cons a l ih =>
    intro start n fuel hs hn hf
    rw [is_seg_cons] at hs
    obtain ⟨rfl, hs⟩ := hs
    obtain ⟨fuel, rfl⟩ : ∃ f, fuel = f + 1 := ⟨fuel - 1, by simp at hf; omega⟩
    simp only [List.length_cons] at hn hf
    simp only [get_nu_children_loop]
    rw [Nat.mod_eq_of_lt (by omega), ih _ _ fuel hs (by omega) (by omega)]
    simp only [List.length_cons]
    congr 1
    omega

/-- The number that `get_nu_children` returns for a node with the children
`l`. -/
theorem get_nu_children_spec (fuel : Nat) (h : Nodes) (this : NodeId) (l : List NodeId)
    (hc : h.has_children this l) (hl : l.length < 2 ^ 32) (hf : l.length < fuel) :
    get_nu_children fuel h this = Outcome.returns l.length := by
  unfold get_nu_children
  rw [get_nu_children_loop_spec h l _ 0 fuel hc.1 (by omega) hf]
  simp

/-- The body of `if (node->get() == &child)` in `remove_child` for the first
child. -/
theorem remove_child_found_first (h : Nodes) (this child : NodeId)
    (hf : h.m_first_child this = some child) :
    remove_child_found h this child (NodeSlot.first_child this) none
      = Outcome.returns (some child,
          { h with
            m_parent := fun k => if k = child then none else h.m_parent k
            m_first_child := fun k =>
              if k = this then h.m_sibling child else h.m_first_child k
            m_sibling := fun k => if k = child then none else h.m_sibling k }) := by
  simp only [remove_child_found, Nodes.take, Nodes.move, Nodes.reset, Nodes.put, Nodes.get,
    if_true, hf]
  congr 3
  funext k
  by_cases hk : k = this
  · simp [hk]
  · simp [hk]

/-- The body of `if (node->get() == &child)` in `remove_child` for a child
after the first: `previous` points to the owning pointer that holds the
child `pn` before it. -/
theorem remove_child_found_after (h : Nodes) (this child pn : NodeId) (prev : NodeSlot)
    (hprev : h.get prev = some pn) (hs : h.m_sibling pn = some child) (hne : pn ≠ child) :
    remove_child_found h this child (NodeSlot.sibling pn) (some prev)
      = Outcome.returns (some child,
          { h with
            m_parent := fun k => if k = child then none else h.m_parent k
            m_sibling := fun k =>
              if k = pn then h.m_sibling child
              else if k = child then none else h.m_sibling k }) := by
  have hne' : ¬ child = pn := fun e => hne e.symm
  have hget : (h.put (NodeSlot.sibling pn) none).get prev = some pn := by
    cases prev with
    | first_child n => exact hprev
    | sibling x =>
      have hx : ¬ x = pn := by
        intro e
        subst e
        simp only [Nodes.get] at hprev
        rw [hs] at hprev
        cases hprev
        exact hne rfl
      simp only [Nodes.get, Nodes.put, if_neg hx]
      exact hprev
  simp only [remove_child_found, Nodes.take, hget]
  simp only [Nodes.move, Nodes.take, Nodes.reset, Nodes.put, Nodes.get, if_true, hs, hne, hne',
    if_false]
  congr 3
  funext k
  by_cases hk : k = pn
  · simp [hk]
  · by_cases hk2 : k = child
    · simp [hk2, hne']
    · simp [hk, hk2]

/-- The loop of `remove_child`, started at an owning pointer from which the
chain goes through `A ++ [pn]` to the child. -/
theorem remove_child_loop_spec (h : Nodes) (this child : NodeId) (A : List NodeId) :
    ∀ (pn : NodeId) (node : NodeSlot) (previous : Option NodeSlot) (fuel : Nat),
      is_seg h.m_sibling (h.get node) (A ++ [pn]) (some child) = true →
      child ∉ A ++ [pn] → A.length + 1 < fuel →
      remove_child_loop h this child fuel node previous
        = Outcome.returns (some child,
            { h with
              m_parent := fun k => if k = child then none else h.m_parent k
              m_sibling := fun k =>
                if k = pn then h.m_sibling child
                else if k = child then none else h.m_sibling k }) := by
  induction A with
  | nil =>
    intro pn node previous fuel hs hn hf
    rw [List.nil_append, is_seg_cons, is_seg_nil] at hs
    obtain ⟨hs1, hs2⟩ := hs
    obtain ⟨fuel, rfl⟩ : ∃ f, fuel = f + 2 := ⟨fuel - 2, by simp at hf; omega⟩
    have hne : pn ≠ child := fun e => hn (by simp [e])
    have hne2 : ¬ (some pn : Option NodeId) = some child := by
      intro e
      cases e
      exact hne rfl
    simp only [remove_child_loop, hs1, if_neg hne2]
    have e : h.get (NodeSlot.sibling pn) = some child := hs2
    rw [if_pos e]
    exact remove_child_found_after h this child pn node hs1 hs2 hne
  | cons a A ih =>
    intro pn node previous fuel hs hn hf
    rw [List.cons_append, is_seg_cons] at hs
    obtain ⟨hs1, hs2⟩ := hs
    obtain ⟨fuel, rfl⟩ : ∃ f, fuel = f + 1 := ⟨fuel - 1, by simp at hf; omega⟩
    have hne2 : ¬ (some a : Option NodeId) = some child := by
      intro e
      cases e
      exact hn (by simp)
    simp only [remove_child_loop, hs1, if_neg hne2]
    exact ih pn (NodeSlot.sibling a) (some node) fuel hs2
      (fun hm => hn (List.mem_cons_of_mem _ hm)) (by simp at hf; omega)

/-- What `remove_child` does to the children `A ++ child :: B` of `this`. -/
theorem remove_child_spec (fuel : Nat) (h : Nodes) (this child : NodeId) (A B : List NodeId)
    (hc : h.has_children this (A ++ child :: B)) (hfuel : A.length < fuel) :
    ∃ h2, remove_child fuel h this child = Outcome.returns (some child, h2) ∧
      h2.m_parent child = none ∧ h2.m_sibling child = none ∧
      h2.has_children this (A ++ B) ∧ h2.destroyed = h.destroyed ∧
      (∀ lc, child ≠ this → h.has_children child lc → h2.has_children child lc) := by
  obtain ⟨n1, n2, n3, n4, n5, mid, s1, rfl, s3⟩ := children_split h this A B child hc
  have hpar := hc.2
  have hpc : h.m_parent child = some this := hpar child (by simp)
  unfold remove_child
  rcases List.eq_nil_or_concat A with rfl | ⟨A, pn, hA⟩
  · rw [is_seg_nil] at s1
    obtain ⟨fuel, rfl⟩ : ∃ f, fuel = f + 1 := ⟨fuel - 1, by simp at hfuel; omega⟩
    have e : h.get (NodeSlot.first_child this) = some child := s1
    simp only [remove_child_loop, if_pos e]
    rw [remove_child_found_first h this child s1]
    refine ⟨_, rfl, by simp, by simp, ⟨?_, ?_⟩, rfl, ?_⟩
    · simp only [if_true, List.nil_append]
      rw [← s3]
      apply is_seg_congr
      intro a ha
      have h1 : ¬ a = child := fun e => n2 (e ▸ ha)
      simp [h1]
    · intro x hx
      have h1 : ¬ x = child := fun e => n2 (by simpa [e] using hx)
      simp only [if_neg h1]
      exact hpar x (by simpa using Or.inr hx)
    · intro lc hne hlc
      have hdis : ∀ x ∈ lc, ¬ x = child := by
        intro x hx e
        have := hlc.2 x hx
        rw [e, hpc] at this
        cases this
        exact hne rfl
      refine ⟨?_, ?_⟩
      · simp only [if_neg hne]
        rw [← hlc.1]
        apply is_seg_congr
        intro a ha
        simp [hdis a ha]
      · intro x hx
        simp only [if_neg (hdis x hx)]
        exact hlc.2 x hx
  · rw [List.concat_eq_append] at hA
    subst hA
    have hcA : pn ∉ A := by
      rw [List.nodup_append] at n4
      intro hm
      exact n4.2.2 hm (List.mem_singleton_self _)
    have hpn : pn ≠ child := fun e => n1 (by simp [e])
    obtain ⟨sA, sc⟩ := (is_seg_concat _ _ _ _ _).mp s1
    have e : h.get (NodeSlot.first_child this) = h.m_first_child this := rfl
    rw [remove_child_loop_spec h this child A pn _ none fuel (by rw [e]; exact s1) n1
      (by simp at hfuel; omega)]
    refine ⟨_, rfl, by simp, ?_, ⟨?_, ?_⟩, rfl, ?_⟩
    · have hcp : ¬ child = pn := fun e => hpn e.symm
      simp only [if_neg hcp, if_true]
    · simp only
      rw [is_seg_append]
      refine ⟨h.m_sibling child, ?_, ?_⟩
      · rw [is_seg_concat]
        constructor
        · rw [← sA]
          apply is_seg_congr
          intro a ha
          have h1 : ¬ a = child := fun e => n1 (by simp [← e, ha])
          have h2 : ¬ a = pn := fun e => hcA (e ▸ ha)
          simp [h1, h2]
        · simp
      · rw [← s3]
        apply is_seg_congr
        intro a ha
        have h1 : ¬ a = child := fun e => n2 (e ▸ ha)
        have h2 : ¬ a = pn := fun e => n3 pn (by simp) (e ▸ ha)
        simp [h1, h2]
    · intro x hx
      have h1 : ¬ x = child := by
        intro e
        subst e
        rcases List.mem_append.mp hx with hx | hx
        · exact n1 hx
        · exact n2 hx
      simp only [if_neg h1]
      apply hpar
      simp only [List.mem_cons, List.mem_append, List.mem_singleton] at hx ⊢
      tauto
    · intro lc hne hlc
      have hdis : ∀ x ∈ lc, ¬ x = child ∧ ¬ x = pn := by
        intro x hx
        have hx2 := hlc.2 x hx
        constructor
        · intro e
          rw [e, hpc] at hx2
          cases hx2
          exact hne rfl
        · intro e
          rw [e, hpar pn (by simp)] at hx2
          cases hx2
          exact hne rfl
      refine ⟨?_, ?_⟩
      · simp only
        rw [← hlc.1]
        apply is_seg_congr
        intro a ha
        simp [(hdis a ha).1, (hdis a ha).2]
      · intro x hx
        simp only [if_neg (hdis x hx).1]
        exact hlc.2 x hx

/-- C37: for every node `this` with the children `A ++ child :: B`,
`this.remove_child(child)` returns (its loop ends within as many iterations
as there are children up to `child`) the pointer to `child`, whose parent
link and sibling link are null and whose own children are as before (for a
child that is not its own parent); afterwards the children of `this` are
`A ++ B`, the former children without `child` in the same order, and no node
is destroyed.  `get_nu_children` returns the length of the list of children
(for fewer than `2 ^ 32` children), so the number of children drops by
exactly one. -/
theorem remove_child_correct (fuel : Nat) (h : Nodes) (this child : NodeId)
    (A B : List NodeId) (hc : h.has_children this (A ++ child :: B))
    (hfuel : A.length < fuel) :
    ∃ h2, remove_child fuel h this child = Outcome.returns (some child, h2) ∧
      h2.m_parent child = none ∧ h2.m_sibling child = none ∧
      h2.has_children this (A ++ B) ∧ h2.destroyed = h.destroyed ∧
      (∀ lc, child ≠ this → h.has_children child lc → h2.has_children child lc) ∧
      (∀ fuel2, (A ++ child :: B).length < fuel2 → (A ++ child :: B).length < 2 ^ 32 →
        ∃ n, get_nu_children fuel2 h this = Outcome.returns (n + 1) ∧
          get_nu_children fuel2 h2 this = Outcome.returns n ∧ n = (A ++ B).length) := by
  obtain ⟨h2, a1, a2, a3, a4, a5, a6⟩ := remove_child_spec fuel h this child A B hc hfuel
  refine ⟨h2, a1, a2, a3, a4, a5, a6, ?_⟩
  intro fuel2 hf hl
  refine ⟨(A ++ B).length, ?_, ?_, rfl⟩
  · rw [get_nu_children_spec fuel2 h this _ hc hl hf]
    simp only [List.length_append, List.length_cons]
    rfl
  · have hlen : (A ++ B).length < (A ++ child :: B).length := by simp
    exact get_nu_children_spec fuel2 h2 this _ a4 (by omega) (by omega)

theorem remove_child_correct_witness :
    family.has_children 0 ([1] ++ 2 :: [3]) ∧
    ∃ h2, remove_child 2 family 0 2 = Outcome.returns (some 2, h2) ∧
      h2.m_parent 2 = none ∧ h2.m_sibling 2 = none ∧
      h2.has_children 0 ([1] ++ [3]) ∧ h2.destroyed = family.destroyed ∧
      (∀ lc, 2 ≠ 0 → family.has_children 2 lc → h2.has_children 2 lc) ∧
      (∀ fuel2, ([1] ++ 2 :: [3]).length < fuel2 → ([1] ++ 2 :: [3]).length < 2 ^ 32 →
        ∃ n, get_nu_children fuel2 family 0 = Outcome.returns (n + 1) ∧
          get_nu_children fuel2 h2 0 = Outcome.returns n ∧ n = ([1] ++ [3]).length) :=
  ⟨by decide, remove_child_correct 2 family 0 2 [1] [3] (by decide) (by decide)⟩

/-! ## `Node::move_property_to_front` -/

/-- The body of `if (current->id == id)` for a property that is not the first
one: three pointers are exchanged, and no property is destroyed. -/
theorem move_property_to_front_found_eq (ps : Properties) (cur l : PropertyId)
    (hl : ps.next l = some cur) (hne : l ≠ cur) :
    move_property_to_front_found ps cur (some l)
      = { ps with
          m_first_property := some cur
          next := fun k =>
            if k = cur then ps.m_first_property
            else if k = l then ps.next cur else ps.next k } := by
  have hne' : ¬ cur = l := fun e => hne e.symm
  simp only [move_property_to_front_found, Properties.take, Properties.move, Properties.reset,
    Properties.put, Properties.get, if_true, hl, hne, hne', if_false]
  congr 1
  funext k
  by_cases hk : k = cur
  · simp [hk]
  · by_cases hk2 : k = l
    · simp [hk2, hne]
    · simp [hk, hk2]

/-- The loop ends with `false` when no property of the chain has the id. -/
theorem move_property_to_front_loop_none (ps : Properties) (id : List Char)
    (l : List PropertyId) :
    ∀ (start last : Option PropertyId) (fuel : Nat),
      is_seg ps.next start l none = true → (∀ a ∈ l, ps.id a ≠ id) → l.length < fuel →
      move_property_to_front_loop ps id fuel start last = Outcome.returns (false, ps) := by
  induction l with
  | nil =>
    intro start last fuel hs _ hf
    rw [is_seg_nil] at hs
    subst hs
    obtain ⟨fuel, rfl⟩ : ∃ f, fuel = f + 1 := ⟨fuel - 1, by simp at hf; omega⟩
    simp [move_property_to_front_loop]
  | cons a l ih =>
    intro start last fuel hs hn hf
    rw [is_seg_cons] at hs
    obtain ⟨rfl, hs⟩ := hs
    obtain ⟨fuel, rfl⟩ : ∃ f, fuel = f + 1 := ⟨fuel - 1, by simp at hf; omega⟩
    simp only [move_property_to_front_loop, if_neg (hn a (List.mem_cons_self _ _))]
    exact ih _ _ fuel hs (fun b hb => hn b (List.mem_cons_of_mem _ hb))
      (by simp at hf; omega)

/-- The loop ends at the first property with the id, with `last` the property
before it. -/
theorem move_property_to_front_loop_some (ps : Properties) (id : List Char)
    (A : List PropertyId) :
    ∀ (l x : PropertyId) (start last0 : Option PropertyId) (fuel : Nat),
      is_seg ps.next start (A ++ [l]) (some x) = true → (∀ a ∈ A ++ [l], ps.id a ≠ id) →
      ps.id x = id → A.length + 1 < fuel →
      move_property_to_front_loop ps id fuel start last0
        = Outcome.returns (true, move_property_to_front_found ps x (some l)) := by
  induction A with
  | nil =>
    intro l x start last0 fuel hs hn hx hf
    rw [List.nil_append, is_seg_cons, is_seg_nil] at hs
    obtain ⟨rfl, hs⟩ := hs
    obtain ⟨fuel, rfl⟩ : ∃ f, fuel = f + 2 := ⟨fuel - 2, by simp at hf; omega⟩
    simp only [move_property_to_front_loop, if_neg (hn l (by simp)), hs, if_pos hx]
  | cons a A ih =>
    intro l x start last0 fuel hs hn hx hf
    rw [List.cons_append, is_seg_cons] at hs
    obtain ⟨rfl, hs⟩ := hs
    obtain ⟨fuel, rfl⟩ : ∃ f, fuel = f + 1 := ⟨fuel - 1, by simp at hf; omega⟩
    simp only [move_property_to_front_loop, if_neg (hn a (by simp))]
    exact ih l x _ (some a) fuel hs (fun b hb => hn b (List.mem_cons_of_mem _ hb)) hx
      (by simp at hf; omega)

/-- What `move_property_to_front` does to the properties `A ++ x :: B` when
`x` is the first property with the id. -/
theorem move_property_to_front_some (fuel : Nat) (ps : Properties) (id : List Char)
    (A B : List PropertyId) (x : PropertyId) (hl : ps.has_list (A ++ x :: B))
    (hA : ∀ a ∈ A, ps.id a ≠ id) (hx : ps.id x = id) (hfuel : A.length < fuel) :
    ∃ ps2, move_property_to_front fuel ps id = Outcome.returns (true, ps2) ∧
      ps2.has_list (x :: (A ++ B)) ∧ ps2.id = ps.id ∧ ps2.destroyed = ps.destroyed ∧
      (∀ k, k ∉ A ++ x :: B → ps2.next k = ps.next k) := by
  have hnd := is_seg_nodup _ _ _ hl
  rw [List.nodup_append] at hnd
  obtain ⟨n1, n2, n3⟩ := hnd
  rw [List.nodup_cons] at n2
  have hl' := hl
  unfold Properties.has_list at hl'
  rw [is_seg_append] at hl'
  obtain ⟨mid, s1, s2⟩ := hl'
  rw [is_seg_cons] at s2
  obtain ⟨rfl, s3⟩ := s2
  unfold move_property_to_front
  rcases List.eq_nil_or_concat A with rfl | ⟨A, l, hAl⟩
  · rw [is_seg_nil] at s1
    obtain ⟨fuel, rfl⟩ : ∃ f, fuel = f + 1 := ⟨fuel - 1, by simp at hfuel; omega⟩
    simp only [move_property_to_front_loop, s1, if_pos hx, move_property_to_front_found]
    exact ⟨ps, rfl, by simpa using hl, rfl, rfl, fun _ _ => rfl⟩
  · rw [List.concat_eq_append] at hAl
    subst hAl
    have hlx : l ≠ x := fun e => n3 (by simp : l ∈ A ++ [l]) (by simp [e])
    have hlA : l ∉ A := by
      rw [List.nodup_append] at n1
      intro hm
      exact n1.2.2 hm (List.mem_singleton_self _)
    have hxA : ∀ a ∈ A, ¬ a = x := fun a ha e => n3 (by simp [ha] : a ∈ A ++ [l]) (by simp [e])
    obtain ⟨sA, sl⟩ := (is_seg_concat _ _ _ _ _).mp s1
    rw [move_property_to_front_loop_some ps id A l x _ none fuel s1 hA hx
        (by simp at hfuel; omega),
      move_property_to_front_found_eq ps x l sl hlx]
    refine ⟨_, rfl, ?_, rfl, rfl, ?_⟩
    · unfold Properties.has_list
      simp only
      rw [is_seg_cons]
      refine ⟨rfl, ?_⟩
      simp only [if_true]
      rw [is_seg_append]
      refine ⟨ps.next x, ?_, ?_⟩
      · rw [is_seg_concat]
        constructor
        · rw [← sA]
          apply is_seg_congr
          intro a ha
          have h2 : ¬ a = l := fun e => hlA (e ▸ ha)
          simp [hxA a ha, h2]
        · simp [hlx]
      · rw [← s3]
        apply is_seg_congr
        intro a ha
        have h1 : ¬ a = x := fun e => n2.1 (e ▸ ha)
        have h2 : ¬ a = l := fun e => n3 (by simp : l ∈ A ++ [l]) (by simp [← e, ha])
        simp [h1, h2]
    · intro k hk
      simp only [List.mem_cons, List.mem_append, List.mem_singleton, not_or] at hk
      simp [hk.2.1, hk.1.2]

/-- C38: for a node with the properties `l`, `move_property_to_front(id)`
returns (its loop ends within `l.length + 1` iterations), and it returns
true exactly when some property of `l` has the id.  When it returns false
the properties are unchanged.  When it returns true, with `x` the first
property of `l` that has the id, `A` the properties before it and `B` the
properties after it, the properties are `x :: A ++ B` afterwards: `x` is the
first property and the other properties keep their order; no property is
destroyed and no id changes. -/
theorem move_property_to_front_correct (fuel : Nat) (ps : Properties) (id : List Char)
    (l : List PropertyId) (hl : ps.has_list l) (hfuel : l.length < fuel) :
    ∃ b ps2, move_property_to_front fuel ps id = Outcome.returns (b, ps2) ∧
      (b = true ↔ ∃ x ∈ l, ps.id x = id) ∧ (b = false → ps2 = ps) ∧
      (b = true → ∃ A x B, l = A ++ x :: B ∧ (∀ a ∈ A, ps.id a ≠ id) ∧ ps.id x = id ∧
        ps2.has_list (x :: (A ++ B)) ∧ ps2.id = ps.id ∧ ps2.destroyed = ps.destroyed) := by
  by_cases hex : ∃ x ∈ l, ps.id x = id
  · obtain ⟨x, hx, hxi⟩ := hex
    have hfind : ∃ A y B, l = A ++ y :: B ∧ (∀ a ∈ A, ps.id a ≠ id) ∧ ps.id y = id := by
      clear hl hfuel
      induction l with
      | nil => cases hx
      | cons a l ih =>
        by_cases ha : ps.id a = id
        · exact ⟨[], a, l, rfl, fun _ h => (by cases h), ha⟩
        · have hx' : x ∈ l := by
            rcases List.mem_cons.mp hx with e | e
            · exact absurd (e ▸ hxi) ha
            · exact e
          obtain ⟨A, y, B, e, h1, h2⟩ := ih hx'
          refine ⟨a :: A, y, B, by rw [e]; rfl, ?_, h2⟩
          intro b hb
          rcases List.mem_cons.mp hb with e | e
          · rw [e]; exact ha
          · exact h1 b e
    obtain ⟨A, y, B, e, h1, h2⟩ := hfind
    subst e
    obtain ⟨ps2, a1, a2, a3, a4, _⟩ :=
      move_property_to_front_some fuel ps id A B y hl h1 h2 (by simp at hfuel; omega)
    refine ⟨true, ps2, a1, ?_, fun h => (by cases h), fun _ => ⟨A, y, B, rfl, h1, h2, a2, a3, a4⟩⟩
    exact ⟨fun _ => ⟨y, by simp, h2⟩, fun _ => rfl⟩
  · have hn : ∀ a ∈ l, ps.id a ≠ id := fun a ha e => hex ⟨a, ha, e⟩
    refine ⟨false, ps, ?_, ?_, fun _ => rfl, fun h => (by cases h)⟩
    · exact move_property_to_front_loop_none ps id l _ none fuel hl hn hfuel
    · exact ⟨fun h => (by cases h), fun h => absurd h hex⟩

theorem move_property_to_front_correct_witness :
    three_properties.has_list [1, 2, 3] ∧
    (∃ ps2, move_property_to_front 4 three_properties "B".toList = Outcome.returns (true, ps2) ∧
      ps2.has_list [3, 1, 2]) ∧
    ∃ b ps2, move_property_to_front 4 three_properties "B".toList = Outcome.returns (b, ps2) ∧
      (b = true ↔ ∃ x ∈ [1, 2, 3], three_properties.id x = "B".toList) ∧
      (b = false → ps2 = three_properties) ∧
      (b = true → ∃ A x B, [1, 2, 3] = A ++ x :: B ∧
        (∀ a ∈ A, three_properties.id a ≠ "B".toList) ∧ three_properties.id x = "B".toList ∧
        ps2.has_list (x :: (A ++ B)) ∧ ps2.id = three_properties.id ∧
        ps2.destroyed = three_properties.destroyed) :=
  ⟨by decide, ⟨_, rfl, by decide⟩,
    move_property_to_front_correct 4 three_properties "B".toList [1, 2, 3] (by decide)
      (by decide)⟩

/-! ## `Reader::read_property`: the branch that skips and the branch that stores -/

theorem observed_id_loop (fuel : Nat) :
    ∀ s s2 : ReaderState, s.m_in = s2.m_in →
      observed (skip_id_loop fuel s) = observed (read_id_loop fuel s2) := by
  induction fuel with
  | zero => intro s s2 _; rfl
  | succ fuel ih =>
    intro s s2 h
    unfold skip_id_loop read_id_loop
    rw [← h]
    cases hp : s.m_in.peek with
    | error e => simp only [observed, h]
    | ok p =>
      simp only
      by_cases hc : p ≠ '['
      · rw [if_pos hc, if_pos hc]
        rcases hr : s.m_in.read_char with ⟨res, r2⟩
        cases res with
        | error e => simp only [observed]
        | ok c => exact ih _ _ rfl
      · rw [if_neg hc, if_neg hc]
        simp only [observed, h]

theorem observed_value_loop (fuel : Nat) :
    ∀ (s s2 : ReaderState) (escape : Bool), s.m_in = s2.m_in →
      observed (skip_value_loop fuel s escape) = observed (read_value_loop fuel s2 escape) := by
  induction fuel with
  | zero => intro s s2 _ _; rfl
  | succ fuel ih =>
    intro s s2 escape h
    unfold skip_value_loop read_value_loop
    rw [← h]
    cases hp : s.m_in.peek with
    | error e => simp only [observed, h]
    | ok p =>
      simp only
      by_cases hc : p ≠ ']' ∨ escape = true
      · rw [if_pos hc, if_pos hc]
        rcases hr : s.m_in.read_char with ⟨res, r2⟩
        cases res with
        | error e => simp only [observed]
        | ok c =>
          simp only
          by_cases hb : c = '\\' ∧ escape = false
          · rw [if_pos hb, if_pos hb]
            exact ih _ _ _ rfl
          · rw [if_neg hb, if_neg hb]
            exact ih _ _ _ rfl
      · rw [if_neg hc, if_neg hc]
        simp only [observed, h]

theorem observed_eq_cases (o1 o2 : Outcome (Except String Unit × ReaderState))
    (h : observed o1 = observed o2) :
    (∃ res a b, o1 = Outcome.returns (res, a) ∧ o2 = Outcome.returns (res, b) ∧
      a.m_in = b.m_in) ∨
    (o1 = Outcome.undefined ∧ o2 = Outcome.undefined) ∨
    (o1 = Outcome.running ∧ o2 = Outcome.running) := by
  cases o1 with
  | returns x =>
    cases o2 with
    | returns y =>
      obtain ⟨r1, a⟩ := x
      obtain ⟨r2, b⟩ := y
      simp only [observed, Outcome.returns.injEq, Prod.mk.injEq] at h
      obtain ⟨rfl, hm⟩ := h
      exact Or.inl ⟨r1, a, b, rfl, rfl, hm⟩
    | undefined => simp [observed] at h
    | running => simp [observed] at h
  | undefined =>
    cases o2 with
    | returns y => simp [observed] at h
    | undefined => exact Or.inr (Or.inl ⟨rfl, rfl⟩)
    | running => simp [observed] at h
  | running =>
    cases o2 with
    | returns y => simp [observed] at h
    | undefined => simp [observed] at h
    | running => exact Or.inr (Or.inr ⟨rfl, rfl⟩)

theorem observed_values_loop (fuel : Nat) :
    ∀ s s2 : ReaderState, s.m_in = s2.m_in →
      observed (skip_values_loop fuel s) = observed (read_values_loop fuel s2) := by
  induction fuel with
  | zero => intro s s2 _; rfl
  | succ fuel ih =>
    intro s s2 h
    unfold skip_values_loop read_values_loop
    rw [← h]
    cases hp : s.m_in.peek with
    | error e => simp only [observed, h]
    | ok p =>
      simp only
      by_cases hc : p = '['
      · rw [if_pos hc, if_pos hc]
        rcases hr : s.m_in.consume_char with ⟨res, r2⟩
        cases res with
        | error e => simp only [observed]
        | ok u =>
          simp only
          have hv := observed_value_loop (fuel + 1) { s with m_in := r2 }
            { s2 with m_in := r2, m_value := [] } false rfl
          rcases observed_eq_cases _ _ hv with ⟨res, a, b, e1, e2, hab⟩ | ⟨e1, e2⟩ | ⟨e1, e2⟩
          · rw [e1, e2]
            cases res with
            | error e => simp only [observed, hab]
            | ok u2 =>
              simp only
              rw [← hab]
              rcases hr2 : a.m_in.consume_char with ⟨res2, r4⟩
              cases res2 with
              | error e => simp only [observed]
              | ok u3 =>
                simp only
                cases hw : consume_whitespace (fuel + 1) r4 with
                | returns x =>
                  obtain ⟨res3, r5⟩ := x
                  cases res3 with
                  | error e => simp only [observed]
                  | ok u4 => exact ih _ _ rfl
                | undefined => rfl
                | running => rfl
          · rw [e1, e2]
          · rw [e1, e2]
      · rw [if_neg hc, if_neg hc]
        simp only [observed, h]

/-- The two branches of `read_property` are seen alike by a caller: they end
in the same way, with the same error when they throw, and leave the same
stream. -/
theorem observed_read_property (fuel : Nat) (s s2 : ReaderState) (h : s.m_in = s2.m_in)
    (hskip : s.m_read_only_main_variation = true ∧ s.m_is_in_main_variation = false)
    (hstore : ¬ (s2.m_read_only_main_variation = true ∧ s2.m_is_in_main_variation = false)) :
    observed (read_property fuel s) = observed (read_property fuel s2) := by
  unfold read_property
  rw [if_pos hskip, if_neg hstore]
  have hid := observed_id_loop fuel s { s2 with m_id := [] } h
  rcases observed_eq_cases _ _ hid with ⟨res, a, b, e1, e2, hab⟩ | ⟨e1, e2⟩ | ⟨e1, e2⟩
  · rw [e1, e2]
    cases res with
    | error e => simp only [observed, hab]
    | ok u =>
      simp only
      have hv := observed_values_loop fuel a { b with m_values := [] } hab
      rcases observed_eq_cases _ _ hv with ⟨res, a2, b2, f1, f2, hab2⟩ | ⟨f1, f2⟩ | ⟨f1, f2⟩
      · rw [f1, f2]
        cases res with
        | error e => simp only [observed, hab2]
        | ok u2 => simp only [observed, hab2]
      · rw [f1, f2]
      · rw [f1, f2]
  · rw [e1, e2]
  · rw [e1, e2]

/-! ## `Reader::read_property` returns or throws -/

theorem read_char_length (r : Reader) :
    (r.read_char).2.m_in.length ≤ r.m_in.length ∧
    (∀ p, r.peek = Except.ok p → (r.read_char).2.m_in.length < r.m_in.length) := by
  obtain ⟨l⟩ := r
  cases l with
  | nil => exact ⟨Nat.le_refl _, fun p hp => by simp [Reader.peek] at hp⟩
  | cons c rest =>
    have key : (Reader.read_char ⟨c :: rest⟩).2.m_in.length < (c :: rest).length := by
      unfold Reader.read_char
      simp only
      by_cases hc : c = '\r'
      · rw [if_pos hc]
        cases rest with
        | nil => simp [Reader.peek]
        | cons c2 rest2 =>
          simp only [Reader.peek]
          by_cases h2 : c2 = '\n'
          · rw [if_pos h2]; simp; omega
          · rw [if_neg h2]; simp
      · rw [if_neg hc]; simp
    exact ⟨Nat.le_of_lt key, fun _ _ => key⟩

theorem consume_char_length (r : Reader) :
    (r.consume_char).2.m_in.length ≤ r.m_in.length ∧
    (∀ p, r.peek = Except.ok p → (r.consume_char).2.m_in.length < r.m_in.length) := by
  have e : (r.consume_char).2 = (r.read_char).2 := by
    unfold Reader.consume_char
    rcases hr : r.read_char with ⟨res, r2⟩
    cases res <;> rfl
  rw [e]
  exact read_char_length r

theorem consume_whitespace_returns (fuel : Nat) :
    ∀ r : Reader, r.m_in.length < fuel →
      ∃ res r2, consume_whitespace fuel r = Outcome.returns (res, r2) ∧
        r2.m_in.length ≤ r.m_in.length := by
  induction fuel with
  | zero => intro r h; omega
  | succ fuel ih =>
    intro r h
    obtain ⟨l⟩ := r
    cases l with
    | nil => exact ⟨_, _, rfl, Nat.le_refl _⟩
    | cons c rest =>
      simp only [consume_whitespace, Reader.peek]
      by_cases hc : is_ascii_space c = true
      · rw [if_pos hc]
        obtain ⟨res, r2, e, hl⟩ := ih ⟨rest⟩ (by simp at h ⊢; omega)
        exact ⟨res, r2, e, by simp at hl ⊢; omega⟩
      · rw [if_neg hc]
        exact ⟨_, _, rfl, Nat.le_refl _⟩

theorem skip_id_loop_returns (fuel : Nat) :
    ∀ s : ReaderState, s.m_in.m_in.length < fuel →
      ∃ res s2, skip_id_loop fuel s = Outcome.returns (res, s2) ∧
        s2.m_in.m_in.length ≤ s.m_in.m_in.length ∧ s2 = { s with m_in := s2.m_in } := by
  induction fuel with
  | zero => intro s h; omega
  | succ fuel ih =>
    intro s h
    unfold skip_id_loop
    cases hp : s.m_in.peek with
    | error e => exact ⟨_, _, rfl, Nat.le_refl _, rfl⟩
    | ok p =>
      simp only
      by_cases hc : p ≠ '['
      · rw [if_pos hc]
        have hlen := (read_char_length s.m_in).2 p hp
        rcases hr : s.m_in.read_char with ⟨res, r2⟩
        rw [hr] at hlen
        cases res with
        | error e => exact ⟨_, _, rfl, Nat.le_of_lt hlen, rfl⟩
        | ok c =>
          simp only
          obtain ⟨res, s2, e, hl, hs⟩ := ih { s with m_in := r2 } (by simp at hlen ⊢; omega)
          exact ⟨res, s2, e, by simp at hl hlen ⊢; omega, by rw [hs]⟩
      · rw [if_neg hc]
        exact ⟨_, _, rfl, Nat.le_refl _, rfl⟩

theorem skip_value_loop_returns (fuel : Nat) :
    ∀ (s : ReaderState) (escape : Bool), s.m_in.m_in.length < fuel →
      ∃ res s2, skip_value_loop fuel s escape = Outcome.returns (res, s2) ∧
        s2.m_in.m_in.length ≤ s.m_in.m_in.length ∧ s2 = { s with m_in := s2.m_in } := by
  induction fuel with
  | zero => intro s _ h; omega
  | succ fuel ih =>
    intro s escape h
    unfold skip_value_loop
    cases hp : s.m_in.peek with
    | error e => exact ⟨_, _, rfl, Nat.le_refl _, rfl⟩
    | ok p =>
      simp only
      by_cases hc : p ≠ ']' ∨ escape = true
      · rw [if_pos hc]
        have hlen := (read_char_length s.m_in).2 p hp
        rcases hr : s.m_in.read_char with ⟨res, r2⟩
        rw [hr] at hlen
        cases res with
        | error e => exact ⟨_, _, rfl, Nat.le_of_lt hlen, rfl⟩
        | ok c =>
          simp only
          have key : ∀ esc, ∃ res s2,
              skip_value_loop fuel { s with m_in := r2 } esc = Outcome.returns (res, s2) ∧
              s2.m_in.m_in.length ≤ s.m_in.m_in.length ∧ s2 = { s with m_in := s2.m_in } := by
            intro esc
            obtain ⟨res, s2, e, hl, hs⟩ := ih { s with m_in := r2 } esc
              (by simp at hlen ⊢; omega)
            exact ⟨res, s2, e, by simp at hl hlen ⊢; omega, by rw [hs]⟩
          split
          · exact key true
          · exact key false
      · rw [if_neg hc]
        exact ⟨_, _, rfl, Nat.le_refl _, rfl⟩

theorem skip_values_loop_returns (fuel : Nat) :
    ∀ s : ReaderState, s.m_in.m_in.length < fuel →
      ∃ res s2, skip_values_loop fuel s = Outcome.returns (res, s2) ∧
        s2.m_in.m_in.length ≤ s.m_in.m_in.length ∧ s2 = { s with m_in := s2.m_in } := by
  induction fuel with
  | zero => intro s h; omega
  | succ fuel ih =>
    intro s h
    unfold skip_values_loop
    cases hp : s.m_in.peek with
    | error e => exact ⟨_, _, rfl, Nat.le_refl _, rfl⟩
    | ok p =>
      simp only
      by_cases hc : p = '['
      · rw [if_pos hc]
        have hlen := (consume_char_length s.m_in).2 p hp
        rcases hr : s.m_in.consume_char with ⟨res, r2⟩
        rw [hr] at hlen
        simp only at hlen
        cases res with
        | error e => exact ⟨_, _, rfl, Nat.le_of_lt hlen, rfl⟩
        | ok u =>
          simp only
          obtain ⟨res3, s3, e3, hl3, hs3⟩ :=
            skip_value_loop_returns (fuel + 1) { s with m_in := r2 } false
              (by simp only; omega)
          simp only at hl3
          rw [e3]
          cases res3 with
          | error e => exact ⟨_, _, rfl, by omega, by rw [hs3]⟩
          | ok u2 =>
            simp only
            have hlen4 := (consume_char_length s3.m_in).1
            rcases hr4 : s3.m_in.consume_char with ⟨res4, r4⟩
            rw [hr4] at hlen4
            simp only at hlen4
            cases res4 with
            | error e => exact ⟨_, _, rfl, by simp only; omega, by rw [hs3]⟩
            | ok u3 =>
              simp only
              obtain ⟨res5, r5, e5, hl5⟩ := consume_whitespace_returns (fuel + 1) r4 (by omega)
              rw [e5]
              cases res5 with
              | error e => exact ⟨_, _, rfl, by simp only; omega, by rw [hs3]⟩
              | ok u4 =>
                simp only
                obtain ⟨res6, s6, e6, hl6, hs6⟩ := ih { s3 with m_in := r5 }
                  (by simp only; omega)
                simp only at hl6
                exact ⟨res6, s6, e6, by omega, by rw [hs6, hs3]⟩
      · rw [if_neg hc]
        exact ⟨_, _, rfl, Nat.le_refl _, rfl⟩

/-- The branch of `read_property` that skips the property returns or throws
when every loop is allowed more iterations than the stream has characters,
and it changes nothing but the stream. -/
theorem skipping_returns (fuel : Nat) (s : ReaderState)
    (hskip : s.m_read_only_main_variation = true ∧ s.m_is_in_main_variation = false)
    (hf : s.m_in.m_in.length < fuel) :
    ∃ res s2, read_property fuel s = Outcome.returns (res, s2) ∧
      s2 = { s with m_in := s2.m_in } := by
  unfold read_property
  rw [if_pos hskip]
  obtain ⟨res, s2, e, hl, hs⟩ := skip_id_loop_returns fuel s hf
  rw [e]
  cases res with
  | error e => exact ⟨_, _, rfl, hs⟩
  | ok u =>
    simp only
    obtain ⟨res3, s3, e3, _, hs3⟩ := skip_values_loop_returns fuel s2 (by omega)
    exact ⟨res3, s3, e3, by rw [hs3, hs]⟩

/-- The loops of the branch that stores the property leave the calls of
`on_property` as they are. -/
theorem read_id_loop_reported (fuel : Nat) :
    ∀ (s : ReaderState) res s2, read_id_loop fuel s = Outcome.returns (res, s2) →
      s2.reported = s.reported := by
  induction fuel with
  | zero => intro s res s2 h; cases h
  | succ fuel ih =>
    intro s res s2 h
    unfold read_id_loop at h
    cases hp : s.m_in.peek with
    | error e =>
      rw [hp] at h
      simp only [Outcome.returns.injEq, Prod.mk.injEq] at h
      rw [← h.2]
    | ok p =>
      rw [hp] at h
      simp only at h
      by_cases hc : p ≠ '['
      · rw [if_pos hc] at h
        rcases hr : s.m_in.read_char with ⟨res1, r2⟩
        rw [hr] at h
        cases res1 with
        | error e =>
          simp only [Outcome.returns.injEq, Prod.mk.injEq] at h
          rw [← h.2]
        | ok c =>
          simp only at h
          have h9 := ih _ _ _ h
          exact h9
      · rw [if_neg hc] at h
        simp only [Outcome.returns.injEq, Prod.mk.injEq] at h
        rw [← h.2]

theorem read_value_loop_reported (fuel : Nat) :
    ∀ (s : ReaderState) (escape : Bool) res s2,
      read_value_loop fuel s escape = Outcome.returns (res, s2) →
      s2.reported = s.reported := by
  induction fuel with
  | zero => intro s _ res s2 h; cases h
  | succ fuel ih =>
    intro s escape res s2 h
    unfold read_value_loop at h
    cases hp : s.m_in.peek with
    | error e =>
      rw [hp] at h
      simp only [Outcome.returns.injEq, Prod.mk.injEq] at h
      rw [← h.2]
    | ok p =>
      rw [hp] at h
      simp only at h
      by_cases hc : p ≠ ']' ∨ escape = true
      · rw [if_pos hc] at h
        rcases hr : s.m_in.read_char with ⟨res1, r2⟩
        rw [hr] at h
        cases res1 with
        | error e =>
          simp only [Outcome.returns.injEq, Prod.mk.injEq] at h
          rw [← h.2]
        | ok c =>
          simp only at h
          split at h
          · have h9 := ih _ _ _ _ h
            exact h9
          · have h9 := ih _ _ _ _ h
            exact h9
      · rw [if_neg hc] at h
        simp only [Outcome.returns.injEq, Prod.mk.injEq] at h
        rw [← h.2]

theorem read_values_loop_reported (fuel : Nat) :
    ∀ (s : ReaderState) res s2, read_values_loop fuel s = Outcome.returns (res, s2) →
      s2.reported = s.reported := by
  induction fuel with
  | zero => intro s res s2 h; cases h
  | succ fuel ih =>
    intro s res s2 h
    unfold read_values_loop at h
    cases hp : s.m_in.peek with
    | error e =>
      rw [hp] at h
      simp only [Outcome.returns.injEq, Prod.mk.injEq] at h
      rw [← h.2]
    | ok p =>
      rw [hp] at h
      simp only at h
      by_cases hc : p = '['
      · rw [if_pos hc] at h
        rcases hr : s.m_in.consume_char with ⟨res1, r2⟩
        rw [hr] at h
        cases res1 with
        | error e =>
          simp only [Outcome.returns.injEq, Prod.mk.injEq] at h
          rw [← h.2]
        | ok u =>
          simp only at h
          cases hv : read_value_loop (fuel + 1) { s with m_in := r2, m_value := [] } false with
          | undefined => rw [hv] at h; cases h
          | running => rw [hv] at h; cases h
          | returns x =>
            obtain ⟨res3, s3⟩ := x
            have h3 := read_value_loop_reported (fuel + 1) _ _ _ _ hv
            simp only at h3
            rw [hv] at h
            cases res3 with
            | error e =>
              simp only [Outcome.returns.injEq, Prod.mk.injEq] at h
              rw [← h.2, h3]
            | ok u2 =>
              simp only at h
              rcases hr4 : s3.m_in.consume_char with ⟨res4, r4⟩
              rw [hr4] at h
              cases res4 with
              | error e =>
                simp only [Outcome.returns.injEq, Prod.mk.injEq] at h
                rw [← h.2, ← h3]
              | ok u3 =>
                simp only at h
                cases hw : consume_whitespace (fuel + 1) r4 with
                | undefined => rw [hw] at h; cases h
                | running => rw [hw] at h; cases h
                | returns y =>
                  obtain ⟨res5, r5⟩ := y
                  rw [hw] at h
                  cases res5 with
                  | error e =>
                    simp only [Outcome.returns.injEq, Prod.mk.injEq] at h
                    rw [← h.2, ← h3]
                  | ok u4 =>
                    have := ih _ _ _ h
                    rw [this, ← h3]
      · rw [if_neg hc] at h
        simp only [Outcome.returns.injEq, Prod.mk.injEq] at h
        rw [← h.2]

/-- The branch of `read_property` that stores the property calls
`on_property` once, at its end, when it returns, and not at all when it
throws. -/
theorem storing_reported (fuel : Nat) (s : ReaderState)
    (hstore : ¬ (s.m_read_only_main_variation = true ∧ s.m_is_in_main_variation = false))
    (res : Except String Unit) (s2 : ReaderState)
    (h : read_property fuel s = Outcome.returns (res, s2)) :
    (res = Except.ok () → s2.reported = s.reported ++ [(s2.m_id, s2.m_values)]) ∧
    (∀ e, res = Except.error e → s2.reported = s.reported) := by
  unfold read_property at h
  rw [if_neg hstore] at h
  cases hi : read_id_loop fuel { s with m_id := [] } with
  | undefined => rw [hi] at h; cases h
  | running => rw [hi] at h; cases h
  | returns x =>
    obtain ⟨res1, s1⟩ := x
    have h1 := read_id_loop_reported fuel _ _ _ hi
    simp only at h1
    rw [hi] at h
    cases res1 with
    | error e =>
      simp only [Outcome.returns.injEq, Prod.mk.injEq] at h
      obtain ⟨rfl, rfl⟩ := h
      exact ⟨fun hh => (by cases hh), fun _ _ => h1⟩
    | ok u =>
      simp only at h
      cases hv : read_values_loop fuel { s1 with m_values := [] } with
      | undefined => rw [hv] at h; cases h
      | running => rw [hv] at h; cases h
      | returns y =>
        obtain ⟨res3, s3⟩ := y
        have h3 := read_values_loop_reported fuel _ _ _ hv
        simp only at h3
        rw [hv] at h
        cases res3 with
        | error e =>
          simp only [Outcome.returns.injEq, Prod.mk.injEq] at h
          obtain ⟨rfl, rfl⟩ := h
          exact ⟨fun hh => (by cases hh), fun _ _ => (by rw [h3, h1])⟩
        | ok u2 =>
          simp only [Outcome.returns.injEq, Prod.mk.injEq] at h
          obtain ⟨rfl, rfl⟩ := h
          exact ⟨fun _ => (by simp only; rw [h3, h1]), fun e hh => (by cases hh)⟩

/-- C40: for every stream, `read_property` ends in the same way, throws the
same error on the same inputs and leaves the same stream, whether it skips
the property (only the main variation is read and the reader is outside of
it) or stores it.  With more loop iterations allowed than the stream has
characters both branches return or throw.  The branch that skips changes
nothing but the stream; the branch that stores fills its buffers and calls
`on_property` once, with the buffers `m_id` and `m_values`, when it
returns, and not when it throws. -/
theorem read_property_skip_eq_store (fuel : Nat) (s s2 : ReaderState) (h : s.m_in = s2.m_in)
    (hskip : s.m_read_only_main_variation = true ∧ s.m_is_in_main_variation = false)
    (hstore : ¬ (s2.m_read_only_main_variation = true ∧ s2.m_is_in_main_variation = false)) :
    observed (read_property fuel s) = observed (read_property fuel s2) ∧
    (s.m_in.m_in.length < fuel →
      ∃ res t t2, read_property fuel s = Outcome.returns (res, t) ∧
        read_property fuel s2 = Outcome.returns (res, t2) ∧ t.m_in = t2.m_in ∧
        t = { s with m_in := t.m_in } ∧
        (res = Except.ok () → t2.reported = s2.reported ++ [(t2.m_id, t2.m_values)]) ∧
        (∀ e, res = Except.error e → t2.reported = s2.reported)) := by
  have hobs := observed_read_property fuel s s2 h hskip hstore
  refine ⟨hobs, ?_⟩
  intro hf
  obtain ⟨res, t, e1, ht⟩ := skipping_returns fuel s hskip hf
  rcases observed_eq_cases _ _ hobs with ⟨res2, a, b, f1, f2, hab⟩ | ⟨f1, _⟩ | ⟨f1, _⟩
  · rw [e1] at f1
    simp only [Outcome.returns.injEq, Prod.mk.injEq] at f1
    obtain ⟨rfl, rfl⟩ := f1
    obtain ⟨g1, g2⟩ := storing_reported fuel s2 hstore res b f2
    exact ⟨res, t, b, e1, f2, hab, ht, g1, g2⟩
  · rw [e1] at f1; cases f1
  · rw [e1] at f1; cases f1

theorem read_property_skip_eq_store_witness :
    (skipping_reader "AB[a\\]b][c]\n ;x").m_in = (storing_reader "AB[a\\]b][c]\n ;x").m_in ∧
    observed (read_property 20 (skipping_reader "AB[a\\]b][c]\n ;x"))
      = Outcome.returns (Except.ok (), ⟨";x".toList⟩) ∧
    observed (read_property 20 (skipping_reader "AB[a\\]b][c]\n ;x"))
      = observed (read_property 20 (storing_reader "AB[a\\]b][c]\n ;x")) :=
  ⟨rfl, rfl,
    (read_property_skip_eq_store 20 (skipping_reader "AB[a\\]b][c]\n ;x")
      (storing_reader "AB[a\\]b][c]\n ;x") rfl (by decide) (by decide)).1⟩

/-! ## The values that `read_property` stores -/

theorem decoded_cons (x : Bool × Char) (items : List (Bool × Char)) :
    decoded (x :: items) = line_end x.2 :: decoded (after_line_end x.2 items) := by
  cases items with
  | nil => rfl
  | cons y rest =>
    simp only [decoded, after_line_end]
    by_cases h : x.2 = '\r' ∧ y.1 = false ∧ y.2 = '\n'
    · rw [if_pos h, if_pos h]
      simp [line_end, h.1]
    · rw [if_neg h, if_neg h]

theorem written_cons (x : Bool × Char) (items : List (Bool × Char)) :
    written (x :: items) = (if x.1 = true then ['\\', x.2] else [x.2]) ++ written items := by
  simp [written]

theorem after_line_end_length (c : Char) (items : List (Bool × Char)) :
    (written (after_line_end c items)).length ≤ (written items).length := by
  cases items with
  | nil => simp [after_line_end]
  | cons y rest =>
    simp only [after_line_end]
    split
    · rw [written_cons]
      simp
    · exact Nat.le_refl _

theorem after_line_end_well_escaped (c : Char) (items : List (Bool × Char))
    (h : well_escaped items) : well_escaped (after_line_end c items) := by
  cases items with
  | nil => exact h
  | cons y rest =>
    simp only [after_line_end]
    split
    · exact fun x hx => h x (List.mem_cons_of_mem _ hx)
    · exact h

/-- One call of `read_char` in front of the rest of a value. -/
theorem read_char_written (c : Char) (items : List (Bool × Char)) (rest : List Char) :
    Reader.read_char ⟨c :: (written items ++ ']' :: rest)⟩
      = (Except.ok (line_end c), ⟨written (after_line_end c items) ++ ']' :: rest⟩) := by
  unfold Reader.read_char line_end
  simp only
  by_cases hc : c = '\r'
  · rw [if_pos hc, if_pos hc]
    cases items with
    | nil => simp [written, after_line_end, Reader.peek]
    | cons y r =>
      obtain ⟨e, c2⟩ := y
      cases e with
      | true => simp [written_cons, after_line_end, Reader.peek]
      | false =>
        by_cases h2 : c2 = '\n'
        · simp [written_cons, after_line_end, Reader.peek, h2, hc]
        · simp [written_cons, after_line_end, Reader.peek, h2]
  · rw [if_neg hc, if_neg hc]
    cases items with
    | nil => simp [after_line_end]
    | cons y r => simp [after_line_end, hc]

theorem read_value_loop_step (fuel : Nat) (s : ReaderState) (escape : Bool) (p c : Char)
    (r2 : Reader) (hp : s.m_in.peek = Except.ok p) (hc : p ≠ ']' ∨ escape = true)
    (hr : s.m_in.read_char = (Except.ok c, r2)) :
    read_value_loop (fuel + 1) s escape
      = if c = '\\' ∧ escape = false then read_value_loop fuel { s with m_in := r2 } true
        else read_value_loop fuel { s with m_in := r2, m_value := s.m_value ++ [c] } false := by
  rw [read_value_loop, hp]
  simp only
  rw [if_pos hc, hr]

theorem read_value_loop_stop (fuel : Nat) (s : ReaderState)
    (hp : s.m_in.peek = Except.ok ']') :
    read_value_loop (fuel + 1) s false = Outcome.returns (Except.ok (), s) := by
  unfold read_value_loop
  rw [hp]
  simp

/-- The loop that reads a value, in front of the written characters of a
value and its closing bracket: it stops at the bracket and has appended the
decoded value to `m_value`.  With `escape` set, the next character `c` of
the stream is taken as it is. -/
theorem read_value_loop_written (fuel : Nat) :
    ∀ (items : List (Bool × Char)) (rest : List Char) (s : ReaderState),
      well_escaped items →
      (s.m_in = ⟨written items ++ ']' :: rest⟩ → (written items).length < fuel →
        read_value_loop fuel s false
          = Outcome.returns (Except.ok (),
              { s with m_in := ⟨']' :: rest⟩, m_value := s.m_value ++ decoded items })) ∧
      (∀ c, s.m_in = ⟨c :: (written items ++ ']' :: rest)⟩ →
        (written items).length + 1 < fuel →
        read_value_loop fuel s true
          = Outcome.returns (Except.ok (),
              { s with
                m_in := ⟨']' :: rest⟩
                m_value := s.m_value ++ decoded ((true, c) :: items) })) := by
  induction fuel with
  | zero =>
    intro items rest s _
    exact ⟨fun _ h => by omega, fun _ _ h => by omega⟩
  | succ fuel ih =>
    intro items rest s hw
    constructor
    · intro hs hf
      cases items with
      | nil =>
        rw [read_value_loop_stop fuel s (by rw [hs]; rfl)]
        obtain ⟨a1, a2, a3, a4, a5, a6, a7⟩ := s
        simp only at hs
        subst hs
        simp [written, decoded]
      | cons x items =>
        obtain ⟨e, c⟩ := x
        have hw2 : well_escaped items := fun y hy => hw y (List.mem_cons_of_mem _ hy)
        cases e with
        | true =>
          have hin : s.m_in = ⟨'\\' :: c :: (written items ++ ']' :: rest)⟩ := by
            rw [hs, written_cons]; rfl
          have hr : s.m_in.read_char
              = (Except.ok '\\', ⟨c :: (written items ++ ']' :: rest)⟩) := by
            rw [hin]
            simp [Reader.read_char]
          rw [read_value_loop_step fuel s false '\\' '\\' _ (by rw [hin]; rfl)
            (Or.inl (by decide)) hr, if_pos ⟨rfl, rfl⟩]
          have hlen : (written items).length + 1 < fuel := by
            rw [written_cons] at hf
            simp at hf
            omega
          rw [(ih items rest { s with m_in := ⟨c :: (written items ++ ']' :: rest)⟩ } hw2).2 c
            rfl hlen]
        | false =>
          obtain ⟨h1, h2⟩ := hw (false, c) (List.mem_cons_self _ _) rfl
          simp only at h1 h2
          have hin : s.m_in = ⟨c :: (written items ++ ']' :: rest)⟩ := by
            rw [hs, written_cons]; rfl
          have hne : ¬ (line_end c = '\\' ∧ false = false) := by
            rintro ⟨hl, _⟩
            unfold line_end at hl
            split at hl
            · exact absurd hl (by decide)
            · exact h2 hl
          rw [read_value_loop_step fuel s false c (line_end c) _ (by rw [hin]; rfl)
            (Or.inl h1) (by rw [hin, read_char_written]), if_neg hne]
          have hlen : (written (after_line_end c items)).length < fuel := by
            have := after_line_end_length c items
            rw [written_cons] at hf
            simp at hf
            omega
          rw [(ih (after_line_end c items) rest _
            (after_line_end_well_escaped c items hw2)).1 rfl hlen, decoded_cons]
          simp
    · intro c hs hf
      have hne : ¬ (line_end c = '\\' ∧ true = false) := by
        rintro ⟨_, h⟩
        cases h
      rw [read_value_loop_step fuel s true c (line_end c) _ (by rw [hs]; rfl)
        (Or.inr rfl) (by rw [hs, read_char_written]), if_neg hne]
      have hlen : (written (after_line_end c items)).length < fuel := by
        have := after_line_end_length c items
        omega
      rw [(ih (after_line_end c items) rest _
        (after_line_end_well_escaped c items hw)).1 rfl hlen, decoded_cons]
      simp

theorem read_char_plain (c : Char) (tail : List Char) (hc : c ≠ '\r') :
    Reader.read_char ⟨c :: tail⟩ = (Except.ok c, ⟨tail⟩) := by
  simp [Reader.read_char, hc]

/-- The loop that reads the identifier, in front of an identifier without
line ends and the opening bracket of the first value. -/
theorem read_id_loop_written (fuel : Nat) :
    ∀ (id tail : List Char) (s : ReaderState), (∀ c ∈ id, c ≠ '[' ∧ c ≠ '\r') →
      s.m_in = ⟨id ++ '[' :: tail⟩ → id.length < fuel →
      read_id_loop fuel s
        = Outcome.returns (Except.ok (),
            { s with m_in := ⟨'[' :: tail⟩, m_id := s.m_id ++ id }) := by
  induction fuel with
  | zero => intro id tail s _ _ h; omega
  | succ fuel ih =>
    intro id tail s hid hs hf
    cases id with
    | nil =>
      rw [read_id_loop]
      obtain ⟨a1, a2, a3, a4, a5, a6, a7⟩ := s
      simp only at hs
      subst hs
      simp [Reader.peek]
    | cons c id =>
      obtain ⟨h1, h2⟩ := hid c (List.mem_cons_self _ _)
      have hin : s.m_in = ⟨c :: (id ++ '[' :: tail)⟩ := hs
      rw [read_id_loop, hin, read_char_plain c _ h2]
      simp only [Reader.peek]
      rw [if_pos h1, ih id tail _ (fun x hx => hid x (List.mem_cons_of_mem _ hx)) rfl
        (by simp at hf; omega)]
      simp

/-- The loop that consumes white space, in front of white space and a
character that is none. -/
theorem consume_whitespace_written (fuel : Nat) :
    ∀ (ws : List Char) (c : Char) (rest : List Char), (∀ x ∈ ws, is_ascii_space x = true) →
      is_ascii_space c = false → ws.length < fuel →
      consume_whitespace fuel ⟨ws ++ c :: rest⟩ = Outcome.returns (Except.ok (), ⟨c :: rest⟩) := by
  induction fuel with
  | zero => intro ws c rest _ _ h; omega
  | succ fuel ih =>
    intro ws c rest hws hc hf
    cases ws with
    | nil => simp [consume_whitespace, Reader.peek, hc]
    | cons x ws =>
      simp only [List.cons_append, consume_whitespace, Reader.peek,
        if_pos (hws x (List.mem_cons_self _ _)), List.tail_cons]
      exact ih ws c rest (fun y hy => hws y (List.mem_cons_of_mem _ hy)) hc
        (by simp at hf; omega)

theorem written_values_cons (v : List (Bool × Char) × List Char)
    (vals : List (List (Bool × Char) × List Char)) :
    written_values (v :: vals) = '[' :: (written v.1 ++ ']' :: v.2) ++ written_values vals := by
  simp [written_values]

/-- The text of values, followed by a character that is neither a bracket nor
white space, starts with a character that is no white space. -/
theorem written_values_head (vals : List (List (Bool × Char) × List Char)) (c : Char)
    (rest : List Char) (hc : is_ascii_space c = false) :
    ∃ c2 rest2, written_values vals ++ c :: rest = c2 :: rest2 ∧ is_ascii_space c2 = false := by
  cases vals with
  | nil => exact ⟨c, rest, by simp [written_values], hc⟩
  | cons v vals => exact ⟨'[', _, by rw [written_values_cons]; rfl, by decide⟩

/-- The loop that reads the values, in front of the text of values and a
character that is neither a bracket nor white space: it stops at that
character and has appended the decoded values to `m_values`. -/
theorem read_values_loop_written (fuel : Nat) :
    ∀ (vals : List (List (Bool × Char) × List Char)) (c : Char) (rest : List Char)
      (s : ReaderState),
      (∀ v ∈ vals, well_escaped v.1 ∧ ∀ x ∈ v.2, is_ascii_space x = true) →
      c ≠ '[' → is_ascii_space c = false →
      s.m_in = ⟨written_values vals ++ c :: rest⟩ → (written_values vals).length < fuel →
      ∃ s2, read_values_loop fuel s = Outcome.returns (Except.ok (), s2) ∧
        s2.m_in = ⟨c :: rest⟩ ∧
        s2.m_values = s.m_values ++ vals.map (fun v => decoded v.1) ∧
        s2.m_id = s.m_id ∧ s2.reported = s.reported := by
  induction fuel with
  | zero => intro vals c rest s _ _ _ _ h; omega
  | succ fuel ih =>
    intro vals c rest s hv hc1 hc2 hs hf
    cases vals with
    | nil =>
      refine ⟨s, ?_, by simpa [written_values] using hs, by simp, rfl, rfl⟩
      rw [read_values_loop]
      have hp : s.m_in.peek = Except.ok c := by rw [hs]; rfl
      rw [hp]
      simp only
      rw [if_neg hc1]
    | cons v vals =>
      obtain ⟨hw, hsp⟩ := hv v (List.mem_cons_self _ _)
      have hin : s.m_in
          = ⟨'[' :: (written v.1 ++ ']' :: (v.2 ++ (written_values vals ++ c :: rest)))⟩ := by
        rw [hs, written_values_cons]
        simp
      have hlen : (written v.1).length + v.2.length + (written_values vals).length + 2
          = (written_values (v :: vals)).length := by
        rw [written_values_cons]
        simp
        omega
      have hp : s.m_in.peek = Except.ok '[' := by rw [hin]; rfl
      have hcc : s.m_in.consume_char
          = (Except.ok (), ⟨written v.1 ++ ']' :: (v.2 ++ (written_values vals ++ c :: rest))⟩) := by
        rw [hin]
        simp [Reader.consume_char, Reader.read_char]
      obtain ⟨c2, rest2, htail, hc2s⟩ := written_values_head vals c rest hc2
      rw [read_values_loop, hp]
      simp only [if_true]
      rw [hcc]
      simp only
      rw [(read_value_loop_written (fuel + 1) v.1 _ _ hw).1 rfl (by omega)]
      simp only
      have hcc2 : Reader.consume_char
            ⟨']' :: (v.2 ++ (written_values vals ++ c :: rest))⟩
          = (Except.ok (), ⟨v.2 ++ (written_values vals ++ c :: rest)⟩) := by
        simp [Reader.consume_char, Reader.read_char]
      rw [hcc2]
      simp only
      rw [htail, consume_whitespace_written (fuel + 1) v.2 c2 rest2 hsp hc2s (by omega)]
      simp only
      obtain ⟨s2, e, b1, b2, b3, b4⟩ := ih vals c rest
        { s with
          m_in := ⟨c2 :: rest2⟩
          m_value := [] ++ decoded v.1
          m_values := s.m_values ++ [[] ++ decoded v.1] }
        (fun w hw => hv w (List.mem_cons_of_mem _ hw)) hc1 hc2 (by rw [← htail])
        (by omega)
      refine ⟨s2, e, b1, ?_, b3, b4⟩
      rw [b2]
      simp

/-- What the branch of `read_property` that stores the property reports for
the text of a property: the identifier and the decoded values. -/
theorem read_property_written (fuel : Nat) (s : ReaderState) (id : List Char)
    (vals : List (List (Bool × Char) × List Char)) (c : Char) (rest : List Char)
    (hstore : ¬ (s.m_read_only_main_variation = true ∧ s.m_is_in_main_variation = false))
    (hid : ∀ x ∈ id, x ≠ '[' ∧ x ≠ '\r') (hne : vals ≠ [])
    (hv : ∀ v ∈ vals, well_escaped v.1 ∧ ∀ x ∈ v.2, is_ascii_space x = true)
    (hc1 : c ≠ '[') (hc2 : is_ascii_space c = false)
    (hs : s.m_in = ⟨id ++ (written_values vals ++ c :: rest)⟩)
    (hf : id.length + (written_values vals).length < fuel) :
    ∃ s2, read_property fuel s = Outcome.returns (Except.ok (), s2) ∧
      s2.m_in = ⟨c :: rest⟩ ∧
      s2.reported = s.reported ++ [(id, vals.map (fun v => decoded v.1))] := by
  obtain ⟨v, vals2, rfl⟩ : ∃ v vals2, vals = v :: vals2 := by
    cases vals with
    | nil => exact absurd rfl hne
    | cons v vals2 => exact ⟨v, vals2, rfl⟩
  have htl : written_values (v :: vals2) ++ c :: rest
      = '[' :: ((written v.1 ++ ']' :: v.2) ++ written_values vals2 ++ c :: rest) := by
    rw [written_values_cons]
    simp
  unfold read_property
  rw [if_neg hstore,
    read_id_loop_written fuel id _ { s with m_id := [] } hid (by rw [← htl]; exact hs)
      (by omega)]
  simp only
  obtain ⟨s2, e, b1, b2, b3, b4⟩ := read_values_loop_written fuel (v :: vals2) c rest
    { s with
      m_in := ⟨'[' :: ((written v.1 ++ ']' :: v.2) ++ written_values vals2 ++ c :: rest)⟩
      m_id := [] ++ id
      m_values := [] }
    hv hc1 hc2 (by rw [← htl]) (by omega)
  rw [e]
  refine ⟨_, rfl, b1, ?_⟩
  simp only
  rw [b4, b3, b2]
  simp

/-- Without a CR among its characters, a value is decoded to its characters
without their backslashes. -/
theorem decoded_eq_map (items : List (Bool × Char)) (h : ∀ x ∈ items, x.2 ≠ '\r') :
    decoded items = items.map Prod.snd := by
  induction items with
  | nil => rfl
  | cons x items ih =>
    have hx := h x (List.mem_cons_self _ _)
    have e : after_line_end x.2 items = items := by
      cases items with
      | nil => rfl
      | cons y rest => simp [after_line_end, hx]
    rw [decoded_cons, e, ih (fun y hy => h y (List.mem_cons_of_mem _ hy))]
    simp [line_end, hx]

/-- C39: when `read_property` stores a property whose text is an identifier
followed by bracketed values, it reports the identifier with the decoded
values and stops behind the last value and its white space.  The text of a
value is given by its characters, each escaped (written behind a backslash)
or not, where a `]` and a backslash of the value are escaped: so the closing
bracket is the first `]` that is not escaped.  The decoded value has every
character without its backslash: an escaped `]` is part of the value, an
escaped backslash is one backslash, and the backslashes that escape are
dropped.  The characters are read with `read_char`, which returns LF for a
line end; without a CR in the text the value is the list of the characters
as they are written. -/
theorem stored_values_decoded (fuel : Nat) (s : ReaderState) (id : List Char)
    (vals : List (List (Bool × Char) × List Char)) (c : Char) (rest : List Char)
    (hstore : ¬ (s.m_read_only_main_variation = true ∧ s.m_is_in_main_variation = false))
    (hid : ∀ x ∈ id, x ≠ '[' ∧ x ≠ '\r') (hne : vals ≠ [])
    (hv : ∀ v ∈ vals, well_escaped v.1 ∧ ∀ x ∈ v.2, is_ascii_space x = true)
    (hc1 : c ≠ '[') (hc2 : is_ascii_space c = false)
    (hs : s.m_in = ⟨id ++ (written_values vals ++ c :: rest)⟩)
    (hf : id.length + (written_values vals).length < fuel) :
    (∃ s2, read_property fuel s = Outcome.returns (Except.ok (), s2) ∧
      s2.m_in = ⟨c :: rest⟩ ∧
      s2.reported = s.reported ++ [(id, vals.map (fun v => decoded v.1))]) ∧
    (∀ v ∈ vals, (∀ x ∈ v.1, x.2 ≠ '\r') → decoded v.1 = v.1.map Prod.snd) ∧
    (∀ (items : List (Bool × Char)) (tail : List Char) (t : ReaderState) (n : Nat),
      well_escaped items → t.m_in = ⟨written items ++ ']' :: tail⟩ →
      (written items).length < n →
      read_value_loop n t false
        = Outcome.returns (Except.ok (),
            { t with m_in := ⟨']' :: tail⟩, m_value := t.m_value ++ decoded items })) :=
  ⟨read_property_written fuel s id vals c rest hstore hid hne hv hc1 hc2 hs hf,
    fun v _ h => decoded_eq_map v.1 h,
    fun items tail t n hw ht hn => (read_value_loop_written n items tail t hw).1 ht hn⟩

theorem stored_values_decoded_witness :
    (storing_reader "AB[a\\]b][c\\\\]\n ;x").m_in
      = ⟨"AB".toList ++ (written_values
          [([(false, 'a'), (true, ']'), (false, 'b')], []),
            ([(false, 'c'), (true, '\\')], ['\n', ' '])] ++ ';' :: ['x'])⟩ ∧
    ∃ s2, read_property 20 (storing_reader "AB[a\\]b][c\\\\]\n ;x")
        = Outcome.returns (Except.ok (), s2) ∧
      s2.m_in = ⟨';' :: ['x']⟩ ∧
      s2.reported = (storing_reader "AB[a\\]b][c\\\\]\n ;x").reported ++
        [("AB".toList,
          [([(false, 'a'), (true, ']'), (false, 'b')], []),
            ([(false, 'c'), (true, '\\')], ['\n', ' '])].map
            (fun v : List (Bool × Char) × List Char => decoded v.1))] :=
  ⟨rfl,
    (stored_values_decoded 20 (storing_reader "AB[a\\]b][c\\\\]\n ;x") "AB".toList
      [([(false, 'a'), (true, ']'), (false, 'b')], []),
        ([(false, 'c'), (true, '\\')], ['\n', ' '])] ';' ['x']
      (by decide) (by decide) (by decide) (by decide) (by decide) (by decide) rfl
      (by decide)).1⟩

/-- The values of the text `AB[a\]b][c\\]`: an escaped bracket and an escaped
backslash. -/
theorem stored_values_example :
    ([([(false, 'a'), (true, ']'), (false, 'b')], []),
      ([(false, 'c'), (true, '\\')], ['\n', ' '])].map
      (fun v : List (Bool × Char) × List Char => decoded v.1))
      = ["a]b".toList, "c\\".toList] := by
  decide

end Pentobi
